import Mathlib

/-!
The `List` container of `quickjs-list.c`.

A shallow embedding of the intrusive, reference counted doubly-linked list of
`src/quickjs-list.c` and of the algorithms that the script-visible methods run on it.

Memory model.  Every C `List` owns an arena of cells addressed by natural numbers.
Address `0` is the `struct list_head head` embedded in the `List` (so `&list->head`
is the pointer `some 0`), the addresses from `1` on are the `Node`s that were
allocated for this list, and `none` is the C `NULL` pointer.  A cell that was never
allocated or has been released with `js_free_rt` is absent from the arena; touching
it is a fault.  Nodes never migrate between lists in the source (derived lists get
fresh nodes), which is why one arena per `List` loses nothing.

The address of a `List` object itself, by which the source tells one list from
another (`iter->list != list`), is a number of its own; the two functions that store
or compare it (`js_list_iterator_new`, `METHOD_INSERT`) take it beside the memory.

Payloads.  The engine counts the references on a payload; a node takes one on the
payload it stores (`JS_DupValue` in `node_new`) and drops it when it is released.
The model leaves these counts out where the source pairs its calls, and shows them,
as calls on a state of the engine, in `reduce` and `reduceRight`, where the source
drops a reference it never took.

The last two sections of the embedded code are `token_length` of
`src/char-utils.c` and the byte queue of `src/queue.c`, whose chunks live in an arena
of the same kind.

Faults.  Operations return `Except Fault _`: a `Fault` is a C-level failure of the
process (null dereference, use of released memory, division by zero), not a
script-level exception.  Script-level exceptions are ordinary results (`JSRet`).
-/

namespace QjsList

/-! ## Values, faults, machine integers -/

/-- The payload handles (`JSValue`) that the container stores and returns.  The
container never looks inside a payload; the constructors are the values the source
itself manufactures (`JS_UNINITIALIZED`, `JS_UNDEFINED`, `JS_NewInt64`, `JS_NewBool`,
the two-element array built for an `entries()` iterator) plus text payloads. -/
inductive JSValue where
  | uninitialized : JSValue
  | undefined : JSValue
  | int (n : Int) : JSValue
  | bool (b : Bool) : JSValue
  | str (s : String) : JSValue
  | pair (a b : JSValue) : JSValue
  deriving DecidableEq, Repr

/-- C-level failures: the process dereferences `NULL`, touches memory that is not
allocated (never allocated, or released), divides by zero, reads outside a buffer,
fails an `assert`, or a loop of the model exhausts its fuel (the C loop would not
terminate). -/
inductive Fault where
  | null_deref : Fault
  | use_after_free : Fault
  | div_by_zero : Fault
  | fuel : Fault
  | out_of_bounds : Fault
  | assert_failed : Fault
  deriving DecidableEq, Repr

/-- Reinterpretation of an integer as a two's complement `int64_t`. -/
def int64 (x : Int) : Int := (x + 2 ^ 63) % 2 ^ 64 - 2 ^ 63

/-- Reinterpretation of an integer as a two's complement `int32_t`: what the engine's
`JS_ToInt32` stores for a number with an integer value (the conversion is modulo
`2^32`). -/
def int32 (x : Int) : Int := (x + 2 ^ 31) % 2 ^ 32 - 2 ^ 31

/-- Reinterpretation of an integer as a `size_t` (64 bit, unsigned). -/
def size_t (x : Int) : Nat := (x % 2 ^ 64).toNat

/-! ## The data model: `Node`, `List`, `ListIterator` -/

/-- The C `struct Node`: the two links of its `struct list_head`, the payload and
the reference count.  The cell at address `0` (the list head) uses the links only. -/
structure Node where
  prev : Option Nat
  next : Option Nat
  value : JSValue
  ref_count : Int
  deriving DecidableEq, Repr

/-- The C `struct List` (named `List` in the source): its embedded head and the
nodes allocated for it (`mem`), the population count `size` (a `size_t`) and the
reference count.  `brk` is the next address the allocator hands out and `avail` the
number of allocations `js_malloc` will still grant before it reports out of
memory. -/
structure LinkedList where
  mem : Nat → Option Node
  brk : Nat
  avail : Nat
  size : Nat
  ref_count : Int

/-- The C `enum Direction`. -/
inductive Direction where
  | FWD : Direction
  | REV : Direction
  deriving DecidableEq, Repr

/-- The host engine's `JSIteratorKindEnum`. -/
inductive JSIteratorKindEnum where
  | JS_ITERATOR_KIND_KEY : JSIteratorKindEnum
  | JS_ITERATOR_KIND_VALUE : JSIteratorKindEnum
  | JS_ITERATOR_KIND_KEY_AND_VALUE : JSIteratorKindEnum
  deriving DecidableEq, Repr

/-- The C `struct ListIterator`.  `list` is the pointer to the iterated `List`: the
address of that `List` object in the process, by which one `List` is told from
another (`none` for `NULL`).  `node` is the union of `node` and `link`, an address
in the arena of that list. -/
structure ListIterator where
  list : Option Nat
  node : Option Nat
  index : Int
  kind : JSIteratorKindEnum
  dir : Direction
  deriving DecidableEq, Repr

/-- What a script-visible method hands back to the engine: a value, the receiver
itself (`JS_DupValue(ctx, this_val)`), a freshly wrapped derived `List`
(`js_list_wrap_species`), or a thrown exception. -/
inductive JSRet where
  | value (v : JSValue) : JSRet
  | this_val : JSRet
  | list (other : LinkedList) : JSRet
  | range_error (msg : String) : JSRet
  | type_error (msg : String) : JSRet
  | reference_error (msg : String) : JSRet
  | out_of_memory : JSRet

/-! ## Memory access -/

/-- Read the cell a pointer designates. -/
def load (l : LinkedList) (p : Option Nat) : Except Fault Node :=
  match p with
  | none => .error .null_deref
  | some a =>
    match l.mem a with
    | none => .error .use_after_free
    | some n => .ok n

/-- Overwrite the cell at an address. -/
def store (l : LinkedList) (a : Nat) (n : Node) : LinkedList :=
  { l with mem := fun x => if x = a then some n else l.mem x }

/-- Read-modify-write of the cell a pointer designates (`p->field = ...`). -/
def update (l : LinkedList) (p : Option Nat) (f : Node → Node) : Except Fault LinkedList :=
  match p with
  | none => .error .null_deref
  | some a =>
    match l.mem a with
    | none => .error .use_after_free
    | some n => .ok (store l a (f n))

/-- The engine call `js_malloc(ctx, sizeof(Node))`: `NULL` when the memory limit is
reached, otherwise a fresh address. -/
def js_malloc (l : LinkedList) : Option Nat × LinkedList :=
  if l.avail = 0 then (none, l)
  else (some l.brk, { l with brk := l.brk + 1, avail := l.avail - 1 })

/-- The engine call `js_free_rt(rt, ptr)`. -/
def js_free_rt (l : LinkedList) (p : Option Nat) : LinkedList :=
  match p with
  | none => l
  | some a => { l with mem := fun x => if x = a then none else l.mem x }

/-! ## `list.h` -/

/-- Modelled from the spec: `init_list_head` of the engine header `list.h`, which is
not among the sources; the spec's "sentinel head (circular doubly-linked list
anchor)": both links of an empty head point at the head itself. -/
def init_list_head (l : LinkedList) : LinkedList :=
  store l 0 { prev := some 0, next := some 0, value := .uninitialized, ref_count := 0 }

/-- Modelled from the spec: `__list_add(el, prev, next)` of `list.h` (not among the
sources), linking `el` between two neighbouring cells of the circular chain:
`prev->next = el; el->prev = prev; el->next = next; next->prev = el`. -/
def __list_add (l : LinkedList) (el prev next : Option Nat) : Except Fault LinkedList := do
  let l ← update l prev (fun n => { n with next := el })
  let l ← update l el (fun n => { n with prev := prev })
  let l ← update l el (fun n => { n with next := next })
  update l next (fun n => { n with prev := el })

/-- Modelled from the spec: `list_add(el, head)` of `list.h`: link at the head. -/
def list_add (l : LinkedList) (el head : Option Nat) : Except Fault LinkedList := do
  let h ← load l head
  __list_add l el head h.next

/-- Modelled from the spec: `list_add_tail(el, head)` of `list.h`: link at the tail. -/
def list_add_tail (l : LinkedList) (el head : Option Nat) : Except Fault LinkedList := do
  let h ← load l head
  __list_add l el h.prev head

/-- Modelled from the spec: `list_del(el)` of `list.h`: unlink from the chain and
null both links of the removed cell. -/
def list_del (l : LinkedList) (el : Option Nat) : Except Fault LinkedList := do
  let e ← load l el
  let l ← update l e.prev (fun n => { n with next := e.next })
  let l ← update l e.next (fun n => { n with prev := e.prev })
  let l ← update l el (fun n => { n with prev := none })
  update l el (fun n => { n with next := none })

/-! ## Node operations -/

/-- `node_new`: allocate a node holding (a duplicate of) the value, not yet linked
and with reference count 0; `none` when the allocation fails. -/
def node_new (l : LinkedList) (value : JSValue) : Option Nat × LinkedList :=
  match js_malloc l with
  | (none, l) => (none, l)
  | (some a, l) =>
    (some a, store l a { prev := none, next := none, value := value, ref_count := 0 })

/-- `node_push`: link at the tail, count the list's reference, grow the size. -/
def node_push (node : Option Nat) (l : LinkedList) : Except Fault LinkedList := do
  let l ← list_add_tail l node (some 0)
  let l ← update l node (fun n => { n with ref_count := n.ref_count + 1 })
  pure { l with size := size_t (l.size + 1) }

/-- `node_unshift`: link at the head, count the list's reference, grow the size. -/
def node_unshift (node : Option Nat) (l : LinkedList) : Except Fault LinkedList := do
  let l ← list_add l node (some 0)
  let l ← update l node (fun n => { n with ref_count := n.ref_count + 1 })
  pure { l with size := size_t (l.size + 1) }

/-- `node_insert`: link right after `prev`. -/
def node_insert (node prev : Option Nat) (l : LinkedList) : Except Fault LinkedList := do
  let p ← load l prev
  let l ← __list_add l node prev p.next
  let l ← update l node (fun n => { n with ref_count := n.ref_count + 1 })
  pure { l with size := size_t (l.size + 1) }

/-- `node_clear_rt`: release the payload unless it is already cleared. -/
def node_clear_rt (node : Option Nat) (l : LinkedList) : Except Fault LinkedList := do
  let n ← load l node
  if n.value ≠ .uninitialized then
    update l node (fun n => { n with value := .uninitialized })
  else pure l

/-- `node_remove_rt`: when the node is linked, unlink it, clear its payload and
shrink the size; then drop one reference and release the node at zero. -/
def node_remove_rt (node : Option Nat) (l : LinkedList) : Except Fault LinkedList := do
  let n ← load l node
  let l ← if n.next ≠ none then do
      let l ← list_del l node
      let l ← node_clear_rt node l
      pure { l with size := size_t (l.size - 1) }
    else pure l
  let l ← update l node (fun n => { n with ref_count := n.ref_count - 1 })
  let n ← load l node
  if n.ref_count = 0 then pure (js_free_rt l node) else pure l

/-- `node_free_rt`: drop one reference; at zero clear the payload and release. -/
def node_free_rt (node : Option Nat) (l : LinkedList) : Except Fault LinkedList := do
  let l ← update l node (fun n => { n with ref_count := n.ref_count - 1 })
  let n ← load l node
  if n.ref_count = 0 then do
    let l ← node_clear_rt node l
    pure (js_free_rt l node)
  else pure l

/-- `node_dup`: take one more reference on the node. -/
def node_dup (node : Option Nat) (l : LinkedList) : Except Fault (Option Nat × LinkedList) := do
  let l ← update l node (fun n => { n with ref_count := n.ref_count + 1 })
  pure (node, l)

/-! ## List operations -/

/-- `list_new`: allocate an empty list with reference count 1; `none` when the
allocation fails.  `ctx` is the number of allocations the engine context still
grants; the list object takes one of them. -/
def list_new (ctx : Nat) : Option LinkedList :=
  if ctx = 0 then none
  else some (init_list_head
    { mem := fun _ => none, brk := 1, avail := ctx - 1, size := 0, ref_count := 1 })

/-- `list_push`: a new node at the tail; the node, or `none` when out of memory. -/
def list_push (l : LinkedList) (value : JSValue) : Except Fault (Option Nat × LinkedList) :=
  match node_new l value with
  | (none, l) => pure (none, l)
  | (some a, l) => do
    let l ← node_push (some a) l
    pure (some a, l)

/-- `list_unshift`: a new node at the head; the node, or `none` when out of memory. -/
def list_unshift (l : LinkedList) (value : JSValue) : Except Fault (Option Nat × LinkedList) :=
  match node_new l value with
  | (none, l) => pure (none, l)
  | (some a, l) => do
    let l ← node_unshift (some a) l
    pure (some a, l)

/-- `list_insert`: a new node right after `prev`; the node, or `none` when out of
memory. -/
def list_insert (l : LinkedList) (prev : Option Nat) (value : JSValue) :
    Except Fault (Option Nat × LinkedList) :=
  match node_new l value with
  | (none, l) => pure (none, l)
  | (some a, l) => do
    let l ← node_insert (some a) prev l
    pure (some a, l)

/-- `list_front`: the first node, `NULL` on an empty list. -/
def list_front (l : LinkedList) : Except Fault (Option Nat) := do
  let h ← load l (some 0)
  pure (if h.next = some 0 then none else h.next)

/-- `list_back`: the last node, `NULL` on an empty list. -/
def list_back (l : LinkedList) : Except Fault (Option Nat) := do
  let h ← load l (some 0)
  pure (if h.prev = some 0 then none else h.prev)

/-- The loop of `list_at_forward` (`list_for_each` with the counter `i`). -/
def list_at_forward_loop (l : LinkedList) (index : Int) :
    Nat → Option Nat → Int → Except Fault (Option Nat)
  | 0, _, _ => .error .fuel
  | fuel + 1, ptr, i =>
    if ptr = some 0 then pure none
    else if i = index then pure ptr
    else do
      let n ← load l ptr
      list_at_forward_loop l index fuel n.next (i + 1)

/-- `list_at_forward`: the node `index` steps after the first, `NULL` if none. -/
def list_at_forward (l : LinkedList) (index : Int) : Except Fault (Option Nat) := do
  let h ← load l (some 0)
  list_at_forward_loop l index l.brk h.next 0

/-- The loop of `list_at_reverse` (`list_for_each_prev` with the counter `i`). -/
def list_at_reverse_loop (l : LinkedList) (index : Int) :
    Nat → Option Nat → Int → Except Fault (Option Nat)
  | 0, _, _ => .error .fuel
  | fuel + 1, ptr, i =>
    if ptr = some 0 then pure none
    else if i = index then pure ptr
    else do
      let n ← load l ptr
      list_at_reverse_loop l index fuel n.prev (i + 1)

/-- `list_at_reverse`: the node `index` steps before the last, `NULL` if none. -/
def list_at_reverse (l : LinkedList) (index : Int) : Except Fault (Option Nat) := do
  let h ← load l (some 0)
  list_at_reverse_loop l index l.brk h.prev 0

/-- `list_has`: is the (possibly negative) index inside the list. -/
def list_has (l : LinkedList) (index : Int) : Bool :=
  if index < 0 then decide (index ≥ int64 (-(int64 l.size)))
  else decide (index < int64 l.size)

/-- `list_index`: a negative index counts from the tail. -/
def list_index (l : LinkedList) (index : Int) : Int :=
  if index < 0 then int64 (index + l.size) else index

/-- `list_at`: the node at a (possibly negative) index, reached from the nearer
end; `NULL` when the index is out of range. -/
def list_at (l : LinkedList) (index : Int) : Except Fault (Option Nat) :=
  let index := if index < 0 then int64 (index + l.size) else index
  let from_back := int64 ((l.size - 1) - index)
  if index < int64 l.size then
    if from_back < index then list_at_reverse l from_back
    else list_at_forward l index
  else pure none

/-- `list_value`: the payload at an index, `JS_UNINITIALIZED` when there is none. -/
def list_value (l : LinkedList) (index : Int) : Except Fault JSValue := do
  match (← list_at l index) with
  | some a => do
    let n ← load l (some a)
    pure n.value
  | none => pure .uninitialized

/-- `list_dup`: take one more reference on the list. -/
def list_dup (l : LinkedList) : LinkedList :=
  { l with ref_count := l.ref_count + 1 }

/-- The loop of `list_free_rt`: `list_for_each_safe` removing every node. -/
def list_free_loop : Nat → Option Nat → Option Nat → LinkedList → Except Fault LinkedList
  | 0, _, _, _ => .error .fuel
  | fuel + 1, ptr, ptr2, list =>
    if ptr = some 0 then pure list
    else do
      let list ← node_remove_rt ptr list
      let p ← load list ptr2
      list_free_loop fuel ptr2 p.next list

/-- `list_free_rt`: drop one reference on the list; at zero remove every node and
release the `List` itself (its head cell is gone from the arena). -/
def list_free_rt (list : LinkedList) : Except Fault LinkedList := do
  let list := { list with ref_count := list.ref_count - 1 }
  if list.ref_count = 0 then do
    let h ← load list (some 0)
    let p ← load list h.next
    let list ← list_free_loop list.brk h.next p.next list
    pure (js_free_rt list (some 0))
  else pure list

/-- The loop of `list_indexof_forward` (`list_for_each` with the counter `i`).
`js_value_equals` is the host's value equality. -/
def list_indexof_forward_loop (js_value_equals : JSValue → JSValue → Bool) (l : LinkedList)
    (value : JSValue) : Nat → Option Nat → Int → Except Fault Int
  | 0, _, _ => .error .fuel
  | fuel + 1, ptr, i =>
    if ptr = some 0 then pure (-1)
    else do
      let node ← load l ptr
      if js_value_equals value node.value then pure i
      else list_indexof_forward_loop js_value_equals l value fuel node.next (int64 (i + 1))

/-- `list_indexof_forward`: the position of the first node whose payload equals the
value, `-1` when there is none. -/
def list_indexof_forward (js_value_equals : JSValue → JSValue → Bool) (l : LinkedList)
    (value : JSValue) : Except Fault Int := do
  let h ← load l (some 0)
  list_indexof_forward_loop js_value_equals l value l.brk h.next 0

/-- The loop of `list_indexof_reverse` (`list_for_each_prev` with the counter `i`). -/
def list_indexof_reverse_loop (js_value_equals : JSValue → JSValue → Bool) (l : LinkedList)
    (value : JSValue) : Nat → Option Nat → Int → Except Fault Int
  | 0, _, _ => .error .fuel
  | fuel + 1, ptr, i =>
    if ptr = some 0 then pure (-1)
    else do
      let node ← load l ptr
      if js_value_equals value node.value then pure i
      else list_indexof_reverse_loop js_value_equals l value fuel node.prev (int64 (i + 1))

/-- `list_indexof_reverse`: walking from the tail, the number of nodes passed before
the first node whose payload equals the value, `-1` when there is none. -/
def list_indexof_reverse (js_value_equals : JSValue → JSValue → Bool) (l : LinkedList)
    (value : JSValue) : Except Fault Int := do
  let h ← load l (some 0)
  list_indexof_reverse_loop js_value_equals l value l.brk h.prev 0

/-- `node_call`: call the script function on the node's payload and the index `i`.
`fn v i` is what `JS_Call` returns for the arguments `v, i, list_obj` (the list
object is the same in every call of one method). -/
def node_call (fn : JSValue → Int → JSValue) (l : LinkedList) (node : Option Nat) (i : Int) :
    Except Fault JSValue := do
  let n ← load l node
  pure (fn n.value i)

/-- `node_predicate`: `node_call` followed by the engine's `JS_ToBool`. -/
def node_predicate (JS_ToBool : JSValue → Bool) (fn : JSValue → Int → JSValue) (l : LinkedList)
    (node : Option Nat) (i : Int) : Except Fault Bool := do
  let ret ← node_call fn l node i
  pure (JS_ToBool ret)

/-- The loop of `list_find_forward`: the predicate is called with `i++`, so the
counter is already incremented when the function returns it. -/
def list_find_forward_loop (JS_ToBool : JSValue → Bool) (fn : JSValue → Int → JSValue)
    (l : LinkedList) : Nat → Option Nat → Int → Except Fault (Int × Option Nat)
  | 0, _, _ => .error .fuel
  | fuel + 1, ptr, i =>
    if ptr = some 0 then pure (-1, none)
    else do
      let hit ← node_predicate JS_ToBool fn l ptr i
      let i := int64 (i + 1)
      if hit then pure (i, ptr)
      else do
        let node ← load l ptr
        list_find_forward_loop JS_ToBool fn l fuel node.next i

/-- `list_find_forward`: the returned number, and the node stored through `nptr`
(`none`: nothing is stored, the caller's variable keeps its `NULL`). -/
def list_find_forward (JS_ToBool : JSValue → Bool) (fn : JSValue → Int → JSValue)
    (l : LinkedList) : Except Fault (Int × Option Nat) := do
  let h ← load l (some 0)
  list_find_forward_loop JS_ToBool fn l l.brk h.next 0

/-- The loop of `list_find_reverse`: the predicate is called with `i--`, so the
counter is already decremented when the function returns it. -/
def list_find_reverse_loop (JS_ToBool : JSValue → Bool) (fn : JSValue → Int → JSValue)
    (l : LinkedList) : Nat → Option Nat → Int → Except Fault (Int × Option Nat)
  | 0, _, _ => .error .fuel
  | fuel + 1, ptr, i =>
    if ptr = some 0 then pure (-1, none)
    else do
      let hit ← node_predicate JS_ToBool fn l ptr i
      let i := int64 (i - 1)
      if hit then pure (i, ptr)
      else do
        let node ← load l ptr
        list_find_reverse_loop JS_ToBool fn l fuel node.prev i

/-- `list_find_reverse`: the counter starts at `size - 1`. -/
def list_find_reverse (JS_ToBool : JSValue → Bool) (fn : JSValue → Int → JSValue)
    (l : LinkedList) : Except Fault (Int × Option Nat) := do
  let h ← load l (some 0)
  list_find_reverse_loop JS_ToBool fn l l.brk h.prev (int64 ((l.size : Int) - 1))

/-- `list_find_value`: run the search and return the payload of the node it stored,
`undefined` when it stored none. -/
def list_find_value (l : LinkedList) (findcall : LinkedList → Except Fault (Int × Option Nat)) :
    Except Fault JSValue := do
  let r ← findcall l
  match r.2 with
  | some a => do
    let n ← load l (some a)
    pure n.value
  | none => pure .undefined

/-- The shape shared by the loops of `concat`, `slice`, `fill`, `reverse`, `filter`
and `map`: `list_for_each` (`dir = FWD`) or `list_for_each_prev` (`dir = REV`) over
the receiver with the counter `i`, whose body pushes at most one value onto `other`
and ignores the result of `list_push`.  `body i v` is what the body pushes for a
node with payload `v` met at count `i` (`none`: nothing). -/
def for_each_push (body : Int → JSValue → Option JSValue) (dir : Direction)
    (list : LinkedList) : Nat → Option Nat → Int → LinkedList → Except Fault LinkedList
  | 0, _, _, _ => .error .fuel
  | fuel + 1, ptr, i, other =>
    if ptr = some 0 then pure other
    else do
      let node ← load list ptr
      let other ←
        match body i node.value with
        | some v => do
          let (_, other) ← list_push other v
          pure other
        | none => pure other
      for_each_push body dir list fuel
        (match dir with
          | .FWD => node.next
          | .REV => node.prev) (int64 (i + 1)) other

/-! ## Script-visible methods (`js_list_functions`)

Each definition is one `case` of the `switch(magic)` of `js_list_functions` or
`js_list_functional`, named after its `magic` constant.  `argv` is the argument
vector (`argc` its length), `JS_ToInt64` the engine's numeric conversion (`none`
when it raises), `ctx` the number of allocations the context still grants to a
derived list. -/

/-- `case METHOD_PUSH`: push the arguments in order, stop with an out-of-memory
exception at the first failed allocation; returns the new size. -/
def METHOD_PUSH (list : LinkedList) : List JSValue → Except Fault (JSRet × LinkedList)
  | [] => pure (.value (.int (int64 list.size)), list)
  | v :: argv =>
    match node_new list v with
    | (none, list) => pure (.out_of_memory, list)
    | (some a, list) => do
      let list ← node_push (some a) list
      METHOD_PUSH list argv

/-- The loop of `case METHOD_UNSHIFT`, over the arguments from the last to the
first. -/
def unshift_loop (list : LinkedList) : List JSValue → Except Fault (JSRet × LinkedList)
  | [] => pure (.value (.int (int64 list.size)), list)
  | v :: rest =>
    match node_new list v with
    | (none, list) => pure (.out_of_memory, list)
    | (some a, list) => do
      let list ← node_unshift (some a) list
      unshift_loop list rest

/-- `case METHOD_UNSHIFT`: `for(int i = argc - 1; i >= 0; i--)`. -/
def METHOD_UNSHIFT (list : LinkedList) (argv : List JSValue) :
    Except Fault (JSRet × LinkedList) :=
  unshift_loop list argv.reverse

/-- `case METHOD_POP`: hand the tail node's payload to the caller, then remove the
node; `undefined` on an empty list. -/
def METHOD_POP (list : LinkedList) : Except Fault (JSRet × LinkedList) := do
  match (← list_back list) with
  | some a => do
    let n ← load list (some a)
    let list ← update list (some a) (fun n => { n with value := .undefined })
    let list ← node_remove_rt (some a) list
    pure (.value n.value, list)
  | none => pure (.value .undefined, list)

/-- `case METHOD_SHIFT`: hand the head node's payload to the caller, then remove
the node; `undefined` on an empty list. -/
def METHOD_SHIFT (list : LinkedList) : Except Fault (JSRet × LinkedList) := do
  match (← list_front list) with
  | some a => do
    let n ← load list (some a)
    let list ← update list (some a) (fun n => { n with value := .undefined })
    let list ← node_remove_rt (some a) list
    pure (.value n.value, list)
  | none => pure (.value .undefined, list)

/-- `case METHOD_AT`: the payload at an index, a range error when `list_at` finds
no node. -/
def METHOD_AT (JS_ToInt64 : JSValue → Option Int) (list : LinkedList) (argv : List JSValue) :
    Except Fault (JSRet × LinkedList) :=
  match JS_ToInt64 (argv.getD 0 .undefined) with
  | none => pure (.range_error "argument 1 must be numeric index", list)
  | some index => do
    match (← list_at list index) with
    | some a => do
      let n ← load list (some a)
      pure (.value n.value, list)
    | none => pure (.range_error ("Index " ++ toString index ++ " is out of range"), list)

/-- `case METHOD_INCLUDES`. -/
def METHOD_INCLUDES (js_value_equals : JSValue → JSValue → Bool) (list : LinkedList)
    (argv : List JSValue) : Except Fault (JSRet × LinkedList) := do
  let index ← list_indexof_forward js_value_equals list (argv.getD 0 .undefined)
  pure (.value (.bool (decide (index ≠ -1))), list)

/-- `case METHOD_INDEX_OF`. -/
def METHOD_INDEX_OF (js_value_equals : JSValue → JSValue → Bool) (list : LinkedList)
    (argv : List JSValue) : Except Fault (JSRet × LinkedList) := do
  let index ← list_indexof_forward js_value_equals list (argv.getD 0 .undefined)
  pure (.value (.int index), list)

/-- `case METHOD_LAST_INDEX_OF`: the count from the tail is turned into a position
from the head, `(list->size - 1) - index` in `size_t` arithmetic. -/
def METHOD_LAST_INDEX_OF (js_value_equals : JSValue → JSValue → Bool) (list : LinkedList)
    (argv : List JSValue) : Except Fault (JSRet × LinkedList) := do
  let index ← list_indexof_reverse js_value_equals list (argv.getD 0 .undefined)
  pure (.value (.int (if index = -1 then -1
    else int64 (size_t ((size_t ((list.size : Int) - 1) : Int) - index)))), list)

/-- `case METHOD_SLICE`: a new list with the elements whose count `i` satisfies
`i >= start && i < end`. -/
def METHOD_SLICE (JS_ToInt64 : JSValue → Option Int) (ctx : Nat) (list : LinkedList)
    (argv : List JSValue) : Except Fault (JSRet × LinkedList) :=
  match (if argv.length > 0 then JS_ToInt64 (argv.getD 0 .undefined) else some 0) with
  | none => pure (.range_error "argument 1 must be numeric index", list)
  | some start =>
    match (if argv.length > 1 then JS_ToInt64 (argv.getD 1 .undefined)
           else some (int64 list.size)) with
    | none => pure (.range_error "argument 2 must be numeric index", list)
    | some end_ =>
      let start := list_index list start
      let end_ := list_index list end_
      match list_new ctx with
      | none => pure (.out_of_memory, list)
      | some other => do
        let h ← load list (some 0)
        let other ← for_each_push
          (fun i v => if i ≥ start ∧ i < end_ then some v else none) .FWD list list.brk h.next 0
          other
        pure (.list other, list)

/-- The loop of `case METHOD_SPLICE`: `list_for_each_safe` with the counter `i`;
`node` is the function's local variable, returned as the loop leaves it. -/
def splice_loop (start end_ : Int) :
    Nat → Option Nat → Option Nat → Int → Option Nat → LinkedList → LinkedList →
    Except Fault (Option Nat × LinkedList × LinkedList)
  | 0, _, _, _, _, _, _ => .error .fuel
  | fuel + 1, ptr, ptr2, i, node, list, other =>
    if ptr = some 0 then pure (node, list, other)
    else
      let node := ptr
      if i = end_ then pure (node, list, other)
      else do
        let (list, other) ←
          if i ≥ start then do
            let n ← load list node
            let (_, other) ← list_push other n.value
            let list ← node_remove_rt node list
            pure (list, other)
          else pure (list, other)
        let p ← load list ptr2
        splice_loop start end_ fuel ptr2 p.next (int64 (i + 1)) node list other

/-- The insertion loop that ends `case METHOD_SPLICE` and `case METHOD_INSERT`:
`for(...) node = list_insert(list, node, argv[i], ctx)`. -/
def insert_loop : List JSValue → Option Nat → LinkedList → Except Fault (Option Nat × LinkedList)
  | [], node, list => pure (node, list)
  | v :: items, node, list => do
    let (node, list) ← list_insert list node v
    insert_loop items node list

/-- `case METHOD_SPLICE`. -/
def METHOD_SPLICE (JS_ToInt64 : JSValue → Option Int) (ctx : Nat) (list : LinkedList)
    (argv : List JSValue) : Except Fault (JSRet × LinkedList) :=
  match (if argv.length > 0 then JS_ToInt64 (argv.getD 0 .undefined) else some 0) with
  | none => pure (.range_error "argument 1 must be numeric index", list)
  | some start =>
    match (if argv.length > 1 then JS_ToInt64 (argv.getD 1 .undefined)
           else some (int64 list.size)) with
    | none => pure (.range_error "argument 2 must be numeric count", list)
    | some end_ =>
      let start := list_index list start
      let end_ := list_index list (int64 (start + end_))
      match list_new ctx with
      | none => pure (.out_of_memory, list)
      | some other => do
        let h ← load list (some 0)
        let p ← load list h.next
        let (node, list, other) ← splice_loop start end_ list.brk h.next p.next 0 none list other
        let n ← load list node
        let (_, list) ← insert_loop (argv.drop 2) n.prev list
        pure (.list other, list)

/-- The loop `while(index > 0)` of `case METHOD_ROTATE`: move the tail node to the
head. -/
def rotate_back_loop : Nat → LinkedList → Except Fault LinkedList
  | 0, list => pure list
  | k + 1, list => do
    let node ← list_back list
    let list ← list_del list node
    let list ← list_add list node (some 0)
    rotate_back_loop k list

/-- The loop `while(index < 0)` of `case METHOD_ROTATE`: move the head node to the
tail. -/
def rotate_front_loop : Nat → LinkedList → Except Fault LinkedList
  | 0, list => pure list
  | k + 1, list => do
    let node ← list_front list
    let list ← list_del list node
    let list ← list_add_tail list node (some 0)
    rotate_front_loop k list

/-- `case METHOD_ROTATE`: `index %= size` (C remainder, sign of the dividend), then
the two loops. -/
def METHOD_ROTATE (JS_ToInt64 : JSValue → Option Int) (list : LinkedList) (argv : List JSValue) :
    Except Fault (JSRet × LinkedList) :=
  match JS_ToInt64 (argv.getD 0 .undefined) with
  | none => pure (.range_error "argument 1 must be numeric index", list)
  | some index =>
    if int64 list.size = 0 then .error .div_by_zero
    else do
      let index := int64 (Int.tmod index (int64 list.size))
      let list ← rotate_back_loop index.toNat list
      let list ← rotate_front_loop (-index).toNat list
      pure (.this_val, list)

/-- `case METHOD_INSERT`.  `p` is the value of the pointer `list`, the address of
the receiver, and `list` the memory it designates; `iter` is what `JS_GetOpaque2`
finds in `argv[0]` (`none`: not an iterator object, the engine throws its type
error).  The test `iter->list != list` compares the two addresses.  The values
`argv[1..]` are linked one after the other behind the iterator's node, behind the
head for an iterator without a node (behind the last node for a backward one). -/
def METHOD_INSERT (p : Nat) (list : LinkedList) (iter : Option ListIterator)
    (argv : List JSValue) : Except Fault (JSRet × LinkedList) :=
  match iter with
  | none => pure (.type_error "ListIterator object expected", list)
  | some iter =>
    if iter.list ≠ some p then
      pure (.reference_error "Iterator not from this list", list)
    else do
      let node ←
        if iter.node ≠ none then pure iter.node
        else if iter.dir ≠ .REV then pure (some 0)
        else list_back list
      let (_, list) ← insert_loop (argv.drop 1) node list
      pure (.value .undefined, list)

/-! ## `js_list_search`

The four cases of `js_list_search`, with the function `argv[0]` in place (the
method throws a type error before it reaches its `switch` when `argv[0]` is not a
function). -/

/-- `case METHOD_FIND_INDEX`. -/
def METHOD_FIND_INDEX (JS_ToBool : JSValue → Bool) (fn : JSValue → Int → JSValue)
    (list : LinkedList) : Except Fault (JSRet × LinkedList) := do
  let r ← list_find_forward JS_ToBool fn list
  pure (.value (.int r.1), list)

/-- `case METHOD_FIND_LAST_INDEX`. -/
def METHOD_FIND_LAST_INDEX (JS_ToBool : JSValue → Bool) (fn : JSValue → Int → JSValue)
    (list : LinkedList) : Except Fault (JSRet × LinkedList) := do
  let r ← list_find_reverse JS_ToBool fn list
  pure (.value (.int r.1), list)

/-- `case METHOD_FIND`. -/
def METHOD_FIND (JS_ToBool : JSValue → Bool) (fn : JSValue → Int → JSValue)
    (list : LinkedList) : Except Fault (JSRet × LinkedList) := do
  let ret ← list_find_value list (list_find_forward JS_ToBool fn)
  pure (.value ret, list)

/-- `case METHOD_FIND_LAST`. -/
def METHOD_FIND_LAST (JS_ToBool : JSValue → Bool) (fn : JSValue → Int → JSValue)
    (list : LinkedList) : Except Fault (JSRet × LinkedList) := do
  let ret ← list_find_value list (list_find_reverse JS_ToBool fn)
  pure (.value ret, list)

/-! ## `js_list_functional`: filter, map, reduce

The cases of `js_list_functional`, with the function `argv[0]` in place. -/

/-- The loop of `case METHOD_REDUCE`.  `E` is the state of the engine, of which the
case uses three calls.  `JS_Call e acc v i` runs the callback `argv[0]` on the
arguments `acc, v, i, this_val` in the state `e`: it gives the value returned, which
the caller owns, and the new state, or it stops the process.  `JS_FreeValue e v`
drops one reference on the payload `v`.  After the call the loop drops a reference
on `args[0]`, the accumulator it handed in, and on `args[1]`, which is
`node->value`: the payload that the node goes on storing. -/
def reduce_loop {E : Type}
    (JS_Call : E → JSValue → JSValue → Int → Except Fault (JSValue × E))
    (JS_FreeValue : E → JSValue → E) (list : LinkedList) :
    Nat → Option Nat → Int → JSValue → E → Except Fault (JSValue × E)
  | 0, _, _, _, _ => .error .fuel
  | fuel + 1, ptr, i, ret, e =>
    if ptr = some 0 then pure (ret, e)
    else do
      let node ← load list ptr
      let (r, e) ← JS_Call e ret node.value i
      let e := JS_FreeValue e ret
      let e := JS_FreeValue e node.value
      reduce_loop JS_Call JS_FreeValue list fuel node.next (int64 (i + 1)) r e

/-- `case METHOD_REDUCE`, in the engine state `e`.  The seed is `argv[1]` when it is
there, `undefined` otherwise, and `JS_DupValue e v` takes one reference on it.  The
case allocates a `List` that it never uses, and throws when that allocation fails.
The references on the function object (`js_list_predicate`, `JS_FreeValue(ctx,
pred)`) are paired and not shown. -/
def METHOD_REDUCE {E : Type}
    (JS_Call : E → JSValue → JSValue → Int → Except Fault (JSValue × E))
    (JS_DupValue JS_FreeValue : E → JSValue → E) (ctx : Nat) (list : LinkedList)
    (argv : List JSValue) (e : E) : Except Fault (JSRet × LinkedList × E) :=
  let ret := if argv.length > 1 then argv.getD 1 .undefined else .undefined
  let e := JS_DupValue e ret
  match list_new ctx with
  | none => pure (.out_of_memory, list, e)
  | some _ => do
    let h ← load list (some 0)
    let (ret, e) ← reduce_loop JS_Call JS_FreeValue list list.brk h.next 0 ret e
    pure (.value ret, list, e)

/-- The loop of `case METHOD_REDUCE_RIGHT`: as `reduce_loop`, backward and with
the counter `--i`. -/
def reduce_right_loop {E : Type}
    (JS_Call : E → JSValue → JSValue → Int → Except Fault (JSValue × E))
    (JS_FreeValue : E → JSValue → E) (list : LinkedList) :
    Nat → Option Nat → Int → JSValue → E → Except Fault (JSValue × E)
  | 0, _, _, _, _ => .error .fuel
  | fuel + 1, ptr, i, ret, e =>
    if ptr = some 0 then pure (ret, e)
    else do
      let node ← load list ptr
      let i := int64 (i - 1)
      let (r, e) ← JS_Call e ret node.value i
      let e := JS_FreeValue e ret
      let e := JS_FreeValue e node.value
      reduce_right_loop JS_Call JS_FreeValue list fuel node.prev i r e

/-- `case METHOD_REDUCE_RIGHT`: the counter starts at `list->size`. -/
def METHOD_REDUCE_RIGHT {E : Type}
    (JS_Call : E → JSValue → JSValue → Int → Except Fault (JSValue × E))
    (JS_DupValue JS_FreeValue : E → JSValue → E) (ctx : Nat) (list : LinkedList)
    (argv : List JSValue) (e : E) : Except Fault (JSRet × LinkedList × E) :=
  let ret := if argv.length > 1 then argv.getD 1 .undefined else .undefined
  let e := JS_DupValue e ret
  match list_new ctx with
  | none => pure (.out_of_memory, list, e)
  | some _ => do
    let h ← load list (some 0)
    let (ret, e) ←
      reduce_right_loop JS_Call JS_FreeValue list list.brk h.prev (int64 list.size) ret e
    pure (.value ret, list, e)

/-! ## `js_list_functional`: sort -/

/-- The inner loop of `case METHOD_SORT`: scan `other` from its head and stop at
the first node for which the comparator result is `<= 0`, or at the head.
`pred v w` is the `int32_t retval` that `JS_Call` and `JS_ToInt32` produce for the
arguments `v, w`. -/
def sort_scan (pred : JSValue → JSValue → Int) (v : JSValue) (other : LinkedList) :
    Nat → Option Nat → Except Fault (Option Nat)
  | 0, _ => .error .fuel
  | fuel + 1, ptr2 =>
    if ptr2 = some 0 then pure ptr2
    else do
      let n2 ← load other ptr2
      if pred v n2.value ≤ 0 then pure ptr2
      else sort_scan pred v other fuel n2.next

/-- The outer loop of `case METHOD_SORT`: every node of the receiver, in order, is
inserted into `other` just before the node the inner scan stopped at. -/
def sort_loop (pred : JSValue → JSValue → Int) (list : LinkedList) :
    Nat → Option Nat → LinkedList → Except Fault LinkedList
  | 0, _, _ => .error .fuel
  | fuel + 1, ptr, other =>
    if ptr = some 0 then pure other
    else do
      let node ← load list ptr
      let oh ← load other (some 0)
      let ptr2 ← sort_scan pred node.value other other.brk oh.next
      let p2 ← load other ptr2
      let (_, other) ← list_insert other p2.prev node.value
      sort_loop pred list fuel node.next other

/-- `case METHOD_SORT` of `js_list_functional`.  `pred v w` is the `int32_t retval`
of the inner loop: what `JS_ToInt32` makes of the value that `JS_Call` of the
comparator returns for the arguments `v, w`. -/
def METHOD_SORT (pred : JSValue → JSValue → Int) (ctx : Nat) (list : LinkedList) :
    Except Fault (JSRet × LinkedList) :=
  match list_new ctx with
  | none => pure (.out_of_memory, list)
  | some other => do
    let h ← load list (some 0)
    let other ← sort_loop pred list list.brk h.next other
    pure (.list other, list)

/-! ## Indexed property write -/

/-- The loop `list_push(list, JS_UNDEFINED, ctx)` of `js_list_set_property`. -/
def pad_tail : Nat → LinkedList → Except Fault LinkedList
  | 0, list => pure list
  | k + 1, list => do
    let (_, list) ← list_push list .undefined
    pad_tail k list

/-- The loop `list_unshift(list, JS_UNDEFINED, ctx)` of `js_list_set_property`. -/
def pad_head : Nat → LinkedList → Except Fault LinkedList
  | 0, list => pure list
  | k + 1, list => do
    let (_, list) ← list_unshift list .undefined
    pad_head k list

/-- `js_list_set_property`.  `index` is the outcome of `js_atom_is_index` on the
property (`none`: the property is not an index). -/
def js_list_set_property (list : LinkedList) (index : Option Int) (value : JSValue) :
    Except Fault (Bool × LinkedList) :=
  match index with
  | none => pure (false, list)
  | some index =>
    if index ≥ int64 list.size then do
      let list ← pad_tail (index - int64 list.size).toNat list
      let (_, list) ← list_push list value
      pure (true, list)
    else if index < 0 then do
      let list ← pad_head (-1 - index).toNat list
      let (_, list) ← list_unshift list value
      pure (true, list)
    else do
      let node ← list_at list index
      let list ← update list node (fun n => { n with value := value })
      pure (true, list)

/-! ## Iterators -/

/-- `js_list_iterator_new`: a fresh iterator holding a reference on the list, not
yet positioned; `none` when its allocation fails.  `p` is the value of the pointer
`list`, the address of the `List` object, which `it->list = list_dup(list)` stores;
`list` is the memory it designates. -/
def js_list_iterator_new (ctx : Nat) (p : Nat) (list : LinkedList) (kind : JSIteratorKindEnum)
    (dir : Direction) : Option (ListIterator × LinkedList) :=
  if ctx = 0 then none
  else some ({ list := some p, node := none, index := if dir = .REV then -1 else 0,
               kind := kind, dir := dir }, list_dup list)

/-- `list_iterator_free_rt`: release the iterator's reference on its current node
(when it is on a real node) and its reference on the list.  The iterator object
itself lives outside the list's arena. -/
def list_iterator_free_rt (it : ListIterator) (l : LinkedList) : Except Fault LinkedList := do
  let l ←
    if it.node ≠ none then
      match it.list with
      | none => .error .null_deref
      | some _ => if it.node ≠ some 0 then node_free_rt it.node l else pure l
    else pure l
  if it.list ≠ none then list_free_rt l else pure l

/-- `list_iterator_value`: what the iterator yields at its current node. -/
def list_iterator_value (it : ListIterator) (l : LinkedList) : Except Fault JSValue :=
  match it.list with
  | none => .error .null_deref
  | some _ =>
    if it.node = some 0 then pure .undefined
    else
      match it.kind with
      | .JS_ITERATOR_KIND_KEY => pure (.int (int64 (it.index + l.size)))
      | .JS_ITERATOR_KIND_VALUE => do
        let n ← load l it.node
        pure n.value
      | .JS_ITERATOR_KIND_KEY_AND_VALUE => do
        let n ← load l it.node
        pure (.pair (.int (int64 (it.index + l.size))) n.value)

/-- `list_iterator_skip`: release the current node and step to its neighbour. -/
def list_iterator_skip (it : ListIterator) (l : LinkedList) :
    Except Fault (Bool × ListIterator × LinkedList) :=
  match it.list with
  | none => .error .null_deref
  | some _ =>
    if it.node = some 0 then pure (true, it, l)
    else do
      let node := it.node
      let l ← node_free_rt node l
      let n ← load l node
      let it := match it.dir with
        | .FWD => { it with node := n.next, index := int64 (it.index + 1) }
        | .REV => { it with node := n.prev, index := int64 (it.index - 1) }
      if it.node ≠ some 0 then do
        let (_, l) ← node_dup it.node l
        pure (false, it, l)
      else pure (false, it, l)

/-- `list_iterator_done`. -/
def list_iterator_done (it : ListIterator) : Except Fault Bool :=
  match it.list with
  | none => .error .null_deref
  | some _ => pure (decide (it.node = some 0))

/-- `list_iterator_next`: the yielded value, the `done` flag, and the new states of
the iterator and of the list. -/
def list_iterator_next (it : ListIterator) (l : LinkedList) :
    Except Fault (JSValue × Bool × ListIterator × LinkedList) :=
  match it.list with
  | none => pure (.undefined, true, it, l)
  | some _ => do
    let (node, it, l) ←
      if it.node ≠ none then do
        let (_, it, l) ← list_iterator_skip it l
        pure (it.node, it, l)
      else if it.index = -1 then do
        let node ← list_back l
        let (p, l) ← node_dup node l
        pure (node, { it with node := p }, l)
      else if it.index = 0 then do
        let node ← list_front l
        let (p, l) ← node_dup node l
        pure (node, { it with node := p }, l)
      else do
        let node ← list_at l it.index
        let (p, l) ← node_dup node l
        pure (node, { it with node := p }, l)
    let ret ← if node ≠ none then list_iterator_value it l else pure .undefined
    let done ← list_iterator_done it
    pure (ret, done, it, l)

/-- Call `next()` on an iterator `k` times in a row and collect what each call
reports. -/
def iterate : Nat → ListIterator → LinkedList →
    Except Fault (List (JSValue × Bool) × ListIterator × LinkedList)
  | 0, it, l => pure ([], it, l)
  | k + 1, it, l => do
    let (v, done, it, l) ← list_iterator_next it l
    let (out, it, l) ← iterate k it l
    pure ((v, done) :: out, it, l)

/-! ## Observation of a list -/

/-- Walk the `next` links from `ptr` until the head is reached, collecting the
addresses passed. -/
def walk_forward (l : LinkedList) : Nat → Option Nat → Except Fault (List Nat)
  | 0, _ => .error .fuel
  | fuel + 1, ptr =>
    if ptr = some 0 then pure []
    else
      match ptr with
      | none => .error .null_deref
      | some a => do
        let n ← load l ptr
        let rest ← walk_forward l fuel n.next
        pure (a :: rest)

/-- The nodes reached by walking forward from the sentinel until the sentinel is
reached again. -/
def nodes (l : LinkedList) : Except Fault (List Nat) := do
  let h ← load l (some 0)
  walk_forward l l.brk h.next

/-- The payloads at a list of addresses. -/
def values_at (l : LinkedList) : List Nat → Except Fault (List JSValue)
  | [] => pure []
  | a :: as => do
    let n ← load l (some a)
    let rest ← values_at l as
    pure (n.value :: rest)

/-- The element sequence of a list: the payloads met on a forward traversal. -/
def toList (l : LinkedList) : Except Fault (List JSValue) := do
  let ps ← nodes l
  values_at l ps

/-- The number of nodes met on a forward traversal. -/
def count_forward (l : LinkedList) : Except Fault Nat := do
  let ps ← nodes l
  pure ps.length

/-- The list `List.of(v1, ..., vk)` builds (`case STATIC_OF` of `js_list_static`):
`list_new` followed by one `list_push` per value. -/
def of_loop : List JSValue → LinkedList → Except Fault LinkedList
  | [], list => pure list
  | v :: vs, list => do
    let (_, list) ← list_push list v
    of_loop vs list

/-- `case STATIC_OF`: `none` stands for the out-of-memory exception. -/
def STATIC_OF (ctx : Nat) (argv : List JSValue) : Except Fault (Option LinkedList) :=
  match list_new ctx with
  | none => pure none
  | some list => do
    let list ← of_loop argv list
    pure (some list)


/-! ## `char-utils.c`: `token_length`

A byte string is a sequence of byte values; a pointer into it is an offset. -/

/-- Modelled from the spec: `byte_chr(s, n, c)` of `char-utils.h`, which is not among
the sources: the offset of the first byte equal to `c` among the first `n` bytes at
`s`, and `n` when there is none (what `token_length` and the callers in
`buffer-utils.c` take it for).  Reading past the end of the buffer is a fault. -/
def byte_chr : List Nat → Nat → Nat → Except Fault Nat
  | _, 0, _ => pure 0
  | [], _ + 1, _ => .error .out_of_bounds
  | b :: s, n + 1, c =>
    if b = c then pure 0
    else do
      let r ← byte_chr s n c
      pure (r + 1)

/-- The loop of `token_length`; `s` is the offset of the pointer `s` from `str`, `e`
the offset of `e` (that is `len`), 92 is the backslash. -/
def token_length_loop (str : List Nat) (e delim : Nat) : Nat → Nat → Except Fault Nat
  | 0, _ => .error .fuel
  | fuel + 1, s =>
    if s < e then do
      let pos ← byte_chr (str.drop s) (e - s) delim
      if s + pos = e then pure s
      else do
        let before ←
          if pos = 0 then pure 0
          else
            match str[s + pos - 1]? with
            | none => .error .out_of_bounds
            | some b => pure b
        if pos = 0 ∨ before ≠ 92 then pure (s + pos)
        else token_length_loop str e delim fuel (s + pos + 1)
    else pure s

/-- `token_length(str, len, delim)`: the value of `s - str` when the loop is left.
Every turn of the loop but the last moves `s` forward, so `len + 1` turns are
enough. -/
def token_length (str : List Nat) (len delim : Nat) : Except Fault Nat :=
  token_length_loop str len delim (len + 1) 0

/-! ## `queue.c`: the byte queue

Memory model, as for the `List`: a `Queue` owns an arena of cells; address `0` is
the `struct list_head list` embedded in the `Queue`, the addresses from `1` on are
the `Chunk`s allocated for it, `none` is `NULL`. -/

/-- Modelled from the spec: the `Chunk` of `queue.h`, which is not among the sources,
with the fields `queue.c` uses: the two links of its `struct list_head link`, the
reference count, the number of bytes `size`, the read position `pos` and the bytes
`data`. -/
structure Chunk where
  prev : Option Nat
  next : Option Nat
  ref_count : Int
  size : Nat
  pos : Nat
  data : List Nat
  deriving DecidableEq, Repr

/-- Modelled from the spec: the `Queue` of `queue.h`, which is not among the sources,
with the fields `queue.c` uses: the head `list` of the chain of chunks (the cell at
address `0`, of which only the links are used) and the counters `nbytes` and
`nblocks` (`size_t`).  `brk` is the next address `malloc` hands out and `avail` the
number of allocations it will still grant. -/
structure Queue where
  mem : Nat → Option Chunk
  brk : Nat
  avail : Nat
  nbytes : Nat
  nblocks : Nat

/-- Read the cell a pointer designates. -/
def Queue.load (q : Queue) (p : Option Nat) : Except Fault Chunk :=
  match p with
  | none => .error .null_deref
  | some a =>
    match q.mem a with
    | none => .error .use_after_free
    | some c => .ok c

/-- Overwrite the cell at an address. -/
def Queue.store (q : Queue) (a : Nat) (c : Chunk) : Queue :=
  { q with mem := fun x => if x = a then some c else q.mem x }

/-- Read-modify-write of the cell a pointer designates. -/
def Queue.update (q : Queue) (p : Option Nat) (f : Chunk → Chunk) : Except Fault Queue :=
  match p with
  | none => .error .null_deref
  | some a =>
    match q.mem a with
    | none => .error .use_after_free
    | some c => .ok (q.store a (f c))

/-- Modelled from the spec: `init_list_head` of `list.h` on the head of the queue. -/
def Queue.init_list_head (q : Queue) : Queue :=
  q.store 0 { prev := some 0, next := some 0, ref_count := 0, size := 0, pos := 0, data := [] }

/-- Modelled from the spec: `__list_add(el, prev, next)` of `list.h`:
`prev->next = el; el->prev = prev; el->next = next; next->prev = el`. -/
def Queue.__list_add (q : Queue) (el prev next : Option Nat) : Except Fault Queue := do
  let q ← q.update prev (fun c => { c with next := el })
  let q ← q.update el (fun c => { c with prev := prev })
  let q ← q.update el (fun c => { c with next := next })
  q.update next (fun c => { c with prev := el })

/-- Modelled from the spec: `list_add(el, head)` of `list.h`: link right after the
head. -/
def Queue.list_add (q : Queue) (el head : Option Nat) : Except Fault Queue := do
  let h ← q.load head
  q.__list_add el head h.next

/-- Modelled from the spec: `list_del(el)` of `list.h`: unlink from the chain and
null both links of the removed cell. -/
def Queue.list_del (q : Queue) (el : Option Nat) : Except Fault Queue := do
  let e ← q.load el
  let q ← q.update e.prev (fun c => { c with next := e.next })
  let q ← q.update e.next (fun c => { c with prev := e.prev })
  let q ← q.update el (fun c => { c with prev := none })
  q.update el (fun c => { c with next := none })

/-- Modelled from the spec: `list_empty(head)` of `list.h`: `head->next == head`. -/
def Queue.list_empty (q : Queue) : Except Fault Bool := do
  let h ← q.load (some 0)
  pure (decide (h.next = some 0))

/-- `chunk_alloc(size)`: `malloc`, then `memset` of the header to zero (both links
`NULL`) and `ref_count = 1`; `NULL` when `malloc` fails.  The `size` data bytes are
not initialised by the source; the model has zeros there. -/
def chunk_alloc (q : Queue) (size : Nat) : Option Nat × Queue :=
  if q.avail = 0 then (none, q)
  else (some q.brk,
    { q with brk := q.brk + 1, avail := q.avail - 1 }.store q.brk
      { prev := none, next := none, ref_count := 1, size := 0, pos := 0,
        data := List.replicate size 0 })

/-- `chunk_free(ch)`: drop one reference, release the chunk at zero. -/
def chunk_free (q : Queue) (ch : Option Nat) : Except Fault Queue := do
  let q ← q.update ch (fun c => { c with ref_count := c.ref_count - 1 })
  let c ← q.load ch
  if c.ref_count = 0 then
    match ch with
    | none => .error .null_deref
    | some a => pure { q with mem := fun x => if x = a then none else q.mem x }
  else pure q

/-- `queue_init`. -/
def queue_init (q : Queue) : Queue :=
  { q.init_list_head with nbytes := 0, nblocks := 0 }

/-- `queue_write(q, x, n)`: the returned `ssize_t` and the new queue.  `x` is the
caller's buffer; copying `n` bytes out of a shorter one is a fault. -/
def queue_write (q : Queue) (x : List Nat) (n : Nat) : Except Fault (Int × Queue) :=
  match chunk_alloc q n with
  | (none, q) => pure (-1, q)
  | (some b, q) => do
    let q ← q.list_add (some b) (some 0)
    let q ← q.update (some b) (fun c => { c with size := n })
    if x.length < n then .error .out_of_bounds
    else do
      let q ← q.update (some b) (fun c => { c with data := x.take n })
      let q := { q with nbytes := size_t (q.nbytes + n) }
      let q := { q with nblocks := size_t (q.nblocks + 1) }
      pure (int64 n, q)

/-- The loop of `queue_read`: `n` bytes are still wanted, `ret` were copied, `out`
holds the bytes written to the caller's buffer so far. -/
def queue_read_loop : Nat → Nat → Int → List Nat → Queue → Except Fault (Int × List Nat × Queue)
  | 0, _, _, _, _ => .error .fuel
  | fuel + 1, n, ret, out, q =>
    if n > 0 then do
      let h ← q.load (some 0)
      match h.prev with
      | none => pure (ret, out, q)
      | some b =>
        if b = 0 then pure (ret, out, q)
        else do
          let c ← q.load (some b)
          let bytes := if size_t ((c.size : Int) - c.pos) ≥ n then n
            else size_t ((c.size : Int) - c.pos)
          if c.data.length < c.pos + bytes then .error .out_of_bounds
          else do
            let out := out ++ (c.data.drop c.pos).take bytes
            let n := n - bytes
            let q ← q.update (some b) (fun c => { c with pos := size_t (c.pos + bytes) })
            let ret := int64 (ret + bytes)
            let q := { q with nbytes := size_t ((q.nbytes : Int) - bytes) }
            let c ← q.load (some b)
            if c.pos < c.size then pure (ret, out, q)
            else do
              let q ← q.list_del (some b)
              let q ← chunk_free q (some b)
              let q := { q with nblocks := size_t ((q.nblocks : Int) - 1) }
              queue_read_loop fuel n ret out q
    else pure (ret, out, q)

/-- `queue_read(q, x, n)`: the returned count, the bytes written to `x` and the new
queue.  Every turn of the loop but the last unlinks a chunk, so `brk` turns are
enough. -/
def queue_read (q : Queue) (n : Nat) : Except Fault (Int × List Nat × Queue) :=
  queue_read_loop q.brk n 0 [] q

/-- The loop of `queue_peek`.  The assignment `b = next` that ends the body is
overwritten by the `b = q->list.prev` of the loop condition, and the queue is not
written to. -/
def queue_peek_loop (q : Queue) : Nat → Nat → Int → List Nat → Except Fault (Int × List Nat)
  | 0, _, _, _ => .error .fuel
  | fuel + 1, n, ret, out =>
    if n > 0 then do
      let h ← q.load (some 0)
      match h.prev with
      | none => pure (ret, out)
      | some b =>
        if b = 0 then pure (ret, out)
        else do
          let c ← q.load (some b)
          let bytes := if size_t ((c.size : Int) - c.pos) ≥ n then n
            else size_t ((c.size : Int) - c.pos)
          if c.data.length < c.pos + bytes then .error .out_of_bounds
          else do
            let out := out ++ (c.data.drop c.pos).take bytes
            let n := n - bytes
            let ret := int64 (ret + bytes)
            if c.pos < c.size then pure (ret, out)
            else queue_peek_loop q fuel n ret out
    else pure (ret, out)

/-- `queue_peek(q, x, n)`: the returned count and the bytes written to `x`. -/
def queue_peek (q : Queue) (n : Nat) : Except Fault (Int × List Nat) :=
  queue_peek_loop q q.brk n 0 []

/-- `queue_next(q)`.  `queue_tail` is an inline function of `queue.h`, which is not
among the sources: a parameter. -/
def queue_next (queue_tail : Queue → Option Nat) (q : Queue) :
    Except Fault (Option Nat × Queue) :=
  match queue_tail q with
  | none => pure (none, q)
  | some chunk => do
    let q ← q.list_del (some chunk)
    let q := { q with nblocks := size_t ((q.nblocks : Int) - 1) }
    let c ← q.load (some chunk)
    let q := { q with nbytes := size_t ((q.nbytes : Int) - c.size) }
    pure (some chunk, q)

/-- The loop of `queue_clear`, `list_for_each_prev_safe(el, el1, &q->list)`:
`for(el = head->prev, el1 = el->prev; el != head; el = el1, el1 = el->prev)`. -/
def queue_clear_loop : Nat → Option Nat → Option Nat → Queue → Except Fault Queue
  | 0, _, _, _ => .error .fuel
  | fuel + 1, el, el1, q =>
    if el = some 0 then pure q
    else do
      let chunk ← q.load el
      let q := { q with nblocks := size_t ((q.nblocks : Int) - 1) }
      let q := { q with nbytes := size_t ((q.nbytes : Int) - chunk.size) }
      let q ← chunk_free q el
      let e ← q.load el1
      queue_clear_loop fuel el1 e.prev q

/-- `queue_clear(q)`, with its three `assert`s. -/
def queue_clear (q : Queue) : Except Fault Queue := do
  let h ← q.load (some 0)
  let e ← q.load h.prev
  let q ← queue_clear_loop q.brk h.prev e.prev q
  let empty ← q.list_empty
  if ¬ empty then .error .assert_failed
  else if q.nblocks ≠ 0 then .error .assert_failed
  else if q.nbytes ≠ 0 then .error .assert_failed
  else pure q


/-! ## Reading a list as a sequence: link views, chains, well-formedness

The definitions of this section are used to state and prove properties; the
embedded code above does not use them. -/

/-- The `next` link stored at an address (`none`: no cell there, or a `NULL` link). -/
def nxt (l : LinkedList) (a : Nat) : Option Nat := (l.mem a).bind (·.next)

/-- The `prev` link stored at an address (`none`: no cell there, or a `NULL` link). -/
def prv (l : LinkedList) (a : Nat) : Option Nat := (l.mem a).bind (·.prev)

/-- The payload stored at an address (`none`: no cell there). -/
def val (l : LinkedList) (a : Nat) : Option JSValue := (l.mem a).map (·.value)

/-- The reference count stored at an address (`none`: no cell there). -/
def rc (l : LinkedList) (a : Nat) : Option Int := (l.mem a).map (·.ref_count)

/-- `Chain f g x as z`: following the links `f` from the cell `x` passes exactly
through the cells `as` and arrives at `z`, and the links `g` lead back the same
way. -/
def Chain (f g : Nat → Option Nat) : Nat → List Nat → Nat → Prop
  | x, [], z => f x = some z ∧ g z = some x
  | x, y :: ys, z => f x = some y ∧ g y = some x ∧ Chain f g y ys z

/-- `Linked l ps`: the nodes linked into the list are exactly `ps`, in order: the
`next` links lead from the head through `ps` back to the head, the `prev` links
mirror them, no node occurs twice, and no cell lies beyond the allocator's break. -/
structure Linked (l : LinkedList) (ps : List Nat) : Prop where
  nodup : (0 :: ps).Nodup
  chain : Chain (nxt l) (prv l) 0 ps 0
  fresh : ∀ a, l.brk ≤ a → val l a = none
  len : ps.length < l.brk

/-- `WF l ps`: a well-formed list with node sequence `ps`: linked as above, the
stored size is the number of linked nodes, every linked node carries at least the
list's own reference, and the arena stays within what 63 bits can count. -/
structure WF (l : LinkedList) (ps : List Nat) extends Linked l ps : Prop where
  size_eq : l.size = ps.length
  cap : l.brk + l.avail < 2 ^ 63
  refs : ∀ a ∈ ps, ∃ r, rc l a = some r ∧ 1 ≤ r

/-- A well-formed list (with whatever node sequence). -/
def Valid (l : LinkedList) : Prop := ∃ ps, WF l ps

/-- The payloads at a sequence of addresses (`JS_UNINITIALIZED` where no cell is). -/
def vals (l : LinkedList) (ps : List Nat) : List JSValue :=
  ps.map (fun a => (val l a).getD .uninitialized)

/-- The common body of `node_push`, `node_unshift` and `node_insert` once the two
neighbours are known: `__list_add(node, p, nx); ++node->ref_count; ++list->size`. -/
def link_core (l : LinkedList) (el p nx : Nat) : Except Fault LinkedList := do
  let l ← __list_add l (some el) (some p) (some nx)
  let l ← update l (some el) (fun n => { n with ref_count := n.ref_count + 1 })
  pure { l with size := size_t (l.size + 1) }

/-- The element of a sequence at an integer position (`none` outside of it). -/
def nth? {α : Type} (xs : List α) (i : Int) : Option α :=
  if i < 0 then none else xs[i.toNat]?

/-- The position an index designates in a sequence of `n` elements: a negative
index counts from the tail. -/
def norm_index (n : Nat) (index : Int) : Int :=
  if index < 0 then index + n else index

/-- A sample list: what `List.of('a', 'b', 'c')` builds in a context that grants
eight allocations. -/
def sample_abc : LinkedList :=
  { mem := fun a =>
      if a = 0 then some { prev := some 3, next := some 1, value := .uninitialized, ref_count := 0 }
      else if a = 1 then some { prev := some 0, next := some 2, value := .str "a", ref_count := 1 }
      else if a = 2 then some { prev := some 1, next := some 3, value := .str "b", ref_count := 1 }
      else if a = 3 then some { prev := some 2, next := some 0, value := .str "c", ref_count := 1 }
      else none,
    brk := 4, avail := 4, size := 3, ref_count := 1 }

/-- A sample numeric conversion for the worked examples: integer payloads convert
to themselves, every other payload makes the conversion raise. -/
def sample_JS_ToInt64 : JSValue → Option Int
  | .int n => some n
  | _ => none

/-- A sample list: the empty list that `list_new` builds in a context that grants
eight allocations. -/
def sample_empty : LinkedList :=
  { mem := fun a =>
      if a = 0 then some { prev := some 0, next := some 0, value := .uninitialized, ref_count := 0 }
      else none,
    brk := 1, avail := 7, size := 0, ref_count := 1 }

/-- The list in which one more reference is held on the node at `a` (the state
between two `next()` calls of an iterator positioned on `a`). -/
def bump (l : LinkedList) (a : Nat) : LinkedList :=
  match l.mem a with
  | some n => store l a { n with ref_count := n.ref_count + 1 }
  | none => l

/-- The link an iterator of the given direction follows. -/
def lnk : Direction → LinkedList → Nat → Option Nat
  | .FWD, l => nxt l
  | .REV, l => prv l

/-- The step of an iterator's running index. -/
def stp : Direction → Int
  | .FWD => 1
  | .REV => -1

/-- Where `METHOD_SORT` puts a value into the list built so far: just before
the first element `w` for which the comparator result `pred v w` is `<= 0`, at the
tail when there is none. -/
def insert_before (pred : JSValue → JSValue → Int) (v : JSValue) (ws : List JSValue) :
    List JSValue :=
  ws.takeWhile (fun w => decide (0 < pred v w)) ++
    v :: ws.dropWhile (fun w => decide (0 < pred v w))

/-- The element sequence `METHOD_SORT` builds from the receiver's elements. -/
def sort_spec (pred : JSValue → JSValue → Int) (vs : List JSValue) : List JSValue :=
  vs.foldl (fun acc v => insert_before pred v acc) []

/-- A consistent three-way comparator of a total preorder: swapping the arguments
flips the sign of the result, and `pred a b <= 0` is transitive. -/
structure ThreeWay (pred : JSValue → JSValue → Int) : Prop where
  flip : ∀ a b, pred a b < 0 ↔ 0 < pred b a
  trans : ∀ a b c, pred a b ≤ 0 → pred b c ≤ 0 → pred a c ≤ 0

/-- The sort key of the worked examples: the first component of a pair whose first
component is a number, 0 for any other payload. -/
def sample_key : JSValue → Int
  | .pair (.int m) _ => m
  | _ => 0

/-- A sample comparator for the worked examples: compare by `sample_key`. -/
def sample_pred (a b : JSValue) : Int := sample_key a - sample_key b

/-- A sample list: `List.of([1,'a'], [1,'b'], [0,'c'])` in a context that grants
eight allocations. -/
def sample_pairs : LinkedList :=
  { mem := fun a =>
      if a = 0 then some { prev := some 3, next := some 1, value := .uninitialized, ref_count := 0 }
      else if a = 1 then
        some { prev := some 0, next := some 2, value := .pair (.int 1) (.str "a"), ref_count := 1 }
      else if a = 2 then
        some { prev := some 1, next := some 3, value := .pair (.int 1) (.str "b"), ref_count := 1 }
      else if a = 3 then
        some { prev := some 2, next := some 0, value := .pair (.int 0) (.str "c"), ref_count := 1 }
      else none,
    brk := 4, avail := 4, size := 3, ref_count := 1 }

/-- What `METHOD_SPLICE` can say about its local variable `node` between two turns
of its loop: it is still `NULL`, or it is a node of the list, or it was just
removed (its cell is released, or its `prev` link is `NULL`). -/
def NodeInv (l : LinkedList) (ps : List Nat) (node : Option Nat) : Prop :=
  node = none ∨ ∃ a, node = some a ∧ (a ∈ ps ∨ l.mem a = none ∨ prv l a = none)

/-- The operations of the size invariant: `push`, `pop`, `unshift`, `shift` and
`splice` with their arguments (`ctx`: what the context grants to the list that
`splice` returns). -/
inductive Op where
  | push (argv : List JSValue) : Op
  | pop : Op
  | unshift (argv : List JSValue) : Op
  | shift : Op
  | splice (ctx : Nat) (argv : List JSValue) : Op

/-- Run one operation on a list. -/
def apply_op (JS_ToInt64 : JSValue → Option Int) : Op → LinkedList →
    Except Fault (JSRet × LinkedList)
  | .push argv, l => METHOD_PUSH l argv
  | .pop, l => METHOD_POP l
  | .unshift argv, l => METHOD_UNSHIFT l argv
  | .shift, l => METHOD_SHIFT l
  | .splice ctx argv, l => METHOD_SPLICE JS_ToInt64 ctx l argv

/-- Run a sequence of operations, each on the list the previous one left. -/
def run_ops (JS_ToInt64 : JSValue → Option Int) : List Op → LinkedList → Except Fault LinkedList
  | [], l => pure l
  | op :: ops, l => do
    let r ← apply_op JS_ToInt64 op l
    run_ops JS_ToInt64 ops r.2

/-- A sample run: `push(a, b, c)`, `splice(1, 1, x, y)`, `pop()`, `unshift(z)`,
`shift()`. -/
def sample_ops : List Op :=
  [.push [.str "a", .str "b", .str "c"],
    .splice 8 [.int 1, .int 1, .str "x", .str "y"], .pop, .unshift [.str "z"], .shift]

/-- A sample list: `[a, b, c]` in a context that has room for one more node only. -/
def sample_tight : LinkedList := { sample_abc with avail := 1 }

/-- A sample value equality for the worked examples: two payloads are equal when
they are the same payload. -/
def sample_equals (a b : JSValue) : Bool := decide (a = b)

/-- `FirstMatch eq v vs r`: `r` is the answer of a forward search for `v` in `vs`:
`-1` when no element equals `v`, otherwise the smallest position whose element
equals `v`. -/
def FirstMatch (js_value_equals : JSValue → JSValue → Bool) (v : JSValue) (vs : List JSValue)
    (r : Int) : Prop :=
  (r = -1 ∧ ∀ w ∈ vs, js_value_equals v w = false) ∨
  (0 ≤ r ∧ (∃ w, vs[r.toNat]? = some w ∧ js_value_equals v w = true) ∧
    ∀ j : Nat, j < r.toNat → ∀ u, vs[j]? = some u → js_value_equals v u = false)

/-- What `list_iterator_value` yields for an iterator of the given kind whose
running index is `i` and whose current node is `a`. -/
def yield_at (kind : JSIteratorKindEnum) (l : LinkedList) (i : Int) (a : Nat) : JSValue :=
  match kind with
  | .JS_ITERATOR_KIND_KEY => .int (int64 (i + l.size))
  | .JS_ITERATOR_KIND_VALUE => (val l a).getD .uninitialized
  | .JS_ITERATOR_KIND_KEY_AND_VALUE =>
    .pair (.int (int64 (i + l.size))) ((val l a).getD .uninitialized)

/-- What an iterator yields along a sequence of nodes, its running index starting
at `i`. -/
def yields (kind : JSIteratorKindEnum) (dir : Direction) (l : LinkedList) :
    List Nat → Int → List JSValue
  | [], _ => []
  | a :: rest, i => yield_at kind l i a :: yields kind dir l rest (i + stp dir)

/-- The operations on the iterators of one list: create one more iterator, call
`next()` on the `i`-th live iterator, dispose of the `i`-th live iterator (`ctx`:
what the context grants to the new iterator object). -/
inductive IterOp where
  | create (ctx : Nat) (kind : JSIteratorKindEnum) (dir : Direction) : IterOp
  | next (i : Nat) : IterOp
  | dispose (i : Nat) : IterOp

/-- Run one iterator operation on the list at the address `p` and its live
iterators. -/
def iter_step (p : Nat) : IterOp → LinkedList × List ListIterator →
    Except Fault (LinkedList × List ListIterator)
  | .create ctx kind dir, (l, its) =>
    match js_list_iterator_new ctx p l kind dir with
    | none => pure (l, its)
    | some (it, l) => pure (l, its ++ [it])
  | .next i, (l, its) =>
    match its[i]? with
    | none => pure (l, its)
    | some it => do
      let (_, _, it, l) ← list_iterator_next it l
      pure (l, its.set i it)
  | .dispose i, (l, its) =>
    match its[i]? with
    | none => pure (l, its)
    | some it => do
      let l ← list_iterator_free_rt it l
      pure (l, its.eraseIdx i)

/-- Run a sequence of iterator operations on the list at the address `p`. -/
def iter_run (p : Nat) : List IterOp → LinkedList × List ListIterator →
    Except Fault (LinkedList × List ListIterator)
  | [], s => pure s
  | op :: ops, s => do
    let s ← iter_step p op s
    iter_run p ops s

/-- Dispose of all the iterators of a list, one after the other. -/
def dispose_all : List ListIterator → LinkedList → Except Fault LinkedList
  | [], l => pure l
  | it :: its, l => do
    let l ← list_iterator_free_rt it l
    dispose_all its l

/-- The number of references (0 or 1) an iterator holds on the node `a`: one when
it is positioned on `a` and `a` is a real node. -/
def holds (it : ListIterator) (a : Nat) : Nat :=
  if it.node = some a ∧ a ≠ 0 then 1 else 0

/-- The number of references the iterators together hold on the node `a`. -/
def held (its : List ListIterator) (a : Nat) : Nat := (its.map (fun it => holds it a)).sum

/-- `Lifted l h k lc`: the list `lc` is the list `l` with `h a` more references on
every node `a` and `k` more references on the list itself. -/
structure Lifted (l : LinkedList) (h : Nat → Nat) (k : Nat) (lc : LinkedList) : Prop where
  nxt_eq : ∀ a, nxt lc a = nxt l a
  prv_eq : ∀ a, prv lc a = prv l a
  val_eq : ∀ a, val lc a = val l a
  rc_eq : ∀ a, rc lc a = (rc l a).map (fun r => r + (h a : Int))
  brk_eq : lc.brk = l.brk
  avail_eq : lc.avail = l.avail
  sz_eq : lc.size = l.size
  ref_eq : lc.ref_count = l.ref_count + (k : Int)

/-- An iterator over the list at the address `p`, with nodes `ps`, in one of the
states that construction and `next()` produce: not yet positioned (index 0 or -1),
or positioned on the head or on a node of the list. -/
def Placed (p : Nat) (ps : List Nat) (it : ListIterator) : Prop :=
  it.list = some p ∧
    ((it.node = none ∧ (it.index = 0 ∨ it.index = -1)) ∨ ∃ a ∈ 0 :: ps, it.node = some a)

/-- The state of an unmutated list `l` at the address `p`, with node sequence `ps`,
and of its live iterators: the list is `l` with the references the iterators hold,
and every iterator is placed. -/
def IterInv (p : Nat) (l : LinkedList) (ps : List Nat)
    (s : LinkedList × List ListIterator) : Prop :=
  Lifted l (held s.2) s.2.length s.1 ∧ ∀ it ∈ s.2, Placed p ps it

/-- A sample run of iterators: two iterators are created and advanced, a third one
joins, the first runs past its end, the second is disposed of. -/
def sample_iter_ops : List IterOp :=
  [.create 1 .JS_ITERATOR_KIND_VALUE .FWD, .create 1 .JS_ITERATOR_KIND_KEY .REV,
    .next 0, .next 0, .next 1, .create 1 .JS_ITERATOR_KIND_KEY_AND_VALUE .FWD, .next 2,
    .next 0, .next 0, .next 0, .dispose 1, .next 1]

/-! ## Derived lists, searches and folds: notions for the statements -/

/-- What the body of `for_each_push` pushes along a sequence of payloads, the
counter starting at `i`. -/
def pick (body : Int → JSValue → Option JSValue) : List JSValue → Int → List JSValue
  | [], _ => []
  | v :: vs, i => (body i v).toList ++ pick body vs (i + 1)

/-- The position of the first payload of a sequence for which `p` holds, `p` being
called with a counter that starts at `i` and moves by `d` from one payload to the
next. -/
def first_hit (p : Int → JSValue → Bool) (d : Int) : List JSValue → Int → Option Nat
  | [], _ => none
  | v :: vs, i => if p i v then some 0 else (first_hit p d vs (i + d)).map (· + 1)

/-- A sample truthiness for the worked examples, as `JS_ToBool` has it on the
payloads of the model. -/
def sample_JS_ToBool : JSValue → Bool
  | .bool b => b
  | .int n => decide (n ≠ 0)
  | .str s => decide (s ≠ "")
  | .pair _ _ => true
  | _ => false

/-- A sample callback for the worked examples: `(v, i) => v === w`. -/
def sample_is (w : JSValue) (v : JSValue) (_ : Int) : JSValue := .bool (decide (v = w))

/-- A sample reduce callback for the worked examples: it records the accumulator,
the element and the index it was called with. -/
def sample_step (acc v : JSValue) (i : Int) : JSValue := .pair acc (.pair v (.int i))

/-- The number a payload stands for in the worked examples: an integer payload is
its value, every other payload 0. -/
def sample_num : JSValue → Int
  | .int n => n
  | _ => 0

/-- A sample comparator for the worked examples, the default comparator of `sort`,
`(a, b) => a - b`: the number it returns. -/
def sample_minus (a b : JSValue) : Int := sample_num a - sample_num b

/-- A sample list: what `List.of(0, 2147483648)` builds. -/
def sample_wide : LinkedList :=
  { mem := fun a =>
      if a = 0 then some { prev := some 2, next := some 1, value := .uninitialized, ref_count := 0 }
      else if a = 1 then some { prev := some 0, next := some 2, value := .int 0, ref_count := 1 }
      else if a = 2 then
        some { prev := some 1, next := some 0, value := .int 2147483648, ref_count := 1 }
      else none,
    brk := 3, avail := 5, size := 2, ref_count := 1 }

/-- What `reduce` makes of the accumulator and of the engine along the elements it
visits, each with its index: the callback is called, then one reference is dropped
on the accumulator handed in and one on the element. -/
def reduce_steps {E : Type}
    (JS_Call : E → JSValue → JSValue → Int → Except Fault (JSValue × E))
    (JS_FreeValue : E → JSValue → E) :
    List (Nat × JSValue) → JSValue → E → Except Fault (JSValue × E)
  | [], ret, e => pure (ret, e)
  | (i, v) :: rest, ret, e => do
    let (r, e) ← JS_Call e ret v i
    reduce_steps JS_Call JS_FreeValue rest r (JS_FreeValue (JS_FreeValue e ret) v)

/-- Whether the sample engine counts references on a payload
(`JS_VALUE_HAS_REF_COUNT`): on text and arrays, not on numbers, booleans and
`undefined`. -/
def sample_has_ref_count : JSValue → Bool
  | .str _ => true
  | .pair _ _ => true
  | _ => false

/-- The sample engine `JS_DupValue`; the state of the sample engine is the number of
references held on each payload. -/
def sample_JS_DupValue (e : JSValue → Int) (v : JSValue) : JSValue → Int :=
  fun w => if w = v ∧ sample_has_ref_count v = true then e w + 1 else e w

/-- The sample engine `JS_FreeValue`. -/
def sample_JS_FreeValue (e : JSValue → Int) (v : JSValue) : JSValue → Int :=
  fun w => if w = v ∧ sample_has_ref_count v = true then e w - 1 else e w

/-- The sample engine `JS_Call` of the callback `fn`: the engine takes a reference
on each argument for the time of the call, which touches released memory, and stops
the process, when a reference counted argument has no reference left; the value
returned comes with one reference for the caller. -/
def sample_JS_Call (fn : JSValue → JSValue → Int → JSValue) (e : JSValue → Int)
    (acc v : JSValue) (i : Int) : Except Fault (JSValue × (JSValue → Int)) :=
  if (sample_has_ref_count acc = true ∧ e acc ≤ 0) ∨ (sample_has_ref_count v = true ∧ e v ≤ 0)
  then .error .use_after_free
  else pure (fn acc v i, sample_JS_DupValue e (fn acc v i))

/-- The sample engine state in which the sample list of pairs holds the only
reference on each of its three payloads (arrays made for the list). -/
def sample_refs : JSValue → Int :=
  fun v =>
    if v = .pair (.int 1) (.str "a") ∨ v = .pair (.int 1) (.str "b") ∨
      v = .pair (.int 0) (.str "c") then 1
    else 0

/-- A sample reduce callback that keeps no argument: `(acc, v, i) => acc + i`. -/
def sample_tally (acc _v : JSValue) (i : Int) : JSValue := .int (sample_num acc + i)

/-! ## The byte queue and `token_length`: notions for the statements -/

/-- The `next` link stored at an address of a queue's arena. -/
def Queue.nxt (q : Queue) (a : Nat) : Option Nat := (q.mem a).bind (·.next)

/-- The `prev` link stored at an address of a queue's arena. -/
def Queue.prv (q : Queue) (a : Nat) : Option Nat := (q.mem a).bind (·.prev)

/-- What a cell of a queue's arena holds besides its links: reference count, size,
read position and bytes. -/
def Queue.body (q : Queue) (a : Nat) : Option (Int × Nat × Nat × List Nat) :=
  (q.mem a).map (fun c => (c.ref_count, c.size, c.pos, c.data))

/-- The bytes of the chunk at an address that have not been read. -/
def unread (q : Queue) (a : Nat) : List Nat :=
  match q.body a with
  | some (_, _, pos, data) => data.drop pos
  | none => []

/-- The unread bytes of a sequence of chunks. -/
def rems (q : Queue) (fs : List Nat) : List (List Nat) := fs.map (unread q)

/-- `QWF q fs`: a well-formed queue whose chunks are `fs`, the oldest first: the
`prev` links lead from the head through `fs` back to the head and the `next` links
mirror them, no chunk occurs twice, every chunk holds `size` bytes of which `pos` are
read, `nblocks` counts the chunks and `nbytes` the unread bytes, and nothing
overflows. -/
structure QWF (q : Queue) (fs : List Nat) : Prop where
  nodup : (0 :: fs).Nodup
  chain : Chain q.prv q.nxt 0 fs 0
  fresh : ∀ a, q.brk ≤ a → q.body a = none
  len : fs.length < q.brk
  chunks : ∀ a ∈ fs, ∃ r s p d, q.body a = some (r, s, p, d) ∧ d.length = s ∧ p ≤ s ∧
    s < 2 ^ 63
  blocks : q.nblocks = fs.length
  bytes : q.nbytes = (rems q fs).flatten.length
  cap : q.brk + q.avail < 2 ^ 63
  small : q.nbytes < 2 ^ 63

/-- A queue object before `queue_init`: no chunk, `avail` allocations to come. -/
def Queue.blank (avail : Nat) : Queue :=
  { mem := fun _ => none, brk := 1, avail := avail, nbytes := 0, nblocks := 0 }

/-- What `queue_read` does to the unread bytes of the chunks, the oldest first: the
bytes it copies and the chunks it leaves.  A chunk is dropped when a read with bytes
still wanted has gone through it. -/
def read_chunks : Nat → List (List Nat) → List Nat × List (List Nat)
  | _, [] => ([], [])
  | n, c :: cs =>
    if n = 0 then ([], c :: cs)
    else if n < c.length then (c.take n, c.drop n :: cs)
    else (c ++ (read_chunks (n - c.length) cs).1, (read_chunks (n - c.length) cs).2)

/-- Write the byte strings one after the other; the returned counts. -/
def queue_writes : List (List Nat) → Queue → Except Fault (List Int × Queue)
  | [], q => pure ([], q)
  | x :: xs, q => do
    let (r, q) ← queue_write q x x.length
    let (rs, q) ← queue_writes xs q
    pure (r :: rs, q)

/-- Read with the byte counts one after the other; what each read returns and
copies. -/
def queue_reads : List Nat → Queue → Except Fault (List (Int × List Nat) × Queue)
  | [], q => pure ([], q)
  | n :: ns, q => do
    let (r, out, q) ← queue_read q n
    let (rs, q) ← queue_reads ns q
    pure ((r, out) :: rs, q)

/-- What reads of `ns` bytes return from a first-in first-out buffer holding `bs`:
each takes the next `min n (bytes left)` bytes. -/
def fifo_reads : List Nat → List Nat → List (Int × List Nat)
  | [], _ => []
  | n :: ns, bs => (((min n bs.length : Nat) : Int), bs.take n) :: fifo_reads ns (bs.drop n)

/-- A sample queue: what writing `[1, 2]` and then `[3, 4]` to an initialised queue
leaves. -/
def sample_queue : Queue :=
  match queue_writes [[1, 2], [3, 4]] (queue_init (Queue.blank 4)) with
  | .ok (_, q) => q
  | .error _ => Queue.blank 0

/-- A sample queue: what writing the empty string and then `[1, 2]` to an initialised
queue leaves. -/
def sample_queue_gap : Queue :=
  match queue_writes [[], [1, 2]] (queue_init (Queue.blank 4)) with
  | .ok (_, q) => q
  | .error _ => Queue.blank 0

/-- An occurrence of the delimiter at offset `i` that is not immediately preceded by
a backslash (byte 92). -/
def Unescaped (str : List Nat) (delim i : Nat) : Prop :=
  str[i]? = some delim ∧ (i = 0 ∨ str[i - 1]? ≠ some 92)


/-! ## Memory lemmas -/

theorem load_some {l : LinkedList} {a : Nat} {n : Node} (h : l.mem a = some n) :
    load l (some a) = .ok n := by
  simp [load, h]

theorem update_some {l : LinkedList} {a : Nat} {n : Node} (f : Node → Node)
    (h : l.mem a = some n) : update l (some a) f = .ok (store l a (f n)) := by
  simp [update, h]

@[simp] theorem store_mem (l : LinkedList) (a : Nat) (n : Node) (x : Nat) :
    (store l a n).mem x = if x = a then some n else l.mem x := rfl

@[simp] theorem store_brk (l : LinkedList) (a : Nat) (n : Node) :
    (store l a n).brk = l.brk := rfl

@[simp] theorem store_avail (l : LinkedList) (a : Nat) (n : Node) :
    (store l a n).avail = l.avail := rfl

@[simp] theorem store_size (l : LinkedList) (a : Nat) (n : Node) :
    (store l a n).size = l.size := rfl

@[simp] theorem store_ref_count (l : LinkedList) (a : Nat) (n : Node) :
    (store l a n).ref_count = l.ref_count := rfl

theorem nxt_some {l : LinkedList} {a b : Nat} (h : nxt l a = some b) :
    ∃ n, l.mem a = some n ∧ n.next = some b := by
  unfold nxt at h
  cases hm : l.mem a with
  | none => simp [hm] at h
  | some n => exact ⟨n, rfl, by simpa [hm] using h⟩

theorem prv_some {l : LinkedList} {a b : Nat} (h : prv l a = some b) :
    ∃ n, l.mem a = some n ∧ n.prev = some b := by
  unfold prv at h
  cases hm : l.mem a with
  | none => simp [hm] at h
  | some n => exact ⟨n, rfl, by simpa [hm] using h⟩

theorem val_some {l : LinkedList} {a : Nat} {v : JSValue} (h : val l a = some v) :
    ∃ n, l.mem a = some n ∧ n.value = v := by
  unfold val at h
  cases hm : l.mem a with
  | none => simp [hm] at h
  | some n => exact ⟨n, rfl, by simpa [hm] using h⟩

theorem rc_some {l : LinkedList} {a : Nat} {r : Int} (h : rc l a = some r) :
    ∃ n, l.mem a = some n ∧ n.ref_count = r := by
  unfold rc at h
  cases hm : l.mem a with
  | none => simp [hm] at h
  | some n => exact ⟨n, rfl, by simpa [hm] using h⟩

/-- Two lists with the same fields and the same four views are equal. -/
theorem LinkedList.ext_views {l l' : LinkedList}
    (hn : ∀ a, nxt l' a = nxt l a) (hp : ∀ a, prv l' a = prv l a)
    (hv : ∀ a, val l' a = val l a) (hr : ∀ a, rc l' a = rc l a)
    (hb : l'.brk = l.brk) (ha : l'.avail = l.avail) (hs : l'.size = l.size)
    (hc : l'.ref_count = l.ref_count) : l' = l := by
  have hm : l'.mem = l.mem := by
    funext a
    have h1 := hn a; have h2 := hp a; have h3 := hv a; have h4 := hr a
    unfold nxt at h1; unfold prv at h2; unfold val at h3; unfold rc at h4
    cases h : l.mem a with
    | none =>
      cases h' : l'.mem a with
      | none => rfl
      | some n' => simp [h, h'] at h3
    | some n =>
      cases h' : l'.mem a with
      | none => simp [h, h'] at h3
      | some n' =>
        simp [h, h'] at h1 h2 h3 h4
        cases n; cases n'; simp_all
  cases l; cases l'; simp_all

/-! ## The `list.h` primitives, through the views -/

/-- What `list_del` does, in terms of the views. -/
theorem list_del_views {l : LinkedList} {el p nx : Nat} (hp : prv l el = some p)
    (hn : nxt l el = some nx) (hpn : nxt l p = some el) (hnp : prv l nx = some el)
    (h1 : el ≠ p) (h2 : el ≠ nx) :
    ∃ l', list_del l (some el) = .ok l' ∧
      (∀ a, nxt l' a = if a = el then none else if a = p then some nx else nxt l a) ∧
      (∀ a, prv l' a = if a = el then none else if a = nx then some p else prv l a) ∧
      (∀ a, val l' a = val l a) ∧ (∀ a, rc l' a = rc l a) ∧
      l'.brk = l.brk ∧ l'.avail = l.avail ∧ l'.size = l.size ∧ l'.ref_count = l.ref_count := by
  obtain ⟨e, he, hep⟩ := prv_some hp
  obtain ⟨e', he', hen⟩ := nxt_some hn
  obtain ⟨np, hnp1, hnp2⟩ := nxt_some hpn
  obtain ⟨nn, hnn1, hnn2⟩ := prv_some hnp
  have : e' = e := by rw [he] at he'; exact (Option.some.inj he').symm
  subst this
  generalize hr : list_del l (some el) = r
  by_cases hpx : p = nx
  · subst hpx
    have : nn = np := by rw [hnp1] at hnn1; exact (Option.some.inj hnn1).symm
    subst this
    simp [list_del, load, update, he, hep, hen, hnp1, h1, Ne.symm h1, bind, Except.bind] at hr
    subst hr
    refine ⟨_, rfl, ?_, ?_, ?_, ?_, rfl, rfl, rfl, rfl⟩ <;> intro a <;>
        simp only [nxt, prv, val, rc, store_mem] <;> split_ifs <;> simp_all
  · simp [list_del, load, update, he, hep, hen, hnp1, hnn1, h1, h2, Ne.symm h1, Ne.symm h2,
        hpx, Ne.symm hpx, bind, Except.bind] at hr
    subst hr
    refine ⟨_, rfl, ?_, ?_, ?_, ?_, rfl, rfl, rfl, rfl⟩ <;> intro a <;>
        simp only [nxt, prv, val, rc, store_mem] <;> split_ifs <;> simp_all

/-- What `__list_add` does, in terms of the views. -/
theorem list_add_between_views {l : LinkedList} {el p nx : Nat} {e : Node}
    (he : l.mem el = some e)
    (hpn : nxt l p = some nx) (hnp : prv l nx = some p) (h1 : el ≠ p) (h2 : el ≠ nx) :
    ∃ l', __list_add l (some el) (some p) (some nx) = .ok l' ∧
      (∀ a, nxt l' a = if a = el then some nx else if a = p then some el else nxt l a) ∧
      (∀ a, prv l' a = if a = el then some p else if a = nx then some el else prv l a) ∧
      (∀ a, val l' a = val l a) ∧ (∀ a, rc l' a = rc l a) ∧
      l'.brk = l.brk ∧ l'.avail = l.avail ∧ l'.size = l.size ∧ l'.ref_count = l.ref_count := by
  obtain ⟨np, hnp1, hnp2⟩ := nxt_some hpn
  obtain ⟨nn, hnn1, hnn2⟩ := prv_some hnp
  generalize hr : __list_add l (some el) (some p) (some nx) = r
  by_cases hpx : p = nx
  · subst hpx
    have : nn = np := by rw [hnp1] at hnn1; exact (Option.some.inj hnn1).symm
    subst this
    simp [__list_add, load, update, he, hnp1, h1, Ne.symm h1, bind, Except.bind] at hr
    subst hr
    refine ⟨_, rfl, ?_, ?_, ?_, ?_, rfl, rfl, rfl, rfl⟩ <;> intro a <;>
        simp only [nxt, prv, val, rc, store_mem] <;> split_ifs <;> simp_all
  · simp [__list_add, load, update, he, hnp1, hnn1, h1, h2, Ne.symm h1, Ne.symm h2,
        hpx, Ne.symm hpx, bind, Except.bind] at hr
    subst hr
    refine ⟨_, rfl, ?_, ?_, ?_, ?_, rfl, rfl, rfl, rfl⟩ <;> intro a <;>
        simp only [nxt, prv, val, rc, store_mem] <;> split_ifs <;> simp_all


/-! ## Chains -/

theorem chain_congr {f g f' g' : Nat → Option Nat} : ∀ {s : List Nat} {x z : Nat},
    (∀ a ∈ x :: s, f' a = f a) → (∀ a ∈ s ++ [z], g' a = g a) →
    Chain f g x s z → Chain f' g' x s z
  | [], x, z, hf, hg, h => by
    simp only [Chain] at h ⊢
    rw [hf x (by simp), hg z (by simp)]
    exact h
  | y :: ys, x, z, hf, hg, h => by
    simp only [Chain] at h ⊢
    refine ⟨by rw [hf x (by simp)]; exact h.1, by rw [hg y (by simp)]; exact h.2.1, ?_⟩
    exact chain_congr (fun a ha => hf a (List.mem_cons_of_mem _ ha))
      (fun a ha => hg a (by simpa using Or.inr (by simpa using ha))) h.2.2

theorem chain_headD {f g : Nat → Option Nat} {s : List Nat} {x z : Nat}
    (h : Chain f g x s z) : f x = some (s.headD z) := by
  cases s with
  | nil => exact h.1
  | cons y ys => exact h.1

theorem chain_headD_back {f g : Nat → Option Nat} {s : List Nat} {x z : Nat}
    (h : Chain f g x s z) : g (s.headD z) = some x := by
  cases s with
  | nil => exact h.2
  | cons y ys => exact h.2.1

theorem chain_append {f g : Nat → Option Nat} : ∀ {s : List Nat} {b : Nat} {t : List Nat}
    {x z : Nat}, Chain f g x (s ++ b :: t) z ↔ Chain f g x s b ∧ Chain f g b t z
  | [], b, t, x, z => by
    simp only [List.nil_append, Chain]
    tauto
  | a :: s, b, t, x, z => by
    show (f x = some a ∧ g a = some x ∧ Chain f g a (s ++ b :: t) z) ↔
      (f x = some a ∧ g a = some x ∧ Chain f g a s b) ∧ Chain f g b t z
    rw [chain_append (s := s)]
    tauto

theorem chain_reverse {f g : Nat → Option Nat} : ∀ {s : List Nat} {x z : Nat},
    Chain f g x s z → Chain g f z s.reverse x
  | [], x, z, h => ⟨h.2, h.1⟩
  | y :: ys, x, z, h => by
    rw [List.reverse_cons, chain_append]
    exact ⟨chain_reverse h.2.2, h.2.1, h.1⟩

theorem chain_getLastD {f g : Nat → Option Nat} : ∀ {s : List Nat} {x z : Nat},
    Chain f g x s z → g z = some (s.getLastD x)
  | [], x, z, h => h.2
  | y :: ys, x, z, h => by
    rw [List.getLastD_cons]
    exact chain_getLastD h.2.2

theorem chain_getLastD_fwd {f g : Nat → Option Nat} : ∀ {s : List Nat} {x z : Nat},
    Chain f g x s z → f (s.getLastD x) = some z
  | [], x, z, h => h.1
  | y :: ys, x, z, h => by
    rw [List.getLastD_cons]
    exact chain_getLastD_fwd h.2.2

theorem getLastD_mem : ∀ (s : List Nat) (x : Nat), s.getLastD x ∈ x :: s
  | [], x => by simp
  | y :: ys, x => by
    rw [List.getLastD_cons]
    exact List.mem_cons_of_mem _ (getLastD_mem ys y)

theorem headD_mem (t : List Nat) (z : Nat) : t.headD z ∈ t ++ [z] := by
  cases t <;> simp

theorem headD_eq_or_mem (t : List Nat) (z : Nat) : t.headD z = z ∨ t.headD z ∈ t := by
  cases t <;> simp

theorem getLastD_eq_or_mem (s : List Nat) (x : Nat) :
    s.getLastD x = x ∨ s.getLastD x ∈ s := by
  have := getLastD_mem s x
  rcases List.mem_cons.1 this with h | h
  · exact Or.inl h
  · exact Or.inr h

/-- The four links around an element in the middle of a chain. -/
theorem chain_mid {f g : Nat → Option Nat} {s t : List Nat} {c x z : Nat}
    (h : Chain f g x (s ++ c :: t) z) :
    f (s.getLastD x) = some c ∧ g c = some (s.getLastD x) ∧
    f c = some (t.headD z) ∧ g (t.headD z) = some c := by
  rw [chain_append] at h
  exact ⟨chain_getLastD_fwd h.1, chain_getLastD h.1, chain_headD h.2, chain_headD_back h.2⟩

/-- The two links across a cut of a chain. -/
theorem chain_cut {f g : Nat → Option Nat} : ∀ {s t : List Nat} {x z : Nat},
    Chain f g x (s ++ t) z →
    f (s.getLastD x) = some (t.headD z) ∧ g (t.headD z) = some (s.getLastD x)
  | [], t, x, z, h => by
    simp only [List.nil_append] at h
    exact ⟨chain_headD h, chain_headD_back h⟩
  | a :: s, t, x, z, h => by
    rw [List.getLastD_cons]
    exact chain_cut (s := s) h.2.2

/-- Linking a new cell into a chain at a cut. -/
theorem chain_insert {f g f' g' : Nat → Option Nat} {c : Nat} :
    ∀ {s t : List Nat} {x z : Nat}, Chain f g x (s ++ t) z →
    (x :: (s ++ t)).Nodup → z ∉ s ++ t → c ∉ x :: (s ++ t) → c ≠ z →
    (∀ a, f' a = if a = c then some (t.headD z)
      else if a = s.getLastD x then some c else f a) →
    (∀ a, g' a = if a = c then some (s.getLastD x)
      else if a = t.headD z then some c else g a) →
    Chain f' g' x (s ++ c :: t) z
  | [], t, x, z, h, hnd, hz, hel, helz, hf, hg => by
    simp only [List.nil_append, List.getLastD_nil] at *
    have hxel : x ≠ c := fun e => hel (by simp [e])
    cases t with
    | nil =>
      simp only [List.headD_nil] at hf hg
      simp only [Chain] at h ⊢
      refine ⟨by simp [hf, hxel], by simp [hg], by simp [hf], ?_⟩
      simp [hg, Ne.symm helz]
    | cons y ys =>
      simp only [List.headD_cons] at hf hg
      simp only [Chain] at h ⊢
      have hyel : y ≠ c := fun e => hel (by simp [e])
      refine ⟨by simp [hf, hxel], by simp [hg], by simp [hf], by simp [hg, hyel], ?_⟩
      refine chain_congr ?_ ?_ h.2.2
      · intro a ha
        have h1 : a ≠ c := fun e => hel (by subst e; exact List.mem_cons_of_mem _ ha)
        have h2 : a ≠ x := fun e => by
          subst e; exact (List.nodup_cons.1 hnd).1 ha
        simp [hf, h1, h2]
      · intro a ha
        have h1 : a ≠ c := by
          rintro rfl
          rcases List.mem_append.1 ha with h' | h'
          · exact hel (by simp [h'])
          · exact helz (by simpa using h')
        have h2 : a ≠ y := by
          rintro rfl
          rcases List.mem_append.1 ha with h' | h'
          · exact (List.nodup_cons.1 (List.nodup_cons.1 hnd).2).1 h'
          · exact hz (by simp at h'; simp [h'])
        simp [hg, h1, h2]
  | a :: s, t, x, z, h, hnd, hz, hel, helz, hf, hg => by
    simp only [List.cons_append, List.getLastD_cons] at *
    simp only [Chain] at h ⊢
    have hxel : x ≠ c := fun e => hel (by simp [e])
    have hael : a ≠ c := fun e => hel (by simp [e])
    have hxl : x ≠ s.getLastD a := by
      intro e
      have := getLastD_mem s a
      rw [← e] at this
      exact (List.nodup_cons.1 hnd).1 (by
        rcases List.mem_cons.1 this with h' | h'
        · simp [h']
        · exact List.mem_cons_of_mem _ (List.mem_append_left _ h'))
    have hah : a ≠ t.headD z := by
      intro e
      have := headD_mem t z
      rw [← e] at this
      rcases List.mem_append.1 this with h' | h'
      · exact (List.nodup_cons.1 (List.nodup_cons.1 hnd).2).1 (List.mem_append_right _ h')
      · exact hz (by simp at h'; simp [h'])
    refine ⟨by rw [hf, if_neg hxel, if_neg hxl]; exact h.1,
      by rw [hg, if_neg hael, if_neg hah]; exact h.2.1, ?_⟩
    exact chain_insert h.2.2 (List.nodup_cons.1 hnd).2
      (fun hm => hz (List.mem_cons_of_mem _ hm))
      (fun hm => hel (List.mem_cons_of_mem _ hm)) helz hf hg

/-- Unlinking a cell from a chain. -/
theorem chain_delete {f g f' g' : Nat → Option Nat} {c : Nat} :
    ∀ {s t : List Nat} {x z : Nat}, Chain f g x (s ++ c :: t) z →
    (x :: (s ++ c :: t)).Nodup → z ∉ s ++ c :: t →
    (∀ a, f' a = if a = c then none
      else if a = s.getLastD x then some (t.headD z) else f a) →
    (∀ a, g' a = if a = c then none
      else if a = t.headD z then some (s.getLastD x) else g a) →
    Chain f' g' x (s ++ t) z
  | [], t, x, z, h, hnd, hz, hf, hg => by
    simp only [List.nil_append, List.getLastD_nil] at *
    have hxel : x ≠ c := fun e => (List.nodup_cons.1 hnd).1 (by simp [e])
    have hzel : z ≠ c := fun e => hz (by simp [e])
    cases t with
    | nil =>
      simp only [List.headD_nil] at hf hg
      simp only [Chain] at h ⊢
      exact ⟨by simp [hf, hxel], by simp [hg, hzel]⟩
    | cons y ys =>
      simp only [List.headD_cons] at hf hg
      simp only [Chain] at h ⊢
      have hnd2 := (List.nodup_cons.1 hnd).2
      have hyel : y ≠ c := fun e => (List.nodup_cons.1 hnd2).1 (by simp [e])
      refine ⟨by simp [hf, hxel], by simp [hg, hyel], ?_⟩
      refine chain_congr ?_ ?_ h.2.2.2.2
      · intro a ha
        have h1 : a ≠ c := fun e => (List.nodup_cons.1 hnd2).1 (by subst e; exact ha)
        have h2 : a ≠ x := fun e => by
          subst e; exact (List.nodup_cons.1 hnd).1 (List.mem_cons_of_mem _ ha)
        simp [hf, h1, h2]
      · intro a ha
        have h1 : a ≠ c := by
          rintro rfl
          rcases List.mem_append.1 ha with h' | h'
          · exact (List.nodup_cons.1 hnd2).1 (List.mem_cons_of_mem _ h')
          · exact hzel (by simp at h'; exact h'.symm)
        have h2 : a ≠ y := by
          rintro rfl
          rcases List.mem_append.1 ha with h' | h'
          · exact (List.nodup_cons.1 (List.nodup_cons.1 hnd2).2).1 h'
          · exact hz (by simp at h'; simp [h'])
        simp [hg, h1, h2]
  | a :: s, t, x, z, h, hnd, hz, hf, hg => by
    simp only [List.cons_append, List.getLastD_cons] at *
    simp only [Chain] at h ⊢
    have hnd2 := (List.nodup_cons.1 hnd).2
    have hxel : x ≠ c := fun e => (List.nodup_cons.1 hnd).1 (by simp [e])
    have hael : a ≠ c := fun e => (List.nodup_cons.1 hnd2).1 (by simp [e])
    have hxl : x ≠ s.getLastD a := by
      intro e
      have := getLastD_mem s a
      rw [← e] at this
      exact (List.nodup_cons.1 hnd).1 (by
        rcases List.mem_cons.1 this with h' | h'
        · simp [h']
        · exact List.mem_cons_of_mem _ (List.mem_append_left _ h'))
    have hah : a ≠ t.headD z := by
      intro e
      have := headD_mem t z
      rw [← e] at this
      rcases List.mem_append.1 this with h' | h'
      · exact (List.nodup_cons.1 hnd2).1
          (List.mem_append_right _ (List.mem_cons_of_mem _ h'))
      · exact hz (by simp at h'; simp [h'])
    refine ⟨by rw [hf, if_neg hxel, if_neg hxl]; exact h.1,
      by rw [hg, if_neg hael, if_neg hah]; exact h.2.1, ?_⟩
    exact chain_delete h.2.2 hnd2 (fun hm => hz (List.mem_cons_of_mem _ hm)) hf hg


/-! ## Node and list primitives, through the views -/

theorem val_eq_none {l : LinkedList} {a : Nat} : val l a = none ↔ l.mem a = none := by
  unfold val
  cases l.mem a <;> simp

theorem node_push_eq {l : LinkedList} {el p : Nat} (h : prv l 0 = some p) :
    node_push (some el) l = link_core l el p 0 := by
  obtain ⟨n, hn, hp⟩ := prv_some h
  simp [node_push, link_core, list_add_tail, load, hn, hp, bind, Except.bind]

theorem node_unshift_eq {l : LinkedList} {el q : Nat} (h : nxt l 0 = some q) :
    node_unshift (some el) l = link_core l el 0 q := by
  obtain ⟨n, hn, hp⟩ := nxt_some h
  simp [node_unshift, link_core, list_add, load, hn, hp, bind, Except.bind]

theorem node_insert_eq {l : LinkedList} {el p q : Nat} (h : nxt l p = some q) :
    node_insert (some el) (some p) l = link_core l el p q := by
  obtain ⟨n, hn, hp⟩ := nxt_some h
  simp [node_insert, link_core, load, hn, hp, bind, Except.bind]

/-- What linking a node does, in terms of the views. -/
theorem link_core_views {l : LinkedList} {el p q : Nat} {r : Int}
    (he : rc l el = some r)
    (hpn : nxt l p = some q) (hnp : prv l q = some p) (h1 : el ≠ p) (h2 : el ≠ q) :
    ∃ l', link_core l el p q = .ok l' ∧
      (∀ a, nxt l' a = if a = el then some q else if a = p then some el else nxt l a) ∧
      (∀ a, prv l' a = if a = el then some p else if a = q then some el else prv l a) ∧
      (∀ a, val l' a = val l a) ∧
      (∀ a, rc l' a = if a = el then some (r + 1) else rc l a) ∧
      l'.brk = l.brk ∧ l'.avail = l.avail ∧ l'.size = size_t (l.size + 1) ∧
      l'.ref_count = l.ref_count := by
  obtain ⟨e, hem, her⟩ := rc_some he
  obtain ⟨l1, h1eq, hn1, hp1, hv1, hr1, hb1, ha1, hs1, hc1⟩ :=
    list_add_between_views hem hpn hnp h1 h2
  have he1 : rc l1 el = some r := by rw [hr1]; exact he
  obtain ⟨e1, hem1, her1⟩ := rc_some he1
  generalize hr : link_core l el p q = res
  simp [link_core, h1eq, update, hem1, bind, Except.bind] at hr
  subst hr
  refine ⟨_, rfl, ?_, ?_, ?_, ?_, ?_, ?_, ?_, ?_⟩
  · intro a
    rw [← hn1 a]
    by_cases h : a = el
    · subst h; simp [nxt, hem1]
    · simp [nxt, h]
  · intro a
    rw [← hp1 a]
    by_cases h : a = el
    · subst h; simp [prv, hem1]
    · simp [prv, h]
  · intro a
    rw [← hv1 a]
    by_cases h : a = el
    · subst h; simp [val, hem1]
    · simp [val, h]
  · intro a
    by_cases h : a = el
    · subst h; simp [rc, her1]
    · rw [if_neg h, ← hr1 a]; simp [rc, h]
  · simpa using hb1
  · simpa using ha1
  · simp [hs1]
  · simpa using hc1

/-- What a successful `node_new` does, in terms of the views. -/
theorem node_new_views {l : LinkedList} (v : JSValue) (hav : l.avail ≠ 0)
    (hfresh : ∀ a, l.brk ≤ a → val l a = none) :
    ∃ l', node_new l v = (some l.brk, l') ∧
      (∀ a, nxt l' a = nxt l a) ∧ (∀ a, prv l' a = prv l a) ∧
      (∀ a, val l' a = if a = l.brk then some v else val l a) ∧
      (∀ a, rc l' a = if a = l.brk then some 0 else rc l a) ∧
      l'.brk = l.brk + 1 ∧ l'.avail = l.avail - 1 ∧ l'.size = l.size ∧
      l'.ref_count = l.ref_count := by
  have hm : l.mem l.brk = none := val_eq_none.1 (hfresh _ (le_refl _))
  refine ⟨store { l with brk := l.brk + 1, avail := l.avail - 1 } l.brk
    { prev := none, next := none, value := v, ref_count := 0 },
    by simp [node_new, js_malloc, hav], ?_, ?_, ?_, ?_, rfl, rfl, rfl, rfl⟩
  · intro a
    by_cases h : a = l.brk
    · subst h; simp [nxt, hm]
    · simp [nxt, h]
  · intro a
    by_cases h : a = l.brk
    · subst h; simp [prv, hm]
    · simp [prv, h]
  · intro a
    by_cases h : a = l.brk
    · subst h; simp [val]
    · simp [val, h]
  · intro a
    by_cases h : a = l.brk
    · subst h; simp [rc]
    · simp [rc, h]

theorem node_new_none {l : LinkedList} (v : JSValue) (hav : l.avail = 0) :
    node_new l v = (none, l) := by
  simp [node_new, js_malloc, hav]


/-! ## Linked lists: insertion at a cut -/

theorem chain_mem_fwd {f g : Nat → Option Nat} : ∀ {s : List Nat} {x z : Nat},
    Chain f g x s z → ∀ a ∈ x :: s, ∃ b, f a = some b
  | [], x, z, h, a, ha => by
    simp at ha
    subst ha
    exact ⟨z, h.1⟩
  | y :: ys, x, z, h, a, ha => by
    rcases List.mem_cons.1 ha with h' | h'
    · subst h'
      exact ⟨y, h.1⟩
    · exact chain_mem_fwd h.2.2 a h'

theorem Linked.alloc {l : LinkedList} {ps : List Nat} (h : Linked l ps) {a : Nat}
    (ha : a ∈ 0 :: ps) : ∃ n, l.mem a = some n := by
  obtain ⟨b, hb⟩ := chain_mem_fwd h.chain a ha
  obtain ⟨n, hn, _⟩ := nxt_some hb
  exact ⟨n, hn⟩

theorem Linked.lt_brk {l : LinkedList} {ps : List Nat} (h : Linked l ps) {a : Nat}
    (ha : a ∈ 0 :: ps) : a < l.brk := by
  by_contra hlt
  obtain ⟨n, hn⟩ := h.alloc ha
  have := val_eq_none.1 (h.fresh a (not_lt.1 hlt))
  rw [hn] at this
  exact Option.noConfusion this

theorem Linked.head_mem {l : LinkedList} {ps : List Nat} (h : Linked l ps) :
    ∃ n, l.mem 0 = some n ∧ n.next = some (ps.headD 0) ∧ n.prev = some (ps.getLastD 0) := by
  obtain ⟨n, hn, h1⟩ := nxt_some (chain_headD h.chain)
  obtain ⟨n', hn', h2⟩ := prv_some (chain_getLastD h.chain)
  rw [hn] at hn'
  cases hn'
  exact ⟨n, hn, h1, h2⟩

/-- A linked list is determined by its link views, its break and its allocated
cells. -/
theorem Linked.of_views {l l' : LinkedList} {ps : List Nat} (h : Linked l ps)
    (hn : ∀ a, nxt l' a = nxt l a) (hp : ∀ a, prv l' a = prv l a)
    (hv : ∀ a, l.brk ≤ a → val l' a = none) (hb : l'.brk = l.brk) : Linked l' ps where
  nodup := h.nodup
  chain := chain_congr (fun a _ => hn a) (fun a _ => hp a) h.chain
  fresh := fun a ha => hv a (by rw [← hb]; exact ha)
  len := by rw [hb]; exact h.len

/-- Insertion of a new node at a cut of a linked list: `list_insert` after the
last node before the cut (the head when the cut is at the front). -/
theorem linked_insert_cut {l : LinkedList} {s t : List Nat} (v : JSValue)
    (h : Linked l (s ++ t)) (hav : l.avail ≠ 0) :
    ∃ l', list_insert l (some (s.getLastD 0)) v = .ok (some l.brk, l') ∧
      Linked l' (s ++ l.brk :: t) ∧
      (∀ a, val l' a = if a = l.brk then some v else val l a) ∧
      (∀ a, rc l' a = if a = l.brk then some 1 else rc l a) ∧
      l'.avail = l.avail - 1 ∧ l'.brk = l.brk + 1 ∧ l'.ref_count = l.ref_count ∧
      l'.size = size_t (l.size + 1) := by
  obtain ⟨l1, e1, hn1, hp1, hv1, hr1, hb1, ha1, hs1, hc1⟩ := node_new_views v hav h.fresh
  obtain ⟨hcn, hcp⟩ := chain_cut h.chain
  have hpm : s.getLastD 0 ∈ 0 :: (s ++ t) := by
    rcases getLastD_eq_or_mem s 0 with h' | h'
    · rw [h']; exact List.mem_cons_self _ _
    · exact List.mem_cons_of_mem _ (List.mem_append_left _ h')
  have hnm : t.headD 0 ∈ 0 :: (s ++ t) := by
    rcases headD_eq_or_mem t 0 with h' | h'
    · rw [h']; exact List.mem_cons_self _ _
    · exact List.mem_cons_of_mem _ (List.mem_append_right _ h')
  have h1 : l.brk ≠ s.getLastD 0 := fun e => by
    have := h.lt_brk hpm; omega
  have h2 : l.brk ≠ t.headD 0 := fun e => by
    have := h.lt_brk hnm; omega
  have hrc1 : rc l1 l.brk = some 0 := by rw [hr1]; simp
  obtain ⟨l2, e2, hn2, hp2, hv2, hr2, hb2, ha2, hs2, hc2⟩ :=
    link_core_views (l := l1) hrc1 (by rw [hn1]; exact hcn) (by rw [hp1]; exact hcp) h1 h2
  have hnotin : l.brk ∉ 0 :: (s ++ t) := fun hm => by
    have := h.lt_brk hm; omega
  refine ⟨l2, ?_, ?_, ?_, ?_, ?_, ?_, ?_, ?_⟩
  · simp only [list_insert, e1]
    rw [node_insert_eq (q := t.headD 0) (by rw [hn1]; exact hcn), e2]
    rfl
  · refine ⟨?_, ?_, ?_, ?_⟩
    · have : (0 :: (s ++ l.brk :: t)) = (0 :: s) ++ l.brk :: t := rfl
      rw [this, List.nodup_middle]
      exact List.nodup_cons.2 ⟨hnotin, h.nodup⟩
    · refine chain_insert h.chain h.nodup (List.nodup_cons.1 h.nodup).1 hnotin
        (fun e => hnotin (by simp [e])) ?_ ?_
      · intro a; rw [hn2, hn1]
      · intro a; rw [hp2, hp1]
    · intro a ha
      rw [hb2, hb1] at ha
      rw [hv2, hv1, if_neg (by omega)]
      exact h.fresh a (by omega)
    · rw [hb2, hb1]
      have := h.len
      simp only [List.length_append, List.length_cons] at this ⊢
      omega
  · intro a; rw [hv2, hv1]
  · intro a
    rw [hr2]
    by_cases e : a = l.brk
    · simp [e]
    · rw [if_neg e, if_neg e, hr1, if_neg e]
  · rw [ha2, ha1]
  · rw [hb2, hb1]
  · rw [hc2, hc1]
  · rw [hs2, hs1]

theorem list_insert_oom {l : LinkedList} (p : Option Nat) (v : JSValue) (hav : l.avail = 0) :
    list_insert l p v = .ok (none, l) := by
  simp [list_insert, node_new_none v hav]
  rfl

theorem list_push_eq_insert {l : LinkedList} {ps : List Nat} (v : JSValue) (h : Linked l ps) :
    list_push l v = list_insert l (some (ps.getLastD 0)) v := by
  by_cases hav : l.avail = 0
  · simp [list_push, list_insert, node_new_none v hav]
  · obtain ⟨l1, e1, hn1, hp1, -⟩ := node_new_views v hav h.fresh
    have hc := chain_cut (s := ps) (t := []) (by simpa using h.chain)
    simp only [List.headD_nil] at hc
    simp only [list_push, list_insert, e1]
    rw [node_push_eq (p := ps.getLastD 0) (by rw [hp1]; exact hc.2),
      node_insert_eq (q := 0) (by rw [hn1]; exact hc.1)]

theorem list_unshift_eq_insert {l : LinkedList} {ps : List Nat} (v : JSValue)
    (h : Linked l ps) : list_unshift l v = list_insert l (some 0) v := by
  by_cases hav : l.avail = 0
  · simp [list_unshift, list_insert, node_new_none v hav]
  · obtain ⟨l1, e1, hn1, hp1, -⟩ := node_new_views v hav h.fresh
    have hc := chain_cut (s := []) (t := ps) (by simpa using h.chain)
    simp only [List.getLastD_nil] at hc
    simp only [list_unshift, list_insert, e1]
    rw [node_unshift_eq (q := ps.headD 0) (by rw [hn1]; exact hc.1),
      node_insert_eq (q := ps.headD 0) (by rw [hn1]; exact hc.1)]


/-! ## Removal -/

/-- What `node_remove_rt` does to a linked node, in terms of the views. -/
theorem node_remove_views {l : LinkedList} {el p nx : Nat} {r : Int}
    (hp : prv l el = some p) (hn : nxt l el = some nx) (hpn : nxt l p = some el)
    (hnp : prv l nx = some el) (h1 : el ≠ p) (h2 : el ≠ nx) (hrc : rc l el = some r) :
    ∃ l', node_remove_rt (some el) l = .ok l' ∧
      (∀ a, nxt l' a = if a = el then none else if a = p then some nx else nxt l a) ∧
      (∀ a, prv l' a = if a = el then none else if a = nx then some p else prv l a) ∧
      (∀ a, val l' a = if a = el then (if r = 1 then none else some .uninitialized)
        else val l a) ∧
      (∀ a, rc l' a = if a = el then (if r = 1 then none else some (r - 1)) else rc l a) ∧
      l'.brk = l.brk ∧ l'.avail = l.avail ∧ l'.size = size_t (l.size - 1) ∧
      l'.ref_count = l.ref_count := by
  obtain ⟨l1, e1, hn1, hp1, hv1, hr1, hb1, ha1, hs1, hc1⟩ := list_del_views hp hn hpn hnp h1 h2
  obtain ⟨e, hem, hen⟩ := nxt_some hn
  have hrc1 : rc l1 el = some r := by rw [hr1]; exact hrc
  obtain ⟨e', hem1, her1⟩ := rc_some hrc1
  have hnx1 : e'.next = none := by
    have := hn1 el
    simp [nxt, hem1] at this
    exact this
  have hpv1 : e'.prev = none := by
    have := hp1 el
    simp [prv, hem1] at this
    exact this
  generalize hres : node_remove_rt (some el) l = res
  by_cases hval : e'.value = .uninitialized
  · by_cases hr : r = 1
    · simp [node_remove_rt, load, hem, hen, e1, node_clear_rt, hem1, hval, update,
        her1, hr, js_free_rt, bind, Except.bind, pure, Except.pure] at hres
      subst hres
      refine ⟨_, rfl, ?_, ?_, ?_, ?_, ?_, ?_, ?_, ?_⟩
      · intro a; rw [← hn1 a]
        by_cases h : a = el
        · subst h; simp [nxt, hem1, hnx1]
        · simp [nxt, h]
      · intro a; rw [← hp1 a]
        by_cases h : a = el
        · subst h; simp [prv, hem1, hpv1]
        · simp [prv, h]
      · intro a
        by_cases h : a = el
        · subst h; simp [val, hr]
        · rw [if_neg h, ← hv1 a]; simp [val, h]
      · intro a
        by_cases h : a = el
        · subst h; simp [rc, hr]
        · rw [if_neg h, ← hr1 a]; simp [rc, h]
      · simpa using hb1
      · simpa using ha1
      · simp [hs1]
      · simpa using hc1
    · have hr' : e'.ref_count - 1 ≠ 0 := by rw [her1]; omega
      simp [node_remove_rt, load, hem, hen, e1, node_clear_rt, hem1, hval, update,
        hr', js_free_rt, bind, Except.bind, pure, Except.pure] at hres
      subst hres
      refine ⟨_, rfl, ?_, ?_, ?_, ?_, ?_, ?_, ?_, ?_⟩
      · intro a; rw [← hn1 a]
        by_cases h : a = el
        · subst h; simp [nxt, hem1, hnx1]
        · simp [nxt, h]
      · intro a; rw [← hp1 a]
        by_cases h : a = el
        · subst h; simp [prv, hem1, hpv1]
        · simp [prv, h]
      · intro a
        by_cases h : a = el
        · subst h; simp [val, hr, hval]
        · rw [if_neg h, ← hv1 a]; simp [val, h]
      · intro a
        by_cases h : a = el
        · subst h; simp [rc, hr, her1]
        · rw [if_neg h, ← hr1 a]; simp [rc, h]
      · simpa using hb1
      · simpa using ha1
      · simp [hs1]
      · simpa using hc1
  · by_cases hr : r = 1
    · simp [node_remove_rt, load, hem, hen, e1, node_clear_rt, hem1, hval, update,
        her1, hr, js_free_rt, bind, Except.bind, pure, Except.pure] at hres
      subst hres
      refine ⟨_, rfl, ?_, ?_, ?_, ?_, ?_, ?_, ?_, ?_⟩
      · intro a; rw [← hn1 a]
        by_cases h : a = el
        · subst h; simp [nxt, hem1, hnx1]
        · simp [nxt, h]
      · intro a; rw [← hp1 a]
        by_cases h : a = el
        · subst h; simp [prv, hem1, hpv1]
        · simp [prv, h]
      · intro a
        by_cases h : a = el
        · subst h; simp [val, hr]
        · rw [if_neg h, ← hv1 a]; simp [val, h]
      · intro a
        by_cases h : a = el
        · subst h; simp [rc, hr]
        · rw [if_neg h, ← hr1 a]; simp [rc, h]
      · simpa using hb1
      · simpa using ha1
      · simp [hs1]
      · simpa using hc1
    · have hr' : e'.ref_count - 1 ≠ 0 := by rw [her1]; omega
      simp [node_remove_rt, load, hem, hen, e1, node_clear_rt, hem1, hval, update,
        hr', js_free_rt, bind, Except.bind, pure, Except.pure] at hres
      subst hres
      refine ⟨_, rfl, ?_, ?_, ?_, ?_, ?_, ?_, ?_, ?_⟩
      · intro a; rw [← hn1 a]
        by_cases h : a = el
        · subst h; simp [nxt, hem1, hnx1]
        · simp [nxt, h]
      · intro a; rw [← hp1 a]
        by_cases h : a = el
        · subst h; simp [prv, hem1, hpv1]
        · simp [prv, h]
      · intro a
        by_cases h : a = el
        · subst h; simp [val, hr]
        · rw [if_neg h, ← hv1 a]; simp [val, h]
      · intro a
        by_cases h : a = el
        · subst h; simp [rc, hr, her1]
        · rw [if_neg h, ← hr1 a]; simp [rc, h]
      · simpa using hb1
      · simpa using ha1
      · simp [hs1]
      · simpa using hc1

/-- Removing a linked node: the chain closes over it, the node keeps `NULL` links
and a cleared payload, or is released when the list held its last reference. -/
theorem linked_remove {l : LinkedList} {s t : List Nat} {el : Nat} {r : Int}
    (h : Linked l (s ++ el :: t)) (hrc : rc l el = some r) :
    ∃ l', node_remove_rt (some el) l = .ok l' ∧ Linked l' (s ++ t) ∧
      nxt l' el = none ∧ prv l' el = none ∧
      (∀ a, val l' a = if a = el then (if r = 1 then none else some .uninitialized)
        else val l a) ∧
      (∀ a, rc l' a = if a = el then (if r = 1 then none else some (r - 1)) else rc l a) ∧
      l'.brk = l.brk ∧ l'.avail = l.avail ∧ l'.size = size_t (l.size - 1) ∧
      l'.ref_count = l.ref_count := by
  obtain ⟨m1, m2, m3, m4⟩ := chain_mid h.chain
  have hnd : ((0 :: s) ++ el :: t).Nodup := h.nodup
  rw [List.nodup_middle] at hnd
  have hnotin : el ∉ 0 :: (s ++ t) := (List.nodup_cons.1 hnd).1
  have h1 : el ≠ s.getLastD 0 := by
    intro e
    rcases getLastD_eq_or_mem s 0 with h' | h'
    · exact hnotin (by rw [e, h']; exact List.mem_cons_self _ _)
    · exact hnotin (by rw [e]; exact List.mem_cons_of_mem _ (List.mem_append_left _ h'))
  have h2 : el ≠ t.headD 0 := by
    intro e
    rcases headD_eq_or_mem t 0 with h' | h'
    · exact hnotin (by rw [e, h']; exact List.mem_cons_self _ _)
    · exact hnotin (by rw [e]; exact List.mem_cons_of_mem _ (List.mem_append_right _ h'))
  obtain ⟨l', e1, hn1, hp1, hv1, hr1, hb1, ha1, hs1, hc1⟩ :=
    node_remove_views m2 m3 m1 m4 h1 h2 hrc
  refine ⟨l', e1, ⟨(List.nodup_cons.1 hnd).2, ?_, ?_, ?_⟩, by rw [hn1]; simp, by rw [hp1]; simp,
    hv1, hr1, hb1, ha1, hs1, hc1⟩
  · exact chain_delete h.chain h.nodup (List.nodup_cons.1 h.nodup).1 hn1 hp1
  · intro a ha
    rw [hb1] at ha
    have : el < l.brk := h.lt_brk (List.mem_cons_of_mem _ (by simp))
    rw [hv1, if_neg (by omega)]
    exact h.fresh a ha
  · rw [hb1]
    have := h.len
    simp only [List.length_append, List.length_cons] at this ⊢
    omega


/-! ## Traversals of a linked list -/

theorem walk_forward_chain {l : LinkedList} {g : Nat → Option Nat} :
    ∀ {s : List Nat} {x : Nat} {k : Nat}, Chain (nxt l) g x s 0 → 0 ∉ s →
    s.length < k → walk_forward l k (some (s.headD 0)) = .ok s
  | [], x, k + 1, _, _, _ => by
    simp [walk_forward]
    rfl
  | y :: ys, x, k + 1, h, h0, hlen => by
    have hy : y ≠ 0 := fun e => h0 (by simp [e])
    obtain ⟨n, hn, hnx⟩ := nxt_some (chain_headD h.2.2)
    have ih := walk_forward_chain (k := k) h.2.2
      (fun hm => h0 (List.mem_cons_of_mem _ hm)) (by simp at hlen; omega)
    simp only [List.headD_eq_head?_getD] at ih
    simp [walk_forward, hy, load, hn, hnx, ih, bind, Except.bind, pure, Except.pure]

theorem Linked.nodes_eq {l : LinkedList} {ps : List Nat} (h : Linked l ps) :
    nodes l = .ok ps := by
  obtain ⟨n, hn, hnx, _⟩ := h.head_mem
  have := walk_forward_chain (k := l.brk) h.chain (List.nodup_cons.1 h.nodup).1 h.len
  simp only [List.headD_eq_head?_getD] at this
  simp [nodes, load, hn, hnx, this, bind, Except.bind]

theorem values_at_eq {l : LinkedList} : ∀ {s : List Nat},
    (∀ a ∈ s, ∃ n, l.mem a = some n) → values_at l s = .ok (vals l s)
  | [], _ => rfl
  | a :: s, h => by
    obtain ⟨n, hn⟩ := h a (by simp)
    have ih := values_at_eq (l := l) (s := s) (fun b hb => h b (List.mem_cons_of_mem _ hb))
    simp [values_at, load, hn, ih, vals, val, bind, Except.bind, pure, Except.pure]

theorem Linked.toList_eq {l : LinkedList} {ps : List Nat} (h : Linked l ps) :
    toList l = .ok (vals l ps) := by
  have := values_at_eq (l := l) (s := ps) (fun a ha => h.alloc (List.mem_cons_of_mem _ ha))
  simp [toList, h.nodes_eq, this, bind, Except.bind]

theorem Linked.count_forward_eq {l : LinkedList} {ps : List Nat} (h : Linked l ps) :
    count_forward l = .ok ps.length := by
  simp [count_forward, h.nodes_eq, bind, Except.bind, pure, Except.pure]

/-- Two node sequences of the same list coincide. -/
theorem Linked.unique {l : LinkedList} {ps qs : List Nat} (h : Linked l ps)
    (h' : Linked l qs) : ps = qs := by
  have := h.nodes_eq
  rw [h'.nodes_eq] at this
  exact (Except.ok.inj this).symm

theorem vals_length (l : LinkedList) (ps : List Nat) : (vals l ps).length = ps.length := by
  simp [vals]

theorem vals_append (l : LinkedList) (s t : List Nat) :
    vals l (s ++ t) = vals l s ++ vals l t := by
  simp [vals]

theorem vals_cons (l : LinkedList) (a : Nat) (s : List Nat) :
    vals l (a :: s) = (val l a).getD .uninitialized :: vals l s := rfl

theorem vals_congr {l l' : LinkedList} {ps : List Nat} (h : ∀ a ∈ ps, val l' a = val l a) :
    vals l' ps = vals l ps := by
  unfold vals
  exact List.map_congr_left (fun a ha => by rw [h a ha])

theorem Linked.front {l : LinkedList} {ps : List Nat} (h : Linked l ps) :
    list_front l = .ok ps.head? := by
  obtain ⟨n, hn, hnx, _⟩ := h.head_mem
  cases ps with
  | nil => simp [list_front, load, hn, hnx, bind, Except.bind, pure, Except.pure]
  | cons y ys =>
    have hy : y ≠ 0 := fun e => (List.nodup_cons.1 h.nodup).1 (by simp [e])
    simp [list_front, load, hn, hnx, hy, bind, Except.bind, pure, Except.pure]

theorem Linked.back {l : LinkedList} {ps : List Nat} (h : Linked l ps) :
    list_back l = .ok ps.getLast? := by
  obtain ⟨n, hn, _, hpv⟩ := h.head_mem
  rw [List.getLastD_eq_getLast?] at hpv
  cases hg : ps.getLast? with
  | none =>
    rw [hg] at hpv
    simp [list_back, load, hn, hpv, bind, Except.bind, pure, Except.pure]
  | some y =>
    rw [hg] at hpv
    have hy : y ≠ 0 := fun e =>
      (List.nodup_cons.1 h.nodup).1 (by rw [← e]; exact List.mem_of_getLast?_eq_some hg)
    simp [list_back, load, hn, hpv, hy, bind, Except.bind, pure, Except.pure]

theorem list_at_forward_loop_chain {l : LinkedList} {g : Nat → Option Nat} (index : Int) :
    ∀ {s : List Nat} {x : Nat} {k : Nat} (i : Int), Chain (nxt l) g x s 0 → 0 ∉ s →
    s.length < k →
    list_at_forward_loop l index k (some (s.headD 0)) i =
      .ok (if index < i then none else s[(index - i).toNat]?)
  | [], x, k + 1, i, _, _, _ => by
    simp [list_at_forward_loop, pure, Except.pure]
  | y :: ys, x, k + 1, i, h, h0, hlen => by
    have hy : y ≠ 0 := fun e => h0 (by simp [e])
    obtain ⟨n, hn, hnx⟩ := nxt_some (chain_headD h.2.2)
    have ih := list_at_forward_loop_chain index (k := k) (i + 1) h.2.2
      (fun hm => h0 (List.mem_cons_of_mem _ hm)) (by simp at hlen; omega)
    by_cases hi : i = index
    · subst hi
      simp [list_at_forward_loop, hy, pure, Except.pure]
    · simp only [list_at_forward_loop, List.headD_cons, Option.some.injEq, hy, if_false, hi,
        load, hn, bind, Except.bind, hnx, ih]
      congr 1
      by_cases hlt : index < i
      · rw [if_pos hlt, if_pos (by omega)]
      · rw [if_neg hlt, if_neg (by omega)]
        have : (index - i).toNat = (index - (i + 1)).toNat + 1 := by omega
        rw [this, List.getElem?_cons_succ]

theorem list_at_reverse_loop_chain {l : LinkedList} {g : Nat → Option Nat} (index : Int) :
    ∀ {s : List Nat} {x : Nat} {k : Nat} (i : Int), Chain (prv l) g x s 0 → 0 ∉ s →
    s.length < k →
    list_at_reverse_loop l index k (some (s.headD 0)) i =
      .ok (if index < i then none else s[(index - i).toNat]?)
  | [], x, k + 1, i, _, _, _ => by
    simp [list_at_reverse_loop, pure, Except.pure]
  | y :: ys, x, k + 1, i, h, h0, hlen => by
    have hy : y ≠ 0 := fun e => h0 (by simp [e])
    obtain ⟨n, hn, hnx⟩ := prv_some (chain_headD h.2.2)
    have ih := list_at_reverse_loop_chain index (k := k) (i + 1) h.2.2
      (fun hm => h0 (List.mem_cons_of_mem _ hm)) (by simp at hlen; omega)
    by_cases hi : i = index
    · subst hi
      simp [list_at_reverse_loop, hy, pure, Except.pure]
    · simp only [list_at_reverse_loop, List.headD_cons, Option.some.injEq, hy, if_false, hi,
        load, hn, bind, Except.bind, hnx, ih]
      congr 1
      by_cases hlt : index < i
      · rw [if_pos hlt, if_pos (by omega)]
      · rw [if_neg hlt, if_neg (by omega)]
        have : (index - i).toNat = (index - (i + 1)).toNat + 1 := by omega
        rw [this, List.getElem?_cons_succ]

theorem Linked.at_forward {l : LinkedList} {ps : List Nat} (h : Linked l ps) (index : Int) :
    list_at_forward l index = .ok (if index < 0 then none else ps[index.toNat]?) := by
  obtain ⟨n, hn, hnx, _⟩ := h.head_mem
  have := list_at_forward_loop_chain index (k := l.brk) 0 h.chain
    (List.nodup_cons.1 h.nodup).1 h.len
  simp only [list_at_forward, load, hn, bind, Except.bind, hnx, this, sub_zero]

theorem Linked.at_reverse {l : LinkedList} {ps : List Nat} (h : Linked l ps) (index : Int) :
    list_at_reverse l index = .ok (if index < 0 then none else ps.reverse[index.toNat]?) := by
  obtain ⟨n, hn, _, hpv⟩ := h.head_mem
  have hc := chain_reverse h.chain
  have hh : ps.reverse.headD 0 = ps.getLastD 0 := by
    rw [List.getLastD_eq_getLast?, List.headD_eq_head?_getD, List.head?_reverse]
  have := list_at_reverse_loop_chain index (k := l.brk) 0 hc
    (by simpa using (List.nodup_cons.1 h.nodup).1) (by simpa using h.len)
  rw [hh] at this
  simp only [list_at_reverse, load, hn, bind, Except.bind, hpv, this, sub_zero]


/-! ## Machine integers -/

theorem int64_of_range {x : Int} (h1 : -2 ^ 63 ≤ x) (h2 : x < 2 ^ 63) : int64 x = x := by
  unfold int64
  omega

theorem size_t_of_range {x : Int} (h1 : 0 ≤ x) (h2 : x < 2 ^ 64) : size_t x = x.toNat := by
  unfold size_t
  rw [Int.emod_eq_of_lt h1 h2]

theorem int64_range (x : Int) : -2 ^ 63 ≤ int64 x ∧ int64 x < 2 ^ 63 := by
  unfold int64
  omega

theorem WF.size_lt {l : LinkedList} {ps : List Nat} (h : WF l ps) : l.size < 2 ^ 63 := by
  have h1 := h.len
  have h2 := h.cap
  have h3 := h.size_eq
  omega

theorem WF.int64_size {l : LinkedList} {ps : List Nat} (h : WF l ps) :
    int64 l.size = ps.length := by
  have := h.size_lt
  rw [int64_of_range (by omega) (by exact_mod_cast this), h.size_eq]

/-! ## `list_at` -/

theorem nth?_reverse {α : Type} (xs : List α) (i : Int) (h0 : 0 ≤ i) (h1 : i < xs.length) :
    nth? xs.reverse ((xs.length : Int) - 1 - i) = nth? xs i := by
  unfold nth?
  rw [if_neg (by omega), if_neg (by omega)]
  have hi : ((xs.length : Int) - 1 - i).toNat < xs.length := by omega
  rw [List.getElem?_reverse hi]
  congr 1
  omega

/-- `list_at` returns the node at the normalised index, whichever end it walks
from, and `NULL` outside of the list. -/
theorem WF.list_at_eq {l : LinkedList} {ps : List Nat} (h : WF l ps) {j : Int}
    (h1 : -2 ^ 63 ≤ j) (h2 : j < 2 ^ 63) :
    list_at l j = .ok (nth? ps (norm_index ps.length j)) := by
  have hs := h.size_lt
  have hsz := h.size_eq
  have hi64 := h.int64_size
  have hidx : (if j < 0 then int64 (j + l.size) else j) =
      norm_index ps.length j := by
    unfold norm_index
    split_ifs
    · rw [int64_of_range (by omega) (by omega), hsz]
    · rfl
  unfold list_at
  simp only [hidx, hi64]
  generalize hi : norm_index ps.length j = i
  have hir : -2 ^ 63 ≤ i ∧ i < 2 ^ 64 := by
    rw [← hi]; unfold norm_index; split_ifs <;> omega
  by_cases hlt : i < ps.length
  · rw [if_pos hlt]
    by_cases h0 : 0 ≤ i
    · have hfb : int64 ((l.size : Int) - 1 - i) = (ps.length : Int) - 1 - i := by
        rw [int64_of_range (by omega) (by omega), hsz]
      rw [hfb]
      split_ifs
      · rw [h.toLinked.at_reverse]
        have := nth?_reverse ps i h0 hlt
        unfold nth? at this ⊢
        exact congrArg _ this
      · rw [h.toLinked.at_forward]
        rfl
    · have hneg : i < 0 := by omega
      have hfr := int64_range ((l.size : Int) - 1 - i)
      split_ifs
      · rw [h.toLinked.at_reverse, if_pos (by omega)]
        simp [nth?, hneg]
      · rw [h.toLinked.at_forward, if_pos hneg]
        simp [nth?, hneg]
  · rw [if_neg hlt]
    have : ps[i.toNat]? = none := by
      rw [List.getElem?_eq_none_iff]; omega
    simp [nth?, this, pure, Except.pure]


/-! ## Well-formed lists: creation, insertion, removal -/

theorem list_new_wf {ctx : Nat} (h0 : ctx ≠ 0) (h1 : ctx < 2 ^ 63) :
    ∃ l, list_new ctx = some l ∧ WF l [] ∧ l.avail = ctx - 1 ∧ l.ref_count = 1 := by
  refine ⟨_, by simp [list_new, h0]; rfl, ?_, rfl, rfl⟩
  refine ⟨⟨by simp, ?_, ?_, ?_⟩, rfl, ?_, by simp⟩
  · simp [Chain, nxt, prv, init_list_head]
  · intro a ha
    have : a ≠ 0 := by
      simp [init_list_head] at ha
      omega
    simp [val, init_list_head, this]
  · simp [init_list_head]
  · simp [init_list_head]
    omega

theorem WF.mem_lt_brk {l : LinkedList} {ps : List Nat} (h : WF l ps) {a : Nat} (ha : a ∈ ps) :
    a < l.brk :=
  h.toLinked.lt_brk (List.mem_cons_of_mem _ ha)

/-- Insertion at a cut of a well-formed list, when memory is available. -/
theorem wf_insert_cut {l : LinkedList} {s t : List Nat} (v : JSValue)
    (h : WF l (s ++ t)) (hav : l.avail ≠ 0) :
    ∃ l', list_insert l (some (s.getLastD 0)) v = .ok (some l.brk, l') ∧
      WF l' (s ++ l.brk :: t) ∧
      vals l' (s ++ l.brk :: t) = vals l s ++ v :: vals l t ∧
      (∀ a, val l' a = if a = l.brk then some v else val l a) ∧
      (∀ a, rc l' a = if a = l.brk then some 1 else rc l a) ∧
      l'.avail = l.avail - 1 ∧ l'.brk = l.brk + 1 ∧ l'.ref_count = l.ref_count := by
  obtain ⟨l', e, hl, hv, hr, ha, hb, hc, hs⟩ := linked_insert_cut v h.toLinked hav
  have hsz := h.size_lt
  refine ⟨l', e, ⟨hl, ?_, ?_, ?_⟩, ?_, hv, hr, ha, hb, hc⟩
  · rw [hs, size_t_of_range (by omega) (by omega)]
    have := h.size_eq
    simp only [List.length_append, List.length_cons] at this ⊢
    omega
  · rw [hb, ha]
    have := h.cap
    omega
  · intro a ham
    rw [hr]
    by_cases e : a = l.brk
    · exact ⟨1, by simp [e], le_refl _⟩
    · rw [if_neg e]
      refine h.refs a ?_
      simp only [List.mem_append, List.mem_cons] at ham ⊢
      tauto
  · rw [vals_append, vals_cons, hv, if_pos rfl]
    have e1 : vals l' s = vals l s := vals_congr (fun a ha' => by
      rw [hv, if_neg]
      have := h.mem_lt_brk (List.mem_append_left _ ha'); omega)
    have e2 : vals l' t = vals l t := vals_congr (fun a ha' => by
      rw [hv, if_neg]
      have := h.mem_lt_brk (List.mem_append_right _ ha'); omega)
    rw [e1, e2]
    rfl

/-- `list_push` on a well-formed list, when memory is available. -/
theorem wf_push {l : LinkedList} {ps : List Nat} (v : JSValue) (h : WF l ps)
    (hav : l.avail ≠ 0) :
    ∃ l', list_push l v = .ok (some l.brk, l') ∧ WF l' (ps ++ [l.brk]) ∧
      vals l' (ps ++ [l.brk]) = vals l ps ++ [v] ∧
      (∀ a, val l' a = if a = l.brk then some v else val l a) ∧
      (∀ a, rc l' a = if a = l.brk then some 1 else rc l a) ∧
      l'.avail = l.avail - 1 ∧ l'.brk = l.brk + 1 ∧ l'.ref_count = l.ref_count := by
  rw [list_push_eq_insert v h.toLinked]
  have := wf_insert_cut (s := ps) (t := []) v (by simpa using h) hav
  simpa [vals] using this

/-- `list_unshift` on a well-formed list, when memory is available. -/
theorem wf_unshift {l : LinkedList} {ps : List Nat} (v : JSValue) (h : WF l ps)
    (hav : l.avail ≠ 0) :
    ∃ l', list_unshift l v = .ok (some l.brk, l') ∧ WF l' (l.brk :: ps) ∧
      vals l' (l.brk :: ps) = v :: vals l ps ∧
      (∀ a, val l' a = if a = l.brk then some v else val l a) ∧
      (∀ a, rc l' a = if a = l.brk then some 1 else rc l a) ∧
      l'.avail = l.avail - 1 ∧ l'.brk = l.brk + 1 ∧ l'.ref_count = l.ref_count := by
  rw [list_unshift_eq_insert v h.toLinked]
  have := wf_insert_cut (s := []) (t := ps) v (by simpa using h) hav
  simpa [vals] using this

theorem wf_push_oom {l : LinkedList} {ps : List Nat} (v : JSValue) (h : WF l ps)
    (hav : l.avail = 0) : list_push l v = .ok (none, l) := by
  rw [list_push_eq_insert v h.toLinked, list_insert_oom _ v hav]

theorem wf_unshift_oom {l : LinkedList} {ps : List Nat} (v : JSValue) (h : WF l ps)
    (hav : l.avail = 0) : list_unshift l v = .ok (none, l) := by
  rw [list_unshift_eq_insert v h.toLinked, list_insert_oom _ v hav]

/-- Removal of a linked node from a well-formed list. -/
theorem wf_remove {l : LinkedList} {s t : List Nat} {el : Nat}
    (h : WF l (s ++ el :: t)) :
    ∃ l' r, rc l el = some r ∧ 1 ≤ r ∧ node_remove_rt (some el) l = .ok l' ∧
      WF l' (s ++ t) ∧ vals l' (s ++ t) = vals l s ++ vals l t ∧
      nxt l' el = none ∧ prv l' el = none ∧
      (∀ a, val l' a = if a = el then (if r = 1 then none else some .uninitialized)
        else val l a) ∧
      (∀ a, rc l' a = if a = el then (if r = 1 then none else some (r - 1)) else rc l a) ∧
      l'.avail = l.avail ∧ l'.brk = l.brk ∧ l'.ref_count = l.ref_count := by
  obtain ⟨r, hr, hr1⟩ := h.refs el (by simp)
  obtain ⟨l', e, hl, hn, hp, hv, hrc, hb, ha, hs, hc⟩ := linked_remove h.toLinked hr
  have hnd : ((0 :: s) ++ el :: t).Nodup := h.nodup
  rw [List.nodup_middle] at hnd
  have hnotin : el ∉ s ++ t := fun hm =>
    (List.nodup_cons.1 hnd).1 (List.mem_cons_of_mem _ hm)
  have hsz := h.size_lt
  have hse := h.size_eq
  simp only [List.length_append, List.length_cons] at hse
  refine ⟨l', r, hr, hr1, e, ⟨hl, ?_, ?_, ?_⟩, ?_, hn, hp, hv, hrc, ha, hb, hc⟩
  · rw [hs, size_t_of_range (by omega) (by omega)]
    simp only [List.length_append]
    omega
  · rw [hb, ha]
    exact h.cap
  · intro a ham
    have hne : a ≠ el := fun e => hnotin (by rw [← e]; exact ham)
    rw [hrc, if_neg hne]
    refine h.refs a ?_
    simp only [List.mem_append, List.mem_cons] at ham ⊢
    tauto
  · rw [vals_append]
    have e1 : vals l' s = vals l s := vals_congr (fun a ha' => by
      have hne : a ≠ el := fun e => hnotin (by rw [← e]; exact List.mem_append_left _ ha')
      rw [hv, if_neg hne])
    have e2 : vals l' t = vals l t := vals_congr (fun a ha' => by
      have hne : a ≠ el := fun e => hnotin (by rw [← e]; exact List.mem_append_right _ ha')
      rw [hv, if_neg hne])
    rw [e1, e2]


/-! ## `at`: negative indices and the range error -/

theorem nth?_map {α β : Type} (f : α → β) (xs : List α) (i : Int) :
    nth? (xs.map f) i = (nth? xs i).map f := by
  unfold nth?
  split_ifs
  · rfl
  · rw [List.getElem?_map]

theorem nth?_mem {α : Type} {xs : List α} {i : Int} {a : α} (h : nth? xs i = some a) :
    a ∈ xs := by
  unfold nth? at h
  split_ifs at h
  exact List.getElem?_mem h

theorem nth?_eq_none_iff {α : Type} (xs : List α) (i : Int) :
    nth? xs i = none ↔ i < 0 ∨ (xs.length : Int) ≤ i := by
  unfold nth?
  split_ifs with h
  · simp [h]
  · rw [List.getElem?_eq_none_iff]
    omega

theorem norm_index_out_of_range (n : Nat) (i : Int) :
    (norm_index n i < 0 ∨ (n : Int) ≤ norm_index n i) ↔ (i ≥ n ∨ i < -(n : Int)) := by
  unfold norm_index
  split_ifs <;> omega


/-- `METHOD_AT` on a well-formed list, in terms of the element sequence. -/
theorem WF.method_at {l : LinkedList} {ps : List Nat} (h : WF l ps)
    (JS_ToInt64 : JSValue → Option Int) (argv : List JSValue) {i : Int}
    (hcv : JS_ToInt64 (argv.getD 0 .undefined) = some i)
    (h1 : -2 ^ 63 ≤ i) (h2 : i < 2 ^ 63) :
    METHOD_AT JS_ToInt64 l argv =
      .ok (match nth? (vals l ps) (norm_index ps.length i) with
        | some v => .value v
        | none => .range_error ("Index " ++ toString i ++ " is out of range"), l) := by
  unfold METHOD_AT
  rw [hcv]
  simp only []
  rw [h.list_at_eq h1 h2]
  unfold vals
  rw [nth?_map]
  cases hn : nth? ps (norm_index ps.length i) with
  | none => rfl
  | some a =>
    obtain ⟨n, hm⟩ := h.toLinked.alloc (List.mem_cons_of_mem _ (nth?_mem hn))
    simp [load, hm, val, bind, Except.bind, pure, Except.pure]

/-- A valid list with element sequence `vs`: its node sequence, and its size. -/
theorem Valid.unfold {l : LinkedList} {vs : List JSValue} (hv : Valid l)
    (ht : toList l = .ok vs) : ∃ ps, WF l ps ∧ vs = vals l ps ∧ ps.length = vs.length ∧
      l.size = vs.length := by
  obtain ⟨ps, h⟩ := hv
  have hvs : vs = vals l ps := by
    rw [h.toLinked.toList_eq] at ht
    exact (Except.ok.inj ht).symm
  exact ⟨ps, h, hvs, by rw [hvs, vals_length], by rw [hvs, vals_length, h.size_eq]⟩

theorem WF.valid {l : LinkedList} {ps : List Nat} (h : WF l ps) : Valid l := ⟨ps, h⟩

theorem nth?_of_lt {α : Type} (xs : List α) (i : Int) (h0 : 0 ≤ i) (h1 : i < xs.length) :
    ∃ v, nth? xs i = some v ∧ xs[i.toNat]? = some v := by
  have hlt : i.toNat < xs.length := by omega
  refine ⟨xs[i.toNat], ?_, List.getElem?_eq_getElem hlt⟩
  unfold nth?
  rw [if_neg (by omega), List.getElem?_eq_getElem hlt]


/-! ## Indexed writes -/

theorem pad_tail_wf : ∀ (k : Nat) {l : LinkedList} {ps : List Nat}, WF l ps → k ≤ l.avail →
    ∃ l' qs, pad_tail k l = .ok l' ∧ WF l' (ps ++ qs) ∧ qs.length = k ∧
      vals l' (ps ++ qs) = vals l ps ++ List.replicate k .undefined ∧
      l'.avail = l.avail - k ∧ l'.ref_count = l.ref_count
  | 0, l, ps, h, _ => ⟨l, [], rfl, by simpa using h, rfl, by simp, rfl, rfl⟩
  | k + 1, l, ps, h, hk => by
    obtain ⟨l1, e1, h1, hv1, -, -, ha1, -, hc1⟩ := wf_push .undefined h (by omega)
    obtain ⟨l2, qs, e2, h2, hq, hv2, ha2, hc2⟩ := pad_tail_wf k h1 (by omega)
    refine ⟨l2, l.brk :: qs, ?_, by simpa using h2, by simp [hq], ?_, by omega, by rw [hc2, hc1]⟩
    · simp only [pad_tail, e1, bind, Except.bind]
      exact e2
    · have : ps ++ l.brk :: qs = ps ++ [l.brk] ++ qs := by simp
      rw [this, hv2, hv1, List.replicate_succ]
      simp

theorem pad_head_wf : ∀ (k : Nat) {l : LinkedList} {ps : List Nat}, WF l ps → k ≤ l.avail →
    ∃ l' qs, pad_head k l = .ok l' ∧ WF l' (qs ++ ps) ∧ qs.length = k ∧
      vals l' (qs ++ ps) = List.replicate k .undefined ++ vals l ps ∧
      l'.avail = l.avail - k ∧ l'.ref_count = l.ref_count
  | 0, l, ps, h, _ => ⟨l, [], rfl, by simpa using h, rfl, by simp, rfl, rfl⟩
  | k + 1, l, ps, h, hk => by
    obtain ⟨l1, e1, h1, hv1, -, -, ha1, -, hc1⟩ := wf_unshift .undefined h (by omega)
    obtain ⟨l2, qs, e2, h2, hq, hv2, ha2, hc2⟩ := pad_head_wf k h1 (by omega)
    refine ⟨l2, qs ++ [l.brk], ?_, by simpa using h2, by simp [hq], ?_, by omega,
      by rw [hc2, hc1]⟩
    · simp only [pad_head, e1, bind, Except.bind]
      exact e2
    · have : qs ++ [l.brk] ++ ps = qs ++ l.brk :: ps := by simp
      rw [this, hv2, hv1, List.replicate_succ']
      simp

/-- Overwriting the payload of an allocated cell changes that payload only. -/
theorem set_value_views {l : LinkedList} {a : Nat} {n : Node} (v : JSValue)
    (hm : l.mem a = some n) :
    ∃ l', update l (some a) (fun n => { n with value := v }) = .ok l' ∧
      (∀ x, nxt l' x = nxt l x) ∧ (∀ x, prv l' x = prv l x) ∧
      (∀ x, val l' x = if x = a then some v else val l x) ∧ (∀ x, rc l' x = rc l x) ∧
      l'.brk = l.brk ∧ l'.avail = l.avail ∧ l'.size = l.size ∧
      l'.ref_count = l.ref_count := by
  refine ⟨_, update_some _ hm, ?_, ?_, ?_, ?_, rfl, rfl, rfl, rfl⟩ <;> intro x <;>
    by_cases h : x = a <;> simp [nxt, prv, val, rc, h, hm]

theorem WF.transfer {l l' : LinkedList} {ps : List Nat} (h : WF l ps)
    (hn : ∀ a, nxt l' a = nxt l a) (hp : ∀ a, prv l' a = prv l a)
    (hv : ∀ a, l.brk ≤ a → val l' a = none) (hr : ∀ a ∈ ps, rc l' a = rc l a)
    (hb : l'.brk = l.brk) (ha : l'.avail = l.avail) (hs : l'.size = l.size) : WF l' ps where
  toLinked := h.toLinked.of_views hn hp hv hb
  size_eq := by rw [hs]; exact h.size_eq
  cap := by rw [hb, ha]; exact h.cap
  refs := fun a ham => by rw [hr a ham]; exact h.refs a ham

theorem map_update_nodup {β : Type} (f : Nat → β) (v : β) :
    ∀ (ps : List Nat) (i : Nat) (a : Nat), ps.Nodup → ps[i]? = some a →
    ps.map (fun x => if x = a then v else f x) = (ps.map f).set i v
  | [], i, a, _, h => by simp at h
  | p :: ps, 0, a, hnd, h => by
    simp at h
    subst h
    simp only [List.map_cons, List.set_cons_zero, if_true]
    congr 1
    refine List.map_congr_left (fun x hx => ?_)
    have : x ≠ p := fun e => (List.nodup_cons.1 hnd).1 (e ▸ hx)
    rw [if_neg this]
  | p :: ps, i + 1, a, hnd, h => by
    simp at h
    have hne : p ≠ a := fun e =>
      (List.nodup_cons.1 hnd).1 (by rw [e]; exact List.getElem?_mem h)
    simp only [List.map_cons, List.set_cons_succ, if_neg hne]
    congr 1
    exact map_update_nodup f v ps i a (List.nodup_cons.1 hnd).2 h

/-- The in-range branch of `js_list_set_property`: the node at the index gets the
new payload, nothing else changes. -/
theorem WF.set_in_range {l : LinkedList} {ps : List Nat} (h : WF l ps) (i : Int)
    (v : JSValue) (h0 : 0 ≤ i) (h1 : i < ps.length) :
    ∃ l', js_list_set_property l (some i) v = .ok (true, l') ∧ WF l' ps ∧
      vals l' ps = (vals l ps).set i.toNat v ∧ l'.avail = l.avail ∧
      l'.ref_count = l.ref_count := by
  have hs := h.size_lt
  have hse := h.size_eq
  have hat := h.list_at_eq (j := i) (by omega) (by omega)
  have hni : norm_index ps.length i = i := by unfold norm_index; rw [if_neg (by omega)]
  rw [hni] at hat
  obtain ⟨a, ha, ha'⟩ := nth?_of_lt ps i h0 h1
  rw [ha] at hat
  obtain ⟨n, hm⟩ := h.toLinked.alloc (List.mem_cons_of_mem _ (nth?_mem ha))
  obtain ⟨l', e, hn, hp, hv, hr, hb, hav, hsz, hc⟩ := set_value_views v hm
  refine ⟨l', ?_, ?_, ?_, hav, hc⟩
  · unfold js_list_set_property
    simp only []
    rw [if_neg (by rw [h.int64_size]; omega), if_neg (by omega), hat]
    simp only [bind, Except.bind, e, pure, Except.pure]
  · refine h.transfer hn hp (fun x hx => ?_) (fun x _ => hr x) hb hav hsz
    have := h.mem_lt_brk (nth?_mem ha)
    rw [hv, if_neg (by omega)]
    exact h.fresh x hx
  · unfold vals
    rw [← map_update_nodup _ _ ps i.toNat a (List.nodup_cons.1 h.nodup).2 ha']
    refine List.map_congr_left (fun x _ => ?_)
    rw [hv]
    by_cases hx : x = a <;> simp [hx]


/-! ## Rotation -/

/-- One turn of the loop `while(index > 0)`: the tail node is relinked at the
head; no field of the list and no payload changes. -/
theorem wf_rotate_back_step {l : LinkedList} {qs : List Nat} {b : Nat}
    (h : WF l (qs ++ [b])) :
    ∃ l', (do
        let node ← list_back l
        let l1 ← list_del l node
        list_add l1 node (some 0)) = .ok l' ∧
      WF l' (b :: qs) ∧ vals l' (b :: qs) = vals l [b] ++ vals l qs ∧
      l'.avail = l.avail ∧ l'.brk = l.brk ∧ l'.ref_count = l.ref_count ∧
      (∀ a, rc l' a = rc l a) := by
  have hback : list_back l = .ok (some b) := by
    rw [h.toLinked.back]; simp
  obtain ⟨m1, m2, m3, m4⟩ := chain_mid h.chain
  simp only [List.headD_nil] at m3 m4
  have hnd : ((0 :: qs) ++ b :: []).Nodup := h.nodup
  rw [List.nodup_middle] at hnd
  simp only [List.append_nil] at hnd
  have hnotin : b ∉ 0 :: qs := (List.nodup_cons.1 hnd).1
  have hb0 : b ≠ 0 := fun e => hnotin (by simp [e])
  have h1 : b ≠ qs.getLastD 0 := by
    intro e
    rcases getLastD_eq_or_mem qs 0 with h' | h'
    · exact hnotin (by rw [e, h']; exact List.mem_cons_self _ _)
    · exact hnotin (by rw [e]; exact List.mem_cons_of_mem _ h')
  obtain ⟨l1, e1, hn1, hp1, hv1, hr1, hb1, ha1, hs1, hc1⟩ :=
    list_del_views m2 m3 m1 m4 h1 hb0
  have hch1 : Chain (nxt l1) (prv l1) 0 qs 0 := by
    have := chain_delete (s := qs) (t := []) h.chain h.nodup
      (List.nodup_cons.1 h.nodup).1 hn1 hp1
    simpa using this
  obtain ⟨eb, hmb⟩ := h.toLinked.alloc (a := b) (by simp)
  have hmb1 : ∃ e, l1.mem b = some e := by
    have := hv1 b
    cases hm : l1.mem b with
    | none => simp [val, hm, hmb] at this
    | some e => exact ⟨e, rfl⟩
  obtain ⟨e1b, hmb1⟩ := hmb1
  have hcut := chain_cut (s := []) (t := qs) (by simpa using hch1)
  simp only [List.getLastD_nil] at hcut
  have h2 : b ≠ qs.headD 0 := by
    intro e
    rcases headD_eq_or_mem qs 0 with h' | h'
    · exact hb0 (by rw [e, h'])
    · exact hnotin (by rw [e]; exact List.mem_cons_of_mem _ h')
  obtain ⟨l2, e2, hn2, hp2, hv2, hr2, hb2, ha2, hs2, hc2⟩ :=
    list_add_between_views hmb1 hcut.1 hcut.2 hb0 h2
  obtain ⟨nh, hnh, hnhx⟩ := nxt_some hcut.1
  have hval : ∀ a, val l2 a = val l a := fun a => by rw [hv2, hv1]
  have hnd0 : (0 :: qs).Nodup := (List.nodup_cons.1 hnd).2
  have hnd' : (0 :: b :: qs).Nodup := by
    refine List.nodup_cons.2 ⟨?_, List.nodup_cons.2
      ⟨fun hm => hnotin (List.mem_cons_of_mem _ hm), (List.nodup_cons.1 hnd0).2⟩⟩
    intro hm
    rcases List.mem_cons.1 hm with h' | h'
    · exact hb0 h'.symm
    · exact (List.nodup_cons.1 hnd0).1 h'
  refine ⟨l2, ?_, ⟨⟨hnd', ?_, ?_, ?_⟩, ?_, ?_, ?_⟩, ?_, ?_, ?_, ?_, ?_⟩
  · simp only [hback, bind, Except.bind, e1, list_add, load, hnh, hnhx]
    exact e2
  · have := chain_insert (s := []) (t := qs) (c := b) (by simpa using hch1)
      (by simpa using (List.nodup_cons.1 hnd).2)
      (by simpa using (List.nodup_cons.1 (List.nodup_cons.1 hnd).2).1)
      (by simpa using hnotin) hb0 (by simpa using hn2) (by simpa using hp2)
    simpa using this
  · intro a ha
    rw [hb2, hb1] at ha
    rw [hval]
    exact h.fresh a ha
  · rw [hb2, hb1]
    have := h.len
    simp only [List.length_append, List.length_cons, List.length_nil] at this ⊢
    omega
  · rw [hs2, hs1, h.size_eq]
    simp
  · rw [hb2, hb1, ha2, ha1]
    exact h.cap
  · intro a ham
    rw [hr2, hr1]
    exact h.refs a (by simp at ham ⊢; tauto)
  · show vals l2 ([b] ++ qs) = _
    rw [vals_append]
    exact congrArg₂ _ (vals_congr (fun a _ => hval a)) (vals_congr (fun a _ => hval a))
  · rw [ha2, ha1]
  · rw [hb2, hb1]
  · rw [hc2, hc1]
  · intro a; rw [hr2, hr1]

/-- One turn of the loop `while(index < 0)`: the head node is relinked at the
tail; no field of the list and no payload changes. -/
theorem wf_rotate_front_step {l : LinkedList} {qs : List Nat} {b : Nat}
    (h : WF l (b :: qs)) :
    ∃ l', (do
        let node ← list_front l
        let l1 ← list_del l node
        list_add_tail l1 node (some 0)) = .ok l' ∧
      WF l' (qs ++ [b]) ∧ vals l' (qs ++ [b]) = vals l qs ++ vals l [b] ∧
      l'.avail = l.avail ∧ l'.brk = l.brk ∧ l'.ref_count = l.ref_count ∧
      (∀ a, rc l' a = rc l a) := by
  have hfront : list_front l = .ok (some b) := by
    rw [h.toLinked.front]; simp
  obtain ⟨m1, m2, m3, m4⟩ := chain_mid (s := []) (by simpa using h.chain)
  simp only [List.getLastD_nil] at m1 m2
  have hnd : (0 :: b :: qs).Nodup := h.nodup
  have hnd0 : (0 :: qs).Nodup := by
    refine List.nodup_cons.2 ⟨fun hm => (List.nodup_cons.1 hnd).1 (List.mem_cons_of_mem _ hm),
      (List.nodup_cons.1 (List.nodup_cons.1 hnd).2).2⟩
  have hbq : b ∉ qs := (List.nodup_cons.1 (List.nodup_cons.1 hnd).2).1
  have hb0 : b ≠ 0 := fun e => (List.nodup_cons.1 hnd).1 (by simp [e])
  have hnotin : b ∉ 0 :: qs := fun hm => by
    rcases List.mem_cons.1 hm with h' | h'
    · exact hb0 h'
    · exact hbq h'
  have h2 : b ≠ qs.headD 0 := by
    intro e
    rcases headD_eq_or_mem qs 0 with h' | h'
    · exact hb0 (by rw [e, h'])
    · exact hbq (by rw [e]; exact h')
  obtain ⟨l1, e1, hn1, hp1, hv1, hr1, hb1, ha1, hs1, hc1⟩ :=
    list_del_views m2 m3 m1 m4 hb0 h2
  have hch1 : Chain (nxt l1) (prv l1) 0 qs 0 := by
    have := chain_delete (s := []) (t := qs) (c := b) (by simpa using h.chain)
      (by simpa using h.nodup) (by simpa using (List.nodup_cons.1 h.nodup).1)
      (by simpa using hn1) (by simpa using hp1)
    simpa using this
  obtain ⟨eb, hmb⟩ := h.toLinked.alloc (a := b) (by simp)
  have hmb1 : ∃ e, l1.mem b = some e := by
    have := hv1 b
    cases hm : l1.mem b with
    | none => simp [val, hm, hmb] at this
    | some e => exact ⟨e, rfl⟩
  obtain ⟨e1b, hmb1⟩ := hmb1
  have hcut := chain_cut (s := qs) (t := []) (by simpa using hch1)
  simp only [List.headD_nil] at hcut
  have h1 : b ≠ qs.getLastD 0 := by
    intro e
    rcases getLastD_eq_or_mem qs 0 with h' | h'
    · exact hb0 (by rw [e, h'])
    · exact hbq (by rw [e]; exact h')
  obtain ⟨l2, e2, hn2, hp2, hv2, hr2, hb2, ha2, hs2, hc2⟩ :=
    list_add_between_views hmb1 hcut.1 hcut.2 h1 hb0
  obtain ⟨nh, hnh, hnhx⟩ := prv_some hcut.2
  have hval : ∀ a, val l2 a = val l a := fun a => by rw [hv2, hv1]
  have hnd' : (0 :: (qs ++ [b])).Nodup := by
    have : (0 :: (qs ++ [b])) = (0 :: qs) ++ b :: [] := rfl
    rw [this, List.nodup_middle]
    simpa using List.nodup_cons.2 ⟨hnotin, hnd0⟩
  refine ⟨l2, ?_, ⟨⟨hnd', ?_, ?_, ?_⟩, ?_, ?_, ?_⟩, ?_, ?_, ?_, ?_, ?_⟩
  · simp only [hfront, bind, Except.bind, e1, list_add_tail, load, hnh, hnhx]
    exact e2
  · have := chain_insert (s := qs) (t := []) (c := b) (by simpa using hch1)
      (by simpa using hnd0) (by simpa using (List.nodup_cons.1 hnd0).1)
      (by simpa using hnotin) hb0 (by simpa using hn2) (by simpa using hp2)
    simpa using this
  · intro a ha
    rw [hb2, hb1] at ha
    rw [hval]
    exact h.fresh a ha
  · rw [hb2, hb1]
    have := h.len
    simp only [List.length_append, List.length_cons, List.length_nil] at this ⊢
    omega
  · rw [hs2, hs1, h.size_eq]
    simp
  · rw [hb2, hb1, ha2, ha1]
    exact h.cap
  · intro a ham
    rw [hr2, hr1]
    exact h.refs a (by simp at ham ⊢; tauto)
  · rw [vals_append]
    exact congrArg₂ _ (vals_congr (fun a _ => hval a)) (vals_congr (fun a _ => hval a))
  · rw [ha2, ha1]
  · rw [hb2, hb1]
  · rw [hc2, hc1]
  · intro a; rw [hr2, hr1]

theorem rotate_back_loop_wf : ∀ (m : Nat) {l : LinkedList} {ps : List Nat}, WF l ps →
    ps ≠ [] →
    ∃ l' ps', rotate_back_loop m l = .ok l' ∧ WF l' ps' ∧ ps'.length = ps.length ∧
      (vals l' ps').rotate m = vals l ps ∧ l'.avail = l.avail ∧ l'.brk = l.brk ∧
      l'.ref_count = l.ref_count ∧ (∀ a, rc l' a = rc l a)
  | 0, l, ps, h, _ => ⟨l, ps, rfl, h, rfl, by simp, rfl, rfl, rfl, fun _ => rfl⟩
  | m + 1, l, ps, h, hne => by
    rcases List.eq_nil_or_concat ps with e | ⟨qs, b, e⟩
    · exact absurd e hne
    · rw [List.concat_eq_append] at e
      subst e
      obtain ⟨l1, e1, h1, hv1, ha1, hb1, hc1, hr1⟩ := wf_rotate_back_step h
      obtain ⟨l2, ps2, e2, h2, hl2, hv2, ha2, hb2, hc2, hr2⟩ :=
        rotate_back_loop_wf m h1 (by simp)
      refine ⟨l2, ps2, ?_, h2, by simp [hl2], ?_, by rw [ha2, ha1], by rw [hb2, hb1],
        by rw [hc2, hc1], fun a => by rw [hr2, hr1]⟩
      · have e1' := e1
        simp only [bind, Except.bind] at e1'
        unfold rotate_back_loop
        simp only [bind, Except.bind]
        cases hb : list_back l with
        | error f => rw [hb] at e1'; exact absurd e1' (by simp)
        | ok node =>
          rw [hb] at e1'
          simp only [] at e1' ⊢
          cases hd : list_del l node with
          | error f => rw [hd] at e1'; exact absurd e1' (by simp)
          | ok l1' =>
            rw [hd] at e1'
            simp only [] at e1' ⊢
            rw [e1']
            exact e2
      · rw [← List.rotate_rotate, hv2, hv1, vals_append]
        simp [vals, List.rotate_cons_succ]

theorem rotate_front_loop_wf : ∀ (m : Nat) {l : LinkedList} {ps : List Nat}, WF l ps →
    ps ≠ [] →
    ∃ l' ps', rotate_front_loop m l = .ok l' ∧ WF l' ps' ∧ ps'.length = ps.length ∧
      vals l' ps' = (vals l ps).rotate m ∧ l'.avail = l.avail ∧ l'.brk = l.brk ∧
      l'.ref_count = l.ref_count ∧ (∀ a, rc l' a = rc l a)
  | 0, l, ps, h, _ => ⟨l, ps, rfl, h, rfl, by simp, rfl, rfl, rfl, fun _ => rfl⟩
  | m + 1, l, ps, h, hne => by
    cases ps with
    | nil => exact absurd rfl hne
    | cons b qs =>
      obtain ⟨l1, e1, h1, hv1, ha1, hb1, hc1, hr1⟩ := wf_rotate_front_step h
      obtain ⟨l2, ps2, e2, h2, hl2, hv2, ha2, hb2, hc2, hr2⟩ :=
        rotate_front_loop_wf m h1 (by simp)
      refine ⟨l2, ps2, ?_, h2, by simp [hl2], ?_, by rw [ha2, ha1], by rw [hb2, hb1],
        by rw [hc2, hc1], fun a => by rw [hr2, hr1]⟩
      · have e1' := e1
        simp only [bind, Except.bind] at e1'
        unfold rotate_front_loop
        simp only [bind, Except.bind]
        cases hb : list_front l with
        | error f => rw [hb] at e1'; exact absurd e1' (by simp)
        | ok node =>
          rw [hb] at e1'
          simp only [] at e1' ⊢
          cases hd : list_del l node with
          | error f => rw [hd] at e1'; exact absurd e1' (by simp)
          | ok l1' =>
            rw [hd] at e1'
            simp only [] at e1' ⊢
            rw [e1']
            exact e2
      · rw [hv2, hv1]
        simp [vals, List.rotate_cons_succ]

theorem tmod_bounds (k : Int) (n : Nat) (hn : 0 < n) :
    -(n : Int) < k.tmod n ∧ k.tmod n < n := by
  have hlt := Int.tmod_lt_of_pos k (b := (n : Int)) (by omega)
  refine ⟨?_, hlt⟩
  rcases Int.le_total 0 k with h | h
  · have := Int.tmod_nonneg (n : Int) h
    omega
  · have h1 := Int.tmod_lt_of_pos (-k) (b := (n : Int)) (by omega)
    have h2 : (-k).tmod n = -(k.tmod n) := by
      rw [Int.tmod_def, Int.tmod_def, Int.neg_tdiv]
      ring
    omega

theorem add_tmod_emod (i k : Int) (n : Nat) : (i + k) % (n : Int) = (i + k.tmod n) % n := by
  have := Int.tmod_add_tdiv k n
  calc (i + k) % (n : Int) = (i + k.tmod n + n * k.tdiv n) % n := by
        congr 1; omega
    _ = (i + k.tmod n) % n := Int.add_mul_emod_self_left _ _ _

/-- The element sequence after `METHOD_ROTATE`, position by position. -/
theorem rotate_index_back {α : Type} (vs vs1 : List α) (k : Int) (i : Nat)
    (hlen : vs1.length = vs.length) (hi : i < vs.length) (h0 : 0 ≤ k.tmod vs.length)
    (hrot : vs1.rotate (k.tmod vs.length).toNat = vs) :
    vs1[(((i : Int) + k) % vs.length).toNat]? = vs[i]? := by
  rw [add_tmod_emod]
  obtain ⟨m, hm⟩ := Int.eq_ofNat_of_zero_le h0
  rw [hm] at hrot ⊢
  simp only [Int.toNat_ofNat] at hrot
  conv_rhs => rw [← hrot]
  rw [List.getElem?_rotate (by omega), hlen]
  congr 1

theorem rotate_index_front {α : Type} (vs vs2 : List α) (k : Int) (i : Nat)
    (hi : i < vs.length) (h0 : k.tmod vs.length < 0)
    (hrot : vs2 = vs.rotate (-(k.tmod vs.length)).toNat) :
    vs2[(((i : Int) + k) % vs.length).toNat]? = vs[i]? := by
  have hb := tmod_bounds k vs.length (by omega)
  have hn : (0 : Int) < vs.length := by omega
  rw [add_tmod_emod]
  generalize hr : k.tmod vs.length = r at *
  have hj0 := Int.emod_nonneg ((i : Int) + r) (b := (vs.length : Int)) (by omega)
  have hj1 := Int.emod_lt_of_pos ((i : Int) + r) hn
  rw [hrot, List.getElem?_rotate (by omega)]
  congr 1
  have hcast : (((((i : Int) + r) % vs.length).toNat + (-r).toNat : Nat) : Int) =
      ((i : Int) + r) % vs.length + (-r) := by omega
  have : ((((((i : Int) + r) % vs.length).toNat + (-r).toNat) % vs.length : Nat) : Int) = i := by
    rw [Int.ofNat_emod, hcast, Int.emod_add_emod]
    have : (i : Int) + r + -r = i := by omega
    rw [this]
    exact Int.emod_eq_of_lt (by omega) (by omega)
  exact_mod_cast this


/-! ## Iterators over an unmutated list -/

theorem store_store_eq {l : LinkedList} {a : Nat} {n : Node} (n' : Node)
    (h : l.mem a = some n) : store (store l a n') a n = l := by
  cases l with
  | mk mem brk avail size ref_count =>
    simp only [store, LinkedList.mk.injEq, and_true]
    funext x
    by_cases hx : x = a
    · subst hx; simp [← h]
    · simp [hx]

theorem node_dup_bump {l : LinkedList} {a : Nat} {n : Node} (h : l.mem a = some n) :
    node_dup (some a) l = .ok (some a, bump l a) := by
  simp [node_dup, update, h, bump, bind, Except.bind, pure, Except.pure]

theorem node_free_bump {l : LinkedList} {a : Nat} {n : Node} (h : l.mem a = some n)
    (hr : n.ref_count ≠ 0) : node_free_rt (some a) (bump l a) = .ok l := by
  have e : store (store l a { n with ref_count := n.ref_count + 1 }) a n = l :=
    store_store_eq _ h
  simp [node_free_rt, update, h, bump, load, hr, bind, Except.bind, pure, Except.pure]
  cases n
  simpa using e

theorem bump_mem_ne {l : LinkedList} {a b : Nat} (h : b ≠ a) : (bump l a).mem b = l.mem b := by
  unfold bump
  cases l.mem a <;> simp [h]

theorem load_bump_value {l : LinkedList} {a : Nat} {n : Node} (h : l.mem a = some n) :
    ∃ n', load (bump l a) (some a) = .ok n' ∧ n'.value = n.value := by
  simp [bump, h, load]

/-- An iterator positioned on the node `a` of a chain that continues with `rest`
up to the head: the next `rest.length + 1` calls yield the payloads of `rest` in
order with `done = false`, then `undefined` with `done = true`; the iterator ends on
the head and the list is left without the iterator's reference. -/
theorem iterate_positioned {p : Nat} {l : LinkedList} {g : Nat → Option Nat} (dir : Direction) :
    ∀ (rest : List Nat) (a : Nat) (i : Int), Chain (lnk dir l) g a rest 0 → 0 ∉ rest →
    a ≠ 0 → (∀ b ∈ a :: rest, ∃ r, rc l b = some r ∧ 1 ≤ r) →
    -2 ^ 63 + rest.length + 1 ≤ i → i + rest.length + 1 < 2 ^ 63 →
    iterate (rest.length + 1)
      { list := some p, node := some a, index := i, kind := .JS_ITERATOR_KIND_VALUE,
        dir := dir } (bump l a) =
    .ok ((vals l rest).map (fun v => (v, false)) ++ [(.undefined, true)],
      { list := some p, node := some 0, index := i + stp dir * (rest.length + 1),
        kind := .JS_ITERATOR_KIND_VALUE, dir := dir }, l)
  | [], a, i, hc, _, ha, hrc, hi1, hi2 => by
    obtain ⟨r, hr, hr1⟩ := hrc a (by simp)
    obtain ⟨n, hm, hnr⟩ := rc_some hr
    have hfree := node_free_bump hm (by omega)
    have hlnk : lnk dir l a = some 0 := hc.1
    cases dir with
    | FWD =>
      obtain ⟨n', hm', hnx⟩ := nxt_some hlnk
      rw [hm] at hm'; cases hm'
      have e64 : int64 (i + 1) = i + 1 := int64_of_range (by simp at hi1; omega) (by omega)
      simp [iterate, list_iterator_next, list_iterator_skip, ha, hfree, load, hm, hnx, e64,
        list_iterator_value, list_iterator_done, stp, vals, bind, Except.bind, pure, Except.pure]
    | REV =>
      obtain ⟨n', hm', hnx⟩ := prv_some hlnk
      rw [hm] at hm'; cases hm'
      have e64 : int64 (i - 1) = i - 1 := int64_of_range (by simp at hi1; omega) (by omega)
      simp [iterate, list_iterator_next, list_iterator_skip, ha, hfree, load, hm, hnx, e64,
        list_iterator_value, list_iterator_done, stp, vals, bind, Except.bind, pure, Except.pure]
      omega
  | b :: rest, a, i, hc, h0, ha, hrc, hi1, hi2 => by
    obtain ⟨r, hr, hr1⟩ := hrc a (by simp)
    obtain ⟨n, hm, hnr⟩ := rc_some hr
    have hfree := node_free_bump hm (by omega)
    have hb0 : b ≠ 0 := fun e => h0 (by simp [e])
    obtain ⟨rb, hrb, hrb1⟩ := hrc b (by simp)
    obtain ⟨nb, hmb, hnbr⟩ := rc_some hrb
    have hdup := node_dup_bump hmb
    obtain ⟨nb', hlb, hvb⟩ := load_bump_value hmb
    have hlnk : lnk dir l a = some b := hc.1
    simp only [List.length_cons, Nat.cast_add, Nat.cast_one] at hi1 hi2
    have hvalb : (val l b).getD .uninitialized = nb.value := by simp [val, hmb]
    cases dir with
    | FWD =>
      obtain ⟨n', hm', hnx⟩ := nxt_some hlnk
      rw [hm] at hm'; cases hm'
      have e64 : int64 (i + 1) = i + 1 := int64_of_range (by omega) (by omega)
      have ih := iterate_positioned (p := p) (l := l) (g := g) .FWD rest b (i + 1) hc.2.2
        (fun hm0 => h0 (List.mem_cons_of_mem _ hm0)) hb0
        (fun x hx => hrc x (List.mem_cons_of_mem _ hx)) (by omega) (by omega)
      rw [iterate]
      simp [list_iterator_next, list_iterator_skip, ha, hfree, load_some hm, hnx, e64,
        list_iterator_value, list_iterator_done, hdup, hlb, hvb, hb0, bind, Except.bind, pure,
        Except.pure, ih, vals_cons, hvalb, stp]
      ring
    | REV =>
      obtain ⟨n', hm', hnx⟩ := prv_some hlnk
      rw [hm] at hm'; cases hm'
      have e64 : int64 (i - 1) = i - 1 := int64_of_range (by omega) (by omega)
      have ih := iterate_positioned (p := p) (l := l) (g := g) .REV rest b (i - 1) hc.2.2
        (fun hm0 => h0 (List.mem_cons_of_mem _ hm0)) hb0
        (fun x hx => hrc x (List.mem_cons_of_mem _ hx)) (by omega) (by omega)
      rw [iterate]
      simp [list_iterator_next, list_iterator_skip, ha, hfree, load_some hm, hnx, e64,
        list_iterator_value, list_iterator_done, hdup, hlb, hvb, hb0, bind, Except.bind, pure,
        Except.pure, ih, vals_cons, hvalb, stp]
      ring

theorem list_dup_wf {l : LinkedList} {ps : List Nat} (h : WF l ps) : WF (list_dup l) ps :=
  h.transfer (fun _ => rfl) (fun _ => rfl) (fun a ha => h.fresh a ha) (fun _ _ => rfl) rfl rfl rfl

theorem list_dup_vals (l : LinkedList) (ps : List Nat) : vals (list_dup l) ps = vals l ps := rfl

/-- A fresh value iterator over a non-empty well-formed list, forward: the first
`n + 1` calls of `next()`. -/
theorem iterate_forward {p : Nat} {l : LinkedList} {ps : List Nat} (h : WF l ps) (hne : ps ≠ []) :
    ∃ it', iterate (ps.length + 1)
      { list := some p, node := none, index := 0, kind := .JS_ITERATOR_KIND_VALUE,
        dir := .FWD } l =
      .ok ((vals l ps).map (fun v => (v, false)) ++ [(.undefined, true)], it', l) := by
  cases ps with
  | nil => exact absurd rfl hne
  | cons a rest =>
    have hs := h.size_lt
    have hse := h.size_eq
    simp only [List.length_cons] at hse
    have ha0 : a ≠ 0 := fun e => (List.nodup_cons.1 h.nodup).1 (by simp [e])
    obtain ⟨n, hm⟩ := h.toLinked.alloc (a := a) (by simp)
    have hfront : list_front l = .ok (some a) := by rw [h.toLinked.front]; rfl
    obtain ⟨n', hl, hv⟩ := load_bump_value hm
    have hvala : (val l a).getD .uninitialized = n.value := by simp [val, hm]
    have hrest := iterate_positioned (p := p) (l := l) (g := prv l) .FWD rest a 0 h.chain.2.2
      (fun hm0 => (List.nodup_cons.1 h.nodup).1 (List.mem_cons_of_mem _ hm0)) ha0
      (fun b hb => h.refs b hb) (by omega) (by omega)
    refine ⟨ListIterator.mk (some p) (some 0) (0 + stp Direction.FWD * ((rest.length : Int) + 1))
      JSIteratorKindEnum.JS_ITERATOR_KIND_VALUE Direction.FWD, ?_⟩
    rw [iterate]
    simp [list_iterator_next, hfront, node_dup_bump hm, list_iterator_value, ha0, hl, hv,
      list_iterator_done, bind, Except.bind, pure, Except.pure, hrest, vals_cons, hvala]

/-- A fresh value iterator over a non-empty well-formed list, backward: the first
`n + 1` calls of `next()`. -/
theorem iterate_backward {p : Nat} {l : LinkedList} {ps : List Nat} (h : WF l ps) (hne : ps ≠ []) :
    ∃ it', iterate (ps.length + 1)
      { list := some p, node := none, index := -1, kind := .JS_ITERATOR_KIND_VALUE,
        dir := .REV } l =
      .ok ((vals l ps).reverse.map (fun v => (v, false)) ++ [(.undefined, true)], it', l) := by
  have hc := chain_reverse h.chain
  have hrev : (vals l ps).reverse = vals l ps.reverse := by simp [vals]
  have hlen : ps.length = ps.reverse.length := by simp
  have hback := h.toLinked.back
  rw [← List.head?_reverse] at hback
  have hnd : (0 :: ps.reverse).Nodup := by
    have := h.nodup
    simp only [List.nodup_cons, List.mem_reverse, List.nodup_reverse] at this ⊢
    exact this
  have hrefs : ∀ b ∈ ps.reverse, ∃ r, rc l b = some r ∧ 1 ≤ r :=
    fun b hb => h.refs b (List.mem_reverse.1 hb)
  have hs := h.size_lt
  have hse := h.size_eq
  rw [hlen] at hse
  rw [hrev, hlen]
  generalize ps.reverse = qs at *
  cases qs with
  | nil => simp at hlen; exact absurd hlen hne
  | cons a rest =>
    simp only [List.length_cons] at hse
    have ha0 : a ≠ 0 := fun e => (List.nodup_cons.1 hnd).1 (by simp [e])
    obtain ⟨r, hr, -⟩ := hrefs a (by simp)
    obtain ⟨n, hm, -⟩ := rc_some hr
    obtain ⟨n', hl, hv⟩ := load_bump_value hm
    have hvala : (val l a).getD .uninitialized = n.value := by simp [val, hm]
    have hrest := iterate_positioned (p := p) (l := l) (g := nxt l) .REV rest a (-1) hc.2.2
      (fun hm0 => (List.nodup_cons.1 hnd).1 (List.mem_cons_of_mem _ hm0)) ha0
      hrefs (by omega) (by omega)
    refine ⟨ListIterator.mk (some p) (some 0) (-1 + stp Direction.REV * ((rest.length : Int) + 1))
      JSIteratorKindEnum.JS_ITERATOR_KIND_VALUE Direction.REV, ?_⟩
    rw [iterate]
    simp [list_iterator_next, hback, node_dup_bump hm, list_iterator_value, ha0, hl, hv,
      list_iterator_done, bind, Except.bind, pure, Except.pure, hrest, vals_cons, hvala]


/-! ## Sort -/

theorem sort_scan_chain (pred : JSValue → JSValue → Int) (v : JSValue) {other : LinkedList}
    {g : Nat → Option Nat} :
    ∀ {qs : List Nat} {x : Nat} {k : Nat}, Chain (nxt other) g x qs 0 → 0 ∉ qs →
    qs.length < k →
    sort_scan pred v other k (some (qs.headD 0)) =
      .ok (some ((qs.dropWhile
        (fun a => decide (0 < pred v ((val other a).getD .uninitialized)))).headD 0))
  | [], x, k + 1, _, _, _ => by
    simp [sort_scan, pure, Except.pure]
  | y :: ys, x, k + 1, h, h0, hlen => by
    have hy : y ≠ 0 := fun e => h0 (by simp [e])
    obtain ⟨n, hn, hnx⟩ := nxt_some (chain_headD h.2.2)
    have ih := sort_scan_chain pred v (k := k) h.2.2
      (fun hm => h0 (List.mem_cons_of_mem _ hm)) (by simp at hlen; omega)
    have hval : (val other y).getD .uninitialized = n.value := by simp [val, hn]
    by_cases hp : pred v n.value ≤ 0
    · have hd : decide (0 < pred v ((val other y).getD .uninitialized)) = false := by
        rw [hval]; simp [hp]
      simp only [List.dropWhile_cons, hd]
      simp [sort_scan, hy, load_some hn, hp, bind, Except.bind, pure, Except.pure]
    · have hd : decide (0 < pred v ((val other y).getD .uninitialized)) = true := by
        rw [hval]; simp; omega
      simp only [List.dropWhile_cons, hd, if_true]
      rw [← ih]
      simp only [sort_scan, List.headD_cons, Option.some.injEq, hy, if_false, load_some hn,
        bind, Except.bind, hp, hnx]

theorem vals_takeWhile (l : LinkedList) (p : JSValue → Bool) (qs : List Nat) :
    vals l (qs.takeWhile (fun a => p ((val l a).getD .uninitialized))) =
      (vals l qs).takeWhile p := by
  unfold vals
  rw [List.takeWhile_map]
  rfl

theorem vals_dropWhile (l : LinkedList) (p : JSValue → Bool) (qs : List Nat) :
    vals l (qs.dropWhile (fun a => p ((val l a).getD .uninitialized))) =
      (vals l qs).dropWhile p := by
  unfold vals
  rw [List.dropWhile_map]
  rfl

/-- One turn of the outer loop of `METHOD_SORT`: scan, step back, insert. -/
theorem sort_step_wf (pred : JSValue → JSValue → Int) (v : JSValue) {other : LinkedList}
    {qs : List Nat} (h : WF other qs) :
    ∃ other' qs', (do
        let oh ← load other (some 0)
        let ptr2 ← sort_scan pred v other other.brk oh.next
        let p2 ← load other ptr2
        let r ← list_insert other p2.prev v
        pure r.2) = .ok other' ∧ WF other' qs' ∧
      vals other' qs' = (if other.avail = 0 then vals other qs
        else insert_before pred v (vals other qs)) ∧
      other'.avail = other.avail - 1 := by
  obtain ⟨nh, hnh, hnx, -⟩ := h.toLinked.head_mem
  have hscan := sort_scan_chain pred v (k := other.brk) h.chain
    (List.nodup_cons.1 h.nodup).1 h.len
  generalize hP : (fun a => decide (0 < pred v ((val other a).getD .uninitialized))) = P at hscan
  have hsplit : qs.takeWhile P ++ qs.dropWhile P = qs := List.takeWhile_append_dropWhile P qs
  have h' : WF other (qs.takeWhile P ++ qs.dropWhile P) := by rw [hsplit]; exact h
  obtain ⟨hc1, hc2⟩ := chain_cut h'.chain
  obtain ⟨n2, hn2, hn2p⟩ := prv_some hc2
  by_cases hav : other.avail = 0
  · refine ⟨other, qs, ?_, h, by rw [if_pos hav], by omega⟩
    simp only [load_some hnh, hnx, hscan, load_some hn2, hn2p, list_insert_oom _ v hav, bind,
      Except.bind, pure, Except.pure]
  · obtain ⟨o', e, hw, hv, -, -, ha, -⟩ := wf_insert_cut v h' hav
    refine ⟨o', _, ?_, hw, ?_, ha⟩
    · simp only [load_some hnh, hnx, hscan, load_some hn2, hn2p, e, bind, Except.bind, pure,
        Except.pure]
    · rw [hv, if_neg hav, ← hP, vals_takeWhile other (fun w => decide (0 < pred v w)),
        vals_dropWhile other (fun w => decide (0 < pred v w))]
      rfl

theorem sort_loop_wf (pred : JSValue → JSValue → Int) {l : LinkedList}
    {g : Nat → Option Nat} :
    ∀ {rest : List Nat} {x : Nat} {k : Nat} {o : LinkedList} {qs : List Nat},
    Chain (nxt l) g x rest 0 → 0 ∉ rest → rest.length < k → WF o qs →
    ∃ other' qs', sort_loop pred l k (some (rest.headD 0)) o = .ok other' ∧
      WF other' qs' ∧
      vals other' qs' = ((vals l rest).take o.avail).foldl
        (fun acc v => insert_before pred v acc) (vals o qs)
  | [], x, k + 1, other, qs, _, _, _, ho => by
    refine ⟨other, qs, ?_, ho, by simp [vals]⟩
    simp [sort_loop, pure, Except.pure]
  | y :: ys, x, k + 1, other, qs, h, h0, hlen, ho => by
    have hy : y ≠ 0 := fun e => h0 (by simp [e])
    obtain ⟨n, hn, hnx⟩ := nxt_some (chain_headD h.2.2)
    have hval : (val l y).getD .uninitialized = n.value := by simp [val, hn]
    obtain ⟨o1, q1, e1, hw1, hv1, ha1⟩ := sort_step_wf pred n.value ho
    obtain ⟨o2, q2, e2, hw2, hv2⟩ := sort_loop_wf pred (k := k) (o := o1) h.2.2
      (fun hm => h0 (List.mem_cons_of_mem _ hm)) (by simp at hlen; omega) hw1
    refine ⟨o2, q2, ?_, hw2, ?_⟩
    · rw [← e2]
      simp only [bind, Except.bind, pure, Except.pure] at e1
      simp only [sort_loop, List.headD_cons, Option.some.injEq, hy, if_false, load_some hn,
        bind, Except.bind, hnx]
      cases hoh : load other (some 0) with
      | error f => rw [hoh] at e1; exact absurd e1 (by simp)
      | ok oh =>
        rw [hoh] at e1
        simp only [] at e1 ⊢
        cases hsc : sort_scan pred n.value other other.brk oh.next with
        | error f => rw [hsc] at e1; exact absurd e1 (by simp)
        | ok ptr2 =>
          rw [hsc] at e1
          simp only [] at e1 ⊢
          cases hp2 : load other ptr2 with
          | error f => rw [hp2] at e1; exact absurd e1 (by simp)
          | ok p2 =>
            rw [hp2] at e1
            simp only [] at e1 ⊢
            cases hins : list_insert other p2.prev n.value with
            | error f => rw [hins] at e1; exact absurd e1 (by simp)
            | ok r =>
              rw [hins] at e1
              simp only [Except.ok.injEq] at e1
              obtain ⟨r1, r2⟩ := r
              simp only at e1
              subst e1
              rfl
    · rw [hv2, hv1, vals_cons, hval, ha1]
      by_cases hav : other.avail = 0
      · rw [if_pos hav, hav]
        simp
      · rw [if_neg hav]
        obtain ⟨m, hm⟩ : ∃ m, other.avail = m + 1 := ⟨other.avail - 1, by omega⟩
        rw [hm]
        simp

/-- `METHOD_SORT` on a well-formed list: the receiver is handed back untouched and
the derived list holds the elements for which a node could be allocated, each
inserted by `insert_before`. -/
theorem method_sort_eq (pred : JSValue → JSValue → Int) {l : LinkedList} {ps : List Nat}
    (h : WF l ps) {c : Nat} (h0 : c ≠ 0) (h1 : c < 2 ^ 63) :
    ∃ other qs, METHOD_SORT pred c l = .ok (.list other, l) ∧ WF other qs ∧
      vals other qs = sort_spec pred ((vals l ps).take (c - 1)) := by
  obtain ⟨o, eo, hwo, hao, -⟩ := list_new_wf h0 h1
  obtain ⟨nh, hnh, hnx, -⟩ := h.toLinked.head_mem
  obtain ⟨o2, q2, e2, hw2, hv2⟩ := sort_loop_wf pred (k := l.brk) (o := o) h.chain
    (List.nodup_cons.1 h.nodup).1 h.len hwo
  refine ⟨o2, q2, ?_, hw2, ?_⟩
  · simp only [METHOD_SORT, eo, load_some hnh, hnx, e2, bind, Except.bind, pure, Except.pure]
  · rw [hv2, hao]
    rfl

/-! ### The sequence `METHOD_SORT` builds -/

theorem insert_before_nil (pred : JSValue → JSValue → Int) (v : JSValue) :
    insert_before pred v [] = [v] := rfl

theorem insert_before_cons (pred : JSValue → JSValue → Int) (v w : JSValue)
    (ws : List JSValue) :
    insert_before pred v (w :: ws) =
      if 0 < pred v w then w :: insert_before pred v ws else v :: w :: ws := by
  unfold insert_before
  by_cases h : 0 < pred v w
  · simp [List.takeWhile_cons, List.dropWhile_cons, h]
  · simp [List.takeWhile_cons, List.dropWhile_cons, h]

theorem mem_insert_before (pred : JSValue → JSValue → Int) (v b : JSValue)
    (ws : List JSValue) : b ∈ insert_before pred v ws ↔ b = v ∨ b ∈ ws := by
  unfold insert_before
  rw [List.mem_append, List.mem_cons]
  have := List.takeWhile_append_dropWhile (fun w => decide (0 < pred v w)) ws
  constructor
  · rintro (h | h | h)
    · exact Or.inr (by rw [← this]; exact List.mem_append_left _ h)
    · exact Or.inl h
    · exact Or.inr (by rw [← this]; exact List.mem_append_right _ h)
  · rintro (h | h)
    · exact Or.inr (Or.inl h)
    · rw [← this, List.mem_append] at h
      tauto

theorem insert_before_sorted {pred : JSValue → JSValue → Int} (hp : ThreeWay pred)
    (v : JSValue) : ∀ (ws : List JSValue), ws.Pairwise (fun a b => pred a b ≤ 0) →
    (insert_before pred v ws).Pairwise (fun a b => pred a b ≤ 0)
  | [], _ => by simp [insert_before_nil]
  | w :: ws, h => by
    rw [insert_before_cons]
    rw [List.pairwise_cons] at h
    split_ifs with hlt
    · rw [List.pairwise_cons]
      refine ⟨fun b hb => ?_, insert_before_sorted hp v ws h.2⟩
      rcases (mem_insert_before pred v b ws).1 hb with e | e
      · rw [e]
        exact le_of_lt ((hp.flip w v).2 hlt)
      · exact h.1 b e
    · rw [List.pairwise_cons]
      refine ⟨fun b hb => ?_, List.pairwise_cons.2 h⟩
      rcases List.mem_cons.1 hb with e | e
      · rw [e]; omega
      · exact hp.trans v w b (by omega) (h.1 b e)

theorem foldl_insert_sorted {pred : JSValue → JSValue → Int} (hp : ThreeWay pred) :
    ∀ (vs acc : List JSValue), acc.Pairwise (fun a b => pred a b ≤ 0) →
    (vs.foldl (fun acc v => insert_before pred v acc) acc).Pairwise (fun a b => pred a b ≤ 0)
  | [], _, h => h
  | v :: vs, acc, h => foldl_insert_sorted hp vs _ (insert_before_sorted hp v acc h)

theorem sort_spec_sorted {pred : JSValue → JSValue → Int} (hp : ThreeWay pred)
    (vs : List JSValue) : (sort_spec pred vs).Pairwise (fun a b => pred a b ≤ 0) :=
  foldl_insert_sorted hp vs [] List.Pairwise.nil

theorem ThreeWay.zero_symm {pred : JSValue → JSValue → Int} (hp : ThreeWay pred)
    {a b : JSValue} (h : pred a b = 0) : pred b a = 0 := by
  have h1 := hp.flip a b
  have h2 := hp.flip b a
  omega

theorem filter_insert_before {pred : JSValue → JSValue → Int} (hp : ThreeWay pred)
    (v x : JSValue) : ∀ (ws : List JSValue),
    (insert_before pred x ws).filter (fun w => decide (pred v w = 0)) =
      if pred v x = 0 then x :: ws.filter (fun w => decide (pred v w = 0))
      else ws.filter (fun w => decide (pred v w = 0))
  | [] => by
    by_cases h : pred v x = 0 <;> simp [insert_before_nil, h]
  | w :: ws => by
    rw [insert_before_cons]
    by_cases hlt : 0 < pred x w
    · rw [if_pos hlt, List.filter_cons, filter_insert_before hp v x ws]
      by_cases hvx : pred v x = 0
      · have hvw : pred v w ≠ 0 := by
          intro hvw
          have h1 := hp.trans x v w (by rw [hp.zero_symm hvx]) (by rw [hvw])
          omega
        simp [hvx, hvw]
      · simp only [hvx, if_false]
        rw [List.filter_cons]
    · rw [if_neg hlt]
      by_cases hvx : pred v x = 0
      · simp [hvx]
      · simp [hvx]

theorem filter_foldl_insert {pred : JSValue → JSValue → Int} (hp : ThreeWay pred)
    (v : JSValue) : ∀ (vs acc : List JSValue),
    (vs.foldl (fun acc x => insert_before pred x acc) acc).filter
        (fun w => decide (pred v w = 0)) =
      (vs.filter (fun w => decide (pred v w = 0))).reverse ++
        acc.filter (fun w => decide (pred v w = 0))
  | [], acc => by simp
  | x :: vs, acc => by
    rw [List.foldl_cons, filter_foldl_insert hp v vs, filter_insert_before hp v x acc]
    by_cases hvx : pred v x = 0
    · simp [hvx]
    · simp [hvx]

/-- Elements that compare equal leave `METHOD_SORT` in the reverse of the order in
which they entered. -/
theorem sort_spec_reverses_ties {pred : JSValue → JSValue → Int} (hp : ThreeWay pred)
    (v : JSValue) (vs : List JSValue) :
    (sort_spec pred vs).filter (fun w => decide (pred v w = 0)) =
      (vs.filter (fun w => decide (pred v w = 0))).reverse := by
  unfold sort_spec
  rw [filter_foldl_insert hp v vs []]
  simp

theorem sample_pred_three_way : ThreeWay sample_pred where
  flip := fun a b => by unfold sample_pred; omega
  trans := fun a b c => by unfold sample_pred; omega


/-! ## push, unshift, pop, shift -/

/-- `node_new` followed by `node_push`, as `METHOD_PUSH` runs them. -/
theorem wf_node_push {l : LinkedList} {ps : List Nat} (v : JSValue) (h : WF l ps)
    (hav : l.avail ≠ 0) :
    ∃ l1 l', node_new l v = (some l.brk, l1) ∧ node_push (some l.brk) l1 = .ok l' ∧
      WF l' (ps ++ [l.brk]) ∧ vals l' (ps ++ [l.brk]) = vals l ps ++ [v] ∧
      (∀ a, rc l' a = if a = l.brk then some 1 else rc l a) ∧
      l'.avail = l.avail - 1 ∧ l'.brk = l.brk + 1 ∧ l'.ref_count = l.ref_count := by
  obtain ⟨l', e, hw, hv, -, hr, ha, hb, hc⟩ := wf_push v h hav
  obtain ⟨l1, e1, -⟩ := node_new_views v hav h.fresh
  refine ⟨l1, l', e1, ?_, hw, hv, hr, ha, hb, hc⟩
  simp only [list_push, e1, bind, Except.bind] at e
  cases hp : node_push (some l.brk) l1 with
  | error f => rw [hp] at e; exact absurd e (by simp)
  | ok l2 =>
    rw [hp] at e
    simp only [pure, Except.pure, Except.ok.injEq, Prod.mk.injEq, true_and] at e
    rw [e]

/-- `node_new` followed by `node_unshift`, as `METHOD_UNSHIFT` runs them. -/
theorem wf_node_unshift {l : LinkedList} {ps : List Nat} (v : JSValue) (h : WF l ps)
    (hav : l.avail ≠ 0) :
    ∃ l1 l', node_new l v = (some l.brk, l1) ∧ node_unshift (some l.brk) l1 = .ok l' ∧
      WF l' (l.brk :: ps) ∧ vals l' (l.brk :: ps) = v :: vals l ps ∧
      (∀ a, rc l' a = if a = l.brk then some 1 else rc l a) ∧
      l'.avail = l.avail - 1 ∧ l'.brk = l.brk + 1 ∧ l'.ref_count = l.ref_count := by
  obtain ⟨l', e, hw, hv, -, hr, ha, hb, hc⟩ := wf_unshift v h hav
  obtain ⟨l1, e1, -⟩ := node_new_views v hav h.fresh
  refine ⟨l1, l', e1, ?_, hw, hv, hr, ha, hb, hc⟩
  simp only [list_unshift, e1, bind, Except.bind] at e
  cases hp : node_unshift (some l.brk) l1 with
  | error f => rw [hp] at e; exact absurd e (by simp)
  | ok l2 =>
    rw [hp] at e
    simp only [pure, Except.pure, Except.ok.injEq, Prod.mk.injEq, true_and] at e
    rw [e]

/-- `METHOD_PUSH` on a well-formed list: the arguments for which a node can be
allocated are appended in order; the call returns the new size, or the
out-of-memory exception at the first failed allocation. -/
theorem method_push_wf : ∀ (argv : List JSValue) {l : LinkedList} {ps : List Nat}, WF l ps →
    ∃ l' qs, METHOD_PUSH l argv =
        .ok (if argv.length ≤ l.avail then .value (.int (ps.length + argv.length))
          else .out_of_memory, l') ∧
      WF l' (ps ++ qs) ∧ vals l' (ps ++ qs) = vals l ps ++ argv.take l.avail ∧
      qs.length = min argv.length l.avail ∧
      (∀ a ∈ qs, rc l' a = some 1) ∧ (∀ a ∈ ps, rc l' a = rc l a) ∧
      l'.ref_count = l.ref_count
  | [], l, ps, h => by
    refine ⟨l, [], ?_, by simpa using h, by simp, by simp, by simp, fun _ _ => rfl, rfl⟩
    simp [METHOD_PUSH, h.int64_size, pure, Except.pure]
  | v :: argv, l, ps, h => by
    by_cases hav : l.avail = 0
    · refine ⟨l, [], ?_, by simpa using h, by simp [hav], by simp [hav], by simp,
        fun _ _ => rfl, rfl⟩
      simp [METHOD_PUSH, node_new_none v hav, hav, pure, Except.pure]
    · obtain ⟨l1, l2, e1, e2, hw, hv, hr, ha, hb, hc⟩ := wf_node_push v h hav
      obtain ⟨l3, qs, e3, hw3, hv3, hq3, hr3, hr3', hc3⟩ := method_push_wf argv hw
      have hlt : ∀ a ∈ ps, a ≠ l.brk := fun a ha' e => by
        have := h.mem_lt_brk ha'; omega
      refine ⟨l3, l.brk :: qs, ?_, by simpa using hw3, ?_, ?_, ?_, ?_, by rw [hc3, hc]⟩
      · simp only [METHOD_PUSH, e1, e2, bind, Except.bind, e3]
        congr 2
        simp only [List.length_append, List.length_cons, List.length_nil, ha]
        by_cases hle : argv.length ≤ l.avail - 1
        · rw [if_pos hle, if_pos (by omega)]
          congr 2
          push_cast
          ring
        · rw [if_neg hle, if_neg (by omega)]
      · have : ps ++ l.brk :: qs = ps ++ [l.brk] ++ qs := by simp
        rw [this, hv3, hv, ha]
        obtain ⟨m, hm⟩ : ∃ m, l.avail = m + 1 := ⟨l.avail - 1, by omega⟩
        simp [hm]
      · simp only [List.length_cons, hq3, ha]
        omega
      · intro a ha'
        rcases List.mem_cons.1 ha' with e | e
        · rw [e, hr3' _ (by simp), hr, if_pos rfl]
        · exact hr3 a e
      · intro a ha'
        rw [hr3' a (by simp [ha']), hr, if_neg (hlt a ha')]

/-- The loop of `METHOD_UNSHIFT` on a well-formed list: the values for which a node
can be allocated are linked at the head one after the other. -/
theorem unshift_loop_wf : ∀ (rev : List JSValue) {l : LinkedList} {ps : List Nat}, WF l ps →
    ∃ l' qs, unshift_loop l rev =
        .ok (if rev.length ≤ l.avail then .value (.int (ps.length + rev.length))
          else .out_of_memory, l') ∧
      WF l' (qs ++ ps) ∧ vals l' (qs ++ ps) = (rev.take l.avail).reverse ++ vals l ps ∧
      qs.length = min rev.length l.avail ∧
      (∀ a ∈ qs, rc l' a = some 1) ∧ (∀ a ∈ ps, rc l' a = rc l a) ∧
      l'.ref_count = l.ref_count
  | [], l, ps, h => by
    refine ⟨l, [], ?_, by simpa using h, by simp, by simp, by simp, fun _ _ => rfl, rfl⟩
    simp [unshift_loop, h.int64_size, pure, Except.pure]
  | v :: rev, l, ps, h => by
    by_cases hav : l.avail = 0
    · refine ⟨l, [], ?_, by simpa using h, by simp [hav], by simp [hav], by simp,
        fun _ _ => rfl, rfl⟩
      simp [unshift_loop, node_new_none v hav, hav, pure, Except.pure]
    · obtain ⟨l1, l2, e1, e2, hw, hv, hr, ha, hb, hc⟩ := wf_node_unshift v h hav
      obtain ⟨l3, qs, e3, hw3, hv3, hq3, hr3, hr3', hc3⟩ := unshift_loop_wf rev hw
      have hlt : ∀ a ∈ ps, a ≠ l.brk := fun a ha' e => by
        have := h.mem_lt_brk ha'; omega
      refine ⟨l3, qs ++ [l.brk], ?_, by simpa using hw3, ?_, ?_, ?_, ?_, by rw [hc3, hc]⟩
      · simp only [unshift_loop, e1, e2, bind, Except.bind, e3]
        congr 2
        simp only [List.length_cons, ha]
        by_cases hle : rev.length ≤ l.avail - 1
        · rw [if_pos hle, if_pos (by omega)]
          congr 2
          push_cast
          ring
        · rw [if_neg hle, if_neg (by omega)]
      · have : qs ++ [l.brk] ++ ps = qs ++ l.brk :: ps := by simp
        rw [this, hv3, hv, ha]
        obtain ⟨m, hm⟩ : ∃ m, l.avail = m + 1 := ⟨l.avail - 1, by omega⟩
        simp [hm]
      · simp only [List.length_append, List.length_cons, List.length_nil, hq3, ha]
        omega
      · intro a ha'
        rcases List.mem_append.1 ha' with e | e
        · exact hr3 a e
        · simp only [List.mem_singleton] at e
          rw [e, hr3' _ (by simp), hr, if_pos rfl]
      · intro a ha'
        rw [hr3' a (by simp [ha']), hr, if_neg (hlt a ha')]

/-- `METHOD_POP` and `METHOD_SHIFT` share their body after the node is chosen: hand
out the payload, then remove the node. -/
theorem wf_take_node {l : LinkedList} {s t : List Nat} {a : Nat} (h : WF l (s ++ a :: t)) :
    ∃ n l1 l', load l (some a) = .ok n ∧
      update l (some a) (fun n => { n with value := .undefined }) = .ok l1 ∧
      node_remove_rt (some a) l1 = .ok l' ∧ WF l' (s ++ t) ∧
      n.value = (val l a).getD .uninitialized ∧
      vals l' (s ++ t) = vals l s ++ vals l t ∧
      (∀ b ∈ s ++ t, rc l' b = rc l b) ∧ l'.avail = l.avail ∧ l'.brk = l.brk ∧
      l'.ref_count = l.ref_count := by
  obtain ⟨n, hm⟩ := h.toLinked.alloc (a := a) (by simp)
  obtain ⟨l1, e1, hn1, hp1, hv1, hr1, hb1, ha1, hs1, hc1⟩ := set_value_views .undefined hm
  have hnd : ((0 :: s) ++ a :: t).Nodup := h.nodup
  rw [List.nodup_middle] at hnd
  have hnotin : a ∉ s ++ t := fun hm' =>
    (List.nodup_cons.1 hnd).1 (List.mem_cons_of_mem _ hm')
  have hw1 : WF l1 (s ++ a :: t) := by
    refine h.transfer hn1 hp1 (fun x hx => ?_) (fun x _ => hr1 x) hb1 ha1 hs1
    have := h.mem_lt_brk (a := a) (by simp)
    rw [hv1, if_neg (by omega)]
    exact h.fresh x hx
  obtain ⟨l2, r, hr, hr', e2, hw2, hv2, -, -, hvv, hrr, ha2, hb2, hc2⟩ := wf_remove hw1
  refine ⟨n, l1, l2, load_some hm, e1, e2, hw2, by simp [val, hm], ?_, ?_, by rw [ha2, ha1],
    by rw [hb2, hb1], by rw [hc2, hc1]⟩
  · rw [hv2]
    have e1' : vals l1 s = vals l s := vals_congr (fun b hb => by
      have hne : b ≠ a := fun e => hnotin (by rw [← e]; exact List.mem_append_left _ hb)
      rw [hv1, if_neg hne])
    have e2' : vals l1 t = vals l t := vals_congr (fun b hb => by
      have hne : b ≠ a := fun e => hnotin (by rw [← e]; exact List.mem_append_right _ hb)
      rw [hv1, if_neg hne])
    rw [e1', e2']
  · intro b hb
    have hne : b ≠ a := fun e => hnotin (by rw [← e]; exact hb)
    rw [hrr, if_neg hne, hr1]

/-- `METHOD_POP` on a well-formed list. -/
theorem method_pop_wf {l : LinkedList} {ps : List Nat} (h : WF l ps) :
    ∃ l', METHOD_POP l = .ok (.value ((vals l ps).getLast?.getD .undefined), l') ∧
      WF l' ps.dropLast ∧ vals l' ps.dropLast = (vals l ps).dropLast ∧
      l'.ref_count = l.ref_count := by
  rcases List.eq_nil_or_concat ps with e | ⟨qs, a, e⟩
  · subst e
    refine ⟨l, ?_, h, rfl, rfl⟩
    simp [METHOD_POP, h.toLinked.back, vals, bind, Except.bind, pure, Except.pure]
  · rw [List.concat_eq_append] at e
    subst e
    obtain ⟨n, l1, l2, e0, e1, e2, hw, hn, hv, -, -, -, hc⟩ := wf_take_node (t := []) h
    have hback : list_back l = .ok (some a) := by rw [h.toLinked.back]; simp
    refine ⟨l2, ?_, by simpa using hw, by simpa [vals] using hv, hc⟩
    simp only [METHOD_POP, hback, bind, Except.bind, e0, e1, e2, pure, Except.pure, hn]
    simp [vals]

/-- `METHOD_SHIFT` on a well-formed list. -/
theorem method_shift_wf {l : LinkedList} {ps : List Nat} (h : WF l ps) :
    ∃ l', METHOD_SHIFT l = .ok (.value ((vals l ps).head?.getD .undefined), l') ∧
      WF l' ps.tail ∧ vals l' ps.tail = (vals l ps).tail ∧
      l'.ref_count = l.ref_count := by
  cases ps with
  | nil =>
    refine ⟨l, ?_, h, rfl, rfl⟩
    simp [METHOD_SHIFT, h.toLinked.front, vals, bind, Except.bind, pure, Except.pure]
  | cons a qs =>
    obtain ⟨n, l1, l2, e0, e1, e2, hw, hn, hv, -, -, -, hc⟩ := wf_take_node (s := []) h
    have hfront : list_front l = .ok (some a) := by rw [h.toLinked.front]; simp
    refine ⟨l2, ?_, by simpa using hw, by simpa [vals] using hv, hc⟩
    simp only [METHOD_SHIFT, hfront, bind, Except.bind, e0, e1, e2, pure, Except.pure, hn]
    simp [vals]


/-! ## Splice -/

theorem list_new_linked {ctx : Nat} (h0 : ctx ≠ 0) :
    ∃ l, list_new ctx = some l ∧ Linked l [] := by
  refine ⟨_, by simp [list_new, h0]; rfl, ⟨by simp, ?_, ?_, ?_⟩⟩
  · simp [Chain, nxt, prv, init_list_head]
  · intro a ha
    have : a ≠ 0 := by
      simp [init_list_head] at ha
      omega
    simp [val, init_list_head, this]
  · simp [init_list_head]

theorem linked_push_ok {o : LinkedList} {qs : List Nat} (v : JSValue) (h : Linked o qs) :
    ∃ r o' qs', list_push o v = .ok (r, o') ∧ Linked o' qs' := by
  rw [list_push_eq_insert v h]
  by_cases hav : o.avail = 0
  · exact ⟨none, o, qs, list_insert_oom _ v hav, h⟩
  · obtain ⟨o', e, hl, -⟩ := linked_insert_cut (s := qs) (t := []) v (by simpa using h) hav
    exact ⟨_, o', _, e, hl⟩

/-- The insertion loop started at `NULL`: nothing happens when no node can be
allocated (or there is nothing to insert), otherwise `NULL` is dereferenced. -/
theorem insert_loop_null : ∀ (items : List JSValue) (l : LinkedList),
    insert_loop items none l = .error .null_deref ∨ insert_loop items none l = .ok (none, l)
  | [], l => Or.inr rfl
  | v :: items, l => by
    by_cases hav : l.avail = 0
    · rcases insert_loop_null items l with h | h
      · left
        simp only [insert_loop, list_insert_oom _ v hav, bind, Except.bind]
        exact h
      · right
        simp only [insert_loop, list_insert_oom _ v hav, bind, Except.bind]
        exact h
    · left
      simp [insert_loop, list_insert, node_new, js_malloc, hav, node_insert, load, bind,
        Except.bind]

theorem insert_loop_oom : ∀ (items : List JSValue) (p : Option Nat) {l : LinkedList},
    l.avail = 0 → ∃ r, insert_loop items p l = .ok (r, l)
  | [], p, l, _ => ⟨p, rfl⟩
  | v :: items, p, l, hav => by
    obtain ⟨r, e⟩ := insert_loop_oom items none hav
    refine ⟨r, ?_⟩
    simp only [insert_loop, list_insert_oom _ v hav, bind, Except.bind]
    exact e

/-- The insertion loop started at a node of the list, or at its head: the items for
which a node can be allocated are linked in order right after it. -/
theorem insert_loop_wf : ∀ (items : List JSValue) {l : LinkedList} {s t : List Nat},
    WF l (s ++ t) →
    ∃ r l' qs, insert_loop items (some (s.getLastD 0)) l = .ok (r, l') ∧
      WF l' (s ++ qs ++ t) ∧
      vals l' (s ++ qs ++ t) = vals l s ++ items.take l.avail ++ vals l t ∧
      qs.length = min items.length l.avail ∧ l'.ref_count = l.ref_count
  | [], l, s, t, h => ⟨_, l, [], rfl, by simpa using h, by simp [vals_append], by simp, rfl⟩
  | v :: items, l, s, t, h => by
    by_cases hav : l.avail = 0
    · obtain ⟨r, e⟩ := insert_loop_oom (v :: items) (some (s.getLastD 0)) hav
      exact ⟨r, l, [], e, by simpa using h, by simp [hav, vals_append], by simp [hav], rfl⟩
    · obtain ⟨l1, e1, hw1, hv1, hvv, -, ha1, hb1, hc1⟩ := wf_insert_cut v h hav
      have hw1' : WF l1 ((s ++ [l.brk]) ++ t) := by simpa using hw1
      obtain ⟨r, l2, qs, e2, hw2, hv2, hq2, hc2⟩ := insert_loop_wf items hw1'
      have hlast : (s ++ [l.brk]).getLastD 0 = l.brk := by
        rw [List.getLastD_eq_getLast?]; simp
      rw [hlast] at e2
      refine ⟨r, l2, l.brk :: qs, ?_, by simpa using hw2, ?_, ?_, by rw [hc2, hc1]⟩
      · simp only [insert_loop, e1, bind, Except.bind]
        exact e2
      · have hsplit : s ++ l.brk :: qs ++ t = s ++ [l.brk] ++ qs ++ t := by simp
        have hv1' : vals l1 (s ++ [l.brk]) = vals l s ++ [v] := by
          have := hv1
          rw [vals_append, vals_cons] at this
          rw [vals_append]
          have h3 := List.append_inj this (by simp [vals_length])
          rw [h3.1]
          simp [vals, hvv]
        have hv1t : vals l1 t = vals l t := by
          have := hv1
          rw [vals_append, vals_cons] at this
          have h3 := List.append_inj this (by simp [vals_length])
          exact (List.cons.inj h3.2).2
        rw [hsplit, hv2, hv1', hv1t, ha1]
        obtain ⟨m, hm⟩ : ∃ m, l.avail = m + 1 := ⟨l.avail - 1, by omega⟩
        simp [hm]
      · simp only [List.length_cons, hq2, ha1]
        omega

theorem WF.mem_of_headD {l : LinkedList} {ps : List Nat} (h : WF l ps) (s t : List Nat)
    (e : ps = s ++ t) : ∃ n, l.mem (t.headD 0) = some n := by
  subst e
  apply h.toLinked.alloc
  rcases headD_eq_or_mem t 0 with h' | h'
  · rw [h']; exact List.mem_cons_self _ _
  · exact List.mem_cons_of_mem _ (List.mem_append_right _ h')

/-- The loop of `METHOD_SPLICE` on a well-formed list never faults; it leaves the
list well-formed, and its variable `node` as `NodeInv` describes. -/
theorem splice_loop_wf (start end_ : Int) :
    ∀ (rest done : List Nat) (k : Nat) (ptr2 : Option Nat) (i : Int) (node : Option Nat)
      (list other : LinkedList) (qs : List Nat),
    WF list (done ++ rest) → Linked other qs → rest.length < k →
    (∀ y ys, rest = y :: ys → ptr2 = some (ys.headD 0)) →
    NodeInv list (done ++ rest) node →
    ∃ node' list' other' ps' qs',
      splice_loop start end_ k (some (rest.headD 0)) ptr2 i node list other =
        .ok (node', list', other') ∧
      WF list' ps' ∧ Linked other' qs' ∧ NodeInv list' ps' node'
  | [], done, k + 1, ptr2, i, node, list, other, qs, hw, ho, _, _, hn => by
    refine ⟨node, list, other, _, qs, ?_, hw, ho, hn⟩
    simp [splice_loop, pure, Except.pure]
  | y :: ys, done, k + 1, ptr2, i, node, list, other, qs, hw, ho, hk, hp2, hn => by
    have hy0 : y ≠ 0 := fun e =>
      (List.nodup_cons.1 hw.nodup).1 (by rw [← e]; simp)
    have hptr2 : ptr2 = some (ys.headD 0) := hp2 y ys rfl
    by_cases hend : i = end_
    · refine ⟨some y, list, other, _, qs, ?_, hw, ho, Or.inr ⟨y, rfl, Or.inl (by simp)⟩⟩
      simp [splice_loop, hy0, hend, pure, Except.pure]
    · by_cases hst : i ≥ start
      · obtain ⟨n, hm⟩ := hw.toLinked.alloc (a := y) (by simp)
        obtain ⟨r, o1, qs1, epush, ho1⟩ := linked_push_ok n.value ho
        obtain ⟨l1, rr, hrr, hrr1, erem, hw1, -, -, hprv, -⟩ := wf_remove hw
        obtain ⟨p, hp⟩ := hw1.mem_of_headD done ys rfl
        have hnext : ∀ z zs, ys = z :: zs → p.next = some (zs.headD 0) := by
          intro z zs e
          subst e
          obtain ⟨-, -, m3, -⟩ := chain_mid hw1.chain
          obtain ⟨p', hp', hpn⟩ := nxt_some m3
          simp only [List.headD_cons] at hp
          rw [hp] at hp'
          cases hp'
          exact hpn
        obtain ⟨node', list', other', ps', qs', e, hw', ho', hn'⟩ :=
          splice_loop_wf start end_ ys done k p.next (int64 (i + 1)) (some y) l1 o1 qs1 hw1 ho1
            (by simp at hk; omega) hnext (Or.inr ⟨y, rfl, Or.inr (Or.inr hprv)⟩)
        refine ⟨node', list', other', ps', qs', ?_, hw', ho', hn'⟩
        rw [← e]
        have hlp := load_some hp
        simp only [List.headD_eq_head?_getD] at hlp
        simp [splice_loop, hy0, hend, hst, load_some hm, epush, erem, hptr2, hlp, bind,
          Except.bind, pure, Except.pure]
      · have hw2 : WF list ((done ++ [y]) ++ ys) := by simpa using hw
        obtain ⟨p, hp⟩ := hw2.mem_of_headD (done ++ [y]) ys rfl
        have hnext : ∀ z zs, ys = z :: zs → p.next = some (zs.headD 0) := by
          intro z zs e
          subst e
          obtain ⟨-, -, m3, -⟩ := chain_mid hw2.chain
          obtain ⟨p', hp', hpn⟩ := nxt_some m3
          simp only [List.headD_cons] at hp
          rw [hp] at hp'
          cases hp'
          exact hpn
        obtain ⟨node', list', other', ps', qs', e, hw', ho', hn'⟩ :=
          splice_loop_wf start end_ ys (done ++ [y]) k p.next (int64 (i + 1)) (some y) list
            other qs hw2 ho (by simp at hk; omega) hnext (Or.inr ⟨y, rfl, Or.inl (by simp)⟩)
        refine ⟨node', list', other', ps', qs', ?_, hw', ho', hn'⟩
        rw [← e]
        have hlp := load_some hp
        simp only [List.headD_eq_head?_getD] at hlp
        simp [splice_loop, hy0, hend, hst, hptr2, hlp, bind, Except.bind, pure,
          Except.pure]

/-- What follows the loop in `METHOD_SPLICE`: step back from `node` and insert the
items.  Reading a `NULL` or released `node`, or inserting after `NULL`, is a fault;
otherwise the list stays well-formed. -/
theorem splice_tail_wf (items : List JSValue) {l : LinkedList} {ps : List Nat}
    {node : Option Nat} (h : WF l ps) (hn : NodeInv l ps node) :
    (do
      let n ← load l node
      insert_loop items n.prev l) = .error .null_deref ∨
    (do
      let n ← load l node
      insert_loop items n.prev l) = .error .use_after_free ∨
    ∃ r l' ps', (do
      let n ← load l node
      insert_loop items n.prev l) = .ok (r, l') ∧ WF l' ps' := by
  cases node with
  | none => left; rfl
  | some a =>
    cases hm : l.mem a with
    | none => right; left; simp [load, hm, bind, Except.bind]
    | some n =>
      simp only [load_some hm, bind, Except.bind]
      cases hpv : n.prev with
      | none =>
        rcases insert_loop_null items l with e | e
        · exact Or.inl e
        · exact Or.inr (Or.inr ⟨none, l, ps, e, h⟩)
      | some p =>
        have hprv : prv l a = some p := by simp [prv, hm, hpv]
        have hmem : a ∈ ps := by
          rcases hn with hn | ⟨b, hb, hn⟩
          · exact absurd hn (by simp)
          · cases hb
            rcases hn with hn | hn | hn
            · exact hn
            · rw [hm] at hn; exact absurd hn (by simp)
            · rw [hprv] at hn; exact absurd hn (by simp)
        obtain ⟨s, t, e⟩ := List.append_of_mem hmem
        subst e
        obtain ⟨-, m2, -, -⟩ := chain_mid h.chain
        rw [hprv] at m2
        cases m2
        obtain ⟨r, l', qs, e, hw, -⟩ := insert_loop_wf items h
        exact Or.inr (Or.inr ⟨r, l', _, e, hw⟩)

/-- `METHOD_SPLICE` on a well-formed list, whatever its arguments: it faults on a
`NULL` or released node, or returns and leaves a well-formed list. -/
theorem method_splice_valid (JS_ToInt64 : JSValue → Option Int) (ctx : Nat)
    {l : LinkedList} {ps : List Nat} (h : WF l ps) (argv : List JSValue) :
    METHOD_SPLICE JS_ToInt64 ctx l argv = .error .null_deref ∨
    METHOD_SPLICE JS_ToInt64 ctx l argv = .error .use_after_free ∨
    ∃ ret l' ps', METHOD_SPLICE JS_ToInt64 ctx l argv = .ok (ret, l') ∧ WF l' ps' := by
  unfold METHOD_SPLICE
  cases (if argv.length > 0 then JS_ToInt64 (argv.getD 0 .undefined) else some 0) with
  | none => exact Or.inr (Or.inr ⟨_, l, ps, rfl, h⟩)
  | some start =>
    cases (if argv.length > 1 then JS_ToInt64 (argv.getD 1 .undefined)
        else some (int64 l.size)) with
    | none => exact Or.inr (Or.inr ⟨_, l, ps, rfl, h⟩)
    | some end_ =>
      simp only []
      by_cases hctx : ctx = 0
      · have : list_new ctx = none := by simp [list_new, hctx]
        rw [this]
        exact Or.inr (Or.inr ⟨_, l, ps, rfl, h⟩)
      · obtain ⟨o, eo, ho⟩ := list_new_linked hctx
        rw [eo]
        simp only []
        obtain ⟨nh, hnh, hnx, -⟩ := h.toLinked.head_mem
        obtain ⟨p, hp⟩ := h.mem_of_headD [] ps rfl
        have hnext : ∀ y ys, ps = y :: ys → p.next = some (ys.headD 0) := by
          intro y ys e
          subst e
          obtain ⟨-, -, m3, -⟩ := chain_mid (s := []) (by simpa using h.chain)
          obtain ⟨p', hp', hpn⟩ := nxt_some m3
          simp only [List.headD_cons] at hp
          rw [hp] at hp'
          cases hp'
          exact hpn
        obtain ⟨node', list', other', ps', qs', e, hw', ho', hn'⟩ :=
          splice_loop_wf (list_index l start) (list_index l (int64 (list_index l start + end_)))
            ps [] l.brk p.next 0 none l o [] (by simpa using h) ho h.len hnext (Or.inl rfl)
        simp only [load_some hnh, hnx, load_some hp, bind, Except.bind, e]
        rcases splice_tail_wf (argv.drop 2) hw' hn' with e2 | e2 | ⟨r, l2, ps2, e2, hw2⟩
        · left
          simp only [bind, Except.bind] at e2
          cases hl : load list' node' with
          | error f => rw [hl] at e2; simp only [] at e2 ⊢; rw [Except.error.inj e2]
          | ok n =>
            rw [hl] at e2
            simp only [] at e2 ⊢
            rw [e2]
        · right; left
          simp only [bind, Except.bind] at e2
          cases hl : load list' node' with
          | error f => rw [hl] at e2; simp only [] at e2 ⊢; rw [Except.error.inj e2]
          | ok n =>
            rw [hl] at e2
            simp only [] at e2 ⊢
            rw [e2]
        · right; right
          simp only [bind, Except.bind] at e2
          cases hl : load list' node' with
          | error f => rw [hl] at e2; exact absurd e2 (by simp)
          | ok n =>
            rw [hl] at e2
            simp only [] at e2 ⊢
            rw [e2]
            exact ⟨_, l2, ps2, rfl, hw2⟩


/-! ## Sequences of operations -/

/-- Each operation of the size invariant, run on a well-formed list, either faults
on a `NULL` or released node (only `splice` can) or leaves a well-formed list. -/
theorem apply_op_wf (JS_ToInt64 : JSValue → Option Int) (op : Op) {l : LinkedList}
    {ps : List Nat} (h : WF l ps) :
    ((∃ c a, op = .splice c a) ∧
      (apply_op JS_ToInt64 op l = .error .null_deref ∨
        apply_op JS_ToInt64 op l = .error .use_after_free)) ∨
    ∃ ret l' ps', apply_op JS_ToInt64 op l = .ok (ret, l') ∧ WF l' ps' := by
  cases op with
  | push argv =>
    obtain ⟨l', qs, e, hw, -⟩ := method_push_wf argv h
    exact Or.inr ⟨_, l', _, e, hw⟩
  | pop =>
    obtain ⟨l', e, hw, -⟩ := method_pop_wf h
    exact Or.inr ⟨_, l', _, e, hw⟩
  | unshift argv =>
    obtain ⟨l', qs, e, hw, -⟩ := unshift_loop_wf argv.reverse h
    exact Or.inr ⟨_, l', _, e, hw⟩
  | shift =>
    obtain ⟨l', e, hw, -⟩ := method_shift_wf h
    exact Or.inr ⟨_, l', _, e, hw⟩
  | splice ctx argv =>
    rcases method_splice_valid JS_ToInt64 ctx h argv with e | e | ⟨ret, l', ps', e, hw⟩
    · exact Or.inl ⟨⟨ctx, argv, rfl⟩, Or.inl e⟩
    · exact Or.inl ⟨⟨ctx, argv, rfl⟩, Or.inr e⟩
    · exact Or.inr ⟨ret, l', ps', e, hw⟩

/-- A sequence of operations run on a well-formed list: every list it reaches is
well-formed, it never exhausts the fuel of a loop, and without `splice` it runs to
its end. -/
theorem run_ops_wf (JS_ToInt64 : JSValue → Option Int) :
    ∀ (ops : List Op) {l : LinkedList} {ps : List Nat}, WF l ps →
    (∀ l', run_ops JS_ToInt64 ops l = .ok l' → ∃ ps', WF l' ps') ∧
    run_ops JS_ToInt64 ops l ≠ .error .fuel ∧
    ((∀ op ∈ ops, ∀ c a, op ≠ .splice c a) → ∃ l', run_ops JS_ToInt64 ops l = .ok l')
  | [], l, ps, h => by
    refine ⟨fun l' e => ?_, by simp [run_ops, pure, Except.pure], fun _ => ⟨l, rfl⟩⟩
    simp only [run_ops, pure, Except.pure, Except.ok.injEq] at e
    subst e
    exact ⟨ps, h⟩
  | op :: ops, l, ps, h => by
    rcases apply_op_wf JS_ToInt64 op h with ⟨⟨c, a, hop⟩, e | e⟩ | ⟨ret, l1, ps1, e, hw⟩
    · refine ⟨fun l' e' => ?_, ?_, fun hns => ?_⟩
      · simp [run_ops, e, bind, Except.bind] at e'
      · simp [run_ops, e, bind, Except.bind]
      · exact absurd hop (hns op (by simp) c a)
    · refine ⟨fun l' e' => ?_, ?_, fun hns => ?_⟩
      · simp [run_ops, e, bind, Except.bind] at e'
      · simp [run_ops, e, bind, Except.bind]
      · exact absurd hop (hns op (by simp) c a)
    · obtain ⟨h1, h2, h3⟩ := run_ops_wf JS_ToInt64 ops hw
      have hrun : run_ops JS_ToInt64 (op :: ops) l = run_ops JS_ToInt64 ops l1 := by
        simp [run_ops, e, bind, Except.bind]
      rw [hrun]
      exact ⟨h1, h2, fun hns => h3 (fun o ho => hns o (List.mem_cons_of_mem _ ho))⟩

/-! ## Forward search -/

theorem indexof_loop_chain (eq : JSValue → JSValue → Bool) {l : LinkedList}
    {g : Nat → Option Nat} (v : JSValue) :
    ∀ {s : List Nat} {x : Nat} {k : Nat} (i : Int), Chain (nxt l) g x s 0 → 0 ∉ s →
    s.length < k → 0 ≤ i → i + s.length < 2 ^ 63 →
    ∃ r, list_indexof_forward_loop eq l v k (some (s.headD 0)) i = .ok r ∧
      ((r = -1 ∧ ∀ w ∈ vals l s, eq v w = false) ∨
       (i ≤ r ∧ (∃ w, (vals l s)[(r - i).toNat]? = some w ∧ eq v w = true) ∧
        ∀ j : Nat, j < (r - i).toNat → ∀ u, (vals l s)[j]? = some u → eq v u = false))
  | [], x, k + 1, i, _, _, _, _, _ => by
    refine ⟨-1, ?_, Or.inl ⟨rfl, by simp [vals]⟩⟩
    simp [list_indexof_forward_loop, pure, Except.pure]
  | y :: ys, x, k + 1, i, h, h0, hlen, hi, hi2 => by
    have hy : y ≠ 0 := fun e => h0 (by simp [e])
    obtain ⟨n, hn, hnx⟩ := nxt_some (chain_headD h.2.2)
    have hval : (val l y).getD .uninitialized = n.value := by simp [val, hn]
    simp only [List.length_cons, Nat.cast_add, Nat.cast_one] at hi2
    by_cases he : eq v n.value = true
    · refine ⟨i, ?_, Or.inr ⟨le_refl _, ⟨n.value, by simp [vals_cons, hval], he⟩, ?_⟩⟩
      · simp [list_indexof_forward_loop, hy, load, hn, he, bind, Except.bind, pure, Except.pure]
      · intro j hj
        simp at hj
    · have e64 : int64 (i + 1) = i + 1 := int64_of_range (by omega) (by omega)
      obtain ⟨r, er, hr⟩ := indexof_loop_chain eq v (k := k) (i + 1) h.2.2
        (fun hm => h0 (List.mem_cons_of_mem _ hm)) (by simp at hlen; omega) (by omega)
        (by omega)
      simp only [List.headD_eq_head?_getD] at er
      refine ⟨r, ?_, ?_⟩
      · simp [list_indexof_forward_loop, hy, load, hn, he, hnx, e64, er, bind, Except.bind]
      · have he' : eq v n.value = false := by simpa using he
        rcases hr with ⟨h1, h2⟩ | ⟨h1, ⟨w, hw, hwe⟩, h3⟩
        · left
          refine ⟨h1, fun w hw => ?_⟩
          rw [vals_cons, hval] at hw
          rcases List.mem_cons.1 hw with e | e
          · rw [e]; exact he'
          · exact h2 w e
        · right
          have hidx : (r - i).toNat = (r - (i + 1)).toNat + 1 := by omega
          refine ⟨by omega, ⟨w, ?_, hwe⟩, fun j hj u hu => ?_⟩
          · rw [hidx, vals_cons, List.getElem?_cons_succ]
            exact hw
          · rw [vals_cons, hval] at hu
            cases j with
            | zero =>
              simp at hu
              rw [← hu]; exact he'
            | succ j =>
              rw [List.getElem?_cons_succ] at hu
              exact h3 j (by omega) u hu

theorem WF.indexof {l : LinkedList} {ps : List Nat} (h : WF l ps)
    (eq : JSValue → JSValue → Bool) (v : JSValue) :
    ∃ r, list_indexof_forward eq l v = .ok r ∧ FirstMatch eq v (vals l ps) r := by
  obtain ⟨nh, hnh, hnx, -⟩ := h.toLinked.head_mem
  have hs := h.size_lt
  have hse := h.size_eq
  obtain ⟨r, er, hr⟩ := indexof_loop_chain eq v (k := l.brk) 0 h.chain
    (List.nodup_cons.1 h.nodup).1 h.len (le_refl _) (by omega)
  refine ⟨r, ?_, ?_⟩
  · simp only [list_indexof_forward, load_some hnh, hnx, bind, Except.bind]
    exact er
  · simpa [FirstMatch] using hr

/-! ## Iterators of every kind -/

theorem bump_size (l : LinkedList) (a : Nat) : (bump l a).size = l.size := by
  unfold bump
  cases l.mem a <;> rfl

theorem value_bump {p : Nat} {l : LinkedList} {a : Nat} {n : Node} (kind : JSIteratorKindEnum)
    (dir : Direction) (i : Int) (h : l.mem a = some n) (ha : a ≠ 0) :
    list_iterator_value
      { list := some p, node := some a, index := i, kind := kind, dir := dir } (bump l a) =
      .ok (yield_at kind l i a) := by
  obtain ⟨n', hl, hv⟩ := load_bump_value h
  have hval : (val l a).getD .uninitialized = n.value := by simp [val, h]
  cases kind <;>
    simp [list_iterator_value, ha, hl, hv, hval, yield_at, bump_size, bind, Except.bind, pure,
      Except.pure]

/-- The general form of `iterate_positioned`, for every kind of iterator. -/
theorem iterate_kind_positioned {p : Nat} {l : LinkedList} {g : Nat → Option Nat}
    (kind : JSIteratorKindEnum) (dir : Direction) :
    ∀ (rest : List Nat) (a : Nat) (i : Int), Chain (lnk dir l) g a rest 0 → 0 ∉ rest →
    a ≠ 0 → (∀ b ∈ a :: rest, ∃ r, rc l b = some r ∧ 1 ≤ r) →
    -2 ^ 63 + rest.length + 1 ≤ i → i + rest.length + 1 < 2 ^ 63 →
    iterate (rest.length + 1)
      { list := some p, node := some a, index := i, kind := kind, dir := dir } (bump l a) =
    .ok ((yields kind dir l rest (i + stp dir)).map (fun v => (v, false)) ++ [(.undefined, true)],
      { list := some p, node := some 0, index := i + stp dir * (rest.length + 1),
        kind := kind, dir := dir }, l)
  | [], a, i, hc, _, ha, hrc, hi1, hi2 => by
    obtain ⟨r, hr, hr1⟩ := hrc a (by simp)
    obtain ⟨n, hm, hnr⟩ := rc_some hr
    have hfree := node_free_bump hm (by omega)
    have hlnk : lnk dir l a = some 0 := hc.1
    cases dir with
    | FWD =>
      obtain ⟨n', hm', hnx⟩ := nxt_some hlnk
      rw [hm] at hm'; cases hm'
      have e64 : int64 (i + 1) = i + 1 := int64_of_range (by simp at hi1; omega) (by omega)
      simp [iterate, list_iterator_next, list_iterator_skip, ha, hfree, load, hm, hnx, e64,
        list_iterator_value, list_iterator_done, stp, yields, bind, Except.bind, pure,
        Except.pure]
    | REV =>
      obtain ⟨n', hm', hnx⟩ := prv_some hlnk
      rw [hm] at hm'; cases hm'
      have e64 : int64 (i - 1) = i - 1 := int64_of_range (by simp at hi1; omega) (by omega)
      simp [iterate, list_iterator_next, list_iterator_skip, ha, hfree, load, hm, hnx, e64,
        list_iterator_value, list_iterator_done, stp, yields, bind, Except.bind, pure,
        Except.pure]
      omega
  | b :: rest, a, i, hc, h0, ha, hrc, hi1, hi2 => by
    obtain ⟨r, hr, hr1⟩ := hrc a (by simp)
    obtain ⟨n, hm, hnr⟩ := rc_some hr
    have hfree := node_free_bump hm (by omega)
    have hb0 : b ≠ 0 := fun e => h0 (by simp [e])
    obtain ⟨rb, hrb, hrb1⟩ := hrc b (by simp)
    obtain ⟨nb, hmb, hnbr⟩ := rc_some hrb
    have hdup := node_dup_bump hmb
    have hlnk : lnk dir l a = some b := hc.1
    simp only [List.length_cons, Nat.cast_add, Nat.cast_one] at hi1 hi2
    cases dir with
    | FWD =>
      obtain ⟨n', hm', hnx⟩ := nxt_some hlnk
      rw [hm] at hm'; cases hm'
      have e64 : int64 (i + 1) = i + 1 := int64_of_range (by omega) (by omega)
      have hval := value_bump (p := p) kind .FWD (i + 1) hmb hb0
      have ih := iterate_kind_positioned (p := p) (l := l) (g := g) kind .FWD rest b (i + 1) hc.2.2
        (fun hm0 => h0 (List.mem_cons_of_mem _ hm0)) hb0
        (fun x hx => hrc x (List.mem_cons_of_mem _ hx)) (by omega) (by omega)
      rw [iterate]
      simp [list_iterator_next, list_iterator_skip, ha, hfree, load_some hm, hnx, e64,
        list_iterator_done, hdup, hb0, bind, Except.bind, pure, Except.pure, hval, ih, stp,
        yields]
      ring
    | REV =>
      obtain ⟨n', hm', hnx⟩ := prv_some hlnk
      rw [hm] at hm'; cases hm'
      have e64 : int64 (i - 1) = i - 1 := int64_of_range (by omega) (by omega)
      have hval := value_bump (p := p) kind .REV (i - 1) hmb hb0
      have ih := iterate_kind_positioned (p := p) (l := l) (g := g) kind .REV rest b (i - 1) hc.2.2
        (fun hm0 => h0 (List.mem_cons_of_mem _ hm0)) hb0
        (fun x hx => hrc x (List.mem_cons_of_mem _ hx)) (by omega) (by omega)
      rw [iterate]
      simp [list_iterator_next, list_iterator_skip, ha, hfree, load_some hm, hnx, e64,
        list_iterator_done, hdup, hb0, bind, Except.bind, pure, Except.pure, hval, ih, stp,
        yields]
      have e1 : i + -1 = i - 1 := by ring
      rw [e1]
      refine ⟨⟨rfl, rfl⟩, ?_⟩
      ring

/-- A fresh iterator of any kind over a non-empty well-formed list, forward. -/
theorem iterate_kind_forward {p : Nat} {l : LinkedList} {ps : List Nat} (kind : JSIteratorKindEnum)
    (h : WF l ps) (hne : ps ≠ []) :
    ∃ it', iterate (ps.length + 1)
      { list := some p, node := none, index := 0, kind := kind, dir := .FWD } l =
      .ok ((yields kind .FWD l ps 0).map (fun v => (v, false)) ++ [(.undefined, true)], it', l) := by
  cases ps with
  | nil => exact absurd rfl hne
  | cons a rest =>
    have hs := h.size_lt
    have hse := h.size_eq
    simp only [List.length_cons] at hse
    have ha0 : a ≠ 0 := fun e => (List.nodup_cons.1 h.nodup).1 (by simp [e])
    obtain ⟨n, hm⟩ := h.toLinked.alloc (a := a) (by simp)
    have hfront : list_front l = .ok (some a) := by rw [h.toLinked.front]; rfl
    have hval := value_bump (p := p) kind .FWD 0 hm ha0
    have hrest := iterate_kind_positioned (p := p) (l := l) (g := prv l) kind .FWD rest a 0 h.chain.2.2
      (fun hm0 => (List.nodup_cons.1 h.nodup).1 (List.mem_cons_of_mem _ hm0)) ha0
      (fun b hb => h.refs b hb) (by omega) (by omega)
    refine ⟨ListIterator.mk (some p) (some 0) (0 + stp Direction.FWD * ((rest.length : Int) + 1))
      kind Direction.FWD, ?_⟩
    rw [iterate]
    simp [list_iterator_next, hfront, node_dup_bump hm, hval, ha0,
      list_iterator_done, bind, Except.bind, pure, Except.pure, hrest, yields]

theorem yields_key_forward (l : LinkedList) : ∀ (ps : List Nat) (j : Nat),
    yields .JS_ITERATOR_KIND_KEY .FWD l ps j =
      (List.range' j ps.length).map (fun k : Nat => JSValue.int (int64 ((k : Nat) + l.size)))
  | [], _ => rfl
  | a :: ps, j => by
    have ih := yields_key_forward l ps (j + 1)
    have e : ((j : Int) + stp .FWD) = ((j + 1 : Nat) : Int) := by simp [stp]
    simp only [yields, yield_at, e, ih, List.length_cons, List.range'_succ, List.map_cons]

theorem yields_entries_forward (l : LinkedList) : ∀ (ps : List Nat) (j : Nat),
    yields .JS_ITERATOR_KIND_KEY_AND_VALUE .FWD l ps j =
      ((vals l ps).enumFrom j).map
        (fun p => JSValue.pair (.int (int64 ((p.1 : Nat) + l.size))) p.2)
  | [], _ => rfl
  | a :: ps, j => by
    have ih := yields_entries_forward l ps (j + 1)
    have e : ((j : Int) + stp .FWD) = ((j + 1 : Nat) : Int) := by simp [stp]
    simp only [yields, yield_at, e, ih, vals_cons, List.enumFrom_cons, List.map_cons]

/-! ## The cell a removed node leaves behind -/

/-- A cell known through its four views. -/
theorem mem_of_views {l : LinkedList} {a : Nat} {v : JSValue} {r : Int}
    (hn : nxt l a = none) (hp : prv l a = none) (hv : val l a = some v) (hr : rc l a = some r) :
    l.mem a = some { prev := none, next := none, value := v, ref_count := r } := by
  obtain ⟨n, hm, hnv⟩ := val_some hv
  simp only [nxt, prv, rc, hm, Option.bind_some, Option.map_some', Option.some.injEq] at hn hp hr
  rw [hm]
  cases n
  simp_all

/-- `wf_take_node` together with what is left in the cell of the removed node. -/
theorem wf_take_node_cell {l : LinkedList} {s t : List Nat} {a : Nat} {r : Int}
    (h : WF l (s ++ a :: t)) (hr : rc l a = some r) :
    ∃ n l1 l', load l (some a) = .ok n ∧
      update l (some a) (fun n => { n with value := .undefined }) = .ok l1 ∧
      node_remove_rt (some a) l1 = .ok l' ∧ WF l' (s ++ t) ∧
      n.value = (val l a).getD .uninitialized ∧
      vals l' (s ++ t) = vals l s ++ vals l t ∧
      nxt l' a = none ∧ prv l' a = none ∧
      val l' a = (if r = 1 then none else some .uninitialized) ∧
      rc l' a = (if r = 1 then none else some (r - 1)) := by
  obtain ⟨n, hm⟩ := h.toLinked.alloc (a := a) (by simp)
  obtain ⟨l1, e1, hn1, hp1, hv1, hr1, hb1, ha1, hs1, hc1⟩ := set_value_views .undefined hm
  have hnd : ((0 :: s) ++ a :: t).Nodup := h.nodup
  rw [List.nodup_middle] at hnd
  have hnotin : a ∉ s ++ t := fun hm' =>
    (List.nodup_cons.1 hnd).1 (List.mem_cons_of_mem _ hm')
  have hw1 : WF l1 (s ++ a :: t) := by
    refine h.transfer hn1 hp1 (fun x hx => ?_) (fun x _ => hr1 x) hb1 ha1 hs1
    have := h.mem_lt_brk (a := a) (by simp)
    rw [hv1, if_neg (by omega)]
    exact h.fresh x hx
  obtain ⟨l2, r', hr', -, e2, hw2, hv2, hnx, hpv, hvv, hrr, -, -, -⟩ := wf_remove hw1
  have hrr' : r' = r := by
    rw [hr1, hr] at hr'
    exact (Option.some.inj hr').symm
  subst hrr'
  refine ⟨n, l1, l2, load_some hm, e1, e2, hw2, by simp [val, hm], ?_, hnx, hpv, ?_, ?_⟩
  · rw [hv2]
    have e1' : vals l1 s = vals l s := vals_congr (fun b hb => by
      have hne : b ≠ a := fun e => hnotin (by rw [← e]; exact List.mem_append_left _ hb)
      rw [hv1, if_neg hne])
    have e2' : vals l1 t = vals l t := vals_congr (fun b hb => by
      have hne : b ≠ a := fun e => hnotin (by rw [← e]; exact List.mem_append_right _ hb)
      rw [hv1, if_neg hne])
    rw [e1', e2']
  · rw [hvv, if_pos rfl]
  · rw [hrr, if_pos rfl]

/-! ## Several iterators over one unmutated list: the references they hold -/

theorem store_rc_views {l : LinkedList} {a : Nat} {n : Node} (c : Int) (h : l.mem a = some n) :
    (∀ x, nxt (store l a { n with ref_count := c }) x = nxt l x) ∧
    (∀ x, prv (store l a { n with ref_count := c }) x = prv l x) ∧
    (∀ x, val (store l a { n with ref_count := c }) x = val l x) ∧
    (∀ x, rc (store l a { n with ref_count := c }) x = if x = a then some c else rc l x) := by
  refine ⟨?_, ?_, ?_, ?_⟩ <;> intro x <;> by_cases hx : x = a <;>
    simp [nxt, prv, val, rc, hx, h]

theorem node_dup_store {l : LinkedList} {a : Nat} {n : Node} (h : l.mem a = some n) :
    node_dup (some a) l = .ok (some a, store l a { n with ref_count := n.ref_count + 1 }) := by
  simp [node_dup, update, h, bind, Except.bind, pure, Except.pure]

theorem node_free_keep {l : LinkedList} {a : Nat} {n : Node} (h : l.mem a = some n)
    (hr : n.ref_count ≠ 1) :
    node_free_rt (some a) l = .ok (store l a { n with ref_count := n.ref_count - 1 }) := by
  have : n.ref_count - 1 ≠ 0 := by omega
  simp [node_free_rt, update, h, load, this, bind, Except.bind, pure, Except.pure]

theorem rc_store_add {l : LinkedList} {a : Nat} {n : Node} (c : Int) (h : l.mem a = some n)
    (x : Nat) : rc (store l a { n with ref_count := n.ref_count + c }) x =
      (rc l x).map (fun r => r + if x = a then c else 0) := by
  by_cases hx : x = a
  · subst hx; simp [rc, h]
  · simp only [rc, store_mem, if_neg hx, add_zero]
    cases l.mem x <;> rfl

theorem chain_succ_mem {f g : Nat → Option Nat} : ∀ {s : List Nat} {x z : Nat},
    Chain f g x s z → ∀ a ∈ x :: s, ∃ b ∈ s ++ [z], f a = some b
  | [], x, z, h, a, ha => by
    simp at ha
    subst ha
    exact ⟨z, by simp, h.1⟩
  | y :: ys, x, z, h, a, ha => by
    rcases List.mem_cons.1 ha with h' | h'
    · subst h'
      exact ⟨y, by simp, h.1⟩
    · obtain ⟨b, hb, e⟩ := chain_succ_mem h.2.2 a h'
      exact ⟨b, List.mem_cons_of_mem _ hb, e⟩

/-- From a node of the list either link leads to the head or to a node of the list. -/
theorem Linked.lnk_mem {l : LinkedList} {ps : List Nat} (h : Linked l ps) (dir : Direction)
    {a : Nat} (ha : a ∈ ps) : ∃ b ∈ 0 :: ps, lnk dir l a = some b := by
  cases dir with
  | FWD =>
    obtain ⟨b, hb, e⟩ := chain_succ_mem h.chain a (List.mem_cons_of_mem _ ha)
    refine ⟨b, ?_, e⟩
    simpa [or_comm] using hb
  | REV =>
    obtain ⟨b, hb, e⟩ := chain_succ_mem (chain_reverse h.chain) a
      (List.mem_cons_of_mem _ (List.mem_reverse.2 ha))
    refine ⟨b, ?_, e⟩
    simpa [or_comm] using hb

theorem held_nil (a : Nat) : held [] a = 0 := rfl

theorem held_cons (it : ListIterator) (its : List ListIterator) (a : Nat) :
    held (it :: its) a = holds it a + held its a := by
  simp [held]

theorem held_append (its : List ListIterator) (it : ListIterator) (a : Nat) :
    held (its ++ [it]) a = held its a + holds it a := by
  simp [held]

theorem held_zero (its : List ListIterator) : held its 0 = 0 := by
  induction its with
  | nil => rfl
  | cons it its ih =>
    rw [held_cons, ih]
    simp [holds]

theorem holds_le_held : ∀ {its : List ListIterator} {i : Nat} {it : ListIterator},
    its[i]? = some it → ∀ a, holds it a ≤ held its a
  | [], i, it, h, a => by simp at h
  | x :: its, 0, it, h, a => by
    simp at h
    subst h
    rw [held_cons]; omega
  | x :: its, i + 1, it, h, a => by
    simp at h
    have := holds_le_held h a
    rw [held_cons]; omega

theorem held_set : ∀ {its : List ListIterator} {i : Nat} {it : ListIterator}
    (it' : ListIterator), its[i]? = some it →
    ∀ a, held (its.set i it') a = held its a - holds it a + holds it' a
  | [], i, it, it', h, a => by simp at h
  | x :: its, 0, it, it', h, a => by
    simp at h
    subst h
    simp only [List.set_cons_zero, held_cons]; omega
  | x :: its, i + 1, it, it', h, a => by
    simp at h
    have := held_set it' h a
    have := holds_le_held h a
    simp only [List.set_cons_succ, held_cons]; omega

theorem held_eraseIdx : ∀ {its : List ListIterator} {i : Nat} {it : ListIterator},
    its[i]? = some it → ∀ a, held (its.eraseIdx i) a = held its a - holds it a
  | [], i, it, h, a => by simp at h
  | x :: its, 0, it, h, a => by
    simp at h
    subst h
    simp only [List.eraseIdx_cons_zero, held_cons]; omega
  | x :: its, i + 1, it, h, a => by
    simp at h
    have := held_eraseIdx h a
    have := holds_le_held h a
    simp only [List.eraseIdx_cons_succ, held_cons]; omega

theorem held_eq_countP (its : List ListIterator) {a : Nat} (ha : a ≠ 0) :
    held its a = its.countP (fun it => decide (it.node = some a)) := by
  induction its with
  | nil => rfl
  | cons it its ih =>
    rw [held_cons, ih, List.countP_cons]
    unfold holds
    by_cases h : it.node = some a <;> simp [h, ha]
    omega

theorem holds_of_node {it : ListIterator} {a : Nat} (ha : it.node = some a) (ha0 : a ≠ 0)
    (x : Nat) : holds it x = if x = a then 1 else 0 := by
  unfold holds
  by_cases hx : x = a
  · subst hx; simp [ha, ha0]
  · have : ¬ (it.node = some x) := by rw [ha]; intro e; exact hx (Option.some.inj e).symm
    simp [this, hx]

theorem holds_of_unset {it : ListIterator} (h : it.node = none) (x : Nat) : holds it x = 0 := by
  simp [holds, h]

theorem holds_of_head {it : ListIterator} (h : it.node = some 0) (x : Nat) : holds it x = 0 := by
  unfold holds
  by_cases hx : x = 0
  · simp [hx]
  · have : ¬ (it.node = some x) := by rw [h]; intro e; exact hx (Option.some.inj e).symm
    simp [this]

theorem Lifted.congr {l lc : LinkedList} {h h' : Nat → Nat} {k : Nat} (hl : Lifted l h k lc)
    (e : ∀ a, h' a = h a) : Lifted l h' k lc :=
  { hl with rc_eq := fun a => by rw [e a]; exact hl.rc_eq a }

theorem Lifted.linked {l lc : LinkedList} {h : Nat → Nat} {k : Nat} {ps : List Nat}
    (hl : Lifted l h k lc) (hw : Linked l ps) : Linked lc ps :=
  hw.of_views hl.nxt_eq hl.prv_eq (fun a ha => by rw [hl.val_eq]; exact hw.fresh a ha) hl.brk_eq

theorem Lifted.refl (l : LinkedList) : Lifted l (held []) 0 l where
  nxt_eq := fun _ => rfl
  prv_eq := fun _ => rfl
  val_eq := fun _ => rfl
  rc_eq := fun a => by cases h : rc l a <;> simp [held_nil]
  brk_eq := rfl
  avail_eq := rfl
  sz_eq := rfl
  ref_eq := by simp

theorem Lifted.eq_of_zero {l lc : LinkedList} (hl : Lifted l (held []) 0 lc) : lc = l :=
  LinkedList.ext_views hl.nxt_eq hl.prv_eq hl.val_eq
    (fun a => by rw [hl.rc_eq]; cases h : rc l a <;> simp [held_nil])
    hl.brk_eq hl.avail_eq hl.sz_eq (by simpa using hl.ref_eq)

theorem value_defined {it : ListIterator} {lc : LinkedList} (p : Nat) (hl : it.list = some p)
    (hn : ∃ b n, it.node = some b ∧ lc.mem b = some n) :
    ∃ v, list_iterator_value it lc = .ok v := by
  obtain ⟨b, n, hb, hm⟩ := hn
  unfold list_iterator_value
  rw [hl]
  by_cases hb0 : b = 0
  · subst hb0
    exact ⟨.undefined, by simp [hb, pure, Except.pure]⟩
  · cases hk : it.kind <;>
      simp [hb, hb0, hk, load, hm, bind, Except.bind, pure, Except.pure]

theorem next_on_head {it : ListIterator} {lc : LinkedList} {p : Nat} (hl : it.list = some p)
    (h0 : it.node = some 0) : list_iterator_next it lc = .ok (.undefined, true, it, lc) := by
  unfold list_iterator_next
  rw [hl]
  simp [h0, list_iterator_skip, hl, list_iterator_value, list_iterator_done, bind, Except.bind,
    pure, Except.pure]

theorem next_unset_empty {it : ListIterator} {lc : LinkedList} {p : Nat} (hl : it.list = some p)
    (hn : it.node = none)
    (hsel : (it.index = -1 ∧ list_back lc = .ok none) ∨
      (it.index = 0 ∧ list_front lc = .ok none)) :
    list_iterator_next it lc = .error .null_deref := by
  unfold list_iterator_next
  rw [hl]
  rcases hsel with ⟨hi, hb⟩ | ⟨hi, hf⟩
  · simp [hn, hi, hb, node_dup, update, bind, Except.bind]
  · simp [hn, hi, hf, node_dup, update, bind, Except.bind]

theorem next_unset {it : ListIterator} {lc : LinkedList} {b : Nat} {n : Node}
    {p : Nat} (hl : it.list = some p) (hn : it.node = none)
    (hsel : (it.index = -1 ∧ list_back lc = .ok (some b)) ∨
      (it.index = 0 ∧ list_front lc = .ok (some b)))
    (hm : lc.mem b = some n) (hb0 : b ≠ 0) :
    ∃ v, list_iterator_next it lc =
      .ok (v, false, { it with node := some b },
        store lc b { n with ref_count := n.ref_count + 1 }) := by
  obtain ⟨v, hv⟩ := @value_defined { it with node := some b }
    (store lc b { n with ref_count := n.ref_count + 1 }) p hl
    ⟨b, { n with ref_count := n.ref_count + 1 }, rfl, by simp⟩
  refine ⟨v, ?_⟩
  unfold list_iterator_next
  rw [hl]
  rcases hsel with ⟨hi, hb⟩ | ⟨hi, hf⟩
  · simp only [hl, hi] at hv
    simp [hn, hi, hb, node_dup_store hm, hv, list_iterator_done, hl, hb0, bind, Except.bind,
      pure, Except.pure]
  · simp only [hl, hi] at hv
    simp [hn, hi, hf, node_dup_store hm, hv, list_iterator_done, hl, hb0, bind, Except.bind,
      pure, Except.pure]

theorem next_on_node {it : ListIterator} {lc : LinkedList} {a b : Nat} {n : Node}
    {p : Nat} (hl : it.list = some p) (ha : it.node = some a) (ha0 : a ≠ 0) (hm : lc.mem a = some n)
    (hr : n.ref_count ≠ 1)
    (hb : (match it.dir with | .FWD => n.next | .REV => n.prev) = some b)
    (hmb : ∃ nb, lc.mem b = some nb) :
    ∃ v d it' lc', list_iterator_next it lc = .ok (v, d, it', lc') ∧ it'.list = some p ∧
      it'.node = some b ∧
      (∀ x, nxt lc' x = nxt lc x) ∧ (∀ x, prv lc' x = prv lc x) ∧
      (∀ x, val lc' x = val lc x) ∧
      (∀ x, rc lc' x = (rc lc x).map
        (fun r => r + (if x = a then -1 else 0) + (if x = b ∧ b ≠ 0 then 1 else 0))) ∧
      lc'.brk = lc.brk ∧ lc'.avail = lc.avail ∧ lc'.size = lc.size ∧
      lc'.ref_count = lc.ref_count := by
  have hfree := node_free_keep hm hr
  obtain ⟨hn1, hp1, hv1, -⟩ := store_rc_views (n.ref_count - 1) hm
  have hrc1 := rc_store_add (-1) hm
  generalize hl1 : store lc a { n with ref_count := n.ref_count - 1 } = l1 at hfree hn1 hp1 hv1
  have hrc1' : ∀ x, rc l1 x = (rc lc x).map (fun r => r + if x = a then -1 else 0) := by
    intro x; rw [← hl1]; exact hrc1 x
  have hload : load l1 (some a) = .ok { n with ref_count := n.ref_count - 1 } := by
    rw [← hl1]; simp [load]
  have hmb1 : ∃ nb, l1.mem b = some nb := by
    obtain ⟨nb, hnb⟩ := hmb
    rw [← hl1]
    by_cases hba : b = a
    · exact ⟨{ n with ref_count := n.ref_count - 1 }, by simp [hba]⟩
    · exact ⟨nb, by simp [hba, hnb]⟩
  have hskip : ∃ it1, list_iterator_skip it lc = .ok (false, it1, if b = 0 then l1 else
      (store l1 b { (l1.mem b).getD n with ref_count := ((l1.mem b).getD n).ref_count + 1 })) ∧
      it1.list = some p ∧ it1.node = some b ∧ it1.kind = it.kind := by
    obtain ⟨nb, hnb⟩ := hmb1
    unfold list_iterator_skip
    rw [hl]
    cases hd : it.dir with
    | FWD =>
      rw [hd] at hb
      simp only at hb
      by_cases hb0 : b = 0
      · refine ⟨{ it with node := some b, index := int64 (it.index + 1) }, ?_, hl, rfl, rfl⟩
        simp [ha, ha0, hfree, hload, hb, hb0, hl, hd, bind, Except.bind, pure, Except.pure]
      · refine ⟨{ it with node := some b, index := int64 (it.index + 1) }, ?_, hl, rfl, rfl⟩
        simp [ha, ha0, hfree, hload, hb, hb0, node_dup_store hnb, hnb, hl, hd, bind, Except.bind,
          pure, Except.pure]
    | REV =>
      rw [hd] at hb
      simp only at hb
      by_cases hb0 : b = 0
      · refine ⟨{ it with node := some b, index := int64 (it.index - 1) }, ?_, hl, rfl, rfl⟩
        simp [ha, ha0, hfree, hload, hb, hb0, hl, hd, bind, Except.bind, pure, Except.pure]
      · refine ⟨{ it with node := some b, index := int64 (it.index - 1) }, ?_, hl, rfl, rfl⟩
        simp [ha, ha0, hfree, hload, hb, hb0, node_dup_store hnb, hnb, hl, hd, bind, Except.bind,
          pure, Except.pure]
  obtain ⟨it1, hsk, hl1', hn1', -⟩ := hskip
  generalize hl2 : (if b = 0 then l1 else
      (store l1 b { (l1.mem b).getD n with ref_count := ((l1.mem b).getD n).ref_count + 1 }))
    = l2 at hsk
  have hviews : (∀ x, nxt l2 x = nxt lc x) ∧ (∀ x, prv l2 x = prv lc x) ∧
      (∀ x, val l2 x = val lc x) ∧
      (∀ x, rc l2 x = (rc lc x).map
        (fun r => r + (if x = a then -1 else 0) + (if x = b ∧ b ≠ 0 then 1 else 0))) ∧
      l2.brk = lc.brk ∧ l2.avail = lc.avail ∧ l2.size = lc.size ∧
      l2.ref_count = lc.ref_count ∧ ∃ nb, l2.mem b = some nb := by
    obtain ⟨nb, hnb⟩ := hmb1
    by_cases hb0 : b = 0
    · rw [if_pos hb0] at hl2
      subst hl2
      refine ⟨hn1, hp1, hv1, fun x => ?_, ?_, ?_, ?_, ?_, ⟨nb, hnb⟩⟩
      · rw [hrc1']
        simp [hb0]
      all_goals rw [← hl1]; rfl
    · rw [if_neg hb0] at hl2
      simp only [hnb, Option.getD_some] at hl2
      obtain ⟨hn2, hp2, hv2, -⟩ := store_rc_views (nb.ref_count + 1) hnb
      have hrc2 := rc_store_add 1 hnb
      rw [hl2] at hn2 hp2 hv2 hrc2
      refine ⟨fun x => by rw [hn2, hn1], fun x => by rw [hp2, hp1], fun x => by rw [hv2, hv1],
        fun x => ?_, ?_, ?_, ?_, ?_, ?_⟩
      · rw [hrc2, hrc1', Option.map_map]
        congr 1
        funext r
        simp [hb0]
      · rw [← hl2, ← hl1]; rfl
      · rw [← hl2, ← hl1]; rfl
      · rw [← hl2, ← hl1]; rfl
      · rw [← hl2, ← hl1]; rfl
      · rw [← hl2]; exact ⟨{ nb with ref_count := nb.ref_count + 1 }, by simp⟩
  obtain ⟨h1, h2, h3, h4, h5, h6, h7, h8, nb2, hnb2⟩ := hviews
  obtain ⟨v, hv⟩ := @value_defined it1 l2 p hl1' ⟨b, nb2, hn1', hnb2⟩
  refine ⟨v, decide (some b = some 0), it1, l2, ?_, hl1', hn1', h1, h2, h3, h4, h5, h6, h7, h8⟩
  unfold list_iterator_next
  rw [hl]
  simp [ha, hsk, hn1', hv, list_iterator_done, hl1', bind, Except.bind, pure, Except.pure]

/-- One `next()` call on one of the iterators of a list that is otherwise as `l`. -/
theorem next_lifted {p : Nat} {l lc : LinkedList} {ps : List Nat} {h : Nat → Nat} {k : Nat}
    {it : ListIterator} (hw : WF l ps) (hl : Lifted l h k lc) (hp : Placed p ps it)
    (hh : ∀ a, holds it a ≤ h a) :
    (ps = [] ∧ it.node = none ∧ list_iterator_next it lc = .error .null_deref) ∨
    ∃ v d it' lc', list_iterator_next it lc = .ok (v, d, it', lc') ∧ Placed p ps it' ∧
      Lifted l (fun a => h a - holds it a + holds it' a) k lc' := by
  obtain ⟨hlist, hnode⟩ := hp
  have hlk := hl.linked hw.toLinked
  rcases hnode with ⟨hnone, hidx⟩ | ⟨a, ha, hsome⟩
  · -- not yet positioned
    cases ps with
    | nil =>
      left
      refine ⟨rfl, hnone, next_unset_empty hlist hnone ?_⟩
      rcases hidx with hi | hi
      · exact Or.inr ⟨hi, by rw [hlk.front]; rfl⟩
      · exact Or.inl ⟨hi, by rw [hlk.back]; rfl⟩
    | cons p rest =>
      right
      have hsel : ∃ b ∈ p :: rest, (it.index = -1 ∧ list_back lc = .ok (some b)) ∨
          (it.index = 0 ∧ list_front lc = .ok (some b)) := by
        rcases hidx with hi | hi
        · exact ⟨p, by simp, Or.inr ⟨hi, by rw [hlk.front]; rfl⟩⟩
        · refine ⟨(p :: rest).getLast (by simp), List.getLast_mem _, Or.inl ⟨hi, ?_⟩⟩
          rw [hlk.back, List.getLast?_eq_getLast _ (by simp)]
      obtain ⟨b, hb, hsel⟩ := hsel
      have hb0 : b ≠ 0 := fun e => (List.nodup_cons.1 hw.nodup).1 (e ▸ hb)
      obtain ⟨n, hm⟩ := hlk.alloc (a := b) (List.mem_cons_of_mem _ hb)
      obtain ⟨v, hv⟩ := next_unset hlist hnone hsel hm hb0
      obtain ⟨hn1, hp1, hv1, -⟩ := store_rc_views (n.ref_count + 1) hm
      have hrc1 := rc_store_add 1 hm
      refine ⟨v, false, _, _, hv, ⟨hlist, Or.inr ⟨b, List.mem_cons_of_mem _ hb, rfl⟩⟩, ?_⟩
      refine ⟨fun x => by rw [hn1, hl.nxt_eq], fun x => by rw [hp1, hl.prv_eq],
        fun x => by rw [hv1, hl.val_eq], fun x => ?_, hl.brk_eq, hl.avail_eq, hl.sz_eq,
        hl.ref_eq⟩
      rw [hrc1, hl.rc_eq, Option.map_map]
      congr 1
      funext r
      have e1 := holds_of_unset hnone x
      have e2 := @holds_of_node { it with node := some b } b rfl hb0 x
      simp only [Function.comp, e1, e2]
      by_cases hx : x = b <;> simp [hx]
      omega
  · -- positioned
    right
    by_cases ha0 : a = 0
    · subst ha0
      refine ⟨.undefined, true, it, lc, next_on_head hlist hsome, ⟨hlist, Or.inr ⟨0, ha, hsome⟩⟩,
        hl.congr (fun x => ?_)⟩
      have := holds_of_head hsome x
      omega
    · have hap : a ∈ ps := by
        rcases List.mem_cons.1 ha with e | e
        · exact absurd e ha0
        · exact e
      obtain ⟨n, hm⟩ := hlk.alloc (a := a) ha
      obtain ⟨b, hbm, hlnk⟩ := hlk.lnk_mem it.dir hap
      have hb : (match it.dir with | .FWD => n.next | .REV => n.prev) = some b := by
        cases hd : it.dir with
        | FWD =>
          rw [hd] at hlnk
          obtain ⟨n', hm', e⟩ := nxt_some hlnk
          rw [hm] at hm'; cases hm'
          exact e
        | REV =>
          rw [hd] at hlnk
          obtain ⟨n', hm', e⟩ := prv_some hlnk
          rw [hm] at hm'; cases hm'
          exact e
      obtain ⟨r, hr, hr1⟩ := hw.refs a hap
      have hrc := hl.rc_eq a
      rw [hr] at hrc
      have hha := hh a
      rw [holds_of_node hsome ha0 a, if_pos rfl] at hha
      have hnr : n.ref_count ≠ 1 := by
        have : n.ref_count = r + (h a : Int) := by
          simpa [rc, hm] using hrc
        omega
      obtain ⟨v, d, it', lc', e, hl', hn', h1, h2, h3, h4, h5, h6, h7, h8⟩ :=
        next_on_node hlist hsome ha0 hm hnr hb (hlk.alloc hbm)
      refine ⟨v, d, it', lc', e, ⟨hl', Or.inr ⟨b, hbm, hn'⟩⟩, ?_⟩
      refine ⟨fun x => by rw [h1, hl.nxt_eq], fun x => by rw [h2, hl.prv_eq],
        fun x => by rw [h3, hl.val_eq], fun x => ?_, by rw [h5, hl.brk_eq],
        by rw [h6, hl.avail_eq], by rw [h7, hl.sz_eq], by rw [h8, hl.ref_eq]⟩
      rw [h4, hl.rc_eq, Option.map_map]
      congr 1
      funext r'
      have e1 := holds_of_node hsome ha0 x
      have e2 : holds it' x = if x = b ∧ b ≠ 0 then 1 else 0 := by
        by_cases hb0 : b = 0
        · subst hb0
          rw [holds_of_head hn' x]
          simp
        · rw [holds_of_node hn' hb0 x]
          simp [hb0]
      have hhx := hh x
      simp only [Function.comp, e1, e2] at hhx ⊢
      split_ifs at hhx ⊢ <;> omega

/-- Disposing of one of the iterators of a list that is otherwise as `l`. -/
theorem free_lifted {p : Nat} {l lc : LinkedList} {ps : List Nat} {h : Nat → Nat} {k : Nat}
    {it : ListIterator} (hw : WF l ps) (hl : Lifted l h (k + 1) lc) (hp : Placed p ps it)
    (hh : ∀ a, holds it a ≤ h a) (hr : 1 ≤ l.ref_count) :
    ∃ lc', list_iterator_free_rt it lc = .ok lc' ∧ Lifted l (fun a => h a - holds it a) k lc' := by
  obtain ⟨hlist, hnode⟩ := hp
  have hlk := hl.linked hw.toLinked
  have hfree : ∀ l1 : LinkedList, l1.ref_count = l.ref_count + ((k + 1 : Nat) : Int) →
      list_free_rt l1 = .ok { l1 with ref_count := l1.ref_count - 1 } := by
    intro l1 e
    have : l1.ref_count - 1 ≠ 0 := by rw [e]; omega
    simp [list_free_rt, this, pure, Except.pure]
  rcases hnode with ⟨hnone, -⟩ | ⟨a, ha, hsome⟩
  · refine ⟨{ lc with ref_count := lc.ref_count - 1 }, ?_, ?_⟩
    · simp [list_iterator_free_rt, hnone, hlist, hfree lc hl.ref_eq, bind, Except.bind, pure,
        Except.pure]
    · refine ⟨hl.nxt_eq, hl.prv_eq, hl.val_eq, fun x => ?_, hl.brk_eq, hl.avail_eq, hl.sz_eq,
        ?_⟩
      · rw [holds_of_unset hnone x]; exact hl.rc_eq x
      · show lc.ref_count - 1 = _
        rw [hl.ref_eq]; push_cast; ring
  · by_cases ha0 : a = 0
    · subst ha0
      refine ⟨{ lc with ref_count := lc.ref_count - 1 }, ?_, ?_⟩
      · simp [list_iterator_free_rt, hsome, hlist, hfree lc hl.ref_eq, bind, Except.bind, pure,
          Except.pure]
      · refine ⟨hl.nxt_eq, hl.prv_eq, hl.val_eq, fun x => ?_, hl.brk_eq, hl.avail_eq,
          hl.sz_eq, ?_⟩
        · rw [holds_of_head hsome x]; exact hl.rc_eq x
        · show lc.ref_count - 1 = _
          rw [hl.ref_eq]; push_cast; ring
    · have hap : a ∈ ps := by
        rcases List.mem_cons.1 ha with e | e
        · exact absurd e ha0
        · exact e
      obtain ⟨n, hm⟩ := hlk.alloc (a := a) ha
      obtain ⟨r, hr', hr1⟩ := hw.refs a hap
      have hrc := hl.rc_eq a
      rw [hr'] at hrc
      have hha := hh a
      rw [holds_of_node hsome ha0 a, if_pos rfl] at hha
      have hnr : n.ref_count ≠ 1 := by
        have : n.ref_count = r + (h a : Int) := by
          simpa [rc, hm] using hrc
        omega
      have hfr := node_free_keep hm hnr
      obtain ⟨hn1, hp1, hv1, -⟩ := store_rc_views (n.ref_count - 1) hm
      have hrc1 := rc_store_add (-1) hm
      have e1 : store lc a { n with ref_count := n.ref_count + -1 } =
          store lc a { n with ref_count := n.ref_count - 1 } := rfl
      rw [e1] at hrc1
      generalize store lc a { n with ref_count := n.ref_count - 1 } = l1 at hfr hn1 hp1 hv1 hrc1
      have hsc : l1.brk = lc.brk ∧ l1.avail = lc.avail ∧ l1.size = lc.size ∧
          l1.ref_count = lc.ref_count := by
        have := node_free_keep hm hnr
        rw [hfr] at this
        cases this
        exact ⟨rfl, rfl, rfl, rfl⟩
      refine ⟨{ l1 with ref_count := l1.ref_count - 1 }, ?_, ?_⟩
      · simp [list_iterator_free_rt, hsome, hlist, ha0, hfr,
          hfree l1 (by rw [hsc.2.2.2, hl.ref_eq]), bind, Except.bind]
      · refine ⟨fun x => (hn1 x).trans (hl.nxt_eq x), fun x => (hp1 x).trans (hl.prv_eq x),
          fun x => (hv1 x).trans (hl.val_eq x), fun x => ?_, hsc.1.trans hl.brk_eq,
          hsc.2.1.trans hl.avail_eq, hsc.2.2.1.trans hl.sz_eq, ?_⟩
        · show rc l1 x = _
          rw [hrc1, hl.rc_eq, Option.map_map]
          congr 1
          funext r'
          have e2 := holds_of_node hsome ha0 x
          have hhx := hh x
          simp only [Function.comp, e2] at hhx ⊢
          split_ifs at hhx ⊢ <;> omega
        · show l1.ref_count - 1 = _
          rw [hsc.2.2.2, hl.ref_eq]; push_cast; ring

theorem iter_step_inv {p : Nat} {l : LinkedList} {ps : List Nat} (hw : WF l ps) (hr : 1 ≤ l.ref_count)
    (op : IterOp) {s : LinkedList × List ListIterator} (hinv : IterInv p l ps s) :
    (∀ s', iter_step p op s = .ok s' → IterInv p l ps s') ∧
    (ps ≠ [] → ∃ s', iter_step p op s = .ok s') := by
  obtain ⟨lc, its⟩ := s
  obtain ⟨hl, hpl⟩ := hinv
  simp only at hl hpl
  cases op with
  | create ctx kind dir =>
    by_cases hc : ctx = 0
    · have e : iter_step p (.create ctx kind dir) (lc, its) = .ok (lc, its) := by
        simp [iter_step, js_list_iterator_new, hc, pure, Except.pure]
      refine ⟨fun s' hs => ?_, fun _ => ⟨_, e⟩⟩
      rw [e] at hs
      cases hs
      exact ⟨hl, hpl⟩
    · have hitn : (ListIterator.mk (some p) none (if dir = .REV then -1 else 0) kind dir).node
          = none := rfl
      have e : iter_step p (.create ctx kind dir) (lc, its) = .ok (list_dup lc,
          its ++ [ListIterator.mk (some p) none (if dir = .REV then -1 else 0) kind dir]) := by
        simp [iter_step, js_list_iterator_new, hc, pure, Except.pure]
      refine ⟨fun s' hs => ?_, fun _ => ⟨_, e⟩⟩
      rw [e] at hs
      cases hs
      refine ⟨⟨hl.nxt_eq, hl.prv_eq, hl.val_eq, fun x => ?_, hl.brk_eq, hl.avail_eq,
        hl.sz_eq, ?_⟩, fun it hit => ?_⟩
      · show rc lc x = _
        simp only [held_append, holds_of_unset hitn x, Nat.add_zero]
        exact hl.rc_eq x
      · show lc.ref_count + 1 = _
        rw [hl.ref_eq]
        simp only [List.length_append, List.length_singleton]
        push_cast; ring
      · rcases List.mem_append.1 hit with h1 | h1
        · exact hpl it h1
        · simp only [List.mem_singleton] at h1
          subst h1
          refine ⟨rfl, Or.inl ⟨rfl, ?_⟩⟩
          cases dir <;> simp
  | next i =>
    cases hi : its[i]? with
    | none =>
      have e : iter_step p (.next i) (lc, its) = .ok (lc, its) := by
        simp [iter_step, hi, pure, Except.pure]
      refine ⟨fun s' hs => ?_, fun _ => ⟨_, e⟩⟩
      rw [e] at hs
      cases hs
      exact ⟨hl, hpl⟩
    | some it =>
      have hmem : it ∈ its := List.getElem?_mem hi
      rcases next_lifted hw hl (hpl it hmem) (holds_le_held hi) with
        ⟨hps, -, herr⟩ | ⟨v, d, it', lc', e, hp', hl'⟩
      · refine ⟨fun s' hs => ?_, fun hne => absurd hps hne⟩
        simp [iter_step, hi, herr, bind, Except.bind] at hs
      · have e' : iter_step p (.next i) (lc, its) = .ok (lc', its.set i it') := by
          simp [iter_step, hi, e, bind, Except.bind, pure, Except.pure]
        refine ⟨fun s' hs => ?_, fun _ => ⟨_, e'⟩⟩
        rw [e'] at hs
        cases hs
        refine ⟨?_, fun x hx => ?_⟩
        · have := @Lifted.congr _ _ _ (held (its.set i it')) _ hl' (fun a => held_set it' hi a)
          simpa using this
        · rcases List.mem_or_eq_of_mem_set hx with h1 | h1
          · exact hpl x h1
          · rw [h1]; exact hp'
  | dispose i =>
    cases hi : its[i]? with
    | none =>
      have e : iter_step p (.dispose i) (lc, its) = .ok (lc, its) := by
        simp [iter_step, hi, pure, Except.pure]
      refine ⟨fun s' hs => ?_, fun _ => ⟨_, e⟩⟩
      rw [e] at hs
      cases hs
      exact ⟨hl, hpl⟩
    | some it =>
      have hmem : it ∈ its := List.getElem?_mem hi
      have hlen : its.length = (its.eraseIdx i).length + 1 := by
        have hlt : i < its.length := (List.getElem?_eq_some_iff.1 hi).1
        rw [List.length_eraseIdx, if_pos hlt]
        omega
      rw [hlen] at hl
      obtain ⟨lc', e, hl'⟩ := free_lifted hw hl (hpl it hmem) (holds_le_held hi) hr
      have e' : iter_step p (.dispose i) (lc, its) = .ok (lc', its.eraseIdx i) := by
        simp [iter_step, hi, e, bind, Except.bind, pure, Except.pure]
      refine ⟨fun s' hs => ?_, fun _ => ⟨_, e'⟩⟩
      rw [e'] at hs
      cases hs
      refine ⟨hl'.congr (fun a => held_eraseIdx hi a), fun x hx => ?_⟩
      exact hpl x (List.mem_of_mem_eraseIdx hx)

theorem iter_run_inv {p : Nat} {l : LinkedList} {ps : List Nat} (hw : WF l ps) (hr : 1 ≤ l.ref_count) :
    ∀ (ops : List IterOp) {s : LinkedList × List ListIterator}, IterInv p l ps s →
    (∀ s', iter_run p ops s = .ok s' → IterInv p l ps s') ∧
    (ps ≠ [] → ∃ s', iter_run p ops s = .ok s')
  | [], s, hinv => by
    refine ⟨fun s' hs => ?_, fun _ => ⟨s, rfl⟩⟩
    simp only [iter_run, pure, Except.pure, Except.ok.injEq] at hs
    subst hs
    exact hinv
  | op :: ops, s, hinv => by
    obtain ⟨h1, h2⟩ := iter_step_inv hw hr op hinv
    refine ⟨fun s' hs => ?_, fun hne => ?_⟩
    · cases e : iter_step p op s with
      | error f => simp [iter_run, e, bind, Except.bind] at hs
      | ok s1 =>
        have hs1 : iter_run p ops s1 = .ok s' := by
          simpa [iter_run, e, bind, Except.bind] using hs
        exact (iter_run_inv hw hr ops (h1 s1 e)).1 s' hs1
    · obtain ⟨s1, e⟩ := h2 hne
      obtain ⟨s', e'⟩ := (iter_run_inv hw hr ops (h1 s1 e)).2 hne
      exact ⟨s', by simp [iter_run, e, bind, Except.bind, e']⟩

theorem dispose_all_lifted {p : Nat} {l : LinkedList} {ps : List Nat} (hw : WF l ps)
    (hr : 1 ≤ l.ref_count) : ∀ (its : List ListIterator) {lc : LinkedList},
    IterInv p l ps (lc, its) → dispose_all its lc = .ok l
  | [], lc, hinv => by
    have e : lc = l := hinv.1.eq_of_zero
    rw [e]
    rfl
  | it :: its, lc, hinv => by
    obtain ⟨hl, hpl⟩ := hinv
    simp only [List.length_cons] at hl
    obtain ⟨lc', e, hl'⟩ := free_lifted hw hl (hpl it (by simp))
      (fun a => by rw [held_cons]; omega) hr
    have hinv' : IterInv p l ps (lc', its) :=
      ⟨hl'.congr (fun a => by
        show held its a = held (it :: its) a - holds it a
        rw [held_cons]; omega),
        fun x hx => hpl x (List.mem_cons_of_mem _ hx)⟩
    simp only [dispose_all, e, bind, Except.bind]
    exact dispose_all_lifted hw hr its hinv'

theorem iter_inv_init (p : Nat) (l : LinkedList) (ps : List Nat) : IterInv p l ps (l, []) :=
  ⟨Lifted.refl l, fun _ h => absurd h (List.not_mem_nil _)⟩

/-- One more reference on a node leaves a well-formed list well-formed. -/
theorem bump_wf {l : LinkedList} {ps : List Nat} (h : WF l ps) (a : Nat) : WF (bump l a) ps := by
  cases hm : l.mem a with
  | none =>
    have : bump l a = l := by simp [bump, hm]
    rw [this]; exact h
  | some n =>
    have e : bump l a = store l a { n with ref_count := n.ref_count + 1 } := by simp [bump, hm]
    obtain ⟨hn1, hp1, hv1, hr1⟩ := store_rc_views (n.ref_count + 1) hm
    rw [← e] at hn1 hp1 hv1 hr1
    refine ⟨h.toLinked.of_views hn1 hp1 (fun x hx => by rw [hv1]; exact h.fresh x hx)
      (by rw [e]; rfl), ?_, ?_, fun x hx => ?_⟩
    · rw [e]; exact h.size_eq
    · rw [e]; exact h.cap
    · obtain ⟨r, hr, hr'⟩ := h.refs x hx
      rw [hr1]
      by_cases hxa : x = a
      · subst hxa
        have : n.ref_count = r := by simpa [rc, hm] using hr
        exact ⟨n.ref_count + 1, by simp, by omega⟩
      · exact ⟨r, by simp [hxa, hr], hr'⟩

/-! ## The copying loops: `concat`, `slice`, `fill`, `reverse`, `filter`, `map` -/

theorem lnk_some {dir : Direction} {l : LinkedList} {a b : Nat} (h : lnk dir l a = some b) :
    ∃ n, l.mem a = some n ∧ (dir = .FWD → n.next = some b) ∧ (dir = .REV → n.prev = some b) := by
  cases dir with
  | FWD =>
    obtain ⟨n, hn, e⟩ := nxt_some h
    exact ⟨n, hn, fun _ => e, fun e' => Direction.noConfusion e'⟩
  | REV =>
    obtain ⟨n, hn, e⟩ := prv_some h
    exact ⟨n, hn, fun e' => Direction.noConfusion e', fun _ => e⟩

theorem for_each_push_chain (body : Int → JSValue → Option JSValue) (dir : Direction)
    {list : LinkedList} {g : Nat → Option Nat} :
    ∀ {s : List Nat} {x : Nat} {k : Nat} (i : Int) {other : LinkedList} {qs : List Nat},
    Chain (lnk dir list) g x s 0 → 0 ∉ s → s.length < k → 0 ≤ i → i + s.length < 2 ^ 63 →
    WF other qs →
    ∃ other' qs', for_each_push body dir list k (some (s.headD 0)) i other = .ok other' ∧
      WF other' (qs ++ qs') ∧
      vals other' (qs ++ qs') = vals other qs ++ (pick body (vals list s) i).take other.avail ∧
      other'.ref_count = other.ref_count
  | [], x, k + 1, i, other, qs, _, _, _, _, _, ho => by
    refine ⟨other, [], ?_, by simpa using ho, by simp [vals, pick], rfl⟩
    simp [for_each_push, pure, Except.pure]
  | y :: ys, x, k + 1, i, other, qs, h, h0, hlen, hi, hi2, ho => by
    have hy : y ≠ 0 := fun e => h0 (by simp [e])
    obtain ⟨n, hn, hnf, hnr⟩ := lnk_some (chain_headD h.2.2)
    have hval : (val list y).getD .uninitialized = n.value := by simp [val, hn]
    simp only [List.length_cons, Nat.cast_add, Nat.cast_one] at hi2
    have e64 : int64 (i + 1) = i + 1 := int64_of_range (by omega) (by omega)
    have hrec : ∀ {o1 : LinkedList} {q1 : List Nat}, WF o1 q1 → _ :=
      fun {o1 q1} hw1 => for_each_push_chain body dir (k := k) (i + 1) h.2.2
        (fun hm => h0 (List.mem_cons_of_mem _ hm)) (by simp at hlen; omega) (by omega)
        (by omega) hw1
    cases hb : body i n.value with
    | none =>
      obtain ⟨o2, q2, e2, hw2, hv2, hc2⟩ := hrec ho
      simp only [List.headD_eq_head?_getD] at e2
      refine ⟨o2, q2, ?_, hw2, ?_, hc2⟩
      · cases dir <;>
          simp [for_each_push, hy, load, hn, hb, hnf, hnr, e64, e2, bind, Except.bind, pure,
            Except.pure]
      · rw [hv2, vals_cons, hval]
        simp [pick, hb]
    | some v =>
      by_cases hav : other.avail = 0
      · have hp := wf_push_oom v ho hav
        obtain ⟨o2, q2, e2, hw2, hv2, hc2⟩ := hrec ho
        simp only [List.headD_eq_head?_getD] at e2
        refine ⟨o2, q2, ?_, hw2, ?_, hc2⟩
        · cases dir <;>
            simp [for_each_push, hy, load, hn, hb, hp, hnf, hnr, e64, e2, bind, Except.bind,
              pure, Except.pure]
        · rw [hv2, hav]
          simp
      · obtain ⟨o1, hp, hw1, hv1, -, -, ha1, -, hc1⟩ := wf_push v ho hav
        obtain ⟨o2, q2, e2, hw2, hv2, hc2⟩ := hrec hw1
        simp only [List.headD_eq_head?_getD] at e2
        refine ⟨o2, other.brk :: q2, ?_, by simpa using hw2, ?_, by rw [hc2, hc1]⟩
        · cases dir <;>
            simp [for_each_push, hy, load, hn, hb, hp, hnf, hnr, e64, e2, bind, Except.bind,
              pure, Except.pure]
        · have e : qs ++ other.brk :: q2 = qs ++ [other.brk] ++ q2 := by simp
          rw [e, hv2, hv1, vals_cons, hval, ha1]
          obtain ⟨m, hm⟩ : ∃ m, other.avail = m + 1 := ⟨other.avail - 1, by omega⟩
          simp [pick, hb, hm]

/-- A forward `for_each_push` over a well-formed receiver into a well-formed list. -/
theorem for_each_push_fwd (body : Int → JSValue → Option JSValue) {l : LinkedList}
    {ps : List Nat} (h : WF l ps) {o : LinkedList} {qs : List Nat} (ho : WF o qs) :
    ∃ n other qs', load l (some 0) = .ok n ∧
      for_each_push body .FWD l l.brk n.next 0 o = .ok other ∧ WF other (qs ++ qs') ∧
      vals other (qs ++ qs') = vals o qs ++ (pick body (vals l ps) 0).take o.avail ∧
      other.ref_count = o.ref_count := by
  obtain ⟨nh, hnh, hnx, -⟩ := h.toLinked.head_mem
  have hs := h.size_lt
  have hse := h.size_eq
  obtain ⟨o2, q2, e2, hw2, hv2, hc2⟩ := for_each_push_chain body .FWD (k := l.brk) 0
    (g := prv l) h.chain (List.nodup_cons.1 h.nodup).1 h.len (le_refl _) (by omega) ho
  exact ⟨nh, o2, q2, load_some hnh, by rw [hnx]; exact e2, hw2, hv2, hc2⟩

theorem pick_slice (s e : Int) : ∀ (vs : List JSValue) (i : Int),
    pick (fun i v => if i ≥ s ∧ i < e then some v else none) vs i =
      (vs.take (e - i).toNat).drop (s - i).toNat
  | [], i => by simp [pick]
  | v :: vs, i => by
    have ih := pick_slice s e vs (i + 1)
    simp only [pick, ih]
    by_cases h1 : i ≥ s
    · by_cases h2 : i < e
      · have e1 : (s - i).toNat = 0 := by omega
        have e2 : (s - (i + 1)).toNat = 0 := by omega
        have e3 : (e - i).toNat = (e - (i + 1)).toNat + 1 := by omega
        rw [if_pos ⟨h1, h2⟩, e1, e2, e3]
        simp
      · have e1 : (e - i).toNat = 0 := by omega
        have e2 : (e - (i + 1)).toNat = 0 := by omega
        rw [if_neg (fun h => h2 h.2), e1, e2]
        simp
    · have e1 : (s - i).toNat = (s - (i + 1)).toNat + 1 := by omega
      rw [if_neg (fun h => h1 h.1), e1]
      by_cases h2 : i < e
      · have e3 : (e - i).toNat = (e - (i + 1)).toNat + 1 := by omega
        rw [e3]
        simp
      · have e2 : (e - i).toNat = 0 := by omega
        have e3 : (e - (i + 1)).toNat = 0 := by omega
        rw [e2, e3]
        simp

theorem pick_length_le (body : Int → JSValue → Option JSValue) :
    ∀ (vs : List JSValue) (i : Int), (pick body vs i).length ≤ vs.length
  | [], _ => by simp [pick]
  | v :: vs, i => by
    have := pick_length_le body vs (i + 1)
    cases h : body i v <;> simp [pick, h] <;> omega

theorem list_index_norm {l : LinkedList} {ps : List Nat} (h : WF l ps) {j : Int}
    (h1 : -2 ^ 63 ≤ j) (h2 : j < 2 ^ 63) : list_index l j = norm_index ps.length j := by
  have hs := h.size_lt
  have hse := h.size_eq
  unfold list_index norm_index
  by_cases hj : j < 0
  · rw [if_pos hj, if_pos hj, int64_of_range (by omega) (by omega), hse]
  · rw [if_neg hj, if_neg hj]

/-- The common run of the derived-list methods: a new list, then `for_each_push`. -/
theorem derive_run (body : Int → JSValue → Option JSValue) {l : LinkedList} {ps : List Nat}
    (h : WF l ps) {ctx : Nat} (h0 : ctx ≠ 0) (h1 : ctx < 2 ^ 63) :
    ∃ o n other qs, list_new ctx = some o ∧ load l (some 0) = .ok n ∧
      for_each_push body .FWD l l.brk n.next 0 o = .ok other ∧ WF other qs ∧
      vals other qs = (pick body (vals l ps) 0).take (ctx - 1) ∧ other.ref_count = 1 := by
  obtain ⟨o, eo, hwo, hao, hco⟩ := list_new_wf h0 h1
  obtain ⟨n, other, qs, e1, e2, hw, hv, hc⟩ := for_each_push_fwd body h hwo
  refine ⟨o, n, other, qs, eo, e1, e2, by simpa using hw, ?_, by rw [hc, hco]⟩
  simpa [vals, hao] using hv

theorem method_slice_eq (JS_ToInt64 : JSValue → Option Int) {l : LinkedList} {ps : List Nat}
    (h : WF l ps) {ctx : Nat} (h0 : ctx ≠ 0) (h1 : ctx < 2 ^ 63) (argv : List JSValue)
    {s e : Int}
    (hs : (if argv.length > 0 then JS_ToInt64 (argv.getD 0 .undefined) else some 0) = some s)
    (he : (if argv.length > 1 then JS_ToInt64 (argv.getD 1 .undefined)
      else some (ps.length : Int)) = some e)
    (hs1 : -2 ^ 63 ≤ s) (hs2 : s < 2 ^ 63) (he1 : -2 ^ 63 ≤ e) (he2 : e < 2 ^ 63) :
    ∃ other qs, METHOD_SLICE JS_ToInt64 ctx l argv = .ok (.list other, l) ∧ WF other qs ∧
      vals other qs = (((vals l ps).take (norm_index ps.length e).toNat).drop
        (norm_index ps.length s).toNat).take (ctx - 1) ∧ other.ref_count = 1 := by
  obtain ⟨o, n, other, qs, eo, e1, e2, hw, hv, hc⟩ := derive_run
    (fun i v => if i ≥ norm_index ps.length s ∧ i < norm_index ps.length e then some v
      else none) h h0 h1
  refine ⟨other, qs, ?_, hw, ?_, hc⟩
  · unfold METHOD_SLICE
    rw [hs]
    simp only [h.int64_size, he, list_index_norm h hs1 hs2, list_index_norm h he1 he2, eo, e1,
      e2, bind, Except.bind, pure, Except.pure]
  · rw [hv, pick_slice]
    simp

theorem first_hit_none (p : Int → JSValue → Bool) (d : Int) : ∀ (vs : List JSValue) (i : Int),
    first_hit p d vs i = none ↔ ∀ (j : Nat) (w : JSValue), vs[j]? = some w →
      p (i + d * j) w = false
  | [], i => by simp [first_hit]
  | v :: vs, i => by
    have ih := first_hit_none p d vs (i + d)
    by_cases hp : p i v = true
    · simp only [first_hit, hp, if_true]
      constructor
      · intro h; cases h
      · intro h
        have := h 0 v (by simp)
        simp [hp] at this
    · have hp' : p i v = false := by simpa using hp
      have e : first_hit p d (v :: vs) i = (first_hit p d vs (i + d)).map (· + 1) := by
        simp [first_hit, hp']
      rw [e, Option.map_eq_none', ih]
      constructor
      · intro h j w hj
        cases j with
        | zero =>
          simp at hj
          subst hj
          simpa using hp'
        | succ j =>
          rw [List.getElem?_cons_succ] at hj
          have := h j w hj
          rw [← this]
          congr 1
          push_cast
          ring
      · intro h j w hj
        have := h (j + 1) w (by rw [List.getElem?_cons_succ]; exact hj)
        rw [← this]
        congr 1
        push_cast
        ring

theorem first_hit_some (p : Int → JSValue → Bool) (d : Int) :
    ∀ (vs : List JSValue) (i : Int) (k : Nat), first_hit p d vs i = some k ↔
      (∃ w, vs[k]? = some w ∧ p (i + d * k) w = true) ∧
      ∀ (j : Nat) (u : JSValue), j < k → vs[j]? = some u → p (i + d * j) u = false
  | [], i, k => by simp [first_hit]
  | v :: vs, i, k => by
    have ih := first_hit_some p d vs (i + d)
    by_cases hp : p i v = true
    · simp only [first_hit, hp, if_true, Option.some.injEq]
      constructor
      · intro h
        subst h
        exact ⟨⟨v, by simp, by simpa using hp⟩, fun j u hj => absurd hj (Nat.not_lt_zero _)⟩
      · rintro ⟨-, h2⟩
        cases k with
        | zero => rfl
        | succ k =>
          have := h2 0 v (Nat.succ_pos _) (by simp)
          simp [hp] at this
    · have hp' : p i v = false := by simpa using hp
      have e : first_hit p d (v :: vs) i = (first_hit p d vs (i + d)).map (· + 1) := by
        simp [first_hit, hp']
      rw [e, Option.map_eq_some']
      constructor
      · rintro ⟨k', hk', rfl⟩
        obtain ⟨⟨w, hw, hpw⟩, h2⟩ := (ih k').1 hk'
        refine ⟨⟨w, by rw [List.getElem?_cons_succ]; exact hw, ?_⟩, fun j u hj hu => ?_⟩
        · rw [← hpw]; congr 1; push_cast; ring
        · cases j with
          | zero =>
            simp at hu
            subst hu
            simpa using hp'
          | succ j =>
            rw [List.getElem?_cons_succ] at hu
            have := h2 j u (by omega) hu
            rw [← this]; congr 1; push_cast; ring
      · rintro ⟨⟨w, hw, hpw⟩, h2⟩
        cases k with
        | zero =>
          simp at hw
          subst hw
          simp [hp'] at hpw
        | succ k =>
          rw [List.getElem?_cons_succ] at hw
          refine ⟨k, (ih k).2 ⟨⟨w, hw, ?_⟩, fun j u hj hu => ?_⟩, rfl⟩
          · rw [← hpw]; congr 1; push_cast; ring
          · have := h2 (j + 1) u (by omega) (by rw [List.getElem?_cons_succ]; exact hu)
            rw [← this]; congr 1; push_cast; ring

theorem find_forward_loop_chain (JS_ToBool : JSValue → Bool) (fn : JSValue → Int → JSValue)
    {l : LinkedList} {g : Nat → Option Nat} :
    ∀ {s : List Nat} {x : Nat} {k : Nat} (i : Int), Chain (nxt l) g x s 0 → 0 ∉ s →
    s.length < k → 0 ≤ i → i + s.length < 2 ^ 63 →
    list_find_forward_loop JS_ToBool fn l k (some (s.headD 0)) i =
      .ok (match first_hit (fun i v => JS_ToBool (fn v i)) 1 (vals l s) i with
        | none => (-1, none)
        | some j => (i + j + 1, s[j]?))
  | [], x, k + 1, i, _, _, _, _, _ => by
    simp [list_find_forward_loop, first_hit, vals, pure, Except.pure]
  | y :: ys, x, k + 1, i, h, h0, hlen, hi, hi2 => by
    have hy : y ≠ 0 := fun e => h0 (by simp [e])
    obtain ⟨n, hn, hnx⟩ := nxt_some (chain_headD h.2.2)
    have hval : (val l y).getD .uninitialized = n.value := by simp [val, hn]
    simp only [List.length_cons, Nat.cast_add, Nat.cast_one] at hi2
    have e64 : int64 (i + 1) = i + 1 := int64_of_range (by omega) (by omega)
    have ih := find_forward_loop_chain JS_ToBool fn (k := k) (i + 1) h.2.2
      (fun hm => h0 (List.mem_cons_of_mem _ hm)) (by simp at hlen; omega) (by omega) (by omega)
    simp only [List.headD_eq_head?_getD] at ih
    by_cases hp : JS_ToBool (fn n.value i) = true
    · simp [list_find_forward_loop, hy, node_predicate, node_call, load, hn, hp, e64, first_hit,
        vals_cons, hval, bind, Except.bind, pure, Except.pure]
    · have hfh : first_hit (fun i v => JS_ToBool (fn v i)) 1 (vals l (y :: ys)) i =
          (first_hit (fun i v => JS_ToBool (fn v i)) 1 (vals l ys) (i + 1)).map (· + 1) := by
        rw [vals_cons, hval]
        simp [first_hit, hp]
      rw [hfh]
      cases hc : first_hit (fun i v => JS_ToBool (fn v i)) 1 (vals l ys) (i + 1) with
      | none =>
        rw [hc] at ih
        simp [list_find_forward_loop, hy, node_predicate, node_call, load, hn, hp, e64, hnx, ih,
          bind, Except.bind, pure, Except.pure]
      | some j =>
        rw [hc] at ih
        simp [list_find_forward_loop, hy, node_predicate, node_call, load, hn, hp, e64, hnx, ih,
          bind, Except.bind, pure, Except.pure]
        ring

theorem find_reverse_loop_chain (JS_ToBool : JSValue → Bool) (fn : JSValue → Int → JSValue)
    {l : LinkedList} {g : Nat → Option Nat} :
    ∀ {s : List Nat} {x : Nat} {k : Nat} (i : Int), Chain (prv l) g x s 0 → 0 ∉ s →
    s.length < k → -2 ^ 63 ≤ i - s.length → i < 2 ^ 63 →
    list_find_reverse_loop JS_ToBool fn l k (some (s.headD 0)) i =
      .ok (match first_hit (fun i v => JS_ToBool (fn v i)) (-1) (vals l s) i with
        | none => (-1, none)
        | some j => (i - j - 1, s[j]?))
  | [], x, k + 1, i, _, _, _, _, _ => by
    simp [list_find_reverse_loop, first_hit, vals, pure, Except.pure]
  | y :: ys, x, k + 1, i, h, h0, hlen, hi, hi2 => by
    have hy : y ≠ 0 := fun e => h0 (by simp [e])
    obtain ⟨n, hn, hnx⟩ := prv_some (chain_headD h.2.2)
    have hval : (val l y).getD .uninitialized = n.value := by simp [val, hn]
    simp only [List.length_cons, Nat.cast_add, Nat.cast_one] at hi
    have e64 : int64 (i - 1) = i - 1 := int64_of_range (by omega) (by omega)
    have ih := find_reverse_loop_chain JS_ToBool fn (k := k) (i - 1) h.2.2
      (fun hm => h0 (List.mem_cons_of_mem _ hm)) (by simp at hlen; omega) (by omega) (by omega)
    simp only [List.headD_eq_head?_getD] at ih
    have e1 : i + -1 = i - 1 := by ring
    by_cases hp : JS_ToBool (fn n.value i) = true
    · simp [list_find_reverse_loop, hy, node_predicate, node_call, load, hn, hp, e64, first_hit,
        vals_cons, hval, bind, Except.bind, pure, Except.pure]
    · have hfh : first_hit (fun i v => JS_ToBool (fn v i)) (-1) (vals l (y :: ys)) i =
          (first_hit (fun i v => JS_ToBool (fn v i)) (-1) (vals l ys) (i - 1)).map (· + 1) := by
        rw [vals_cons, hval]
        simp [first_hit, hp, e1]
      rw [hfh]
      cases hc : first_hit (fun i v => JS_ToBool (fn v i)) (-1) (vals l ys) (i - 1) with
      | none =>
        rw [hc] at ih
        simp [list_find_reverse_loop, hy, node_predicate, node_call, load, hn, hp, e64, hnx, ih,
          bind, Except.bind, pure, Except.pure]
      | some j =>
        rw [hc] at ih
        simp [list_find_reverse_loop, hy, node_predicate, node_call, load, hn, hp, e64, hnx, ih,
          bind, Except.bind, pure, Except.pure]
        ring

theorem indexof_reverse_loop_chain (eq : JSValue → JSValue → Bool) {l : LinkedList}
    {g : Nat → Option Nat} (v : JSValue) :
    ∀ {s : List Nat} {x : Nat} {k : Nat} (i : Int), Chain (prv l) g x s 0 → 0 ∉ s →
    s.length < k → 0 ≤ i → i + s.length < 2 ^ 63 →
    list_indexof_reverse_loop eq l v k (some (s.headD 0)) i =
      .ok (match first_hit (fun _ w => eq v w) 1 (vals l s) i with
        | none => -1
        | some j => i + j)
  | [], x, k + 1, i, _, _, _, _, _ => by
    simp [list_indexof_reverse_loop, first_hit, vals, pure, Except.pure]
  | y :: ys, x, k + 1, i, h, h0, hlen, hi, hi2 => by
    have hy : y ≠ 0 := fun e => h0 (by simp [e])
    obtain ⟨n, hn, hnx⟩ := prv_some (chain_headD h.2.2)
    have hval : (val l y).getD .uninitialized = n.value := by simp [val, hn]
    simp only [List.length_cons, Nat.cast_add, Nat.cast_one] at hi2
    have e64 : int64 (i + 1) = i + 1 := int64_of_range (by omega) (by omega)
    have ih := indexof_reverse_loop_chain eq v (k := k) (i + 1) h.2.2
      (fun hm => h0 (List.mem_cons_of_mem _ hm)) (by simp at hlen; omega) (by omega) (by omega)
    simp only [List.headD_eq_head?_getD] at ih
    by_cases hp : eq v n.value = true
    · simp [list_indexof_reverse_loop, hy, load, hn, hp, first_hit, vals_cons, hval, bind,
        Except.bind, pure, Except.pure]
    · have hfh : first_hit (fun _ w => eq v w) 1 (vals l (y :: ys)) i =
          (first_hit (fun _ w => eq v w) 1 (vals l ys) (i + 1)).map (· + 1) := by
        rw [vals_cons, hval]
        simp [first_hit, hp]
      rw [hfh]
      cases hc : first_hit (fun _ w => eq v w) 1 (vals l ys) (i + 1) with
      | none =>
        rw [hc] at ih
        simp [list_indexof_reverse_loop, hy, load, hn, hp, e64, hnx, ih, bind, Except.bind,
          pure, Except.pure]
      | some j =>
        rw [hc] at ih
        simp [list_indexof_reverse_loop, hy, load, hn, hp, e64, hnx, ih, bind, Except.bind,
          pure, Except.pure]
        ring

theorem WF.find_forward {l : LinkedList} {ps : List Nat} (h : WF l ps)
    (JS_ToBool : JSValue → Bool) (fn : JSValue → Int → JSValue) :
    list_find_forward JS_ToBool fn l =
      .ok (match first_hit (fun i v => JS_ToBool (fn v i)) 1 (vals l ps) 0 with
        | none => (-1, none)
        | some j => ((j : Int) + 1, ps[j]?)) := by
  obtain ⟨nh, hnh, hnx, -⟩ := h.toLinked.head_mem
  have hs := h.size_lt
  have hse := h.size_eq
  have e := find_forward_loop_chain JS_ToBool fn (k := l.brk) 0 h.chain
    (List.nodup_cons.1 h.nodup).1 h.len (le_refl _) (by omega)
  simp only [list_find_forward, load_some hnh, hnx, bind, Except.bind, e]
  cases first_hit (fun i v => JS_ToBool (fn v i)) 1 (vals l ps) 0 with
  | none => rfl
  | some j => simp

theorem WF.find_reverse {l : LinkedList} {ps : List Nat} (h : WF l ps)
    (JS_ToBool : JSValue → Bool) (fn : JSValue → Int → JSValue) :
    list_find_reverse JS_ToBool fn l =
      .ok (match first_hit (fun i v => JS_ToBool (fn v i)) (-1) (vals l ps).reverse
          ((ps.length : Int) - 1) with
        | none => (-1, none)
        | some j => ((ps.length : Int) - 1 - j - 1, ps.reverse[j]?)) := by
  obtain ⟨nh, hnh, -, hpv⟩ := h.toLinked.head_mem
  have hs := h.size_lt
  have hse := h.size_eq
  have h0 : 0 ∉ ps.reverse := fun hm =>
    (List.nodup_cons.1 h.nodup).1 (List.mem_reverse.1 hm)
  have e := find_reverse_loop_chain JS_ToBool fn (k := l.brk) ((ps.length : Int) - 1)
    (g := nxt l) (chain_reverse h.chain) h0 (by simpa using h.len) (by simp) (by omega)
  have hrev : vals l ps.reverse = (vals l ps).reverse := by simp [vals]
  have hhd : ps.reverse.headD 0 = ps.getLastD 0 := by
    simp [List.headD_eq_head?_getD, List.getLastD_eq_getLast?]
  have e64 : int64 ((l.size : Int) - 1) = (ps.length : Int) - 1 := by
    rw [hse]; exact int64_of_range (by omega) (by omega)
  rw [hrev, hhd] at e
  simp only [list_find_reverse, load_some hnh, hpv, bind, Except.bind, e64, e]

theorem WF.indexof_reverse {l : LinkedList} {ps : List Nat} (h : WF l ps)
    (eq : JSValue → JSValue → Bool) (v : JSValue) :
    list_indexof_reverse eq l v =
      .ok (match first_hit (fun _ w => eq v w) 1 (vals l ps).reverse 0 with
        | none => -1
        | some j => (j : Int)) := by
  obtain ⟨nh, hnh, -, hpv⟩ := h.toLinked.head_mem
  have hs := h.size_lt
  have hse := h.size_eq
  have h0 : 0 ∉ ps.reverse := fun hm =>
    (List.nodup_cons.1 h.nodup).1 (List.mem_reverse.1 hm)
  have e := indexof_reverse_loop_chain eq v (k := l.brk) 0
    (g := nxt l) (chain_reverse h.chain) h0 (by simpa using h.len) (le_refl _) (by simp; omega)
  have hrev : vals l ps.reverse = (vals l ps).reverse := by simp [vals]
  have hhd : ps.reverse.headD 0 = ps.getLastD 0 := by
    simp [List.headD_eq_head?_getD, List.getLastD_eq_getLast?]
  rw [hrev, hhd] at e
  simp only [list_indexof_reverse, load_some hnh, hpv, bind, Except.bind, e]
  cases first_hit (fun _ w => eq v w) 1 (vals l ps).reverse 0 with
  | none => rfl
  | some j => simp

/-- The first hit of a backward walk is the last position that satisfies `p`. -/
theorem first_hit_reverse (p : Int → JSValue → Bool) (vs : List JSValue) {k : Nat}
    {w : JSValue} (hk : vs[k]? = some w) (hp : p k w = true)
    (hlast : ∀ (j : Nat) (u : JSValue), k < j → vs[j]? = some u → p j u = false) :
    first_hit p (-1) vs.reverse ((vs.length : Int) - 1) = some (vs.length - 1 - k) := by
  have hkl : k < vs.length := (List.getElem?_eq_some_iff.1 hk).1
  rw [first_hit_some]
  refine ⟨⟨w, ?_, ?_⟩, fun j u hj hu => ?_⟩
  · rw [List.getElem?_reverse (by omega)]
    rw [show vs.length - 1 - (vs.length - 1 - k) = k by omega]
    exact hk
  · rw [← hp]
    congr 1
    omega
  · have hjl : j < vs.length := by omega
    rw [List.getElem?_reverse hjl] at hu
    have := hlast (vs.length - 1 - j) u (by omega) hu
    rw [← this]
    congr 1
    omega

theorem first_hit_reverse_none (p : Int → JSValue → Bool) (vs : List JSValue)
    (hnone : ∀ (j : Nat) (u : JSValue), vs[j]? = some u → p j u = false) :
    first_hit p (-1) vs.reverse ((vs.length : Int) - 1) = none := by
  rw [first_hit_none]
  intro j u hu
  have hjl : j < vs.length := by
    have := (List.getElem?_eq_some_iff.1 hu).1
    simpa using this
  rw [List.getElem?_reverse hjl] at hu
  have := hnone (vs.length - 1 - j) u hu
  rw [← this]
  congr 1
  omega

theorem find_value_at {l : LinkedList} {ps : List Nat} (h : WF l ps) {j : Nat} {w : JSValue}
    (hw : (vals l ps)[j]? = some w) :
    ∃ a n, ps[j]? = some a ∧ load l (some a) = .ok n ∧ n.value = w := by
  simp only [vals, List.getElem?_map, Option.map_eq_some'] at hw
  obtain ⟨a, ha, e⟩ := hw
  obtain ⟨n, hn⟩ := h.toLinked.alloc (a := a) (List.mem_cons_of_mem _ (List.getElem?_mem ha))
  refine ⟨a, n, ha, load_some hn, ?_⟩
  rw [← e]
  simp [val, hn]

/-! ## Sort as a permutation, exhausted iterators, insertion and interior splices -/

theorem insert_before_perm (pred : JSValue → JSValue → Int) (v : JSValue) (ws : List JSValue) :
    (insert_before pred v ws).Perm (v :: ws) := by
  unfold insert_before
  refine List.perm_middle.trans ?_
  rw [List.takeWhile_append_dropWhile]

theorem sort_spec_perm (pred : JSValue → JSValue → Int) (vs : List JSValue) :
    (sort_spec pred vs).Perm vs := by
  unfold sort_spec
  suffices h : ∀ acc : List JSValue,
      (vs.foldl (fun acc v => insert_before pred v acc) acc).Perm (acc ++ vs) by
    simpa using h []
  induction vs with
  | nil => intro acc; simp
  | cons v vs ih =>
    intro acc
    rw [List.foldl_cons]
    refine (ih _).trans ?_
    refine ((insert_before_perm pred v acc).append_right vs).trans ?_
    simpa using (@List.perm_middle _ v acc vs).symm

theorem done_state_of {it2 it' : ListIterator} {l2 l' : LinkedList} {v : JSValue}
    (w : Except Fault JSValue)
    (h : (do
      let ret ← w
      let done ← list_iterator_done it2
      pure (ret, done, it2, l2)) = Except.ok (v, true, it', l')) :
    it'.list = none ∨ (∃ x, it'.list = some x) ∧ it'.node = some 0 := by
  cases w with
  | error f => cases h
  | ok ret =>
    cases hd : list_iterator_done it2 with
    | error f =>
      have h2 : (do
        let done ← list_iterator_done it2
        pure (ret, done, it2, l2)) = Except.ok (v, true, it', l') := h
      rw [hd] at h2
      cases h2
    | ok d =>
      have h2 : (do
        let done ← list_iterator_done it2
        pure (ret, done, it2, l2)) = Except.ok (v, true, it', l') := h
      rw [hd] at h2
      have h3 : (Except.ok (ret, d, it2, l2) : Except Fault _) = Except.ok (v, true, it', l') := h2
      simp only [Except.ok.injEq, Prod.mk.injEq] at h3
      obtain ⟨-, hdt, hit, -⟩ := h3
      subst hit
      subst hdt
      unfold list_iterator_done at hd
      cases hl2 : it2.list with
      | none => exact Or.inl rfl
      | some y =>
        rw [hl2] at hd
        simp only [pure, Except.pure, Except.ok.injEq, decide_eq_true_eq] at hd
        exact Or.inr ⟨⟨y, rfl⟩, hd⟩

theorem finish_done {it2 it' : ListIterator} {l2 l' : LinkedList} {v : JSValue}
    (node : Option Nat)
    (h : (if node ≠ none then (do
        let y ← list_iterator_value it2 l2
        let done ← list_iterator_done it2
        pure (y, done, it2, l2))
      else (do
        let y ← pure .undefined
        let done ← list_iterator_done it2
        pure (y, done, it2, l2))) = Except.ok (v, true, it', l')) :
    it'.list = none ∨ (∃ x, it'.list = some x) ∧ it'.node = some 0 := by
  split at h
  · exact done_state_of _ h
  · exact done_state_of _ h

theorem dup_done {it' : ListIterator} {l l' : LinkedList} {v : JSValue}
    (w : Except Fault (Option Nat)) (mk : Option Nat → ListIterator)
    (h : (do
      let node ← w
      let d ← node_dup node l
      let y ← pure (node, mk d.1, d.2)
      if y.1 ≠ none then do
        let y_1 ← list_iterator_value y.2.1 y.2.2
        let done ← list_iterator_done y.2.1
        pure (y_1, done, y.2.1, y.2.2)
      else do
        let y_1 ← pure JSValue.undefined
        let done ← list_iterator_done y.2.1
        pure (y_1, done, y.2.1, y.2.2)) = Except.ok (v, true, it', l')) :
    it'.list = none ∨ (∃ x, it'.list = some x) ∧ it'.node = some 0 := by
  cases w with
  | error f => cases h
  | ok node =>
    cases hd : node_dup node l with
    | error f =>
      have h2 : (do
        let d ← node_dup node l
        let y ← pure (node, mk d.1, d.2)
        if y.1 ≠ none then do
          let y_1 ← list_iterator_value y.2.1 y.2.2
          let done ← list_iterator_done y.2.1
          pure (y_1, done, y.2.1, y.2.2)
        else do
          let y_1 ← pure JSValue.undefined
          let done ← list_iterator_done y.2.1
          pure (y_1, done, y.2.1, y.2.2)) = Except.ok (v, true, it', l') := h
      rw [hd] at h2
      cases h2
    | ok d =>
      have h2 : (do
        let d ← node_dup node l
        let y ← pure (node, mk d.1, d.2)
        if y.1 ≠ none then do
          let y_1 ← list_iterator_value y.2.1 y.2.2
          let done ← list_iterator_done y.2.1
          pure (y_1, done, y.2.1, y.2.2)
        else do
          let y_1 ← pure JSValue.undefined
          let done ← list_iterator_done y.2.1
          pure (y_1, done, y.2.1, y.2.2)) = Except.ok (v, true, it', l') := h
      rw [hd] at h2
      exact finish_done node h2

theorem next_done_state {it it' : ListIterator} {l l' : LinkedList} {v : JSValue}
    (h : list_iterator_next it l = .ok (v, true, it', l')) :
    it'.list = none ∨ (∃ x, it'.list = some x) ∧ it'.node = some 0 := by
  unfold list_iterator_next at h
  cases hl : it.list with
  | none =>
    rw [hl] at h
    simp only [pure, Except.pure, Except.ok.injEq, Prod.mk.injEq] at h
    left
    rw [← h.2.2.1]
    exact hl
  | some x =>
    simp only [hl] at h
    by_cases hn : it.node ≠ none
    · rw [if_pos hn] at h
      cases hs : list_iterator_skip it l with
      | error f => rw [hs] at h; cases h
      | ok r =>
        rw [hs] at h
        exact finish_done _ h
    · rw [if_neg hn] at h
      by_cases h1 : it.index = -1
      · rw [if_pos h1] at h
        exact dup_done (list_back l) (fun p => ListIterator.mk (some x) p it.index it.kind it.dir) h
      · rw [if_neg h1] at h
        by_cases h2 : it.index = 0
        · rw [if_pos h2] at h
          exact dup_done (list_front l)
            (fun p => ListIterator.mk (some x) p it.index it.kind it.dir) h
        · rw [if_neg h2] at h
          exact dup_done (list_at l it.index)
            (fun p => ListIterator.mk (some x) p it.index it.kind it.dir) h

theorem next_absorbed {it : ListIterator} {l : LinkedList}
    (h : it.list = none ∨ (∃ x, it.list = some x) ∧ it.node = some 0) :
    list_iterator_next it l = .ok (.undefined, true, it, l) := by
  unfold list_iterator_next
  rcases h with h | ⟨⟨x, hx⟩, h0⟩
  · rw [h]; rfl
  · rw [hx]
    simp [h0, list_iterator_skip, hx, list_iterator_value, list_iterator_done, bind, Except.bind,
      pure, Except.pure]

theorem getLastD_take_succ {ps : List Nat} {j a : Nat} (h : ps[j]? = some a) :
    (ps.take (j + 1)).getLastD 0 = a := by
  have hj : j < ps.length := (List.getElem?_eq_some_iff.1 h).1
  have e : ps.take (j + 1) = ps.take j ++ [a] := by
    rw [List.take_succ, h]; rfl
  rw [e, List.getLastD_eq_getLast?]
  simp

theorem WF.insert_after {l : LinkedList} {s t : List Nat} (h : WF l (s ++ t)) (p : Nat)
    (it : ListIterator) (f : JSValue) (items : List JSValue) (hl : it.list = some p)
    (hnode : it.node = some (s.getLastD 0) ∨ (s = [] ∧ it.node = none ∧ it.dir = .FWD))
    (hav : items.length ≤ l.avail) :
    ∃ l', METHOD_INSERT p l (some it) (f :: items) = .ok (.value .undefined, l') ∧ Valid l' ∧
      l'.size = l.size + items.length ∧
      toList l' = .ok (vals l s ++ items ++ vals l t) := by
  obtain ⟨r, l', qs, e, hw, hv, hq, -⟩ := insert_loop_wf items h
  rw [List.take_of_length_le hav] at hv
  refine ⟨l', ?_, hw.valid, ?_, ?_⟩
  · unfold METHOD_INSERT
    simp only [hl, ne_eq, not_true_eq_false, if_false, List.drop_succ_cons, List.drop_zero]
    rcases hnode with hn | ⟨hs, hn, hd⟩
    · simp only [hn, reduceCtorEq, not_false_eq_true, if_true, bind, Except.bind, pure,
        Except.pure, e]
    · subst hs
      simp only [List.getLastD_nil] at e
      simp only [hn, hd, not_true_eq_false, if_false, reduceCtorEq, not_false_eq_true, if_true,
        bind, Except.bind, pure, Except.pure, e]
  · rw [hw.size_eq, h.size_eq]
    simp only [List.length_append, hq]
    omega
  · rw [hw.toLinked.toList_eq, hv]

/-- The loop of `METHOD_SPLICE` when it stops inside the list (`i` reaches `end_`
on a node): the nodes from `start` up to `end_` are moved to `other`, the loop
variable `node` is left on the node at `end_`. -/
theorem splice_loop_interior (start end_ : Int) :
    ∀ (rest done : List Nat) (k : Nat) (ptr2 : Option Nat) (i : Int) (node : Option Nat)
      (list other : LinkedList) (qs : List Nat),
    WF list (done ++ rest) → WF other qs → rest.length < k →
    (∀ y ys, rest = y :: ys → ptr2 = some (ys.headD 0)) →
    0 ≤ i → i ≤ end_ → start ≤ end_ → end_ - i < rest.length → i + rest.length < 2 ^ 63 →
    ((rest.take (end_ - i).toNat).drop (start - i).toNat).length ≤ other.avail →
    ∃ list' other' qs',
      splice_loop start end_ k (some (rest.headD 0)) ptr2 i node list other =
        .ok (rest[(end_ - i).toNat]?, list', other') ∧
      WF list' (done ++ rest.take (start - i).toNat ++ rest.drop (end_ - i).toNat) ∧
      (∀ a ∈ done ++ rest.take (start - i).toNat ++ rest.drop (end_ - i).toNat,
        val list' a = val list a) ∧
      WF other' (qs ++ qs') ∧
      vals other' (qs ++ qs') =
        vals other qs ++ vals list ((rest.take (end_ - i).toNat).drop (start - i).toNat) ∧
      list'.avail = list.avail
  | [], done, k, ptr2, i, node, list, other, qs, _, _, _, _, _, _, _, hlt, _, _ => by
    simp at hlt
    omega
  | y :: ys, done, 0, ptr2, i, node, list, other, qs, _, _, hk, _, _, _, _, _, _, _ => by
    simp at hk
  | y :: ys, done, k + 1, ptr2, i, node, list, other, qs, hw, hwo, hk, hp2, hi0, hie, hse, hlt,
      hi63, hav => by
    have hy0 : y ≠ 0 := fun e =>
      (List.nodup_cons.1 hw.nodup).1 (by rw [← e]; simp)
    have hptr2 : ptr2 = some (ys.headD 0) := hp2 y ys rfl
    simp only [List.length_cons, Nat.cast_add, Nat.cast_one] at hlt hi63
    by_cases hend : i = end_
    · subst hend
      have hm : (i - i).toNat = 0 := by simp
      have ha : (start - i).toNat = 0 := by omega
      refine ⟨list, other, [], ?_, ?_, fun _ _ => rfl, by simpa using hwo, ?_, rfl⟩
      · simp [splice_loop, hy0, hm, pure, Except.pure]
      · rw [hm, ha]; simpa using hw
      · rw [hm, ha]; simp [vals]
    · have hm : (end_ - i).toNat = (end_ - (i + 1)).toNat + 1 := by omega
      have e64 : int64 (i + 1) = i + 1 := int64_of_range (by omega) (by omega)
      by_cases hst : i ≥ start
      · have ha : (start - i).toNat = 0 := by omega
        have ha' : (start - (i + 1)).toNat = 0 := by omega
        have hav2 : (ys.take (end_ - (i + 1)).toNat).length + 1 ≤ other.avail := by
          rw [hm, ha] at hav
          simpa using hav
        rw [hm, ha]
        simp only [List.take_succ_cons, List.drop_zero, List.take_zero,
          List.append_nil, List.drop_succ_cons, List.getElem?_cons_succ]
        obtain ⟨n, hmn⟩ := hw.toLinked.alloc (a := y) (by simp)
        obtain ⟨o1, epush, hwo1, hvo1, -, -, hao1, -, -⟩ := wf_push n.value hwo (by omega)
        obtain ⟨l1, rr, hrr, hrr1, erem, hw1, -, -, -, hval1, -, hav1, -, -⟩ := wf_remove hw
        obtain ⟨p, hp⟩ := hw1.mem_of_headD done ys rfl
        have hnext : ∀ z zs, ys = z :: zs → p.next = some (zs.headD 0) := by
          intro z zs e
          subst e
          obtain ⟨-, -, m3, -⟩ := chain_mid hw1.chain
          obtain ⟨p', hp', hpn⟩ := nxt_some m3
          simp only [List.headD_cons] at hp
          rw [hp] at hp'
          cases hp'
          exact hpn
        obtain ⟨list', other', qs', e, hw', hval', hwo', hvo', hav'⟩ :=
          splice_loop_interior start end_ ys done k p.next (i + 1) (some y) l1 o1
            (qs ++ [other.brk]) hw1 hwo1 (by simp at hk; omega) hnext (by omega) (by omega) hse
            (by omega) (by omega) (by rw [ha', hao1, List.drop_zero]; omega)
        rw [ha'] at hw' hval' hvo'
        simp only [List.take_zero, List.append_nil, List.drop_zero] at hw' hval' hvo'
        have hynd : y ∉ done ++ ys := by
          have := hw.nodup
          rw [List.nodup_cons] at this
          have h2 := this.2
          rw [List.nodup_append] at h2
          intro hmem
          rcases List.mem_append.1 hmem with hd | hd
          · exact h2.2.2 hd (List.mem_cons_self _ _) 
          · exact (List.nodup_cons.1 h2.2.1).1 hd
        refine ⟨list', other', other.brk :: qs', ?_, hw', ?_, by simpa using hwo', ?_,
          by rw [hav', hav1]⟩
        · rw [← e]
          have hlp := load_some hp
          simp only [List.headD_eq_head?_getD] at hlp
          simp [splice_loop, hy0, hend, hst, load_some hmn, epush, erem, hptr2, hlp, e64, bind,
            Except.bind, pure, Except.pure]
        · intro a ha1
          rw [hval' a ha1, hval1 a, if_neg]
          intro hay
          subst hay
          apply hynd
          rcases List.mem_append.1 ha1 with hd | hd
          · exact List.mem_append_left _ hd
          · exact List.mem_append_right _ (List.mem_of_mem_drop hd)
        · have hsplit : qs ++ other.brk :: qs' = qs ++ [other.brk] ++ qs' := by simp
          rw [hsplit, hvo', hvo1, vals_cons]
          have hvy : (val list y).getD .uninitialized = n.value := by simp [val, hmn]
          have hvt : vals l1 (ys.take (end_ - (i + 1)).toNat) =
              vals list (ys.take (end_ - (i + 1)).toNat) := by
            apply vals_congr
            intro a ha1
            rw [hval1 a, if_neg]
            intro hay
            subst hay
            exact hynd (List.mem_append_right _ (List.mem_of_mem_take ha1))
          rw [hvy, hvt]
          simp
      · have ha : (start - i).toNat = (start - (i + 1)).toNat + 1 := by omega
        rw [hm, ha] at hav ⊢
        simp only [List.take_succ_cons, List.drop_succ_cons, List.getElem?_cons_succ] at hav ⊢
        have hw2 : WF list ((done ++ [y]) ++ ys) := by simpa using hw
        obtain ⟨p, hp⟩ := hw2.mem_of_headD (done ++ [y]) ys rfl
        have hnext : ∀ z zs, ys = z :: zs → p.next = some (zs.headD 0) := by
          intro z zs e
          subst e
          obtain ⟨-, -, m3, -⟩ := chain_mid hw2.chain
          obtain ⟨p', hp', hpn⟩ := nxt_some m3
          simp only [List.headD_cons] at hp
          rw [hp] at hp'
          cases hp'
          exact hpn
        obtain ⟨list', other', qs', e, hw', hval', hwo', hvo', hav'⟩ :=
          splice_loop_interior start end_ ys (done ++ [y]) k p.next (i + 1) (some y) list other
            qs hw2 hwo (by simp at hk; omega) hnext (by omega) (by omega) hse
            (by omega) (by omega) hav
        refine ⟨list', other', qs', ?_, by simpa using hw', ?_, hwo', hvo', hav'⟩
        · rw [← e]
          have hlp := load_some hp
          simp only [List.headD_eq_head?_getD] at hlp
          simp [splice_loop, hy0, hend, hst, hptr2, hlp, e64, bind, Except.bind, pure,
            Except.pure]
        · intro a ha1
          exact hval' a (by simpa using ha1)

/-! ## The byte queue and `token_length` -/

theorem chunk_load_some {q : Queue} {a : Nat} {c : Chunk} (h : q.mem a = some c) :
    q.load (some a) = .ok c := by
  simp [Queue.load, h]

theorem chunk_update_some {q : Queue} {a : Nat} {c : Chunk} (f : Chunk → Chunk)
    (h : q.mem a = some c) : q.update (some a) f = .ok (q.store a (f c)) := by
  simp [Queue.update, h]

theorem peek_turn {q : Queue} {h c : Chunk} {b : Nat} (hh : q.mem 0 = some h)
    (hp : h.prev = some b) (hb : b ≠ 0) (hc : q.mem b = some c) (hpos : c.pos ≤ c.size)
    (hlen : c.data.length = c.size) (hsz : c.size < 2 ^ 63) (fuel n : Nat) (hn : 0 < n)
    (ret : Int) (out : List Nat) :
    queue_peek_loop q (fuel + 1) n ret out =
      if c.pos < c.size then
        .ok (int64 (ret + (min n (c.size - c.pos) : Nat)),
          out ++ (c.data.drop c.pos).take n)
      else queue_peek_loop q fuel n (int64 ret) out := by
  have e1 : size_t ((c.size : Int) - c.pos) = c.size - c.pos := by
    rw [size_t_of_range (by omega) (by omega)]
    omega
  rw [queue_peek_loop]
  simp only [hn, gt_iff_lt, if_true, chunk_load_some hh, hp, hb, if_false, chunk_load_some hc,
    bind, Except.bind, e1, ge_iff_le]
  by_cases hge : n ≤ c.size - c.pos
  · rw [if_pos hge, if_neg (by omega)]
    have hlt : c.pos < c.size := by omega
    simp only [hlt, if_true, pure, Except.pure, Nat.min_eq_left hge]
  · rw [if_neg hge, if_neg (by omega)]
    have hmin : min n (c.size - c.pos) = c.size - c.pos := Nat.min_eq_right (by omega)
    by_cases hlt : c.pos < c.size
    · simp only [hlt, if_true, pure, Except.pure, hmin]
      rw [List.take_of_length_le (by simp; omega),
        List.take_of_length_le (by simp; omega)]
    · simp only [hlt, if_false]
      have hz : c.size - c.pos = 0 := by omega
      simp [hz]

@[simp] theorem chunk_store_mem (q : Queue) (a : Nat) (c : Chunk) (x : Nat) :
    (q.store a c).mem x = if x = a then some c else q.mem x := rfl

@[simp] theorem chunk_store_brk (q : Queue) (a : Nat) (c : Chunk) :
    (q.store a c).brk = q.brk := rfl

@[simp] theorem chunk_store_avail (q : Queue) (a : Nat) (c : Chunk) :
    (q.store a c).avail = q.avail := rfl

@[simp] theorem chunk_store_nbytes (q : Queue) (a : Nat) (c : Chunk) :
    (q.store a c).nbytes = q.nbytes := rfl

@[simp] theorem chunk_store_nblocks (q : Queue) (a : Nat) (c : Chunk) :
    (q.store a c).nblocks = q.nblocks := rfl

theorem chunk_nxt_some {q : Queue} {a b : Nat} (h : q.nxt a = some b) :
    ∃ c, q.mem a = some c ∧ c.next = some b := by
  unfold Queue.nxt at h
  cases hm : q.mem a with
  | none => simp [hm] at h
  | some c => exact ⟨c, rfl, by simpa [hm] using h⟩

theorem chunk_prv_some {q : Queue} {a b : Nat} (h : q.prv a = some b) :
    ∃ c, q.mem a = some c ∧ c.prev = some b := by
  unfold Queue.prv at h
  cases hm : q.mem a with
  | none => simp [hm] at h
  | some c => exact ⟨c, rfl, by simpa [hm] using h⟩

/-- What `list_del` does to a queue's chain, in terms of the views. -/
theorem queue_list_del_views {q : Queue} {el p nx : Nat} (hp : q.prv el = some p)
    (hn : q.nxt el = some nx) (hpn : q.nxt p = some el) (hnp : q.prv nx = some el)
    (h1 : el ≠ p) (h2 : el ≠ nx) :
    ∃ q', q.list_del (some el) = .ok q' ∧
      (∀ a, q'.nxt a = if a = el then none else if a = p then some nx else q.nxt a) ∧
      (∀ a, q'.prv a = if a = el then none else if a = nx then some p else q.prv a) ∧
      (∀ a, q'.body a = q.body a) ∧
      q'.brk = q.brk ∧ q'.avail = q.avail ∧ q'.nbytes = q.nbytes ∧
      q'.nblocks = q.nblocks := by
  obtain ⟨e, he, hep⟩ := chunk_prv_some hp
  obtain ⟨e', he', hen⟩ := chunk_nxt_some hn
  obtain ⟨np, hnp1, hnp2⟩ := chunk_nxt_some hpn
  obtain ⟨nn, hnn1, hnn2⟩ := chunk_prv_some hnp
  have : e' = e := by rw [he] at he'; exact (Option.some.inj he').symm
  subst this
  generalize hr : q.list_del (some el) = r
  by_cases hpx : p = nx
  · subst hpx
    have : nn = np := by rw [hnp1] at hnn1; exact (Option.some.inj hnn1).symm
    subst this
    simp [Queue.list_del, Queue.load, Queue.update, he, hep, hen, hnp1, h1, Ne.symm h1, bind,
      Except.bind] at hr
    subst hr
    refine ⟨_, rfl, ?_, ?_, ?_, rfl, rfl, rfl, rfl⟩ <;> intro a <;>
        simp only [Queue.nxt, Queue.prv, Queue.body, chunk_store_mem] <;> split_ifs <;> simp_all
  · simp [Queue.list_del, Queue.load, Queue.update, he, hep, hen, hnp1, hnn1, h1, h2,
      Ne.symm h1, Ne.symm h2, hpx, Ne.symm hpx, bind, Except.bind] at hr
    subst hr
    refine ⟨_, rfl, ?_, ?_, ?_, rfl, rfl, rfl, rfl⟩ <;> intro a <;>
        simp only [Queue.nxt, Queue.prv, Queue.body, chunk_store_mem] <;> split_ifs <;> simp_all

/-- What `__list_add` does to a queue's chain, in terms of the views. -/
theorem queue_list_add_views {q : Queue} {el p nx : Nat} {e : Chunk}
    (he : q.mem el = some e)
    (hpn : q.nxt p = some nx) (hnp : q.prv nx = some p) (h1 : el ≠ p) (h2 : el ≠ nx) :
    ∃ q', q.__list_add (some el) (some p) (some nx) = .ok q' ∧
      (∀ a, q'.nxt a = if a = el then some nx else if a = p then some el else q.nxt a) ∧
      (∀ a, q'.prv a = if a = el then some p else if a = nx then some el else q.prv a) ∧
      (∀ a, q'.body a = q.body a) ∧
      q'.brk = q.brk ∧ q'.avail = q.avail ∧ q'.nbytes = q.nbytes ∧
      q'.nblocks = q.nblocks := by
  obtain ⟨np, hnp1, hnp2⟩ := chunk_nxt_some hpn
  obtain ⟨nn, hnn1, hnn2⟩ := chunk_prv_some hnp
  generalize hr : q.__list_add (some el) (some p) (some nx) = r
  by_cases hpx : p = nx
  · subst hpx
    have : nn = np := by rw [hnp1] at hnn1; exact (Option.some.inj hnn1).symm
    subst this
    simp [Queue.__list_add, Queue.load, Queue.update, he, hnp1, h1, Ne.symm h1, bind,
      Except.bind] at hr
    subst hr
    refine ⟨_, rfl, ?_, ?_, ?_, rfl, rfl, rfl, rfl⟩ <;> intro a <;>
        simp only [Queue.nxt, Queue.prv, Queue.body, chunk_store_mem] <;> split_ifs <;> simp_all
  · simp [Queue.__list_add, Queue.load, Queue.update, he, hnp1, hnn1, h1, h2, Ne.symm h1,
      Ne.symm h2, hpx, Ne.symm hpx, bind, Except.bind] at hr
    subst hr
    refine ⟨_, rfl, ?_, ?_, ?_, rfl, rfl, rfl, rfl⟩ <;> intro a <;>
        simp only [Queue.nxt, Queue.prv, Queue.body, chunk_store_mem] <;> split_ifs <;> simp_all

theorem body_eq_none {q : Queue} {a : Nat} : q.body a = none ↔ q.mem a = none := by
  unfold Queue.body
  cases q.mem a <;> simp

theorem body_some {q : Queue} {a : Nat} {b : Int × Nat × Nat × List Nat}
    (h : q.body a = some b) :
    ∃ c, q.mem a = some c ∧ (c.ref_count, c.size, c.pos, c.data) = b := by
  unfold Queue.body at h
  cases hm : q.mem a with
  | none => simp [hm] at h
  | some c => exact ⟨c, rfl, by simpa [hm] using h⟩

theorem unread_congr {q q' : Queue} {a : Nat} (h : q'.body a = q.body a) :
    unread q' a = unread q a := by
  unfold unread
  rw [h]

theorem rems_congr {q q' : Queue} {fs : List Nat} (h : ∀ a ∈ fs, q'.body a = q.body a) :
    rems q' fs = rems q fs := by
  unfold rems
  exact List.map_congr_left (fun a ha => unread_congr (h a ha))

/-- Well-formedness only looks at the views and the counters. -/
theorem QWF.congr_views {q q' : Queue} {fs : List Nat} (h : QWF q fs)
    (hn : ∀ a, q'.nxt a = q.nxt a) (hp : ∀ a, q'.prv a = q.prv a)
    (hb : ∀ a, q'.body a = q.body a) (h1 : q'.brk = q.brk) (h2 : q'.avail = q.avail)
    (h3 : q'.nbytes = q.nbytes) (h4 : q'.nblocks = q.nblocks) : QWF q' fs where
  nodup := h.nodup
  chain := chain_congr (fun a _ => hp a) (fun a _ => hn a) h.chain
  fresh := fun a ha => by rw [hb]; exact h.fresh a (by omega)
  len := by rw [h1]; exact h.len
  chunks := fun a ha => by rw [hb]; exact h.chunks a ha
  blocks := by rw [h4]; exact h.blocks
  bytes := by rw [h3, rems_congr (fun a _ => hb a)]; exact h.bytes
  cap := by rw [h1, h2]; exact h.cap
  small := by rw [h3]; exact h.small

theorem QWF.cell {q : Queue} {fs : List Nat} (h : QWF q fs) {a : Nat} (ha : a ∈ 0 :: fs) :
    ∃ c, q.mem a = some c := by
  obtain ⟨b, hb⟩ := chain_mem_fwd h.chain a ha
  obtain ⟨c, hc, _⟩ := chunk_prv_some hb
  exact ⟨c, hc⟩

theorem QWF.below_brk {q : Queue} {fs : List Nat} (h : QWF q fs) {a : Nat} (ha : a ∈ 0 :: fs) :
    a < q.brk := by
  by_contra hlt
  obtain ⟨c, hc⟩ := h.cell ha
  have := body_eq_none.1 (h.fresh a (not_lt.1 hlt))
  rw [hc] at this
  exact Option.noConfusion this

/-- The head cell of a well-formed queue: `prev` is the oldest chunk, `next` the
newest. -/
theorem QWF.head_cell {q : Queue} {fs : List Nat} (h : QWF q fs) :
    ∃ c, q.mem 0 = some c ∧ c.prev = some (fs.headD 0) ∧ c.next = some (fs.getLastD 0) := by
  obtain ⟨c, hc, h1⟩ := chunk_prv_some (chain_headD h.chain)
  obtain ⟨c', hc', h2⟩ := chunk_nxt_some (chain_getLastD h.chain)
  rw [hc] at hc'
  cases hc'
  exact ⟨c, hc, h1, h2⟩

theorem queue_init_wf (avail : Nat) (h : avail + 1 < 2 ^ 63) :
    QWF (queue_init (Queue.blank avail)) [] where
  nodup := by simp
  chain := by simp [Chain, Queue.prv, Queue.nxt, queue_init, Queue.init_list_head, Queue.store]
  fresh := fun a ha => by
    have : a ≠ 0 := by
      simp [queue_init, Queue.init_list_head, Queue.blank] at ha
      omega
    simp [Queue.body, queue_init, Queue.init_list_head, Queue.store, Queue.blank, this]
  len := by simp [queue_init, Queue.init_list_head, Queue.blank]
  chunks := by simp
  blocks := rfl
  bytes := rfl
  cap := by
    simp only [queue_init, Queue.init_list_head, Queue.blank, chunk_store_brk, chunk_store_avail]
    omega
  small := by simp [queue_init]

/-- A write to one cell that keeps its links, through the views. -/
theorem chunk_update_views {q : Queue} {a : Nat} {c : Chunk} (f : Chunk → Chunk)
    (hm : q.mem a = some c) (h1 : (f c).next = c.next) (h2 : (f c).prev = c.prev) :
    ∃ q', q.update (some a) f = .ok q' ∧
      (∀ x, q'.nxt x = q.nxt x) ∧ (∀ x, q'.prv x = q.prv x) ∧
      (∀ x, q'.body x =
        if x = a then some ((f c).ref_count, (f c).size, (f c).pos, (f c).data)
        else q.body x) ∧
      q'.brk = q.brk ∧ q'.avail = q.avail ∧ q'.nbytes = q.nbytes ∧
      q'.nblocks = q.nblocks := by
  refine ⟨_, chunk_update_some f hm, ?_, ?_, ?_, rfl, rfl, rfl, rfl⟩
  · intro x
    by_cases hx : x = a
    · subst hx; simp [Queue.nxt, hm, h1]
    · simp [Queue.nxt, hx]
  · intro x
    by_cases hx : x = a
    · subst hx; simp [Queue.prv, hm, h2]
    · simp [Queue.prv, hx]
  · intro x
    by_cases hx : x = a
    · subst hx; simp [Queue.body]
    · simp [Queue.body, hx]

/-- A successful `chunk_alloc`, through the views. -/
theorem chunk_alloc_views {q : Queue} (n : Nat) (hav : q.avail ≠ 0)
    (hfresh : ∀ a, q.brk ≤ a → q.body a = none) :
    ∃ q', chunk_alloc q n = (some q.brk, q') ∧
      (∀ a, q'.nxt a = q.nxt a) ∧ (∀ a, q'.prv a = q.prv a) ∧
      (∀ a, q'.body a =
        if a = q.brk then some (1, 0, 0, List.replicate n 0) else q.body a) ∧
      q'.brk = q.brk + 1 ∧ q'.avail = q.avail - 1 ∧ q'.nbytes = q.nbytes ∧
      q'.nblocks = q.nblocks := by
  have hfree : q.mem q.brk = none := body_eq_none.1 (hfresh _ (le_refl _))
  refine ⟨Queue.store { q with brk := q.brk + 1, avail := q.avail - 1 } q.brk
    (Chunk.mk none none 1 0 0 (List.replicate n 0)), by simp [chunk_alloc, hav],
    ?_, ?_, ?_, rfl, rfl, rfl, rfl⟩
  · intro a
    by_cases ha : a = q.brk
    · subst ha; simp [Queue.nxt, hfree]
    · simp [Queue.nxt, ha]
  · intro a
    by_cases ha : a = q.brk
    · subst ha; simp [Queue.prv, hfree]
    · simp [Queue.prv, ha]
  · intro a
    by_cases ha : a = q.brk
    · subst ha; simp [Queue.body]
    · simp [Queue.body, ha]

/-- `queue_write` on a well-formed queue when `malloc` succeeds: the new chunk is the
newest, it holds the bytes written, unread. -/
theorem queue_write_wf {q : Queue} {fs : List Nat} (h : QWF q fs) (x : List Nat)
    (hav : q.avail ≠ 0) (hsm : q.nbytes + x.length < 2 ^ 63) :
    ∃ q', queue_write q x x.length = .ok ((x.length : Int), q') ∧ QWF q' (fs ++ [q.brk]) ∧
      rems q' (fs ++ [q.brk]) = rems q fs ++ [x] ∧ q'.avail = q.avail - 1 ∧
      q'.brk = q.brk + 1 := by
  have hcap := h.cap
  have hblk := h.blocks
  have hlen := h.len
  obtain ⟨q1, ea, hn1, hp1, hb1, hk1, ha1, hy1, hl1⟩ := chunk_alloc_views x.length hav h.fresh
  obtain ⟨c1, hm1, -⟩ := body_some (q := q1) (a := q.brk)
    (b := (1, 0, 0, List.replicate x.length 0)) (by rw [hb1]; simp)
  -- the link
  obtain ⟨hcn, hcp⟩ := chain_cut (s := fs) (t := []) (by simpa using h.chain)
  simp only [List.headD_nil] at hcn hcp
  obtain ⟨hd, hhd, -, hnx⟩ := h.head_cell
  obtain ⟨hd1, hhd1, hnx1⟩ := chunk_nxt_some (q := q1) (a := 0) (b := fs.getLastD 0)
    (by rw [hn1]; exact hcp)
  have hlast : fs.getLastD 0 ∈ 0 :: fs := getLastD_mem fs 0
  have h1 : q.brk ≠ 0 := by omega
  have h2 : q.brk ≠ fs.getLastD 0 := fun e => by
    have := h.below_brk hlast; omega
  obtain ⟨q2, e2, hn2, hp2, hb2, hk2, ha2, hy2, hl2⟩ :=
    @queue_list_add_views q1 q.brk 0 (fs.getLastD 0) c1 hm1
      (by rw [hn1]; exact hcp) (by rw [hp1]; exact hcn) h1 h2
  -- the two writes to the new chunk
  obtain ⟨c2, hm2, hc2⟩ := body_some (q := q2) (a := q.brk)
    (b := (1, 0, 0, List.replicate x.length 0)) (by rw [hb2, hb1]; simp)
  obtain ⟨q3, e3, hn3, hp3, hb3, hk3, ha3, hy3, hl3⟩ := chunk_update_views (q := q2)
    (fun c => { c with size := x.length }) hm2 rfl rfl
  simp only [Prod.mk.injEq] at hc2
  obtain ⟨hr2, -, hpos2, -⟩ := hc2
  simp only [hr2, hpos2] at hb3
  obtain ⟨c3, hm3, hc3⟩ := body_some (q := q3) (a := q.brk)
    (b := (1, x.length, 0, c2.data)) (by rw [hb3]; simp)
  obtain ⟨q4, e4, hn4, hp4, hb4, hk4, ha4, hy4, hl4⟩ := chunk_update_views (q := q3)
    (fun c => { c with data := x.take x.length }) hm3 rfl rfl
  simp only [Prod.mk.injEq] at hc3
  obtain ⟨hr3, hs3, hpos3, -⟩ := hc3
  simp only [hr3, hs3, hpos3, List.take_length] at hb4
  have hnotin : q.brk ∉ 0 :: fs := fun hm => by
    have := h.below_brk hm; omega
  have hbody : ∀ a, a ≠ q.brk → q4.body a = q.body a := by
    intro a ha
    rw [hb4, if_neg ha, hb3, if_neg ha, hb2, hb1, if_neg ha]
  have hbnew : q4.body q.brk = some (1, x.length, 0, x) := by rw [hb4]; simp
  have hnb : q4.nbytes = q.nbytes := by rw [hy4, hy3, hy2, hy1]
  have hnl : q4.nblocks = q.nblocks := by rw [hl4, hl3, hl2, hl1]
  have hbk : q4.brk = q.brk + 1 := by rw [hk4, hk3, hk2, hk1]
  have hav4 : q4.avail = q.avail - 1 := by rw [ha4, ha3, ha2, ha1]
  have hrems4 : rems q4 (fs ++ [q.brk]) = rems q fs ++ [x] := by
    unfold rems
    rw [List.map_append]
    congr 1
    · apply List.map_congr_left
      intro a ha
      have hne : a ≠ q.brk := fun e => hnotin (by rw [← e]; exact List.mem_cons_of_mem _ ha)
      exact unread_congr (hbody a hne)
    · simp [unread, hbnew]
  have hnd : (0 :: (fs ++ [q.brk])).Nodup := by
    have : (0 :: (fs ++ [q.brk])) = (0 :: fs) ++ [q.brk] := rfl
    rw [this, List.nodup_append]
    refine ⟨h.nodup, by simp, ?_⟩
    intro a ha hb
    simp only [List.mem_singleton] at hb
    subst hb
    exact hnotin ha
  have hch : Chain q4.prv q4.nxt 0 (fs ++ [q.brk]) 0 :=
    chain_insert (c := q.brk) (s := fs) (t := []) (by simpa using h.chain)
      (by simpa using h.nodup) (by simpa using (List.nodup_cons.1 h.nodup).1)
      (by simpa using hnotin) h1
      (fun a => by rw [hp4, hp3, hp2, hp1]; simp)
      (fun a => by rw [hn4, hn3, hn2, hn1]; simp)
  have hfr : ∀ a, q4.brk ≤ a → q4.body a = none := by
    intro a ha
    rw [hbk] at ha
    rw [hbody a (by omega)]
    exact h.fresh a (by omega)
  have hln : (fs ++ [q.brk]).length < q4.brk := by
    simp only [List.length_append, List.length_singleton, hbk]
    omega
  have hck : ∀ a ∈ fs ++ [q.brk], ∃ r s p d, q4.body a = some (r, s, p, d) ∧ d.length = s ∧
      p ≤ s ∧ s < 2 ^ 63 := by
    intro a ha
    rcases List.mem_append.1 ha with ha | ha
    · have hne : a ≠ q.brk := fun e => hnotin (by rw [← e]; exact List.mem_cons_of_mem _ ha)
      rw [hbody a hne]
      exact h.chunks a ha
    · simp only [List.mem_singleton] at ha
      subst ha
      exact ⟨1, x.length, 0, x, hbnew, rfl, Nat.zero_le _, by omega⟩
  have hbl : size_t ((q4.nblocks : Int) + 1) = (fs ++ [q.brk]).length := by
    rw [hnl, size_t_of_range (by omega) (by omega), hblk]
    simp
  have hfl : (rems q fs ++ [x]).flatten.length = q.nbytes + x.length := by
    rw [h.bytes]; simp
  have hby : size_t ((q4.nbytes : Int) + x.length) =
      (rems q4 (fs ++ [q.brk])).flatten.length := by
    rw [hrems4, hfl, hnb, size_t_of_range (by omega) (by omega)]
    omega
  have hcp : q4.brk + q4.avail < 2 ^ 63 := by
    rw [hbk, hav4]
    omega
  have hsl : size_t ((q4.nbytes : Int) + x.length) < 2 ^ 63 := by
    rw [hnb, size_t_of_range (by omega) (by omega)]
    omega
  refine ⟨Queue.mk q4.mem q4.brk q4.avail (size_t ((q4.nbytes : Int) + x.length))
    (size_t ((q4.nblocks : Int) + 1)), ?_, ⟨hnd, hch, hfr, hln, hck, hbl, hby, hcp, hsl⟩,
    hrems4, hav4, hbk⟩
  unfold queue_write
  rw [ea]
  simp only [Queue.list_add, chunk_load_some hhd1, hnx1, bind, Except.bind, e2, e3,
    lt_irrefl, if_false, e4, pure, Except.pure]
  rw [int64_of_range (by omega) (by omega)]

/-- What `chunk_free` does, through the views: only the cell of the chunk changes. -/
theorem chunk_free_views {q : Queue} {a : Nat} {c : Chunk} (hm : q.mem a = some c) :
    ∃ q', chunk_free q (some a) = .ok q' ∧
      (∀ x, x ≠ a → q'.nxt x = q.nxt x) ∧ (∀ x, x ≠ a → q'.prv x = q.prv x) ∧
      (∀ x, x ≠ a → q'.body x = q.body x) ∧
      (c.ref_count = 1 → q'.mem a = none) ∧
      q'.brk = q.brk ∧ q'.avail = q.avail ∧ q'.nbytes = q.nbytes ∧
      q'.nblocks = q.nblocks := by
  by_cases hr : c.ref_count - 1 = 0
  · refine ⟨{ q with mem := fun x => if x = a then none else q.mem x }, ?_, ?_, ?_, ?_, ?_,
      rfl, rfl, rfl, rfl⟩
    · simp [chunk_free, chunk_update_some _ hm, Queue.load, hr, bind, Except.bind, pure,
        Except.pure, Queue.store]
      funext x
      by_cases hx : x = a <;> simp [hx]
    · intro x hx; simp [Queue.nxt, hx]
    · intro x hx; simp [Queue.prv, hx]
    · intro x hx; simp [Queue.body, hx]
    · intro _; simp
  · refine ⟨q.store a { c with ref_count := c.ref_count - 1 }, ?_, ?_, ?_, ?_, ?_,
      rfl, rfl, rfl, rfl⟩
    · simp [chunk_free, chunk_update_some _ hm, Queue.load, hr, bind, Except.bind, pure,
        Except.pure]
    · intro x hx; simp [Queue.nxt, hx]
    · intro x hx; simp [Queue.prv, hx]
    · intro x hx; simp [Queue.body, hx]
    · intro h1; exact absurd (by omega) hr

theorem rems_cons (q : Queue) (b : Nat) (rest : List Nat) :
    rems q (b :: rest) = unread q b :: rems q rest := rfl

theorem unread_of_body {q : Queue} {a : Nat} {r : Int} {s p : Nat} {d : List Nat}
    (h : q.body a = some (r, s, p, d)) : unread q a = d.drop p := by
  simp [unread, h]

/-- The loop of `queue_read` on a well-formed queue: it copies what `read_chunks`
says and leaves a well-formed queue with the chunks `read_chunks` leaves. -/
theorem queue_read_loop_wf : ∀ (fs : List Nat) (q : Queue) (fuel n : Nat) (ret : Int)
    (out : List Nat), QWF q fs → fs.length < fuel → 0 ≤ ret → ret + q.nbytes < 2 ^ 63 →
    ∃ q' fs', queue_read_loop fuel n ret out q =
        .ok (ret + ((read_chunks n (rems q fs)).1.length : Nat),
          out ++ (read_chunks n (rems q fs)).1, q') ∧
      QWF q' fs' ∧ rems q' fs' = (read_chunks n (rems q fs)).2 ∧
      q'.avail = q.avail ∧ q'.brk = q.brk
  | [], q, fuel + 1, n, ret, out, h, _, _, _ => by
    obtain ⟨hd, hhd, hpv, -⟩ := h.head_cell
    simp only [List.headD_nil] at hpv
    refine ⟨q, [], ?_, h, rfl, rfl, rfl⟩
    rw [queue_read_loop]
    by_cases hn : n > 0
    · simp [hn, chunk_load_some hhd, hpv, bind, Except.bind, pure, Except.pure, rems,
        read_chunks]
    · simp [hn, pure, Except.pure, rems, read_chunks]
  | b :: rest, q, fuel + 1, n, ret, out, h, hfuel, hret, hsmall => by
    by_cases hn : n > 0
    swap
    · have hn0 : n = 0 := by omega
      subst hn0
      refine ⟨q, b :: rest, ?_, h, ?_, rfl, rfl⟩
      · rw [queue_read_loop]
        simp [pure, Except.pure, rems_cons, read_chunks]
      · simp [rems, read_chunks]
    obtain ⟨hd, hhd, hpv, -⟩ := h.head_cell
    simp only [List.headD_cons] at hpv
    have hb0 : b ≠ 0 := fun e => (List.nodup_cons.1 h.nodup).1 (by simp [e])
    obtain ⟨r, s, p, d, hbody, hdl, hps, hs63⟩ := h.chunks b (List.mem_cons_self _ _)
    obtain ⟨c, hc, hcf⟩ := body_some hbody
    simp only [Prod.mk.injEq] at hcf
    obtain ⟨hcr, hcs, hcp, hcd⟩ := hcf
    have hu : unread q b = d.drop p := unread_of_body hbody
    have hul : (unread q b).length = s - p := by rw [hu]; simp [hdl]
    have hbytes := h.bytes
    rw [rems_cons, List.flatten_cons, List.length_append, hul] at hbytes
    have hsz : size_t ((c.size : Int) - c.pos) = s - p := by
      rw [hcs, hcp, size_t_of_range (by omega) (by omega)]
      omega
    have hchain := h.chain
    simp only [Chain] at hchain
    obtain ⟨hp0, hnb, htail⟩ := hchain
    have hrest_ne : ∀ a ∈ rest, a ≠ b := fun a ha e =>
      (List.nodup_cons.1 (List.nodup_cons.1 h.nodup).2).1 (e ▸ ha)
    by_cases hlt : n < s - p
    · -- the chunk is not exhausted
      obtain ⟨q1, e1, hn1, hp1, hb1, hk1, ha1, hy1, hl1⟩ := chunk_update_views (q := q)
        (fun c => { c with pos := size_t ((c.pos : Int) + n) }) hc rfl rfl
      have hpos : size_t ((c.pos : Int) + n) = p + n := by
        rw [hcp, size_t_of_range (by omega) (by omega)]
        omega
      simp only [hpos, hcr, hcs, hcd] at hb1
      have hb1b : q1.body b = some (r, s, p + n, d) := by rw [hb1]; simp
      obtain ⟨c1, hc1, hc1f⟩ := body_some hb1b
      simp only [Prod.mk.injEq] at hc1f
      obtain ⟨-, hc1s, hc1p, -⟩ := hc1f
      have hrc : read_chunks n (rems q (b :: rest)) =
          ((unread q b).take n, (unread q b).drop n :: rems q rest) := by
        rw [rems_cons, read_chunks, if_neg (by omega), if_pos (by omega)]
      have hun : unread q1 b = (unread q b).drop n := by
        rw [unread_of_body hb1b, hu, List.drop_drop, Nat.add_comm]
      have hrr : rems q1 rest = rems q rest :=
        rems_congr (fun a ha => by rw [hb1, if_neg (hrest_ne a ha)])
      have hrems1 : rems q1 (b :: rest) = (unread q b).drop n :: rems q rest := by
        rw [rems_cons, hun, hrr]
      have hfl : (rems q1 (b :: rest)).flatten.length = q.nbytes - n := by
        rw [hrems1, List.flatten_cons, List.length_append, List.length_drop, hul, hbytes]
        omega
      have hnb1 : size_t ((q1.nbytes : Int) - n) = q.nbytes - n := by
        rw [hy1, size_t_of_range (by omega) (by omega)]
        omega
      have hw1 : QWF (Queue.mk q1.mem q1.brk q1.avail (size_t ((q1.nbytes : Int) - n))
          q1.nblocks) (b :: rest) :=
        ⟨h.nodup, chain_congr (fun a _ => hp1 a) (fun a _ => hn1 a) h.chain,
          fun a ha => by
            have hab : a ≠ b := fun e => by
              have := h.below_brk (a := b) (by simp)
              rw [hk1] at ha
              omega
            show q1.body a = none
            rw [hb1, if_neg hab]
            exact h.fresh a (by rw [← hk1]; exact ha),
          by rw [hk1]; exact h.len,
          fun a ha => by
            show ∃ r s p d, q1.body a = some (r, s, p, d) ∧ _
            by_cases hab : a = b
            · subst hab
              exact ⟨r, s, p + n, d, hb1b, hdl, by omega, hs63⟩
            · rw [hb1, if_neg hab]
              exact h.chunks a ha,
          by rw [hl1]; exact h.blocks,
          by
            show size_t ((q1.nbytes : Int) - n) = (rems q1 (b :: rest)).flatten.length
            rw [hnb1, hfl],
          by rw [hk1, ha1]; exact h.cap,
          by
            show size_t ((q1.nbytes : Int) - n) < 2 ^ 63
            rw [hnb1]
            have := h.small
            omega⟩
      refine ⟨_, b :: rest, ?_, hw1, ?_, ha1, hk1⟩
      · rw [queue_read_loop, hrc]
        simp only [hn, if_true, chunk_load_some hhd, hpv, hb0, if_false, chunk_load_some hc,
          hsz, bind, Except.bind, ge_iff_le]
        rw [if_pos (show n ≤ s - p by omega),
          if_neg (show ¬ c.data.length < c.pos + n by rw [hcd, hdl, hcp]; omega)]
        simp only [e1]
        have hl1' : (Queue.mk q1.mem q1.brk q1.avail (size_t ((q1.nbytes : Int) - n))
            q1.nblocks).load (some b) = .ok c1 := chunk_load_some hc1
        simp only [hl1']
        rw [if_pos (show c1.pos < c1.size by rw [hc1s, hc1p]; omega)]
        rw [int64_of_range (by omega) (by omega), hu, hcd, hcp]
        simp only [pure, Except.pure, List.length_take, List.length_drop, hdl]
        rw [Nat.min_eq_left (by omega)]
      · exact hrems1.trans (by rw [hrc])
    · -- the chunk is exhausted and unlinked
      have hbe : (if n ≤ s - p then n else s - p) = s - p := by
        split_ifs <;> omega
      obtain ⟨q1, e1, hn1, hp1, hb1, hk1, ha1, hy1, hl1⟩ := chunk_update_views (q := q)
        (fun c => { c with pos := size_t ((c.pos : Int) + ((s - p : Nat) : Int)) }) hc rfl rfl
      have hpos : size_t ((c.pos : Int) + ((s - p : Nat) : Int)) = s := by
        rw [hcp, size_t_of_range (by omega) (by omega)]
        omega
      simp only [hpos, hcr, hcs, hcd] at hb1
      have hb1b : q1.body b = some (r, s, s, d) := by rw [hb1]; simp
      obtain ⟨c1, hc1, hc1f⟩ := body_some hb1b
      simp only [Prod.mk.injEq] at hc1f
      obtain ⟨-, hc1s, hc1p, -⟩ := hc1f
      have hrc : read_chunks n (rems q (b :: rest)) =
          (unread q b ++ (read_chunks (n - (s - p)) (rems q rest)).1,
            (read_chunks (n - (s - p)) (rems q rest)).2) := by
        rw [rems_cons, read_chunks, if_neg (by omega), if_neg (by omega), hul]
      have hnb1 : size_t ((q1.nbytes : Int) - ((s - p : Nat) : Int)) = q.nbytes - (s - p) := by
        rw [hy1, size_t_of_range (by omega) (by omega)]
        omega
      -- the unlinking
      have hbh : b ≠ rest.headD 0 := by
        rcases headD_eq_or_mem rest 0 with e | e
        · rw [e]; exact hb0
        · exact fun e' => hrest_ne _ e e'.symm
      obtain ⟨q2, e2, hn2, hp2, hb2, hk2, ha2, hy2, hl2⟩ :=
        @queue_list_del_views
          (Queue.mk q1.mem q1.brk q1.avail (size_t ((q1.nbytes : Int) - ((s - p : Nat) : Int)))
            q1.nblocks) b (rest.headD 0) 0
          (by show q1.prv b = _; rw [hp1]; exact chain_headD htail)
          (by show q1.nxt b = _; rw [hn1]; exact hnb)
          (by show q1.nxt (rest.headD 0) = _; rw [hn1]; exact chain_headD_back htail)
          (by show q1.prv 0 = _; rw [hp1]; exact hp0) hbh hb0
      have hb2' : ∀ a, q2.body a = q1.body a := hb2
      have hn2' : ∀ a, q2.nxt a =
          if a = b then none else if a = rest.headD 0 then some 0 else q.nxt a := by
        intro a; rw [hn2]; show _ = _; rw [← hn1 a]; rfl
      have hp2' : ∀ a, q2.prv a =
          if a = b then none else if a = 0 then some (rest.headD 0) else q.prv a := by
        intro a; rw [hp2]; show _ = _; rw [← hp1 a]; rfl
      obtain ⟨c2, hc2, -⟩ := body_some (q := q2) (a := b) (b := (r, s, s, d))
        (by rw [hb2', hb1b])
      obtain ⟨q3, e3, hn3, hp3, hb3, -, hk3, ha3, hy3, hl3⟩ := chunk_free_views hc2
      have hbody3 : ∀ a, a ≠ b → q3.body a = q.body a := by
        intro a ha
        rw [hb3 a ha, hb2', hb1, if_neg ha]
      have hrems3 : rems q3 rest = rems q rest :=
        rems_congr (fun a ha => hbody3 a (hrest_ne a ha))
      have hnd : (0 :: rest).Nodup := by
        have := h.nodup
        rw [List.nodup_cons] at this ⊢
        exact ⟨fun hm => this.1 (List.mem_cons_of_mem _ hm), (List.nodup_cons.1 this.2).2⟩
      have hch2 : Chain q2.prv q2.nxt 0 rest 0 :=
        chain_delete (s := []) (c := b) (t := rest) (by simpa using h.chain)
          (by simpa using h.nodup) (by simpa using (List.nodup_cons.1 h.nodup).1)
          (fun a => by rw [hp2']; simp) (fun a => by rw [hn2']; simp)
      have hch3 : Chain q3.prv q3.nxt 0 rest 0 := by
        refine chain_congr ?_ ?_ hch2
        · intro a ha
          apply hp3
          rcases List.mem_cons.1 ha with e | e
          · rw [e]; exact Ne.symm hb0
          · exact hrest_ne a e
        · intro a ha
          apply hn3
          rcases List.mem_append.1 ha with e | e
          · exact hrest_ne a e
          · simp only [List.mem_singleton] at e
            rw [e]; exact Ne.symm hb0
      have hbk3 : q3.brk = q.brk := by rw [hk3, hk2]; exact hk1
      have hav3 : q3.avail = q.avail := by rw [ha3, ha2]; exact ha1
      have hny3 : q3.nbytes = q.nbytes - (s - p) := by rw [hy3, hy2]; exact hnb1
      have hnl3 : q3.nblocks = q.nblocks := by rw [hl3, hl2]; exact hl1
      have hblk := h.blocks
      simp only [List.length_cons] at hblk
      have hlen := h.len
      simp only [List.length_cons] at hlen
      have hcap := h.cap
      have hnl4 : size_t ((q3.nblocks : Int) - 1) = rest.length := by
        rw [hnl3, size_t_of_range (by omega) (by omega)]
        omega
      have hw4 : QWF (Queue.mk q3.mem q3.brk q3.avail q3.nbytes
          (size_t ((q3.nblocks : Int) - 1))) rest :=
        ⟨hnd, hch3,
          fun a ha => by
            have hab : a ≠ b := fun e => by
              have := h.below_brk (a := b) (by simp)
              rw [hbk3] at ha
              omega
            show q3.body a = none
            rw [hbody3 a hab]
            exact h.fresh a (by rw [← hbk3]; exact ha),
          by rw [hbk3]; omega,
          fun a ha => by
            show ∃ r s p d, q3.body a = some (r, s, p, d) ∧ _
            rw [hbody3 a (hrest_ne a ha)]
            exact h.chunks a (List.mem_cons_of_mem _ ha),
          hnl4,
          by
            show q3.nbytes = (rems q3 rest).flatten.length
            rw [hrems3, hny3, hbytes]
            omega,
          by rw [hbk3, hav3]; exact hcap,
          by
            show q3.nbytes < 2 ^ 63
            rw [hny3]
            have := h.small
            omega⟩
      have hsmall4 : ret + ((s - p : Nat) : Int) + (q3.nbytes : Int) < 2 ^ 63 := by
        rw [hny3]
        omega
      obtain ⟨q', fs', e5, hw5, hr5, ha5, hk5⟩ :=
        queue_read_loop_wf rest _ fuel (n - (s - p)) (ret + ((s - p : Nat) : Int))
          (out ++ unread q b) hw4 (by simp at hfuel; omega) (by omega) hsmall4
      have hrems4 : rems (Queue.mk q3.mem q3.brk q3.avail q3.nbytes
          (size_t ((q3.nblocks : Int) - 1))) rest = rems q rest := hrems3
      rw [hrems4] at e5 hr5
      refine ⟨q', fs', ?_, hw5, by rw [hr5, hrc], by rw [ha5]; exact hav3,
        by rw [hk5]; exact hbk3⟩
      rw [queue_read_loop, hrc]
      simp only [hn, if_true, chunk_load_some hhd, hpv, hb0, if_false, chunk_load_some hc,
        hsz, bind, Except.bind, ge_iff_le, hbe]
      rw [if_neg (show ¬ c.data.length < c.pos + (s - p) by rw [hcd, hdl, hcp]; omega)]
      simp only [e1]
      have hl1' : (Queue.mk q1.mem q1.brk q1.avail
          (size_t ((q1.nbytes : Int) - ((s - p : Nat) : Int))) q1.nblocks).load (some b) =
          .ok c1 := chunk_load_some hc1
      simp only [hl1']
      rw [if_neg (show ¬ c1.pos < c1.size by rw [hc1s, hc1p]; omega)]
      simp only [e2, e3]
      rw [int64_of_range (by omega) (by omega)]
      have htk : List.take (s - p) (List.drop c.pos c.data) = unread q b := by
        rw [hu, hcd, hcp]
        exact List.take_of_length_le (by simp [hdl])
      rw [htk]
      have e5' := e5
      simp only [List.length_append, hul, Nat.cast_add, List.append_assoc] at e5' ⊢
      rw [e5']
      congr 2
      ring

theorem read_chunks_fst : ∀ (cs : List (List Nat)) (n : Nat),
    (read_chunks n cs).1 = cs.flatten.take n
  | [], n => by simp [read_chunks]
  | c :: cs, n => by
    rw [read_chunks]
    by_cases h0 : n = 0
    · simp [h0]
    · rw [if_neg h0]
      by_cases hlt : n < c.length
      · rw [if_pos hlt]
        simp [List.take_append_of_le_length (Nat.le_of_lt hlt)]
      · rw [if_neg hlt]
        simp only [read_chunks_fst cs, List.flatten_cons]
        rw [List.take_append_eq_append_take,
          List.take_of_length_le (show c.length ≤ n by omega)]

theorem read_chunks_snd : ∀ (cs : List (List Nat)) (n : Nat),
    (read_chunks n cs).2.flatten = cs.flatten.drop n
  | [], n => by simp [read_chunks]
  | c :: cs, n => by
    rw [read_chunks]
    by_cases h0 : n = 0
    · simp [h0]
    · rw [if_neg h0]
      by_cases hlt : n < c.length
      · rw [if_pos hlt]
        simp [List.drop_append_of_le_length (Nat.le_of_lt hlt)]
      · rw [if_neg hlt]
        simp only [read_chunks_snd cs, List.flatten_cons]
        rw [List.drop_append_eq_append_drop,
          List.drop_of_length_le (show c.length ≤ n by omega)]
        simp

theorem getLast?_of_flatten_nil : ∀ (cs : List (List Nat)), cs ≠ [] → cs.flatten = [] →
    cs.getLast? = some [] := by
  intro cs hne hfl
  obtain ⟨l, hl⟩ : ∃ l, cs.getLast? = some l := ⟨cs.getLast hne, List.getLast?_eq_getLast _ _⟩
  have hm : l ∈ cs := List.mem_of_getLast?_eq_some hl
  rw [hl, List.flatten_eq_nil_iff.1 hfl l hm]

theorem read_chunks_all : ∀ (cs : List (List Nat)), cs.getLast? ≠ some [] →
    (read_chunks cs.flatten.length cs).2 = []
  | [], _ => by simp [read_chunks]
  | [c], h => by
    have hc : c ≠ [] := fun e => h (by simp [e])
    have hl : c.length ≠ 0 := fun e => hc (List.length_eq_zero.1 e)
    simp [read_chunks, hl]
  | c :: d :: ds, h => by
    rw [List.getLast?_cons_cons] at h
    have ih := read_chunks_all (d :: ds) h
    have hne : (d :: ds).flatten ≠ [] := fun e => h (getLast?_of_flatten_nil _ (by simp) e)
    have hl : (d :: ds).flatten.length ≠ 0 := fun e => hne (List.length_eq_zero.1 e)
    rw [read_chunks, if_neg (by rw [List.flatten_cons, List.length_append]; omega),
      if_neg (by rw [List.flatten_cons, List.length_append]; omega)]
    have e : (c :: d :: ds).flatten.length - c.length = (d :: ds).flatten.length := by
      rw [List.flatten_cons, List.length_append, Nat.add_sub_cancel_left]
    rw [e]
    exact ih

/-- `queue_read` on a well-formed queue, in terms of the unread bytes. -/
theorem queue_read_wf {q : Queue} {fs : List Nat} (h : QWF q fs) (n : Nat) :
    ∃ q' fs', queue_read q n =
        .ok (((min n (rems q fs).flatten.length : Nat) : Int), (rems q fs).flatten.take n, q') ∧
      QWF q' fs' ∧ rems q' fs' = (read_chunks n (rems q fs)).2 ∧
      (rems q' fs').flatten = (rems q fs).flatten.drop n ∧
      q'.avail = q.avail ∧ q'.brk = q.brk := by
  have hs := h.small
  obtain ⟨q', fs', e, hw, hr, ha, hk⟩ := queue_read_loop_wf fs q q.brk n 0 [] h h.len
    (le_refl _) (by omega)
  refine ⟨q', fs', ?_, hw, hr, by rw [hr, read_chunks_snd], ha, hk⟩
  unfold queue_read
  rw [e, read_chunks_fst]
  simp [List.length_take]

theorem queue_writes_wf : ∀ (xs : List (List Nat)) {q : Queue} {fs : List Nat}, QWF q fs →
    xs.length ≤ q.avail → q.nbytes + xs.flatten.length < 2 ^ 63 →
    ∃ q' fs', queue_writes xs q = .ok (xs.map (fun x => (x.length : Int)), q') ∧ QWF q' fs' ∧
      rems q' fs' = rems q fs ++ xs ∧ q'.avail = q.avail - xs.length
  | [], q, fs, h, _, _ => ⟨q, fs, rfl, h, by simp, rfl⟩
  | x :: xs, q, fs, h, hav, hsm => by
    simp only [List.length_cons, List.flatten_cons, List.length_append] at hav hsm
    obtain ⟨q1, e1, hw1, hr1, ha1, -⟩ := queue_write_wf h x (by omega) (by omega)
    have hb1 : q1.nbytes = q.nbytes + x.length := by
      rw [hw1.bytes, hr1, h.bytes]
      simp
    obtain ⟨q2, fs2, e2, hw2, hr2, ha2⟩ := queue_writes_wf xs hw1 (by omega) (by omega)
    refine ⟨q2, fs2, ?_, hw2, by rw [hr2, hr1]; simp, by rw [ha2, ha1]; simp; omega⟩
    simp only [queue_writes, e1, e2, bind, Except.bind, pure, Except.pure, List.map_cons]

theorem queue_reads_wf : ∀ (ns : List Nat) {q : Queue} {fs : List Nat}, QWF q fs →
    ∃ q' fs', queue_reads ns q = .ok (fifo_reads ns (rems q fs).flatten, q') ∧ QWF q' fs' ∧
      (rems q' fs').flatten = (rems q fs).flatten.drop ns.sum
  | [], q, fs, h => ⟨q, fs, rfl, h, by simp⟩
  | n :: ns, q, fs, h => by
    obtain ⟨q1, fs1, e1, hw1, -, hr1, -, -⟩ := queue_read_wf h n
    obtain ⟨q2, fs2, e2, hw2, hr2⟩ := queue_reads_wf ns hw1
    refine ⟨q2, fs2, ?_, hw2, ?_⟩
    · simp only [queue_reads, e1, e2, hr1, bind, Except.bind, pure, Except.pure, fifo_reads]
    · rw [hr2, hr1, List.drop_drop, List.sum_cons, Nat.add_comm]

theorem QWF.empty_list {q : Queue} (h : QWF q []) : q.list_empty = .ok true := by
  obtain ⟨hd, hhd, -, hnx⟩ := h.head_cell
  simp only [List.getLastD_nil] at hnx
  simp [Queue.list_empty, chunk_load_some hhd, hnx, bind, Except.bind, pure, Except.pure]

/-- The loop of `queue_clear` from a chunk on: it runs to the head, and never writes
to the head. -/
theorem queue_clear_loop_head : ∀ (ys : List Nat) (y : Nat) (q : Queue) (fuel : Nat),
    Chain q.prv q.nxt y ys 0 → (0 :: y :: ys).Nodup → ys.length + 1 < fuel →
    ∃ q', queue_clear_loop fuel (some y) (some (ys.headD 0)) q = .ok q' ∧
      q'.nxt 0 = q.nxt 0 ∧ q'.prv 0 = q.prv 0
  | ys, y, q, 0, _, _, hf => by omega
  | ys, y, q, fuel + 1, hc, hnd, hf => by
    have hy0 : y ≠ 0 := fun e => (List.nodup_cons.1 hnd).1 (by simp [e])
    have hyys : ∀ a ∈ ys, a ≠ y := fun a ha e =>
      (List.nodup_cons.1 (List.nodup_cons.1 hnd).2).1 (e ▸ ha)
    obtain ⟨c, hcm, -⟩ := chunk_prv_some (chain_headD hc)
    obtain ⟨q3, e3, hn3, hp3, -, -, -, -, -, -⟩ := chunk_free_views
      (q := Queue.mk q.mem q.brk q.avail (size_t ((q.nbytes : Int) - c.size))
        (size_t ((q.nblocks : Int) - 1))) (a := y) (c := c) hcm
    have hn3' : ∀ x, x ≠ y → q3.nxt x = q.nxt x := hn3
    have hp3' : ∀ x, x ≠ y → q3.prv x = q.prv x := hp3
    have hstep : queue_clear_loop (fuel + 1) (some y) (some (ys.headD 0)) q =
        (do
          let e ← q3.load (some (ys.headD 0))
          queue_clear_loop fuel (some (ys.headD 0)) e.prev q3) := by
      rw [queue_clear_loop]
      simp only [Option.some.injEq, hy0, if_false, chunk_load_some hcm, bind, Except.bind]
      have := e3
      simp only [] at this
      rw [this]
    rw [hstep]
    cases ys with
    | nil =>
      simp only [Chain] at hc
      obtain ⟨hd, hhd, -⟩ := chunk_nxt_some (q := q3) (a := 0) (b := y)
        (by rw [hn3' 0 (Ne.symm hy0)]; exact hc.2)
      obtain ⟨k, hk⟩ : ∃ k, fuel = k + 1 := ⟨fuel - 1, by simp at hf; omega⟩
      refine ⟨q3, ?_, hn3' 0 (Ne.symm hy0), hp3' 0 (Ne.symm hy0)⟩
      simp [hk, chunk_load_some hhd, queue_clear_loop, bind, Except.bind, pure, Except.pure]
    | cons z zs =>
      simp only [Chain] at hc
      obtain ⟨-, -, hc'⟩ := hc
      have hzy : z ≠ y := hyys z (by simp)
      have hc3 : Chain q3.prv q3.nxt z zs 0 := by
        refine chain_congr ?_ ?_ hc'
        · intro a ha
          exact hp3' a (hyys a ha)
        · intro a ha
          apply hn3'
          rcases List.mem_append.1 ha with e | e
          · exact hyys a (List.mem_cons_of_mem _ e)
          · simp only [List.mem_singleton] at e
            rw [e]; exact Ne.symm hy0
      obtain ⟨cz, hcz, hczp⟩ := chunk_prv_some (chain_headD hc3)
      have hnd' : (0 :: z :: zs).Nodup := by
        rw [List.nodup_cons] at hnd ⊢
        exact ⟨fun hm => hnd.1 (List.mem_cons_of_mem _ hm), (List.nodup_cons.1 hnd.2).2⟩
      obtain ⟨q', e', h1, h2⟩ := queue_clear_loop_head zs z q3 fuel hc3 hnd'
        (by simp at hf; omega)
      refine ⟨q', ?_, by rw [h1]; exact hn3' 0 (Ne.symm hy0),
        by rw [h2]; exact hp3' 0 (Ne.symm hy0)⟩
      simp only [List.headD_cons, chunk_load_some hcz, hczp, bind, Except.bind]
      exact e'

/-- `queue_clear` on a well-formed queue that holds a chunk: the first assertion
fails. -/
theorem queue_clear_nonempty {q : Queue} {fs : List Nat} (h : QWF q fs) (hne : fs ≠ []) :
    queue_clear q = .error .assert_failed := by
  obtain ⟨y, ys, rfl⟩ := List.exists_cons_of_ne_nil hne
  obtain ⟨hd, hhd, hpv, hnx⟩ := h.head_cell
  simp only [List.headD_cons] at hpv
  have hchain := h.chain
  simp only [Chain] at hchain
  obtain ⟨-, -, htail⟩ := hchain
  obtain ⟨cy, hcy, hcyp⟩ := chunk_prv_some (chain_headD htail)
  have hlen := h.len
  simp only [List.length_cons] at hlen
  obtain ⟨q', e', h1, -⟩ := queue_clear_loop_head ys y q q.brk htail h.nodup (by omega)
  have hn0 : q'.nxt 0 = some ((y :: ys).getLastD 0) := by
    rw [h1]; exact chain_getLastD h.chain
  obtain ⟨hd', hhd', hnx'⟩ := chunk_nxt_some hn0
  have hl0 : (y :: ys).getLastD 0 ≠ 0 := by
    rcases getLastD_eq_or_mem (y :: ys) 0 with e | e
    · rw [List.getLastD_cons] at e
      have := getLastD_mem ys y
      rw [e] at this
      exact absurd this (List.nodup_cons.1 h.nodup).1
    · exact fun e0 => (List.nodup_cons.1 h.nodup).1 (e0 ▸ e)
  unfold queue_clear
  simp only [chunk_load_some hhd, hpv, chunk_load_some hcy, hcyp, e', Queue.list_empty,
    chunk_load_some hhd', hnx', bind, Except.bind, pure, Except.pure, Option.some.injEq, hl0,
    decide_False, Bool.false_eq_true, not_false_eq_true, if_true]

theorem queue_clear_empty {q : Queue} (h : QWF q []) : queue_clear q = .ok q := by
  obtain ⟨hd, hhd, hpv, hnx⟩ := h.head_cell
  simp only [List.headD_nil, List.getLastD_nil] at hpv hnx
  have hlen := h.len
  obtain ⟨k, hk⟩ : ∃ k, q.brk = k + 1 := ⟨q.brk - 1, by simp at hlen; omega⟩
  have hb := h.blocks
  have hy := h.bytes
  simp only [List.length_nil] at hb
  have hy0 : q.nbytes = 0 := by rw [hy]; rfl
  unfold queue_clear
  simp [chunk_load_some hhd, hpv, hk, queue_clear_loop, Queue.list_empty, hnx, hb, hy0, bind,
    Except.bind, pure, Except.pure]

theorem byte_chr_spec : ∀ (l : List Nat) (n c : Nat), n ≤ l.length →
    ∃ r, byte_chr l n c = .ok r ∧ r ≤ n ∧ (∀ j, j < r → l[j]? ≠ some c) ∧
      (r < n → l[r]? = some c)
  | [], 0, _, _ => ⟨0, rfl, le_refl _, fun j hj => by omega, fun h => by omega⟩
  | _ :: _, 0, _, _ => ⟨0, rfl, le_refl _, fun j hj => by omega, fun h => by omega⟩
  | [], n + 1, _, h => by simp at h
  | b :: l, n + 1, c, h => by
    by_cases hb : b = c
    · exact ⟨0, by simp [byte_chr, hb, pure, Except.pure], by omega, fun j hj => by omega,
        fun _ => by simp [hb]⟩
    · obtain ⟨r, e, hr, h1, h2⟩ := byte_chr_spec l n c (by simpa using h)
      refine ⟨r + 1, by simp [byte_chr, hb, e, bind, Except.bind, pure, Except.pure],
        by omega, ?_, ?_⟩
      · intro j hj
        cases j with
        | zero => simpa using hb
        | succ j => simpa using h1 j (by omega)
      · intro hlt
        simpa using h2 (by omega)

/-- The loop of `token_length` from a segment start `s`: no unescaped delimiter lies
before `s`, and `s` is the start of the string or follows an escaped delimiter. -/
theorem token_length_loop_spec (str : List Nat) (delim : Nat) :
    ∀ (fuel s : Nat), s ≤ str.length → str.length - s < fuel →
    (s = 0 ∨ (delim ≠ 92 ∧ str[s - 1]? = some delim)) →
    (∀ j, j < s → ¬ Unescaped str delim j) →
    ∃ r, token_length_loop str str.length delim fuel s = .ok r ∧ s ≤ r ∧ r ≤ str.length ∧
      (∀ i, Unescaped str delim i → (∀ j, j < i → ¬ Unescaped str delim j) → r = i) ∧
      ((∀ j, s ≤ j → str[j]? ≠ some delim) → r = s)
  | 0, s, _, hf, _, _ => by omega
  | fuel + 1, s, hs, hf, hinv, hbefore => by
    have hbound : ∀ i, Unescaped str delim i → i < str.length := fun i hu =>
      (List.getElem?_eq_some_iff.1 hu.1).1
    by_cases hse : s < str.length
    swap
    · refine ⟨s, by simp [token_length_loop, hse, pure, Except.pure], le_refl _, hs, ?_,
        fun _ => rfl⟩
      intro i hu _
      exact absurd hu (hbefore i (by have := hbound i hu; omega))
    obtain ⟨pos, e, hpos, hnone, hat⟩ := byte_chr_spec (str.drop s) (str.length - s) delim
      (by simp)
    have hnone' : ∀ j, s ≤ j → j < s + pos → str[j]? ≠ some delim := by
      intro j h1 h2
      have := hnone (j - s) (by omega)
      rw [List.getElem?_drop] at this
      rwa [show s + (j - s) = j by omega] at this
    by_cases hend : s + pos = str.length
    · refine ⟨s, ?_, le_refl _, hs, ?_, fun _ => rfl⟩
      · rw [token_length_loop]
        simp [hse, e, hend, bind, Except.bind, pure, Except.pure]
      · intro i hu _
        have hi := hbound i hu
        by_cases his : i < s
        · exact absurd hu (hbefore i his)
        · exact absurd hu.1 (hnone' i (by omega) (by omega))
    · have hlt : pos < str.length - s := by omega
      have hocc : str[s + pos]? = some delim := by
        have := hat hlt
        rwa [List.getElem?_drop] at this
      by_cases hp0 : pos = 0
      · -- the delimiter opens the segment
        subst hp0
        have hu : Unescaped str delim s := by
          refine ⟨by simpa using hocc, ?_⟩
          rcases hinv with h0 | ⟨hd, hprev⟩
          · exact Or.inl h0
          · right
            rw [hprev]
            intro h92
            exact hd (Option.some.inj h92)
        refine ⟨s, ?_, le_refl _, hs, ?_, fun _ => rfl⟩
        · rw [token_length_loop]
          simp [hse, e, hend, bind, Except.bind, pure, Except.pure]
        · intro i hi hfirst
          by_contra hne
          rcases Nat.lt_or_gt_of_ne hne with h1 | h1
          · exact hfirst s h1 hu
          · exact hbefore i h1 hi
      · obtain ⟨b, hb⟩ : ∃ b, str[s + pos - 1]? = some b :=
          ⟨str[s + pos - 1], List.getElem?_eq_getElem (by omega)⟩
        by_cases hesc : b = 92
        · -- an escaped delimiter: on to the next segment
          subst hesc
          have hd : delim ≠ 92 := by
            intro h92
            have := hnone' (s + pos - 1) (by omega) (by omega)
            rw [hb, h92] at this
            exact this rfl
          have hnot : ¬ Unescaped str delim (s + pos) := by
            intro hu
            rcases hu.2 with h0 | h1
            · omega
            · exact h1 hb
          obtain ⟨r, er, hr1, hr2, hr3, -⟩ := token_length_loop_spec str delim fuel
            (s + pos + 1) (by omega) (by omega)
            (Or.inr ⟨hd, by simpa using hocc⟩)
            (fun j hj hu => by
              by_cases h1 : j < s
              · exact hbefore j h1 hu
              · by_cases h2 : j = s + pos
                · subst h2; exact hnot hu
                · exact hnone' j (by omega) (by omega) hu.1)
          refine ⟨r, ?_, by omega, hr2, hr3, ?_⟩
          · rw [token_length_loop]
            simp [hse, e, hend, hp0, hb, bind, Except.bind, pure, Except.pure]
            exact er
          · intro hall
            exact absurd hocc (hall _ (by omega))
        · -- an unescaped delimiter
          have hu : Unescaped str delim (s + pos) :=
            ⟨hocc, Or.inr (by rw [hb]; exact fun h => hesc (Option.some.inj h))⟩
          refine ⟨s + pos, ?_, by omega, by omega, ?_, ?_⟩
          · rw [token_length_loop]
            simp [hse, e, hend, hp0, hb, hesc, bind, Except.bind, pure, Except.pure]
          · intro i hi hfirst
            by_contra hne
            rcases Nat.lt_or_gt_of_ne hne with h1 | h1
            · exact hfirst _ h1 hu
            · by_cases h2 : i < s
              · exact hbefore i h2 hi
              · exact hnone' i (by omega) h1 hi.1
          · intro hall
            exact absurd hocc (hall _ (by omega))

/-! ## Sort and the conversion of the comparator result -/

theorem int32_of_range {x : Int} (h1 : -2 ^ 31 ≤ x) (h2 : x < 2 ^ 31) : int32 x = x := by
  unfold int32
  omega

theorem insert_before_congr {p q : JSValue → JSValue → Int} {v : JSValue} :
    ∀ {ws : List JSValue}, (∀ w ∈ ws, (0 < p v w ↔ 0 < q v w)) →
    insert_before p v ws = insert_before q v ws
  | [], _ => rfl
  | w :: ws, h => by
    have hw := h w (by simp)
    have ih := @insert_before_congr p q v ws
      (fun x hx => h x (List.mem_cons_of_mem _ hx))
    unfold insert_before at ih ⊢
    by_cases hp : 0 < p v w
    · have hq : 0 < q v w := hw.1 hp
      simp only [List.takeWhile_cons, List.dropWhile_cons, hp, hq, decide_True, if_true,
        List.cons_append, ih]
    · have hq : ¬ 0 < q v w := fun e => hp (hw.2 e)
      simp only [List.takeWhile_cons, List.dropWhile_cons, hp, hq, decide_False,
        Bool.false_eq_true, if_false, List.nil_append]

theorem sort_spec_congr {p q : JSValue → JSValue → Int} {vs : List JSValue}
    (h : ∀ a ∈ vs, ∀ b ∈ vs, (0 < p a b ↔ 0 < q a b)) : sort_spec p vs = sort_spec q vs := by
  unfold sort_spec
  suffices hs : ∀ (us acc : List JSValue), (∀ x ∈ us, x ∈ vs) → (∀ x ∈ acc, x ∈ vs) →
      us.foldl (fun acc v => insert_before p v acc) acc =
        us.foldl (fun acc v => insert_before q v acc) acc from
    hs vs [] (fun _ hx => hx) (fun _ hx => absurd hx (List.not_mem_nil _))
  intro us
  induction us with
  | nil => intro acc _ _; rfl
  | cons u us ih =>
    intro acc hu hacc
    have hu0 : u ∈ vs := hu u (by simp)
    rw [List.foldl_cons, List.foldl_cons,
      insert_before_congr (p := p) (q := q) (fun w hw => h u hu0 w (hacc w hw))]
    refine ih _ (fun x hx => hu x (List.mem_cons_of_mem _ hx)) (fun x hx => ?_)
    rcases (mem_insert_before q u x acc).1 hx with e | e
    · rw [e]; exact hu0
    · exact hacc x e

theorem int32_pos_iff {x : Int} (h1 : -2 ^ 31 ≤ x) (h2 : x < 2 ^ 31) :
    0 < int32 x ↔ 0 < x := by
  rw [int32_of_range h1 h2]

theorem sample_minus_three_way : ThreeWay sample_minus where
  flip := fun a b => by unfold sample_minus; omega
  trans := fun a b c => by unfold sample_minus; omega

theorem sample_wide_wf : WF sample_wide [1, 2] := by
  refine ⟨⟨by decide, ?_, ?_, by decide⟩, rfl, by norm_num [sample_wide], ?_⟩
  · simp [Chain, nxt, prv, sample_wide]
  · intro a ha
    have h0 : a ≠ 0 := by intro e; subst e; exact absurd ha (by decide)
    have h1 : a ≠ 1 := by intro e; subst e; exact absurd ha (by decide)
    have h2 : a ≠ 2 := by intro e; subst e; exact absurd ha (by decide)
    simp [val, sample_wide, h0, h1, h2]
  · intro a ha
    simp only [List.mem_cons, List.mem_singleton, List.not_mem_nil, or_false] at ha
    rcases ha with e | e <;> subst e <;> exact ⟨1, by simp [rc, sample_wide], le_refl _⟩

theorem sample_wide_toList : toList sample_wide = .ok [.int 0, .int 2147483648] := by
  rw [sample_wide_wf.toLinked.toList_eq]
  simp [vals, val, sample_wide]

theorem sort_in_range (cmp : JSValue → JSValue → Int) {l : LinkedList} {ps : List Nat}
    (h : WF l ps) {c : Nat}
    (hr : ∀ a ∈ vals l ps, ∀ b ∈ vals l ps, -2 ^ 31 ≤ cmp a b ∧ cmp a b < 2 ^ 31)
    (h0 : ps.length < c) (h1 : c < 2 ^ 63) :
    ∃ other qs, METHOD_SORT (fun a b => int32 (cmp a b)) c l = .ok (.list other, l) ∧
      WF other qs ∧ vals other qs = sort_spec cmp (vals l ps) := by
  obtain ⟨other, qs, e, hw, hvq⟩ := method_sort_eq (fun a b => int32 (cmp a b)) h (c := c)
    (by omega) h1
  have hl : (vals l ps).length = ps.length := vals_length l ps
  rw [List.take_of_length_le (by omega)] at hvq
  refine ⟨other, qs, e, hw, ?_⟩
  rw [hvq]
  exact sort_spec_congr (fun a ha b hb => int32_pos_iff (hr a ha b hb).1 (hr a ha b hb).2)

/-! ## Reduce and the engine's references -/

theorem reduce_loop_steps {E : Type}
    (JS_Call : E → JSValue → JSValue → Int → Except Fault (JSValue × E))
    (JS_FreeValue : E → JSValue → E) {l : LinkedList} {g : Nat → Option Nat} :
    ∀ {s : List Nat} {x : Nat} {k : Nat} (m : Nat) (ret : JSValue) (e : E),
    Chain (nxt l) g x s 0 → 0 ∉ s → s.length < k → m + s.length < 2 ^ 63 →
    reduce_loop JS_Call JS_FreeValue l k (some (s.headD 0)) m ret e =
      reduce_steps JS_Call JS_FreeValue ((vals l s).enumFrom m) ret e
  | [], x, k + 1, m, ret, e, _, _, _, _ => by
    simp [reduce_loop, reduce_steps, vals, pure, Except.pure]
  | y :: ys, x, k + 1, m, ret, e, h, h0, hlen, hm => by
    have hy : y ≠ 0 := fun e => h0 (by simp [e])
    obtain ⟨n, hn, hnx⟩ := nxt_some (chain_headD h.2.2)
    have hval : (val l y).getD .uninitialized = n.value := by simp [val, hn]
    simp only [List.length_cons] at hm
    have e64 : int64 ((m : Int) + 1) = ((m + 1 : Nat) : Int) := by
      rw [int64_of_range (by omega) (by omega)]; push_cast; ring
    have ih := fun r e' => reduce_loop_steps JS_Call JS_FreeValue (k := k) (m + 1) r e' h.2.2
      (fun hm => h0 (List.mem_cons_of_mem _ hm)) (by simp at hlen; omega) (by omega)
    simp only [List.headD_eq_head?_getD] at ih
    rw [vals_cons, hval]
    simp only [List.enumFrom_cons, reduce_steps]
    unfold reduce_loop
    simp only [List.headD_cons, Option.some.injEq, hy, if_false, load, hn, bind, Except.bind]
    cases hc : JS_Call e ret n.value (m : Int) with
    | error f => rfl
    | ok r =>
      obtain ⟨r1, e1⟩ := r
      simp only [hnx, e64]
      rw [← ih]
      simp [List.headD_eq_head?_getD]

theorem reduce_right_loop_steps {E : Type}
    (JS_Call : E → JSValue → JSValue → Int → Except Fault (JSValue × E))
    (JS_FreeValue : E → JSValue → E) {l : LinkedList} {g : Nat → Option Nat} :
    ∀ {s : List Nat} {x : Nat} {k : Nat} (ret : JSValue) (e : E),
    Chain (prv l) g x s 0 → 0 ∉ s → s.length < k → s.length < 2 ^ 63 →
    reduce_right_loop JS_Call JS_FreeValue l k (some (s.headD 0)) s.length ret e =
      reduce_steps JS_Call JS_FreeValue (vals l s.reverse).enum.reverse ret e
  | [], x, k + 1, ret, e, _, _, _, _ => by
    simp [reduce_right_loop, reduce_steps, vals, pure, Except.pure]
  | y :: ys, x, k + 1, ret, e, h, h0, hlen, hm => by
    have hy : y ≠ 0 := fun e => h0 (by simp [e])
    obtain ⟨n, hn, hnx⟩ := prv_some (chain_headD h.2.2)
    have hval : (val l y).getD .uninitialized = n.value := by simp [val, hn]
    simp only [List.length_cons] at hm
    have ih := fun r e' => reduce_right_loop_steps JS_Call JS_FreeValue (k := k) r e' h.2.2
      (fun hm => h0 (List.mem_cons_of_mem _ hm)) (by simp at hlen; omega) (by omega)
    simp only [List.headD_eq_head?_getD] at ih
    have hsp : (vals l (y :: ys).reverse).enum.reverse =
        ((vals l ys.reverse).length, n.value) :: (vals l ys.reverse).enum.reverse := by
      have : vals l (y :: ys).reverse = vals l ys.reverse ++ [n.value] := by
        simp [vals, hval]
      rw [this, List.enum_append]
      simp [List.enumFrom]
    have hl : (vals l ys.reverse).length = ys.length := by simp [vals]
    have e64b : int64 (((ys.length + 1 : Nat) : Int) - 1) = (ys.length : Int) := by
      rw [int64_of_range (by push_cast; omega) (by push_cast; omega)]; push_cast; ring
    rw [hsp, hl]
    simp only [reduce_steps]
    unfold reduce_right_loop
    simp only [List.headD_cons, Option.some.injEq, hy, if_false, load, hn, bind, Except.bind,
      List.length_cons, e64b]
    cases hc : JS_Call e ret n.value (ys.length : Int) with
    | error f => rfl
    | ok r =>
      obtain ⟨r1, e1⟩ := r
      simp only [hnx]
      rw [← ih]
      simp [List.headD_eq_head?_getD]

theorem reduce_steps_value {E : Type}
    {JS_Call : E → JSValue → JSValue → Int → Except Fault (JSValue × E)}
    (JS_FreeValue : E → JSValue → E) {fn : JSValue → JSValue → Int → JSValue}
    (hc : ∀ e acc v i, ∃ e', JS_Call e acc v i = .ok (fn acc v i, e')) :
    ∀ (xs : List (Nat × JSValue)) (ret : JSValue) (e : E),
    ∃ e', reduce_steps JS_Call JS_FreeValue xs ret e =
      .ok (xs.foldl (fun acc p => fn acc p.2 (p.1 : Int)) ret, e')
  | [], ret, e => ⟨e, rfl⟩
  | (i, v) :: rest, ret, e => by
    obtain ⟨e1, h1⟩ := hc e ret v i
    obtain ⟨e2, h2⟩ := reduce_steps_value JS_FreeValue hc rest (fn ret v i)
      (JS_FreeValue (JS_FreeValue e1 ret) v)
    refine ⟨e2, ?_⟩
    simp only [reduce_steps, h1, bind, Except.bind, List.foldl_cons]
    exact h2

theorem method_reduce_steps {E : Type}
    (JS_Call : E → JSValue → JSValue → Int → Except Fault (JSValue × E))
    (JS_DupValue JS_FreeValue : E → JSValue → E) (ctx : Nat) {l : LinkedList}
    {ps : List Nat} (h : WF l ps) (f : JSValue) (seed : Option JSValue) (e : E)
    (hctx : ctx ≠ 0) :
    METHOD_REDUCE JS_Call JS_DupValue JS_FreeValue ctx l (f :: seed.toList) e =
      (reduce_steps JS_Call JS_FreeValue (vals l ps).enum (seed.getD .undefined)
        (JS_DupValue e (seed.getD .undefined))).map (fun r => (JSRet.value r.1, l, r.2)) ∧
    METHOD_REDUCE_RIGHT JS_Call JS_DupValue JS_FreeValue ctx l (f :: seed.toList) e =
      (reduce_steps JS_Call JS_FreeValue (vals l ps).enum.reverse (seed.getD .undefined)
        (JS_DupValue e (seed.getD .undefined))).map (fun r => (JSRet.value r.1, l, r.2)) := by
  obtain ⟨nh, hnh, hnx, hpv⟩ := h.toLinked.head_mem
  have hs := h.size_lt
  have hse := h.size_eq
  have hseed : (if (f :: seed.toList).length > 1 then (f :: seed.toList).getD 1 .undefined
      else .undefined) = seed.getD .undefined := by
    cases seed <;> simp
  obtain ⟨o, ho⟩ : ∃ o, list_new ctx = some o := by simp [list_new, hctx]
  constructor
  · have e1 := reduce_loop_steps JS_Call JS_FreeValue (k := l.brk) 0 (seed.getD .undefined)
      (JS_DupValue e (seed.getD .undefined)) h.chain
      (List.nodup_cons.1 h.nodup).1 h.len (by omega)
    simp only [Nat.cast_zero] at e1
    simp only [METHOD_REDUCE, hseed, ho, load_some hnh, hnx, bind, Except.bind]
    rw [e1]
    rfl
  · have h0 : 0 ∉ ps.reverse := fun hm =>
      (List.nodup_cons.1 h.nodup).1 (List.mem_reverse.1 hm)
    have e1 := reduce_right_loop_steps JS_Call JS_FreeValue (k := l.brk) (g := nxt l)
      (seed.getD .undefined) (JS_DupValue e (seed.getD .undefined))
      (chain_reverse h.chain) h0 (by simpa using h.len) (by simp; omega)
    have hhd : ps.reverse.headD 0 = ps.getLastD 0 := by
      simp [List.headD_eq_head?_getD, List.getLastD_eq_getLast?]
    have e64 : int64 (l.size : Int) = (ps.reverse.length : Int) := by
      rw [h.int64_size]; simp
    rw [List.reverse_reverse, hhd] at e1
    simp only [METHOD_REDUCE_RIGHT, hseed, ho, load_some hnh, hpv, bind, Except.bind, e64]
    rw [e1]
    rfl


/-! ## Sample lists -/

theorem sample_abc_wf : WF sample_abc [1, 2, 3] := by
  refine ⟨⟨by decide, ?_, ?_, by decide⟩, rfl, by norm_num [sample_abc], ?_⟩
  · simp [Chain, nxt, prv, sample_abc]
  · intro a ha
    have h0 : a ≠ 0 := by intro e; subst e; exact absurd ha (by decide)
    have h1 : a ≠ 1 := by intro e; subst e; exact absurd ha (by decide)
    have h2 : a ≠ 2 := by intro e; subst e; exact absurd ha (by decide)
    have h3 : a ≠ 3 := by intro e; subst e; exact absurd ha (by decide)
    simp [val, sample_abc, h0, h1, h2, h3]
  · intro a ha
    simp only [List.mem_cons, List.mem_singleton, List.not_mem_nil, or_false] at ha
    rcases ha with e | e | e <;> subst e <;> exact ⟨1, by simp [rc, sample_abc], le_refl _⟩

theorem sample_abc_toList :
    toList sample_abc = .ok [.str "a", .str "b", .str "c"] := by
  rw [sample_abc_wf.toLinked.toList_eq]
  simp [vals, val, sample_abc]


theorem sample_empty_wf : WF sample_empty [] := by
  refine ⟨⟨by decide, ?_, ?_, by decide⟩, rfl, by norm_num [sample_empty], by simp⟩
  · simp [Chain, nxt, prv, sample_empty]
  · intro a ha
    have h0 : a ≠ 0 := by intro e; subst e; exact absurd ha (by decide)
    simp [val, sample_empty, h0]

theorem sample_empty_toList : toList sample_empty = .ok [] := by
  rw [sample_empty_wf.toLinked.toList_eq]
  rfl

theorem sample_pairs_wf : WF sample_pairs [1, 2, 3] := by
  refine ⟨⟨by decide, ?_, ?_, by decide⟩, rfl, by norm_num [sample_pairs], ?_⟩
  · simp [Chain, nxt, prv, sample_pairs]
  · intro a ha
    have h0 : a ≠ 0 := by intro e; subst e; exact absurd ha (by decide)
    have h1 : a ≠ 1 := by intro e; subst e; exact absurd ha (by decide)
    have h2 : a ≠ 2 := by intro e; subst e; exact absurd ha (by decide)
    have h3 : a ≠ 3 := by intro e; subst e; exact absurd ha (by decide)
    simp [val, sample_pairs, h0, h1, h2, h3]
  · intro a ha
    simp only [List.mem_cons, List.mem_singleton, List.not_mem_nil, or_false] at ha
    rcases ha with e | e | e <;> subst e <;> exact ⟨1, by simp [rc, sample_pairs], le_refl _⟩

theorem sample_pairs_toList :
    toList sample_pairs =
      .ok [.pair (.int 1) (.str "a"), .pair (.int 1) (.str "b"), .pair (.int 0) (.str "c")] := by
  rw [sample_pairs_wf.toLinked.toList_eq]
  simp [vals, val, sample_pairs]

/-! ## The claims -/

/-- C7 (negative indexing).  On a well-formed list of size `n >= 1` and for
`1 <= k <= n`, `list_at` finds the same node for the index `-k` as for `n - k`,
and `at(-k)` and `at(n - k)` both return the element at position `n - k`; in
particular `at(-1)` equals `at(length - 1)`. -/
theorem at_negative_index (JS_ToInt64 : JSValue → Option Int) (l : LinkedList)
    (vs : List JSValue) (k : Int) (x y : JSValue)
    (hv : Valid l) (ht : toList l = .ok vs) (hk1 : 1 ≤ k) (hk2 : k ≤ l.size)
    (hx : JS_ToInt64 x = some (-k)) (hy : JS_ToInt64 y = some (l.size - k)) :
    list_at l (-k) = list_at l (l.size - k) ∧
    (∃ a, list_at l (-k) = .ok (some a)) ∧
    ∃ v, vs[(l.size - k).toNat]? = some v ∧
      METHOD_AT JS_ToInt64 l [x] = .ok (.value v, l) ∧
      METHOD_AT JS_ToInt64 l [y] = .ok (.value v, l) := by
  obtain ⟨ps, h, hvs, hlen, hsz⟩ := hv.unfold ht
  have hs := h.size_lt
  have hse := h.size_eq
  rw [hse] at hk2 hy ⊢
  have e1 : norm_index ps.length (-k) = ps.length - k := by
    unfold norm_index; rw [if_pos (by omega)]; omega
  have e2 : norm_index ps.length (ps.length - k) = ps.length - k := by
    unfold norm_index; rw [if_neg (by omega)]
  have a1 := h.list_at_eq (j := -k) (by omega) (by omega)
  have a2 := h.list_at_eq (j := ps.length - k) (by omega) (by omega)
  rw [e1] at a1
  rw [e2] at a2
  obtain ⟨a, ha, -⟩ := nth?_of_lt ps (ps.length - k) (by omega) (by omega)
  obtain ⟨v, hv1, hv2⟩ := nth?_of_lt (vals l ps) (ps.length - k) (by omega)
    (by rw [vals_length]; omega)
  have m1 := h.method_at JS_ToInt64 [x] (i := -k) hx (by omega) (by omega)
  have m2 := h.method_at JS_ToInt64 [y] (i := ps.length - k) hy (by omega) (by omega)
  rw [e1, hv1] at m1
  rw [e2, hv1] at m2
  refine ⟨by rw [a1, a2], ⟨a, by rw [a1, ha]⟩, v, by rw [hvs]; exact hv2, m1, m2⟩

/-- C7, at the sample list `[a, b, c]`: `at(-1)` and `at(2)` both return `c`. -/
theorem at_negative_index_witness :
    list_at sample_abc (-1) = list_at sample_abc (sample_abc.size - 1) ∧
    (∃ a, list_at sample_abc (-1) = .ok (some a)) ∧
    ∃ v, [JSValue.str "a", .str "b", .str "c"][((sample_abc.size : Int) - 1).toNat]? = some v ∧
      METHOD_AT sample_JS_ToInt64 sample_abc [.int (-1)] = .ok (.value v, sample_abc) ∧
      METHOD_AT sample_JS_ToInt64 sample_abc [.int 2] = .ok (.value v, sample_abc) :=
  at_negative_index sample_JS_ToInt64 sample_abc _ 1 (.int (-1)) (.int 2)
    sample_abc_wf.valid sample_abc_toList (by decide) (by decide) rfl rfl

/-- C8 (out-of-range `at`).  On a well-formed list of size `n`, `at(i)` throws the
range error exactly when `i >= n` or `i < -n`; otherwise it returns the element at
the normalised index; either way the list handed back is the list itself. -/
theorem at_out_of_range (JS_ToInt64 : JSValue → Option Int) (l : LinkedList)
    (vs : List JSValue) (i : Int) (x : JSValue)
    (hv : Valid l) (ht : toList l = .ok vs)
    (hx : JS_ToInt64 x = some i) (h1 : -2 ^ 63 ≤ i) (h2 : i < 2 ^ 63) :
    ((i ≥ l.size ∨ i < -(l.size : Int)) →
      METHOD_AT JS_ToInt64 l [x] =
        .ok (.range_error ("Index " ++ toString i ++ " is out of range"), l)) ∧
    (¬ (i ≥ l.size ∨ i < -(l.size : Int)) →
      ∃ v, nth? vs (norm_index l.size i) = some v ∧
        METHOD_AT JS_ToInt64 l [x] = .ok (.value v, l)) := by
  obtain ⟨ps, h, hvs, hlen, hsz⟩ := hv.unfold ht
  have m := h.method_at JS_ToInt64 [x] (i := i) hx h1 h2
  have hse := h.size_eq
  rw [hse]
  have hiff := norm_index_out_of_range ps.length i
  have hnone := nth?_eq_none_iff (vals l ps) (norm_index ps.length i)
  rw [vals_length] at hnone
  constructor
  · intro hout
    rw [hnone.2 (hiff.2 hout)] at m
    exact m
  · intro hin
    cases hn : nth? (vals l ps) (norm_index ps.length i) with
    | none => exact absurd (hiff.1 (hnone.1 hn)) hin
    | some v =>
      rw [hn] at m
      exact ⟨v, by rw [hvs]; exact hn, m⟩

/-- C8, at the sample list `[a, b, c]` and the index 3: the range error, and at the
index -3 the element `a`. -/
theorem at_out_of_range_witness :
    (((3 : Int) ≥ sample_abc.size ∨ (3 : Int) < -(sample_abc.size : Int)) →
      METHOD_AT sample_JS_ToInt64 sample_abc [.int 3] =
        .ok (.range_error ("Index " ++ toString (3 : Int) ++ " is out of range"), sample_abc)) ∧
    (¬ ((3 : Int) ≥ sample_abc.size ∨ (3 : Int) < -(sample_abc.size : Int)) →
      ∃ v, nth? [JSValue.str "a", .str "b", .str "c"] (norm_index sample_abc.size 3) = some v ∧
        METHOD_AT sample_JS_ToInt64 sample_abc [.int 3] = .ok (.value v, sample_abc)) :=
  at_out_of_range sample_JS_ToInt64 sample_abc _ 3 (.int 3)
    sample_abc_wf.valid sample_abc_toList rfl (by norm_num) (by norm_num)

/-- C9 (sparse extension).  On a well-formed list of size `n` with element sequence
`vs`, an indexed write at `i >= n` whose `i - n + 1` allocations are granted leaves
a well-formed list of size `i + 1` whose forward traversal meets `i + 1` real nodes:
the old elements, then `i - n` nodes holding `undefined`, then the value. -/
theorem sparse_extension (l : LinkedList) (vs : List JSValue) (i : Int) (v : JSValue)
    (hv : Valid l) (ht : toList l = .ok vs) (hi : (l.size : Int) ≤ i)
    (hmem : i - l.size + 1 ≤ l.avail) :
    ∃ l', js_list_set_property l (some i) v = .ok (true, l') ∧ Valid l' ∧
      (l'.size : Int) = i + 1 ∧ count_forward l' = .ok l'.size ∧
      toList l' = .ok (vs ++ List.replicate (i - l.size).toNat .undefined ++ [v]) := by
  obtain ⟨ps, h, hvs, hlen, hsz⟩ := hv.unfold ht
  have hs := h.size_lt
  have hse := h.size_eq
  obtain ⟨l1, qs, e1, h1, hq, hv1, ha1, -⟩ :=
    pad_tail_wf (i - l.size).toNat h (by omega)
  obtain ⟨l2, e2, h2, hv2, -⟩ := wf_push v h1 (by omega)
  refine ⟨l2, ?_, h2.valid, ?_, ?_, ?_⟩
  · unfold js_list_set_property
    simp only []
    rw [if_pos (by rw [h.int64_size]; omega), h.int64_size, ← hse]
    simp only [bind, Except.bind, e1, e2, pure, Except.pure]
  · rw [h2.size_eq]
    simp only [List.length_append, List.length_cons, List.length_nil, hq]
    omega
  · rw [h2.toLinked.count_forward_eq, h2.size_eq]
  · rw [h2.toLinked.toList_eq, hv2, hv1, hvs]

/-- C9, the spec's example: on the empty list `set(3, 'x')` gives length 4 and
`undefined` at the positions 0, 1 and 2. -/
theorem sparse_extension_witness :
    ∃ l', js_list_set_property sample_empty (some 3) (.str "x") = .ok (true, l') ∧ Valid l' ∧
      (l'.size : Int) = 3 + 1 ∧ count_forward l' = .ok l'.size ∧
      toList l' = .ok ([] ++ List.replicate ((3 : Int) - sample_empty.size).toNat .undefined ++
        [.str "x"]) :=
  sparse_extension sample_empty [] 3 (.str "x") sample_empty_wf.valid sample_empty_toList
    (by decide) (by decide)

/-- C6 as amended (indexing round trip for indices `0 <= i < n`).  On a well-formed
list of size `n`, after the indexed write `set(i, v)` with `0 <= i < n` the list is
still well-formed with size `n`, only position `i` changed, and `at(i)` returns
`v`. -/
theorem set_then_at (JS_ToInt64 : JSValue → Option Int) (l : LinkedList)
    (vs : List JSValue) (i : Int) (v x : JSValue)
    (hv : Valid l) (ht : toList l = .ok vs) (h0 : 0 ≤ i) (h1 : i < l.size)
    (hx : JS_ToInt64 x = some i) :
    ∃ l', js_list_set_property l (some i) v = .ok (true, l') ∧ Valid l' ∧
      l'.size = l.size ∧ toList l' = .ok (vs.set i.toNat v) ∧
      METHOD_AT JS_ToInt64 l' [x] = .ok (.value v, l') := by
  obtain ⟨ps, h, hvs, hlen, hsz⟩ := hv.unfold ht
  have hs := h.size_lt
  have hse := h.size_eq
  obtain ⟨l', e, h', hv', -⟩ := h.set_in_range i v h0 (by omega)
  have m := h'.method_at JS_ToInt64 [x] (i := i) hx (by omega) (by omega)
  have hni : norm_index ps.length i = i := by unfold norm_index; rw [if_neg (by omega)]
  have hnth : nth? (vals l' ps) i = some v := by
    unfold nth?
    rw [if_neg (by omega), hv', List.getElem?_set_self (by rw [vals_length]; omega)]
  rw [hni, hnth] at m
  exact ⟨l', e, h'.valid, by rw [h'.size_eq, hse], by rw [h'.toLinked.toList_eq, hv', hvs], m⟩

/-- C6 as amended, at the sample list `[a, b, c]`: `set(1, 'x')` then `at(1)`. -/
theorem set_then_at_witness :
    ∃ l', js_list_set_property sample_abc (some 1) (.str "x") = .ok (true, l') ∧ Valid l' ∧
      l'.size = sample_abc.size ∧
      toList l' = .ok ([JSValue.str "a", .str "b", .str "c"].set (1 : Int).toNat (.str "x")) ∧
      METHOD_AT sample_JS_ToInt64 l' [.int 1] = .ok (.value (.str "x"), l') :=
  set_then_at sample_JS_ToInt64 sample_abc _ 1 (.str "x") (.int 1) sample_abc_wf.valid
    sample_abc_toList (by decide) (by decide) rfl

/-- C6 as stated fails for the valid negative index `-1`: on `[a, b, c]` the write
`set(-1, 'x')` links a new node at the head (the list becomes `[x, a, b, c]` of
size 4) and `at(-1)` still returns `c`. -/
theorem set_negative_counterexample :
    ∃ l', js_list_set_property sample_abc (some (-1)) (.str "x") = .ok (true, l') ∧
      l'.size = 4 ∧ sample_abc.size = 3 ∧
      toList l' = .ok [.str "x", .str "a", .str "b", .str "c"] ∧
      METHOD_AT sample_JS_ToInt64 l' [.int (-1)] = .ok (.value (.str "c"), l') :=
  ⟨_, rfl, rfl, rfl, rfl, rfl⟩

/-- C5 (rotate).  On a well-formed non-empty list with element sequence `vs` of
length `n`, `rotate(k)` returns the receiver, which is again well-formed with `n`
elements `vs'` such that `vs'[(i + k) mod n] = vs[i]` for every `i < n` (non-negative
remainder). -/
theorem rotate_spec (JS_ToInt64 : JSValue → Option Int) (l : LinkedList)
    (vs : List JSValue) (k : Int) (x : JSValue)
    (hv : Valid l) (ht : toList l = .ok vs) (hne : vs ≠ []) (hx : JS_ToInt64 x = some k) :
    ∃ l' vs', METHOD_ROTATE JS_ToInt64 l [x] = .ok (.this_val, l') ∧ Valid l' ∧
      toList l' = .ok vs' ∧ l'.size = l.size ∧ vs'.length = vs.length ∧
      ∀ i : Nat, i < vs.length → vs'[(((i : Int) + k) % vs.length).toNat]? = vs[i]? := by
  obtain ⟨ps, h, hvs, hlen, hsz⟩ := hv.unfold ht
  have hs := h.size_lt
  have hpos : 0 < vs.length := List.length_pos.2 hne
  have hpne : ps ≠ [] := fun e => by rw [e] at hlen; simp at hlen; omega
  have hb := tmod_bounds k vs.length hpos
  have hi64 : int64 l.size = vs.length := by rw [h.int64_size, hlen]
  have hidx : int64 (k.tmod vs.length) = k.tmod vs.length :=
    int64_of_range (by omega) (by omega)
  obtain ⟨l1, ps1, e1, h1, hl1, hv1, -⟩ :=
    rotate_back_loop_wf (k.tmod vs.length).toNat h hpne
  obtain ⟨l2, ps2, e2, h2, hl2, hv2, -⟩ :=
    rotate_front_loop_wf (-(k.tmod vs.length)).toNat h1 (fun e => by
      rw [e] at hl1; exact hpne (List.length_eq_zero.1 hl1.symm))
  refine ⟨l2, vals l2 ps2, ?_, h2.valid, h2.toLinked.toList_eq, ?_, ?_, ?_⟩
  · unfold METHOD_ROTATE
    simp only [List.getD_cons_zero, hx, hi64]
    rw [if_neg (by omega), hidx]
    simp only [bind, Except.bind, e1, e2, pure, Except.pure]
  · rw [h2.size_eq, hl2, hl1, h.size_eq]
  · rw [vals_length, hl2, hl1, hlen]
  · intro i hi
    rcases Int.lt_or_le (k.tmod vs.length) 0 with hneg | hnn
    · have hz : (k.tmod vs.length).toNat = 0 := by omega
      rw [hz, List.rotate_zero] at hv1
      rw [hv1, ← hvs] at hv2
      exact rotate_index_front vs _ k i hi hneg hv2
    · have hz : (-(k.tmod vs.length)).toNat = 0 := by omega
      rw [hz, List.rotate_zero] at hv2
      rw [hv2]
      rw [← hvs] at hv1
      exact rotate_index_back vs _ k i (by rw [vals_length, hl1, hlen]) hi hnn hv1

/-- C5, the spec's examples on `[a, b, c]`: `rotate(1)` gives `[c, a, b]`. -/
theorem rotate_witness :
    ∃ l' vs', METHOD_ROTATE sample_JS_ToInt64 sample_abc [.int 1] = .ok (.this_val, l') ∧
      Valid l' ∧ toList l' = .ok vs' ∧ l'.size = sample_abc.size ∧
      vs'.length = [JSValue.str "a", .str "b", .str "c"].length ∧
      ∀ i : Nat, i < [JSValue.str "a", .str "b", .str "c"].length →
        vs'[(((i : Int) + 1) % [JSValue.str "a", .str "b", .str "c"].length).toNat]? =
          [JSValue.str "a", .str "b", .str "c"][i]? :=
  rotate_spec sample_JS_ToInt64 sample_abc _ 1 (.int 1) sample_abc_wf.valid
    sample_abc_toList (by simp) rfl

/-- C10 (directional symmetry).  Over a well-formed non-empty list `[e0..e(n-1)]`
that is not mutated, a new forward value iterator yields `e0, .., e(n-1)` with
`done = false` on its first `n` calls and `undefined` with `done = true` on call
`n + 1`; a new backward value iterator yields the mirror image and then
`done = true`.  After the last call the list is as it was after the iterator was
created. -/
theorem directional_symmetry (ctx p : Nat) (l : LinkedList) (vs : List JSValue)
    (hv : Valid l) (ht : toList l = .ok vs) (hne : vs ≠ []) (hctx : ctx ≠ 0) :
    (∃ it l1 it', js_list_iterator_new ctx p l .JS_ITERATOR_KIND_VALUE .FWD = some (it, l1) ∧
      iterate (vs.length + 1) it l1 =
        .ok (vs.map (fun v => (v, false)) ++ [(.undefined, true)], it', l1)) ∧
    (∃ it l1 it', js_list_iterator_new ctx p l .JS_ITERATOR_KIND_VALUE .REV = some (it, l1) ∧
      iterate (vs.length + 1) it l1 =
        .ok (vs.reverse.map (fun v => (v, false)) ++ [(.undefined, true)], it', l1)) := by
  obtain ⟨ps, h, hvs, hlen, hsz⟩ := hv.unfold ht
  have hpne : ps ≠ [] := fun e => by rw [e] at hlen; exact hne (List.length_eq_zero.1 hlen.symm)
  have h1 := list_dup_wf h
  obtain ⟨itf, ef⟩ := iterate_forward (p := p) h1 hpne
  obtain ⟨itb, eb⟩ := iterate_backward (p := p) h1 hpne
  rw [list_dup_vals, ← hvs, hlen] at ef eb
  constructor
  · exact ⟨_, _, itf, by simp [js_list_iterator_new, hctx], ef⟩
  · exact ⟨_, _, itb, by simp [js_list_iterator_new, hctx], eb⟩

/-- C10, the spec's example: over `[a, b, c]` the forward iterator yields `a, b, c`
and the backward iterator `c, b, a`, each followed by `done`. -/
theorem directional_symmetry_witness :
    (∃ it l1 it', js_list_iterator_new 1 0 sample_abc .JS_ITERATOR_KIND_VALUE .FWD = some (it, l1) ∧
      iterate ([JSValue.str "a", .str "b", .str "c"].length + 1) it l1 =
        .ok ([JSValue.str "a", .str "b", .str "c"].map (fun v => (v, false)) ++
          [(.undefined, true)], it', l1)) ∧
    (∃ it l1 it', js_list_iterator_new 1 0 sample_abc .JS_ITERATOR_KIND_VALUE .REV = some (it, l1) ∧
      iterate ([JSValue.str "a", .str "b", .str "c"].length + 1) it l1 =
        .ok ([JSValue.str "a", .str "b", .str "c"].reverse.map (fun v => (v, false)) ++
          [(.undefined, true)], it', l1)) :=
  directional_symmetry 1 0 sample_abc _ sample_abc_wf.valid sample_abc_toList (by simp)
    (by decide)

/-- C3 as amended (sort reverses ties).  `cmp v w` is the number the comparator
returns, which the code converts with `JS_ToInt32`.  For a well-formed list with the
elements `vs`, a comparator that is a consistent three-way total preorder and whose
results on the elements of the list are whole numbers of the `int32_t` range, and a
context that grants the allocations, `sort` hands back the receiver untouched and
returns a well-formed list with the same elements, in which the elements that
compare equal to any given `v` appear in the reverse of their order in the
receiver. -/
theorem sort_reverses_ties (cmp : JSValue → JSValue → Int) (ctx : Nat) (l : LinkedList)
    (vs : List JSValue) (hv : Valid l) (ht : toList l = .ok vs) (hp : ThreeWay cmp)
    (hr : ∀ a ∈ vs, ∀ b ∈ vs, -2 ^ 31 ≤ cmp a b ∧ cmp a b < 2 ^ 31)
    (h0 : vs.length < ctx) (h1 : ctx < 2 ^ 63) :
    ∃ other ws, METHOD_SORT (fun a b => int32 (cmp a b)) ctx l = .ok (.list other, l) ∧
      Valid other ∧ toList other = .ok ws ∧ ws.Perm vs ∧
      ∀ v, ws.filter (fun w => decide (cmp v w = 0)) =
        (vs.filter (fun w => decide (cmp v w = 0))).reverse := by
  obtain ⟨ps, h, hvs, hlen, hsz⟩ := hv.unfold ht
  obtain ⟨other, qs, e, hw, hvals⟩ := sort_in_range cmp h (c := ctx) (by rw [← hvs]; exact hr)
    (by omega) h1
  rw [← hvs] at hvals
  refine ⟨other, vals other qs, e, hw.valid, hw.toLinked.toList_eq, ?_, fun v => ?_⟩
  · rw [hvals]; exact sort_spec_perm cmp vs
  · rw [hvals]
    exact sort_spec_reverses_ties hp v vs

/-- C3 as amended, at the spec's example: the two elements with key 1 leave in
reverse order. -/
theorem sort_reverses_ties_witness :
    ∃ other ws, METHOD_SORT (fun a b => int32 (sample_pred a b)) 8 sample_pairs =
        .ok (.list other, sample_pairs) ∧
      Valid other ∧ toList other = .ok ws ∧
      ws.Perm [JSValue.pair (.int 1) (.str "a"), .pair (.int 1) (.str "b"),
        .pair (.int 0) (.str "c")] ∧
      ∀ v, ws.filter (fun w => decide (sample_pred v w = 0)) =
        ([JSValue.pair (.int 1) (.str "a"), .pair (.int 1) (.str "b"),
          .pair (.int 0) (.str "c")].filter (fun w => decide (sample_pred v w = 0))).reverse :=
  sort_reverses_ties sample_pred 8 sample_pairs _ sample_pairs_wf.valid sample_pairs_toList
    sample_pred_three_way (by decide) (by decide) (by norm_num)

/-- C3 as stated fails at the spec's own example: sorting
`[(1,'a'), (1,'b'), (0,'c')]` by the first component returns
`[(0,'c'), (1,'b'), (1,'a')]`, with the two equal keys swapped, and not the stable
`[(0,'c'), (1,'a'), (1,'b')]`. -/
theorem sort_unstable_counterexample :
    ∃ other, METHOD_SORT (fun a b => int32 (sample_pred a b)) 8 sample_pairs =
        .ok (.list other, sample_pairs) ∧
      toList other =
        .ok [.pair (.int 0) (.str "c"), .pair (.int 1) (.str "b"), .pair (.int 1) (.str "a")] ∧
      [JSValue.pair (.int 0) (.str "c"), .pair (.int 1) (.str "b"), .pair (.int 1) (.str "a")] ≠
        [.pair (.int 0) (.str "c"), .pair (.int 1) (.str "a"), .pair (.int 1) (.str "b")] :=
  ⟨_, rfl, rfl, by decide⟩

/-- Sort orderedness where the conversion of the comparator result changes nothing
(the part of C4 that holds).  For a well-formed list, a consistent three-way
comparator whose results on the elements of the list are whole numbers of the
`int32_t` range and a context that grants the allocations, `sort` returns a
well-formed list with the same elements that is ordered: `cmp` of an earlier and a
later element is `<= 0`. -/
theorem sort_ordered (cmp : JSValue → JSValue → Int) (ctx : Nat) (l : LinkedList)
    (vs : List JSValue) (hv : Valid l) (ht : toList l = .ok vs) (hp : ThreeWay cmp)
    (hr : ∀ a ∈ vs, ∀ b ∈ vs, -2 ^ 31 ≤ cmp a b ∧ cmp a b < 2 ^ 31)
    (h0 : vs.length < ctx) (h1 : ctx < 2 ^ 63) :
    ∃ other ws, METHOD_SORT (fun a b => int32 (cmp a b)) ctx l = .ok (.list other, l) ∧
      Valid other ∧ toList other = .ok ws ∧ ws.Perm vs ∧
      ws.Pairwise (fun a b => cmp a b ≤ 0) ∧
      ∀ i j : Nat, i < j → ∀ a b, ws[i]? = some a → ws[j]? = some b → cmp a b ≤ 0 := by
  obtain ⟨ps, h, hvs, hlen, hsz⟩ := hv.unfold ht
  obtain ⟨other, qs, e, hw, hvals⟩ := sort_in_range cmp h (c := ctx) (by rw [← hvs]; exact hr)
    (by omega) h1
  rw [← hvs] at hvals
  have hsorted : (vals other qs).Pairwise (fun a b => cmp a b ≤ 0) := by
    rw [hvals]
    exact sort_spec_sorted hp _
  refine ⟨other, vals other qs, e, hw.valid, hw.toLinked.toList_eq, ?_, hsorted, ?_⟩
  · rw [hvals]; exact sort_spec_perm cmp vs
  · intro i j hij a b ha hb
    obtain ⟨hi, rfl⟩ := List.getElem?_eq_some_iff.1 ha
    obtain ⟨hj, rfl⟩ := List.getElem?_eq_some_iff.1 hb
    exact List.pairwise_iff_getElem.1 hsorted i j hi hj hij

/-- Sort orderedness at the sample list of pairs and the comparator by first
component. -/
theorem sort_ordered_witness :
    ∃ other ws, METHOD_SORT (fun a b => int32 (sample_pred a b)) 8 sample_pairs =
        .ok (.list other, sample_pairs) ∧
      Valid other ∧ toList other = .ok ws ∧
      ws.Perm [JSValue.pair (.int 1) (.str "a"), .pair (.int 1) (.str "b"),
        .pair (.int 0) (.str "c")] ∧
      ws.Pairwise (fun a b => sample_pred a b ≤ 0) ∧
      ∀ i j : Nat, i < j → ∀ a b, ws[i]? = some a → ws[j]? = some b → sample_pred a b ≤ 0 :=
  sort_ordered sample_pred 8 sample_pairs _ sample_pairs_wf.valid sample_pairs_toList
    sample_pred_three_way (by decide) (by decide) (by norm_num)

/-- C4 (sort orderedness) fails on the code.  The number the comparator returns
is converted with `JS_ToInt32` before the test `retval <= 0`, so a result from `2^31`
up to `2^32 - 1` arrives as a negative number.  For every well-formed list `[a, b]`
and every comparator with `2^31 <= cmp(b, a) < 2^32`, in a context that grants the
allocations, `sort` returns the list `[b, a]`, although `cmp(b, a) > 0`: the result
is not ordered by the comparator. -/
theorem sort_wraps_comparator (cmp : JSValue → JSValue → Int) (ctx : Nat) (l : LinkedList)
    (a b : JSValue) (hv : Valid l) (ht : toList l = .ok [a, b]) (h1 : 2 ^ 31 ≤ cmp b a)
    (h2 : cmp b a < 2 ^ 32) (h0 : 2 < ctx) (hc : ctx < 2 ^ 63) :
    ∃ other, METHOD_SORT (fun v w => int32 (cmp v w)) ctx l = .ok (.list other, l) ∧
      Valid other ∧ toList other = .ok [b, a] ∧ 0 < cmp b a := by
  obtain ⟨ps, h, hvs, hlen, hsz⟩ := hv.unfold ht
  obtain ⟨other, qs, e, hw, hvals⟩ := method_sort_eq (fun v w => int32 (cmp v w)) h (c := ctx)
    (by omega) hc
  have hl : (vals l ps).length = ps.length := vals_length l ps
  simp only [List.length_cons, List.length_nil] at hlen
  rw [List.take_of_length_le (by omega), ← hvs] at hvals
  refine ⟨other, e, hw.valid, ?_, by omega⟩
  rw [hw.toLinked.toList_eq, hvals]
  have hneg : ¬ 0 < int32 (cmp b a) := by
    unfold int32
    omega
  simp [sort_spec, insert_before, hneg]

/-- C4, on `List.of(0, 2147483648)` with the default comparator
`(a, b) => a - b`, a consistent three-way comparator: `sort` returns
`[2147483648, 0]`. -/
theorem sort_wraps_comparator_witness :
    ThreeWay sample_minus ∧
    ∃ other, METHOD_SORT (fun v w => int32 (sample_minus v w)) 8 sample_wide =
        .ok (.list other, sample_wide) ∧
      Valid other ∧ toList other = .ok [.int 2147483648, .int 0] ∧
      0 < sample_minus (.int 2147483648) (.int 0) :=
  ⟨sample_minus_three_way,
    sort_wraps_comparator sample_minus 8 sample_wide (.int 0) (.int 2147483648)
      sample_wide_wf.valid sample_wide_toList (by decide) (by decide) (by decide)
      (by norm_num)⟩

/-- C1 (size invariant).  Start from the empty list that `list_new` builds and run
any sequence of `push`, `pop`, `unshift`, `shift` and `splice` operations.  Every
list the sequence reaches is well-formed and its stored size is the number of nodes
met by walking forward from the sentinel back to the sentinel.  No loop of the
model runs out of fuel, and a sequence without `splice` always runs to its end
(`splice` can stop the process on a `NULL` or released node). -/
theorem size_invariant (JS_ToInt64 : JSValue → Option Int) (ctx : Nat) (ops : List Op)
    (l0 : LinkedList) (h0 : list_new ctx = some l0) (hc : ctx < 2 ^ 63) :
    (∀ l, run_ops JS_ToInt64 ops l0 = .ok l → count_forward l = .ok l.size ∧ Valid l) ∧
    run_ops JS_ToInt64 ops l0 ≠ .error .fuel ∧
    ((∀ op ∈ ops, ∀ c a, op ≠ .splice c a) → ∃ l, run_ops JS_ToInt64 ops l0 = .ok l) := by
  have hctx : ctx ≠ 0 := fun e => by simp [list_new, e] at h0
  obtain ⟨l0', e0, hw0, -⟩ := list_new_wf hctx hc
  rw [h0] at e0
  cases e0
  obtain ⟨h1, h2, h3⟩ := run_ops_wf JS_ToInt64 ops hw0
  refine ⟨fun l e => ?_, h2, h3⟩
  obtain ⟨ps, hw⟩ := h1 l e
  exact ⟨by rw [hw.toLinked.count_forward_eq, hw.size_eq], hw.valid⟩

/-- C1, on a concrete run from the empty list: `push(a, b, c)`,
`splice(1, 1, x, y)`, `pop()`, `unshift(z)`, `shift()`. -/
theorem size_invariant_witness :
    ∃ l, run_ops sample_JS_ToInt64 sample_ops sample_empty = .ok l ∧
      count_forward l = .ok l.size ∧ Valid l ∧
      toList l = .ok [.str "a", .str "x", .str "y"] := by
  refine ⟨_, rfl, ?_, ?_, rfl⟩
  · exact ((size_invariant sample_JS_ToInt64 8 sample_ops sample_empty rfl
      (by norm_num)).1 _ rfl).1
  · exact ((size_invariant sample_JS_ToInt64 8 sample_ops sample_empty rfl
      (by norm_num)).1 _ rfl).2

/-- C2: the spec's example holds: `splice(1, 1, 'x', 'y')` on `[a, b, c]` returns
`[b]` and leaves `[a, x, y, c]`. -/
theorem splice_example :
    ∃ other l', METHOD_SPLICE sample_JS_ToInt64 8 sample_abc
        [.int 1, .int 1, .str "x", .str "y"] = .ok (.list other, l') ∧
      toList other = .ok [.str "b"] ∧
      toList l' = .ok [.str "a", .str "x", .str "y", .str "c"] ∧ l'.size = 4 :=
  ⟨_, _, rfl, rfl, rfl, rfl⟩

/-- C2 fails when the deleted range reaches the tail: `splice(1, 2, 'x')` on
`[a, b, c]` unlinks and releases `c`, then reads `c->link.prev` of the released node
(and would insert after the `NULL` found there); `splice` on the empty list reads
`node->link.prev` of the `NULL` the local `node` still is; and `splice(3, 0, 'x')`
inserts before the last element instead of after it. -/
theorem splice_tail_fault :
    METHOD_SPLICE sample_JS_ToInt64 8 sample_abc [.int 1, .int 2, .str "x"] =
      .error .use_after_free ∧
    METHOD_SPLICE sample_JS_ToInt64 8 sample_empty [.int 0, .int 0, .str "x"] =
      .error .null_deref ∧
    ∃ other l', METHOD_SPLICE sample_JS_ToInt64 8 sample_abc [.int 3, .int 0, .str "x"] =
        .ok (.list other, l') ∧
      toList l' = .ok [.str "a", .str "b", .str "x", .str "c"] :=
  ⟨rfl, rfl, _, _, rfl, rfl⟩

/-! ## More sample lists and small facts -/

theorem sample_tight_wf : WF sample_tight [1, 2, 3] where
  toLinked := sample_abc_wf.toLinked.of_views (fun _ => rfl) (fun _ => rfl)
    (fun a ha => sample_abc_wf.fresh a ha) rfl
  size_eq := rfl
  cap := by norm_num [sample_tight, sample_abc]
  refs := sample_abc_wf.refs

theorem sample_tight_toList : toList sample_tight = .ok [.str "a", .str "b", .str "c"] := rfl

/-- A well-formed list whose element sequence is empty has no node. -/
theorem Valid.of_empty {l : LinkedList} (hv : Valid l) (ht : toList l = .ok []) : WF l [] := by
  obtain ⟨ps, h, -, hlen, -⟩ := hv.unfold ht
  have : ps = [] := List.length_eq_zero.1 (by simpa using hlen)
  rw [this] at h
  exact h

theorem WF.nodes_ok {l : LinkedList} {ps : List Nat} (h : WF l ps) : nodes l = .ok ps :=
  h.toLinked.nodes_eq

/-! ## The claims on iterators and reference counts -/

/-- C11 (iterator keys): the code does not yield `0, 1, .., n-1`.  Over a
well-formed non-empty list of size `n` a new forward iterator of kind `key` yields on
its calls `1..n` the numbers `0 + n, 1 + n, .., (n-1) + n` (each as an `int64`) with
`done = false`, then `done = true`; a forward iterator of kind `entries` pairs those
same numbers with the elements.  `list_iterator_value` adds the size of the list to
the running index whatever the sign of the index. -/
theorem keys_offset_by_size (ctx p : Nat) (l : LinkedList) (vs : List JSValue) (hv : Valid l)
    (ht : toList l = .ok vs) (hne : vs ≠ []) (hctx : ctx ≠ 0) :
    (∃ it l1 it', js_list_iterator_new ctx p l .JS_ITERATOR_KIND_KEY .FWD = some (it, l1) ∧
      iterate (vs.length + 1) it l1 =
        .ok ((List.range vs.length).map
            (fun k : Nat => (JSValue.int (int64 ((k : Nat) + vs.length)), false)) ++
          [(.undefined, true)], it', l1)) ∧
    (∃ it l1 it', js_list_iterator_new ctx p l .JS_ITERATOR_KIND_KEY_AND_VALUE .FWD =
        some (it, l1) ∧
      iterate (vs.length + 1) it l1 =
        .ok (vs.enum.map
            (fun p => (JSValue.pair (.int (int64 ((p.1 : Nat) + vs.length))) p.2, false)) ++
          [(.undefined, true)], it', l1)) := by
  obtain ⟨ps, h, hvs, hlen, hsz⟩ := hv.unfold ht
  have hpne : ps ≠ [] := fun e => by rw [e] at hlen; exact hne (List.length_eq_zero.1 hlen.symm)
  have h1 := list_dup_wf h
  have hsz1 : (list_dup l).size = vs.length := hsz
  obtain ⟨itk, ek⟩ := iterate_kind_forward (p := p) .JS_ITERATOR_KIND_KEY h1 hpne
  obtain ⟨ite, ee⟩ := iterate_kind_forward (p := p) .JS_ITERATOR_KIND_KEY_AND_VALUE h1 hpne
  have hk := yields_key_forward (list_dup l) ps 0
  have he := yields_entries_forward (list_dup l) ps 0
  simp only [Nat.cast_zero] at hk he
  rw [hk, hlen, hsz1, ← List.range_eq_range'] at ek
  rw [he, list_dup_vals, ← hvs, hlen, hsz1] at ee
  constructor
  · refine ⟨ListIterator.mk (some p) none 0 .JS_ITERATOR_KIND_KEY .FWD, list_dup l, itk,
      by simp [js_list_iterator_new, hctx], ?_⟩
    simpa [List.map_map, Function.comp] using ek
  · refine ⟨ListIterator.mk (some p) none 0 .JS_ITERATOR_KIND_KEY_AND_VALUE .FWD, list_dup l,
      ite, by simp [js_list_iterator_new, hctx], ?_⟩
    simpa [List.map_map, Function.comp, List.enum] using ee

/-- C11, on `[a, b, c]`: `keys()` yields `3, 4, 5` and `entries()` yields
`[3, a], [4, b], [5, c]`, where the claim has `0, 1, 2`. -/
theorem keys_offset_by_size_witness :
    (∃ it l1 it', js_list_iterator_new 1 0 sample_abc .JS_ITERATOR_KIND_KEY .FWD = some (it, l1) ∧
      iterate 4 it l1 =
        .ok ([(.int 3, false), (.int 4, false), (.int 5, false), (.undefined, true)], it', l1)) ∧
    (∃ it l1 it', js_list_iterator_new 1 0 sample_abc .JS_ITERATOR_KIND_KEY_AND_VALUE .FWD =
        some (it, l1) ∧
      iterate 4 it l1 =
        .ok ([(.pair (.int 3) (.str "a"), false), (.pair (.int 4) (.str "b"), false),
          (.pair (.int 5) (.str "c"), false), (.undefined, true)], it', l1)) :=
  keys_offset_by_size 1 0 sample_abc [.str "a", .str "b", .str "c"] sample_abc_wf.valid
    sample_abc_toList (by simp) (by decide)

/-- C12 (iterator survives removal) fails on the code.  A forward value
iterator over `[a, b, c]` is advanced onto `b` (two calls of `next()`), then
`splice(1, 1)` removes `b`: the node keeps the iterator's reference only.  The next
`next()` enters `list_iterator_skip`, whose `node_unref` drops that last reference
and releases the node, and then reads `node->link.next` of the released node.  The
same happens with the iterator on `c` and `pop()`, and with the iterator on `a` and
`shift()`. -/
theorem next_after_removal_fault :
    (∃ it l1 out it2 l2 other l3,
      js_list_iterator_new 1 0 sample_abc .JS_ITERATOR_KIND_VALUE .FWD = some (it, l1) ∧
      iterate 2 it l1 = .ok (out, it2, l2) ∧ it2.node = some 2 ∧ val l2 2 = some (.str "b") ∧
      METHOD_SPLICE sample_JS_ToInt64 8 l2 [.int 1, .int 1] = .ok (.list other, l3) ∧
      toList l3 = .ok [.str "a", .str "c"] ∧
      list_iterator_next it2 l3 = .error .use_after_free) ∧
    (∃ it l1 out it2 l2 l3,
      js_list_iterator_new 1 0 sample_abc .JS_ITERATOR_KIND_VALUE .FWD = some (it, l1) ∧
      iterate 3 it l1 = .ok (out, it2, l2) ∧ it2.node = some 3 ∧
      METHOD_POP l2 = .ok (.value (.str "c"), l3) ∧
      toList l3 = .ok [.str "a", .str "b"] ∧
      list_iterator_next it2 l3 = .error .use_after_free) ∧
    (∃ it l1 out it2 l2 l3,
      js_list_iterator_new 1 0 sample_abc .JS_ITERATOR_KIND_VALUE .FWD = some (it, l1) ∧
      iterate 1 it l1 = .ok (out, it2, l2) ∧ it2.node = some 1 ∧
      METHOD_SHIFT l2 = .ok (.value (.str "a"), l3) ∧
      toList l3 = .ok [.str "b", .str "c"] ∧
      list_iterator_next it2 l3 = .error .use_after_free) :=
  ⟨⟨_, _, _, _, _, _, _, rfl, rfl, rfl, rfl, rfl, rfl, rfl⟩,
   ⟨_, _, _, _, _, _, rfl, rfl, rfl, rfl, rfl, rfl⟩,
   ⟨_, _, _, _, _, _, rfl, rfl, rfl, rfl, rfl, rfl⟩⟩

/-- C13 (removal under a live iterator).  In a well-formed list let the
node `a` (between the nodes `s` and `t`) carry `r >= 2` references: the list's and at
least one iterator's.  `node_remove_rt` unlinks it: the list is well-formed with the
nodes `s ++ t`, its size is one less, the other elements keep their order, and the
cell of `a` is still allocated, with both links `NULL`, the payload
`JS_UNINITIALIZED` and `r - 1 >= 1` references.  `pop()` (when `a` is the last node)
and `shift()` (when `a` is the first node) return the payload of `a` and leave the
same. -/
theorem remove_under_iterator (l : LinkedList) (s t : List Nat) (a : Nat) (r : Int)
    (h : WF l (s ++ a :: t)) (hr : rc l a = some r) (h2 : 2 ≤ r) :
    (∃ l', node_remove_rt (some a) l = .ok l' ∧ WF l' (s ++ t) ∧ l'.size + 1 = l.size ∧
      toList l' = .ok (vals l s ++ vals l t) ∧
      l'.mem a = some (Node.mk none none .uninitialized (r - 1)) ∧ 1 ≤ r - 1) ∧
    (t = [] → ∃ l', METHOD_POP l = .ok (.value ((val l a).getD .uninitialized), l') ∧
      WF l' s ∧ l'.size + 1 = l.size ∧ toList l' = .ok (vals l s) ∧
      l'.mem a = some (Node.mk none none .uninitialized (r - 1))) ∧
    (s = [] → ∃ l', METHOD_SHIFT l = .ok (.value ((val l a).getD .uninitialized), l') ∧
      WF l' t ∧ l'.size + 1 = l.size ∧ toList l' = .ok (vals l t) ∧
      l'.mem a = some (Node.mk none none .uninitialized (r - 1))) := by
  have hr1 : r ≠ 1 := by omega
  have hsz := h.size_eq
  simp only [List.length_append, List.length_cons] at hsz
  refine ⟨?_, ?_, ?_⟩
  · obtain ⟨l', r', hr', -, e, hw, hv, hnx, hpv, hvv, hrr, -, -, -⟩ := wf_remove h
    have : r' = r := by rw [hr] at hr'; exact (Option.some.inj hr').symm
    subst this
    have hv' := hvv a
    have hrc' := hrr a
    rw [if_pos rfl, if_neg hr1] at hv' hrc'
    refine ⟨l', e, hw, ?_, ?_, mem_of_views hnx hpv hv' hrc', by omega⟩
    · have := hw.size_eq
      simp only [List.length_append] at this
      omega
    · rw [hw.toLinked.toList_eq, hv]
  · intro ht
    subst ht
    obtain ⟨n, l1, l', e0, e1, e2, hw, hn, hv, hnx, hpv, hvv, hrr⟩ := wf_take_node_cell h hr
    rw [if_neg hr1] at hvv hrr
    have hback : list_back l = .ok (some a) := by rw [h.toLinked.back]; simp
    simp only [List.append_nil] at hw hv
    refine ⟨l', ?_, hw, ?_, ?_, mem_of_views hnx hpv hvv hrr⟩
    · simp only [METHOD_POP, hback, bind, Except.bind, e0, e1, e2, pure, Except.pure, hn]
    · have := hw.size_eq
      simp only [List.length_nil, Nat.add_zero] at hsz
      omega
    · rw [hw.toLinked.toList_eq, hv]; simp [vals]
  · intro hs
    subst hs
    obtain ⟨n, l1, l', e0, e1, e2, hw, hn, hv, hnx, hpv, hvv, hrr⟩ :=
      wf_take_node_cell (s := []) h hr
    rw [if_neg hr1] at hvv hrr
    have hfront : list_front l = .ok (some a) := by rw [h.toLinked.front]; simp
    simp only [List.nil_append] at hw hv
    refine ⟨l', ?_, hw, ?_, ?_, mem_of_views hnx hpv hvv hrr⟩
    · simp only [METHOD_SHIFT, hfront, bind, Except.bind, e0, e1, e2, pure, Except.pure, hn]
    · have := hw.size_eq
      simp only [List.length_nil, Nat.zero_add] at hsz
      omega
    · rw [hw.toLinked.toList_eq, hv]; simp [vals]

/-- C13, on `[a, b, c]` with one iterator's reference on `b` (the node at
address 2). -/
theorem remove_under_iterator_witness :
    (∃ l', node_remove_rt (some 2) (bump sample_abc 2) = .ok l' ∧ WF l' ([1] ++ [3]) ∧
      l'.size + 1 = (bump sample_abc 2).size ∧
      toList l' = .ok (vals (bump sample_abc 2) [1] ++ vals (bump sample_abc 2) [3]) ∧
      l'.mem 2 = some (Node.mk none none .uninitialized (2 - 1)) ∧ (1 : Int) ≤ 2 - 1) ∧
    (([3] : List Nat) = [] → ∃ l', METHOD_POP (bump sample_abc 2) =
        .ok (.value ((val (bump sample_abc 2) 2).getD .uninitialized), l') ∧
      WF l' [1] ∧ l'.size + 1 = (bump sample_abc 2).size ∧
      toList l' = .ok (vals (bump sample_abc 2) [1]) ∧
      l'.mem 2 = some (Node.mk none none .uninitialized (2 - 1))) ∧
    (([1] : List Nat) = [] → ∃ l', METHOD_SHIFT (bump sample_abc 2) =
        .ok (.value ((val (bump sample_abc 2) 2).getD .uninitialized), l') ∧
      WF l' [3] ∧ l'.size + 1 = (bump sample_abc 2).size ∧
      toList l' = .ok (vals (bump sample_abc 2) [3]) ∧
      l'.mem 2 = some (Node.mk none none .uninitialized (2 - 1))) :=
  remove_under_iterator (bump sample_abc 2) [1] [3] 2 2 (bump_wf sample_abc_wf 2) rfl (by decide)

/-- C13, through `splice`: a forward value iterator over `[a, b, c]` is advanced
onto `b`, then `splice(1, 1)` removes `b`: the list is `[a, c]` of size 2 and the
cell of `b` is still allocated, unlinked, cleared and with one reference. -/
theorem splice_under_iterator_example :
    ∃ it l1 out it2 l2 other l3,
      js_list_iterator_new 1 0 sample_abc .JS_ITERATOR_KIND_VALUE .FWD = some (it, l1) ∧
      iterate 2 it l1 = .ok (out, it2, l2) ∧ it2.node = some 2 ∧ rc l2 2 = some 2 ∧
      METHOD_SPLICE sample_JS_ToInt64 8 l2 [.int 1, .int 1] = .ok (.list other, l3) ∧
      toList l3 = .ok [.str "a", .str "c"] ∧ l3.size = 2 ∧
      l3.mem 2 = some (Node.mk none none .uninitialized 1) :=
  ⟨_, _, _, _, _, _, _, rfl, rfl, rfl, rfl, rfl, rfl, rfl, rfl⟩

/-- C14 (reference-count non-leak).  Take a well-formed non-empty list
`l` that is alive (`ref_count >= 1`) and any sequence of iterator operations on it:
creating iterators of any kind and direction, calling `next()` on any of them any
number of times (also past exhaustion), disposing of any of them.  The sequence runs
to its end, and disposing of the iterators that are left gives back exactly `l`:
every node's reference count, the list's own reference count and everything else
are as they were before the first iterator was created. -/
theorem iterators_restore_refcounts (p : Nat) (l : LinkedList) (vs : List JSValue) (ops : List IterOp)
    (hv : Valid l) (ht : toList l = .ok vs) (hne : vs ≠ []) (hr : 1 ≤ l.ref_count) :
    ∃ lc its, iter_run p ops (l, []) = .ok (lc, its) ∧ dispose_all its lc = .ok l := by
  obtain ⟨ps, h, hvs, hlen, hsz⟩ := hv.unfold ht
  have hpne : ps ≠ [] := fun e => by rw [e] at hlen; exact hne (List.length_eq_zero.1 hlen.symm)
  obtain ⟨h1, h2⟩ := iter_run_inv h hr ops (iter_inv_init p l ps)
  obtain ⟨⟨lc, its⟩, e⟩ := h2 hpne
  exact ⟨lc, its, e, dispose_all_lifted h hr its (h1 _ e)⟩

/-- C14, on `[a, b, c]` and the sample run of three iterators. -/
theorem iterators_restore_refcounts_witness :
    ∃ lc its, iter_run 0 sample_iter_ops (sample_abc, []) = .ok (lc, its) ∧
      dispose_all its lc = .ok sample_abc :=
  iterators_restore_refcounts 0 sample_abc [.str "a", .str "b", .str "c"] sample_iter_ops
    sample_abc_wf.valid sample_abc_toList (by simp) (by decide)

/-- C15 (iterator reference invariant).  Take a well-formed list `l` with
nodes `ps`, each carrying the list's reference only, and any sequence of iterator
creations, `next()` calls and disposals.  In every state the sequence reaches the
list still has the nodes `ps`, every node `a` of it carries
`1 + (the number of live iterators positioned on a)` references, every iterator is
unset, on the head or on a node of the list, and the head's cell is untouched: an
iterator holds one reference when it is on a real node and none otherwise.  On a
non-empty list every such sequence runs to its end. -/
theorem iterator_reference_invariant (p : Nat) (l : LinkedList) (ps : List Nat) (ops : List IterOp)
    (hw : WF l ps) (hbase : ∀ a ∈ ps, rc l a = some 1) (hr : 1 ≤ l.ref_count) :
    (∀ lc its, iter_run p ops (l, []) = .ok (lc, its) →
      nodes lc = .ok ps ∧
      (∀ a ∈ ps, rc lc a =
        some (1 + ((its.countP (fun it => decide (it.node = some a)) : Nat) : Int))) ∧
      (∀ it ∈ its, it.node = none ∨ it.node = some 0 ∨ ∃ a ∈ ps, it.node = some a) ∧
      rc lc 0 = rc l 0) ∧
    (ps ≠ [] → ∃ s, iter_run p ops (l, []) = .ok s) := by
  obtain ⟨h1, h2⟩ := iter_run_inv hw hr ops (iter_inv_init p l ps)
  refine ⟨fun lc its e => ?_, h2⟩
  obtain ⟨hl, hpl⟩ := h1 _ e
  simp only at hl hpl
  refine ⟨(hl.linked hw.toLinked).nodes_eq, fun a ha => ?_, fun it hit => ?_, ?_⟩
  · have ha0 : a ≠ 0 := fun e0 => (List.nodup_cons.1 hw.nodup).1 (e0 ▸ ha)
    rw [hl.rc_eq, hbase a ha, held_eq_countP its ha0]
    rfl
  · obtain ⟨-, hn⟩ := hpl it hit
    rcases hn with ⟨hn, -⟩ | ⟨a, ha, hn⟩
    · exact Or.inl hn
    · rcases List.mem_cons.1 ha with e0 | e0
      · subst e0; exact Or.inr (Or.inl hn)
      · exact Or.inr (Or.inr ⟨a, e0, hn⟩)
  · rw [hl.rc_eq]
    rw [held_zero]
    cases rc l 0 <;> simp

/-- C15, on `[a, b, c]` and the sample run: it ends with one iterator on the head
and one on `b`, and the nodes carry 1, 2 and 1 references. -/
theorem iterator_reference_invariant_witness :
    ∃ lc its, iter_run 0 sample_iter_ops (sample_abc, []) = .ok (lc, its) ∧
      its.map (fun it => it.node) = [some 0, some 2] ∧
      rc lc 1 = some 1 ∧ rc lc 2 = some 2 ∧ rc lc 3 = some 1 := by
  have hbase : ∀ a ∈ [1, 2, 3], rc sample_abc a = some 1 := fun a ha => by
    simp only [List.mem_cons, List.mem_singleton, List.not_mem_nil, or_false] at ha
    rcases ha with e | e | e <;> subst e <;> rfl
  refine ⟨_, _, rfl, rfl, ?_, ?_, ?_⟩
  · exact ((iterator_reference_invariant 0 sample_abc [1, 2, 3] sample_iter_ops sample_abc_wf
      hbase (by decide)).1 _ _ rfl).2.1 1 (by simp)
  · exact ((iterator_reference_invariant 0 sample_abc [1, 2, 3] sample_iter_ops sample_abc_wf
      hbase (by decide)).1 _ _ rfl).2.1 2 (by simp)
  · exact ((iterator_reference_invariant 0 sample_abc [1, 2, 3] sample_iter_ops sample_abc_wf
      hbase (by decide)).1 _ _ rfl).2.1 3 (by simp)

/-! ## The claims on push, pop, shift, unshift and indexOf -/

/-- C16 (empty-container pop/shift).  On a well-formed empty list `pop()`
and `shift()` each return `undefined`, not an exception, and hand the list back as
it was: empty, with size 0. -/
theorem pop_shift_empty (l : LinkedList) (hv : Valid l) (ht : toList l = .ok []) :
    METHOD_POP l = .ok (.value .undefined, l) ∧
    METHOD_SHIFT l = .ok (.value .undefined, l) ∧ l.size = 0 := by
  have h := hv.of_empty ht
  have hb := h.toLinked.back
  have hf := h.toLinked.front
  simp only [List.getLast?_nil, List.head?_nil] at hb hf
  refine ⟨?_, ?_, by simpa using h.size_eq⟩
  · simp [METHOD_POP, hb, bind, Except.bind, pure, Except.pure]
  · simp [METHOD_SHIFT, hf, bind, Except.bind, pure, Except.pure]

/-- C16, on the empty sample list. -/
theorem pop_shift_empty_witness :
    METHOD_POP sample_empty = .ok (.value .undefined, sample_empty) ∧
    METHOD_SHIFT sample_empty = .ok (.value .undefined, sample_empty) ∧ sample_empty.size = 0 :=
  pop_shift_empty sample_empty sample_empty_wf.valid sample_empty_toList

/-- C17 (pop/shift postcondition).  On a well-formed non-empty list
`[e0, .., e(n-1)]`, `pop()` returns `e(n-1)` and leaves `[e0, .., e(n-2)]`, `shift()`
returns `e0` and leaves `[e1, .., e(n-1)]`; the list left is well-formed and its size
is `n - 1`. -/
theorem pop_shift_nonempty (l : LinkedList) (vs : List JSValue) (hv : Valid l)
    (ht : toList l = .ok vs) (hne : vs ≠ []) :
    (∃ l', METHOD_POP l = .ok (.value (vs.getLast hne), l') ∧ Valid l' ∧
      toList l' = .ok vs.dropLast ∧ l'.size = vs.length - 1) ∧
    (∃ l', METHOD_SHIFT l = .ok (.value (vs.head hne), l') ∧ Valid l' ∧
      toList l' = .ok vs.tail ∧ l'.size = vs.length - 1) := by
  obtain ⟨ps, h, hvs, hlen, hsz⟩ := hv.unfold ht
  obtain ⟨l1, e1, hw1, hv1, -⟩ := method_pop_wf h
  obtain ⟨l2, e2, hw2, hv2, -⟩ := method_shift_wf h
  rw [← hvs] at e1 e2 hv1 hv2
  constructor
  · refine ⟨l1, ?_, hw1.valid, ?_, ?_⟩
    · rw [e1, List.getLast?_eq_getLast _ hne]; rfl
    · rw [hw1.toLinked.toList_eq, hv1]
    · rw [hw1.size_eq, List.length_dropLast, hlen]
  · refine ⟨l2, ?_, hw2.valid, ?_, ?_⟩
    · rw [e2, List.head?_eq_head hne]; rfl
    · rw [hw2.toLinked.toList_eq, hv2]
    · rw [hw2.size_eq, List.length_tail, hlen]

/-- C17, on `[a, b, c]`: `pop()` returns `c`, `shift()` returns `a`. -/
theorem pop_shift_nonempty_witness :
    (∃ l', METHOD_POP sample_abc = .ok (.value (.str "c"), l') ∧ Valid l' ∧
      toList l' = .ok [.str "a", .str "b"] ∧ l'.size = 2) ∧
    (∃ l', METHOD_SHIFT sample_abc = .ok (.value (.str "a"), l') ∧ Valid l' ∧
      toList l' = .ok [.str "b", .str "c"] ∧ l'.size = 2) :=
  pop_shift_nonempty sample_abc [.str "a", .str "b", .str "c"] sample_abc_wf.valid
    sample_abc_toList (by simp)

/-- C18 (push/unshift postcondition).  On a well-formed list with
elements `vs` of size `n`, when the context grants the `k` node allocations,
`push(v1, .., vk)` leaves `vs ++ [v1, .., vk]` and `unshift(v1, .., vk)` leaves
`[v1, .., vk] ++ vs`; each returns `n + k`, the new size, and the `k` nodes linked
by the call (`qs`) carry one reference each. -/
theorem push_unshift_spec (l : LinkedList) (vs argv : List JSValue) (hv : Valid l)
    (ht : toList l = .ok vs) (hmem : argv.length ≤ l.avail) :
    (∃ l' ps qs, METHOD_PUSH l argv = .ok (.value (.int (vs.length + argv.length)), l') ∧
      Valid l' ∧ toList l' = .ok (vs ++ argv) ∧ l'.size = vs.length + argv.length ∧
      nodes l = .ok ps ∧ nodes l' = .ok (ps ++ qs) ∧ qs.length = argv.length ∧
      ∀ a ∈ qs, rc l' a = some 1) ∧
    (∃ l' ps qs, METHOD_UNSHIFT l argv = .ok (.value (.int (vs.length + argv.length)), l') ∧
      Valid l' ∧ toList l' = .ok (argv ++ vs) ∧ l'.size = vs.length + argv.length ∧
      nodes l = .ok ps ∧ nodes l' = .ok (qs ++ ps) ∧ qs.length = argv.length ∧
      ∀ a ∈ qs, rc l' a = some 1) := by
  obtain ⟨ps, h, hvs, hlen, hsz⟩ := hv.unfold ht
  constructor
  · obtain ⟨l1, qs, e1, hw1, hv1, hq1, hr1, -, -⟩ := method_push_wf argv h
    rw [if_pos hmem, hlen] at e1
    rw [List.take_of_length_le hmem, ← hvs] at hv1
    rw [Nat.min_eq_left hmem] at hq1
    refine ⟨l1, ps, qs, e1, hw1.valid, ?_, ?_, h.nodes_ok, hw1.nodes_ok, hq1, hr1⟩
    · rw [hw1.toLinked.toList_eq, hv1]
    · rw [hw1.size_eq, List.length_append, hq1, hlen]
  · have hmem' : argv.reverse.length ≤ l.avail := by simpa using hmem
    obtain ⟨l1, qs, e1, hw1, hv1, hq1, hr1, -, -⟩ := unshift_loop_wf argv.reverse h
    rw [if_pos hmem', hlen, List.length_reverse] at e1
    rw [List.take_of_length_le hmem', List.reverse_reverse, ← hvs] at hv1
    rw [Nat.min_eq_left hmem', List.length_reverse] at hq1
    refine ⟨l1, ps, qs, e1, hw1.valid, ?_, ?_, h.nodes_ok, hw1.nodes_ok, hq1, hr1⟩
    · rw [hw1.toLinked.toList_eq, hv1]
    · rw [hw1.size_eq, List.length_append, hq1, hlen]; omega

/-- C18, on `[a, b, c]` with the arguments `x, y`. -/
theorem push_unshift_spec_witness :
    (∃ l' ps qs, METHOD_PUSH sample_abc [.str "x", .str "y"] =
        .ok (.value (.int (([JSValue.str "a", .str "b", .str "c"].length : Nat) +
          ([JSValue.str "x", .str "y"].length : Nat))), l') ∧
      Valid l' ∧ toList l' = .ok ([.str "a", .str "b", .str "c"] ++ [.str "x", .str "y"]) ∧
      l'.size = [JSValue.str "a", .str "b", .str "c"].length + [JSValue.str "x", .str "y"].length ∧
      nodes sample_abc = .ok ps ∧ nodes l' = .ok (ps ++ qs) ∧
      qs.length = [JSValue.str "x", .str "y"].length ∧
      ∀ a ∈ qs, rc l' a = some 1) ∧
    (∃ l' ps qs, METHOD_UNSHIFT sample_abc [.str "x", .str "y"] =
        .ok (.value (.int (([JSValue.str "a", .str "b", .str "c"].length : Nat) +
          ([JSValue.str "x", .str "y"].length : Nat))), l') ∧
      Valid l' ∧ toList l' = .ok ([.str "x", .str "y"] ++ [.str "a", .str "b", .str "c"]) ∧
      l'.size = [JSValue.str "a", .str "b", .str "c"].length + [JSValue.str "x", .str "y"].length ∧
      nodes sample_abc = .ok ps ∧ nodes l' = .ok (qs ++ ps) ∧
      qs.length = [JSValue.str "x", .str "y"].length ∧
      ∀ a ∈ qs, rc l' a = some 1) :=
  push_unshift_spec sample_abc _ _ sample_abc_wf.valid sample_abc_toList (by decide)

/-- C19 as amended (allocation failure in push/unshift).  On a well-formed
list with elements `vs`, when the context grants only `j < k` of the `k` node
allocations, `push(v1, .., vk)` and `unshift(v1, .., vk)` throw the out-of-memory
exception and the nodes linked before the failure stay: `push` leaves
`vs ++ [v1, .., vj]`, `unshift` leaves `[v(k-j+1), .., vk] ++ vs`, both of size
`n + j`.  (With `j = 0` that is the list as it was.) -/
theorem push_unshift_oom (l : LinkedList) (vs argv : List JSValue) (hv : Valid l)
    (ht : toList l = .ok vs) (hmem : l.avail < argv.length) :
    (∃ l', METHOD_PUSH l argv = .ok (.out_of_memory, l') ∧ Valid l' ∧
      toList l' = .ok (vs ++ argv.take l.avail) ∧ l'.size = vs.length + l.avail) ∧
    (∃ l', METHOD_UNSHIFT l argv = .ok (.out_of_memory, l') ∧ Valid l' ∧
      toList l' = .ok (argv.drop (argv.length - l.avail) ++ vs) ∧
      l'.size = vs.length + l.avail) := by
  obtain ⟨ps, h, hvs, hlen, hsz⟩ := hv.unfold ht
  constructor
  · obtain ⟨l1, qs, e1, hw1, hv1, hq1, -, -, -⟩ := method_push_wf argv h
    rw [if_neg (by omega)] at e1
    rw [← hvs] at hv1
    rw [Nat.min_eq_right (by omega)] at hq1
    refine ⟨l1, e1, hw1.valid, ?_, ?_⟩
    · rw [hw1.toLinked.toList_eq, hv1]
    · rw [hw1.size_eq, List.length_append, hq1, hlen]
  · have hmem' : l.avail < argv.reverse.length := by simpa using hmem
    obtain ⟨l1, qs, e1, hw1, hv1, hq1, -, -, -⟩ := unshift_loop_wf argv.reverse h
    rw [if_neg (by omega)] at e1
    rw [← hvs, List.take_reverse, List.reverse_reverse] at hv1
    rw [Nat.min_eq_right (by omega)] at hq1
    refine ⟨l1, e1, hw1.valid, ?_, ?_⟩
    · rw [hw1.toLinked.toList_eq, hv1]
    · rw [hw1.size_eq, List.length_append, hq1, hlen]; omega

/-- C19 as amended, on `[a, b, c]` with room for one more node and the
arguments `x, y`. -/
theorem push_unshift_oom_witness :
    (∃ l', METHOD_PUSH sample_tight [.str "x", .str "y"] = .ok (.out_of_memory, l') ∧ Valid l' ∧
      toList l' = .ok ([.str "a", .str "b", .str "c"] ++
        [JSValue.str "x", .str "y"].take sample_tight.avail) ∧
      l'.size = [JSValue.str "a", .str "b", .str "c"].length + sample_tight.avail) ∧
    (∃ l', METHOD_UNSHIFT sample_tight [.str "x", .str "y"] = .ok (.out_of_memory, l') ∧
      Valid l' ∧
      toList l' = .ok ([JSValue.str "x", .str "y"].drop
        ([JSValue.str "x", .str "y"].length - sample_tight.avail) ++
          [.str "a", .str "b", .str "c"]) ∧
      l'.size = [JSValue.str "a", .str "b", .str "c"].length + sample_tight.avail) :=
  push_unshift_oom sample_tight _ _ sample_tight_wf.valid sample_tight_toList (by decide)

/-- C19 as stated fails: on `[a, b, c]` with room for one more node,
`push(x, y)` throws out-of-memory and leaves `[a, b, c, x]` of size 4, and
`unshift(x, y)` throws out-of-memory and leaves `[y, a, b, c]` of size 4; before
the calls the list was `[a, b, c]` of size 3. -/
theorem push_oom_partial_counterexample :
    (∃ l', METHOD_PUSH sample_tight [.str "x", .str "y"] = .ok (.out_of_memory, l') ∧
      toList l' = .ok [.str "a", .str "b", .str "c", .str "x"] ∧ l'.size = 4) ∧
    (∃ l', METHOD_UNSHIFT sample_tight [.str "x", .str "y"] = .ok (.out_of_memory, l') ∧
      toList l' = .ok [.str "y", .str "a", .str "b", .str "c"] ∧ l'.size = 4) ∧
    toList sample_tight = .ok [.str "a", .str "b", .str "c"] ∧ sample_tight.size = 3 ∧
    [JSValue.str "a", .str "b", .str "c", .str "x"] ≠ [.str "a", .str "b", .str "c"] ∧
    [JSValue.str "y", .str "a", .str "b", .str "c"] ≠ [.str "a", .str "b", .str "c"] :=
  ⟨⟨_, rfl, rfl, rfl⟩, ⟨_, rfl, rfl, rfl⟩, rfl, rfl, by decide, by decide⟩

/-- C20 (indexOf).  On a well-formed list with elements `vs` and for every
value `v` and host equality, `indexOf(v)` returns a number `r` and `includes(v)`
returns the boolean `r != -1`, both without touching the list; `r = -1` exactly when
no element equals `v`, and otherwise `r` is a position of `vs` whose element equals
`v` while no element at a smaller position does. -/
theorem index_of_spec (js_value_equals : JSValue → JSValue → Bool) (l : LinkedList)
    (vs : List JSValue) (v : JSValue) (hv : Valid l) (ht : toList l = .ok vs) :
    ∃ r : Int, METHOD_INDEX_OF js_value_equals l [v] = .ok (.value (.int r), l) ∧
      METHOD_INCLUDES js_value_equals l [v] = .ok (.value (.bool (decide (r ≠ -1))), l) ∧
      (r = -1 ↔ ∀ w ∈ vs, js_value_equals v w = false) ∧
      (r ≠ -1 → 0 ≤ r ∧ (∃ w, vs[r.toNat]? = some w ∧ js_value_equals v w = true) ∧
        ∀ j : Nat, j < r.toNat → ∀ u, vs[j]? = some u → js_value_equals v u = false) := by
  obtain ⟨ps, h, hvs, hlen, hsz⟩ := hv.unfold ht
  obtain ⟨r, er, hr⟩ := h.indexof js_value_equals v
  rw [← hvs] at hr
  refine ⟨r, ?_, ?_, ?_, ?_⟩
  · simp [METHOD_INDEX_OF, er, bind, Except.bind, pure, Except.pure]
  · simp [METHOD_INCLUDES, er, bind, Except.bind, pure, Except.pure]
  · constructor
    · intro e
      rcases hr with ⟨-, h2⟩ | ⟨h1, -, -⟩
      · exact h2
      · omega
    · intro hall
      rcases hr with ⟨h1, -⟩ | ⟨-, ⟨w, hw, hwe⟩, -⟩
      · exact h1
      · have := hall w (List.getElem?_mem hw)
        rw [this] at hwe
        exact absurd hwe (by simp)
  · intro hne
    rcases hr with ⟨h1, -⟩ | h2
    · exact absurd h1 hne
    · exact h2

/-- C20, on `[a, b, c]`: `indexOf('b')` and `includes('b')`. -/
theorem index_of_spec_witness :
    ∃ r : Int, METHOD_INDEX_OF sample_equals sample_abc [.str "b"] =
        .ok (.value (.int r), sample_abc) ∧
      METHOD_INCLUDES sample_equals sample_abc [.str "b"] =
        .ok (.value (.bool (decide (r ≠ -1))), sample_abc) ∧
      (r = -1 ↔ ∀ w ∈ [JSValue.str "a", .str "b", .str "c"],
        sample_equals (.str "b") w = false) ∧
      (r ≠ -1 → 0 ≤ r ∧
        (∃ w, [JSValue.str "a", .str "b", .str "c"][r.toNat]? = some w ∧
          sample_equals (.str "b") w = true) ∧
        ∀ j : Nat, j < r.toNat → ∀ u, [JSValue.str "a", .str "b", .str "c"][j]? = some u →
          sample_equals (.str "b") u = false) :=
  index_of_spec sample_equals sample_abc [.str "a", .str "b", .str "c"] (.str "b")
    sample_abc_wf.valid sample_abc_toList

/-- The worked example of C20 evaluated: `indexOf('b')` is 1, `indexOf('z')` is -1,
`includes('b')` is true, `includes('z')` is false. -/
theorem index_of_example :
    METHOD_INDEX_OF sample_equals sample_abc [.str "b"] = .ok (.value (.int 1), sample_abc) ∧
    METHOD_INDEX_OF sample_equals sample_abc [.str "z"] = .ok (.value (.int (-1)), sample_abc) ∧
    METHOD_INCLUDES sample_equals sample_abc [.str "b"] =
      .ok (.value (.bool true), sample_abc) ∧
    METHOD_INCLUDES sample_equals sample_abc [.str "z"] =
      .ok (.value (.bool false), sample_abc) :=
  ⟨rfl, rfl, rfl, rfl⟩

/-! ## The claims on searches, derived lists and folds -/

set_option maxRecDepth 4000

/-- C21 (lastIndexOf).  On a well-formed list with the elements `vs` (size `n`),
`lastIndexOf(v)` returns a number `r` and leaves the list as it is.  `r = -1` exactly
when no element equals `v` (by the engine's `js_value_equals`); otherwise
`0 <= r < n`, the element at index `r` (counted from the head) equals `v` and no
element at a greater index does. -/
theorem last_index_of_spec (js_value_equals : JSValue → JSValue → Bool) (l : LinkedList)
    (vs : List JSValue) (v : JSValue) (hv : Valid l) (ht : toList l = .ok vs) :
    ∃ r : Int, METHOD_LAST_INDEX_OF js_value_equals l [v] = .ok (.value (.int r), l) ∧
      (r = -1 ↔ ∀ w ∈ vs, js_value_equals v w = false) ∧
      (r ≠ -1 → 0 ≤ r ∧ r < vs.length ∧
        (∃ w, vs[r.toNat]? = some w ∧ js_value_equals v w = true) ∧
        ∀ (j : Nat) (u : JSValue), r.toNat < j → vs[j]? = some u →
          js_value_equals v u = false) := by
  obtain ⟨ps, h, hvs, hlen, hsz⟩ := hv.unfold ht
  have hs := h.size_lt
  have e := h.indexof_reverse js_value_equals v
  rw [← hvs] at e
  cases hf : first_hit (fun _ w => js_value_equals v w) 1 vs.reverse 0 with
  | none =>
    rw [hf] at e
    have hnone := (first_hit_none _ _ _ _).1 hf
    refine ⟨-1, ?_, ?_, fun hne => absurd rfl hne⟩
    · simp [METHOD_LAST_INDEX_OF, e, bind, Except.bind, pure, Except.pure]
    · refine ⟨fun _ w hw => ?_, fun _ => rfl⟩
      obtain ⟨j, hj, hjw⟩ := List.getElem_of_mem (List.mem_reverse.2 hw)
      exact hnone j w (by rw [List.getElem?_eq_getElem hj, hjw])
  | some j =>
    rw [hf] at e
    obtain ⟨⟨w, hw, hpw⟩, hbefore⟩ := (first_hit_some _ _ _ _ _).1 hf
    have hjl : j < vs.length := by
      have := (List.getElem?_eq_some_iff.1 hw).1
      simpa using this
    rw [List.getElem?_reverse hjl] at hw
    have e1 : size_t ((l.size : Int) - 1) = vs.length - 1 := by
      rw [hsz, size_t_of_range (by omega) (by omega)]; omega
    have e2 : size_t (((vs.length - 1 : Nat) : Int) - (j : Int)) = vs.length - 1 - j := by
      rw [size_t_of_range (by omega) (by omega)]; omega
    have e3 : int64 ((vs.length - 1 - j : Nat) : Int) = ((vs.length - 1 - j : Nat) : Int) :=
      int64_of_range (by omega) (by omega)
    have hjne : (j : Int) ≠ -1 := by omega
    refine ⟨((vs.length - 1 - j : Nat) : Int), ?_, ?_, fun _ => ⟨by omega, by omega,
      ⟨w, by simpa using hw, hpw⟩, fun i u hi hu => ?_⟩⟩
    · simp [METHOD_LAST_INDEX_OF, e, hjne, e1, e2, e3, bind, Except.bind, pure, Except.pure]
    · constructor
      · intro hr; omega
      · intro hall
        have := hall w (List.getElem?_mem hw)
        rw [this] at hpw
        exact absurd hpw (by simp)
    · simp only [Int.toNat_ofNat] at hi
      have hil : i < vs.length := (List.getElem?_eq_some_iff.1 hu).1
      have hu' : vs.reverse[vs.length - 1 - i]? = some u := by
        rw [List.getElem?_reverse (by omega)]
        rw [show vs.length - 1 - (vs.length - 1 - i) = i by omega]
        exact hu
      exact hbefore (vs.length - 1 - i) u (by omega) hu'

/-- C21, on `[a, b, c]`: `lastIndexOf('b')`. -/
theorem last_index_of_spec_witness :
    ∃ r : Int, METHOD_LAST_INDEX_OF sample_equals sample_abc [.str "b"] =
        .ok (.value (.int r), sample_abc) ∧
      (r = -1 ↔ ∀ w ∈ [JSValue.str "a", .str "b", .str "c"],
        sample_equals (.str "b") w = false) ∧
      (r ≠ -1 → 0 ≤ r ∧ r < [JSValue.str "a", .str "b", .str "c"].length ∧
        (∃ w, [JSValue.str "a", .str "b", .str "c"][r.toNat]? = some w ∧
          sample_equals (.str "b") w = true) ∧
        ∀ (j : Nat) (u : JSValue), r.toNat < j →
          [JSValue.str "a", .str "b", .str "c"][j]? = some u →
          sample_equals (.str "b") u = false) :=
  last_index_of_spec sample_equals sample_abc [.str "a", .str "b", .str "c"] (.str "b")
    sample_abc_wf.valid sample_abc_toList

/-- C22 (findIndex): the code does not return the index of the first match.
On a well-formed list with the elements `vs`, `findIndex(p)` returns a number `r` and
leaves the list as it is; `r = -1` when no element satisfies `p`, and `r = k + 1`
when `k` is the index of the first element that satisfies `p` (the predicate itself
is called with the element and its index `k`).  `list_find_forward` passes `i++` to
the predicate and then returns `i`, the counter after the increment. -/
theorem find_index_off_by_one (JS_ToBool : JSValue → Bool) (fn : JSValue → Int → JSValue)
    (l : LinkedList) (vs : List JSValue) (hv : Valid l) (ht : toList l = .ok vs) :
    ∃ r : Int, METHOD_FIND_INDEX JS_ToBool fn l = .ok (.value (.int r), l) ∧
      ((∀ (j : Nat) (u : JSValue), vs[j]? = some u → JS_ToBool (fn u j) = false) → r = -1) ∧
      ∀ (k : Nat) (w : JSValue), vs[k]? = some w → JS_ToBool (fn w k) = true →
        (∀ (j : Nat) (u : JSValue), j < k → vs[j]? = some u → JS_ToBool (fn u j) = false) →
        r = k + 1 := by
  obtain ⟨ps, h, hvs, hlen, hsz⟩ := hv.unfold ht
  have e := h.find_forward JS_ToBool fn
  rw [← hvs] at e
  have hsome : ∀ (k : Nat) (w : JSValue), vs[k]? = some w → JS_ToBool (fn w k) = true →
      (∀ (j : Nat) (u : JSValue), j < k → vs[j]? = some u → JS_ToBool (fn u j) = false) →
      first_hit (fun i v => JS_ToBool (fn v i)) 1 vs 0 = some k := fun k w hk hp hb =>
    (first_hit_some _ _ _ _ _).2 ⟨⟨w, hk, by simpa using hp⟩,
      fun j u hj hu => by simpa using hb j u hj hu⟩
  have hnone : (∀ (j : Nat) (u : JSValue), vs[j]? = some u → JS_ToBool (fn u j) = false) →
      first_hit (fun i v => JS_ToBool (fn v i)) 1 vs 0 = none := fun hn =>
    (first_hit_none _ _ _ _).2 (fun j u hu => by simpa using hn j u hu)
  cases hf : first_hit (fun i v => JS_ToBool (fn v i)) 1 vs 0 with
  | none =>
    rw [hf] at e
    refine ⟨-1, ?_, fun _ => rfl, fun k w hk hp hb => ?_⟩
    · simp [METHOD_FIND_INDEX, e, bind, Except.bind, pure, Except.pure]
    · rw [hsome k w hk hp hb] at hf
      cases hf
  | some j =>
    rw [hf] at e
    refine ⟨(j : Int) + 1, ?_, fun hn => ?_, fun k w hk hp hb => ?_⟩
    · simp [METHOD_FIND_INDEX, e, bind, Except.bind, pure, Except.pure]
    · rw [hnone hn] at hf
      cases hf
    · rw [hsome k w hk hp hb] at hf
      cases hf
      rfl

/-- C22, on `[a, b, c]`: `findIndex(v => v === 'a')` returns 1 and
`findIndex(v => v === 'c')` returns 3, where the claim has 0 and 2. -/
theorem find_index_off_by_one_witness :
    (∃ r : Int, METHOD_FIND_INDEX sample_JS_ToBool (sample_is (.str "a")) sample_abc =
        .ok (.value (.int r), sample_abc) ∧
      ((∀ (j : Nat) (u : JSValue), [JSValue.str "a", .str "b", .str "c"][j]? = some u →
        sample_JS_ToBool (sample_is (.str "a") u j) = false) → r = -1) ∧
      ∀ (k : Nat) (w : JSValue), [JSValue.str "a", .str "b", .str "c"][k]? = some w →
        sample_JS_ToBool (sample_is (.str "a") w k) = true →
        (∀ (j : Nat) (u : JSValue), j < k →
          [JSValue.str "a", .str "b", .str "c"][j]? = some u →
          sample_JS_ToBool (sample_is (.str "a") u j) = false) →
        r = k + 1) ∧
    METHOD_FIND_INDEX sample_JS_ToBool (sample_is (.str "a")) sample_abc =
      .ok (.value (.int 1), sample_abc) ∧
    METHOD_FIND_INDEX sample_JS_ToBool (sample_is (.str "c")) sample_abc =
      .ok (.value (.int 3), sample_abc) :=
  ⟨find_index_off_by_one sample_JS_ToBool (sample_is (.str "a")) sample_abc
    [.str "a", .str "b", .str "c"] sample_abc_wf.valid sample_abc_toList, rfl, rfl⟩

/-- C23 (findLastIndex): the code does not return the index of the last match.
On a well-formed list with the elements `vs`, `findLastIndex(p)` returns a number `r`
and leaves the list as it is; `r = -1` when no element satisfies `p`, and `r = k - 1`
when `k` is the index of the last element that satisfies `p`: a match at index 0
gives `-1` as well.  `list_find_reverse` passes `i--` to the predicate and then
returns `i`, the counter after the decrement. -/
theorem find_last_index_off_by_one (JS_ToBool : JSValue → Bool)
    (fn : JSValue → Int → JSValue) (l : LinkedList) (vs : List JSValue) (hv : Valid l)
    (ht : toList l = .ok vs) :
    ∃ r : Int, METHOD_FIND_LAST_INDEX JS_ToBool fn l = .ok (.value (.int r), l) ∧
      ((∀ (j : Nat) (u : JSValue), vs[j]? = some u → JS_ToBool (fn u j) = false) → r = -1) ∧
      ∀ (k : Nat) (w : JSValue), vs[k]? = some w → JS_ToBool (fn w k) = true →
        (∀ (j : Nat) (u : JSValue), k < j → vs[j]? = some u → JS_ToBool (fn u j) = false) →
        r = k - 1 := by
  obtain ⟨ps, h, hvs, hlen, hsz⟩ := hv.unfold ht
  have e := h.find_reverse JS_ToBool fn
  rw [← hvs, hlen] at e
  cases hf : first_hit (fun i v => JS_ToBool (fn v i)) (-1) vs.reverse
      ((vs.length : Int) - 1) with
  | none =>
    rw [hf] at e
    refine ⟨-1, ?_, fun _ => rfl, fun k w hk hp hb => ?_⟩
    · simp [METHOD_FIND_LAST_INDEX, e, bind, Except.bind, pure, Except.pure]
    · rw [first_hit_reverse (fun i v => JS_ToBool (fn v i)) vs hk hp hb] at hf
      cases hf
  | some j =>
    rw [hf] at e
    refine ⟨(vs.length : Int) - 1 - j - 1, ?_, fun hn => ?_, fun k w hk hp hb => ?_⟩
    · simp [METHOD_FIND_LAST_INDEX, e, bind, Except.bind, pure, Except.pure]
    · rw [first_hit_reverse_none (fun i v => JS_ToBool (fn v i)) vs hn] at hf
      cases hf
    · have hkl : k < vs.length := (List.getElem?_eq_some_iff.1 hk).1
      rw [first_hit_reverse (fun i v => JS_ToBool (fn v i)) vs hk hp hb] at hf
      cases hf
      omega

/-- C23, on `[a, b, c]`: `findLastIndex(v => v === 'a')` returns -1, as
`findLastIndex(v => v === 'z')` does, and `findLastIndex(v => v === 'c')` returns 1,
where the claim has 0, -1 and 2. -/
theorem find_last_index_off_by_one_witness :
    (∃ r : Int, METHOD_FIND_LAST_INDEX sample_JS_ToBool (sample_is (.str "a")) sample_abc =
        .ok (.value (.int r), sample_abc) ∧
      ((∀ (j : Nat) (u : JSValue), [JSValue.str "a", .str "b", .str "c"][j]? = some u →
        sample_JS_ToBool (sample_is (.str "a") u j) = false) → r = -1) ∧
      ∀ (k : Nat) (w : JSValue), [JSValue.str "a", .str "b", .str "c"][k]? = some w →
        sample_JS_ToBool (sample_is (.str "a") w k) = true →
        (∀ (j : Nat) (u : JSValue), k < j →
          [JSValue.str "a", .str "b", .str "c"][j]? = some u →
          sample_JS_ToBool (sample_is (.str "a") u j) = false) →
        r = k - 1) ∧
    METHOD_FIND_LAST_INDEX sample_JS_ToBool (sample_is (.str "a")) sample_abc =
      .ok (.value (.int (-1)), sample_abc) ∧
    METHOD_FIND_LAST_INDEX sample_JS_ToBool (sample_is (.str "c")) sample_abc =
      .ok (.value (.int 1), sample_abc) ∧
    METHOD_FIND_LAST_INDEX sample_JS_ToBool (sample_is (.str "z")) sample_abc =
      .ok (.value (.int (-1)), sample_abc) :=
  ⟨find_last_index_off_by_one sample_JS_ToBool (sample_is (.str "a")) sample_abc
    [.str "a", .str "b", .str "c"] sample_abc_wf.valid sample_abc_toList, rfl, rfl, rfl⟩

/-- C24 as amended (find and findLast).  On a well-formed list with the
elements `vs`, `find(p)` returns the value of the first element that satisfies `p`
and `findLast(p)` the value of the last one; each returns `undefined` when no element
satisfies `p`; the list is left as it is.  (The converse does not hold: the matching
element may itself hold `undefined`.) -/
theorem find_value_spec (JS_ToBool : JSValue → Bool) (fn : JSValue → Int → JSValue)
    (l : LinkedList) (vs : List JSValue) (hv : Valid l) (ht : toList l = .ok vs) :
    (∃ ret, METHOD_FIND JS_ToBool fn l = .ok (.value ret, l) ∧
      ((∀ (j : Nat) (u : JSValue), vs[j]? = some u → JS_ToBool (fn u j) = false) →
        ret = .undefined) ∧
      ∀ (k : Nat) (w : JSValue), vs[k]? = some w → JS_ToBool (fn w k) = true →
        (∀ (j : Nat) (u : JSValue), j < k → vs[j]? = some u → JS_ToBool (fn u j) = false) →
        ret = w) ∧
    (∃ ret, METHOD_FIND_LAST JS_ToBool fn l = .ok (.value ret, l) ∧
      ((∀ (j : Nat) (u : JSValue), vs[j]? = some u → JS_ToBool (fn u j) = false) →
        ret = .undefined) ∧
      ∀ (k : Nat) (w : JSValue), vs[k]? = some w → JS_ToBool (fn w k) = true →
        (∀ (j : Nat) (u : JSValue), k < j → vs[j]? = some u → JS_ToBool (fn u j) = false) →
        ret = w) := by
  obtain ⟨ps, h, hvs, hlen, hsz⟩ := hv.unfold ht
  constructor
  · have e := h.find_forward JS_ToBool fn
    rw [← hvs] at e
    have hsome : ∀ (k : Nat) (w : JSValue), vs[k]? = some w → JS_ToBool (fn w k) = true →
        (∀ (j : Nat) (u : JSValue), j < k → vs[j]? = some u → JS_ToBool (fn u j) = false) →
        first_hit (fun i v => JS_ToBool (fn v i)) 1 vs 0 = some k := fun k w hk hp hb =>
      (first_hit_some _ _ _ _ _).2 ⟨⟨w, hk, by simpa using hp⟩,
        fun j u hj hu => by simpa using hb j u hj hu⟩
    have hnone : (∀ (j : Nat) (u : JSValue), vs[j]? = some u → JS_ToBool (fn u j) = false) →
        first_hit (fun i v => JS_ToBool (fn v i)) 1 vs 0 = none := fun hn =>
      (first_hit_none _ _ _ _).2 (fun j u hu => by simpa using hn j u hu)
    cases hf : first_hit (fun i v => JS_ToBool (fn v i)) 1 vs 0 with
    | none =>
      rw [hf] at e
      refine ⟨.undefined, ?_, fun _ => rfl, fun k w hk hp hb => ?_⟩
      · simp [METHOD_FIND, list_find_value, e, bind, Except.bind, pure, Except.pure]
      · rw [hsome k w hk hp hb] at hf
        cases hf
    | some j =>
      rw [hf] at e
      obtain ⟨⟨w, hw, -⟩, -⟩ := (first_hit_some _ _ _ _ _).1 hf
      rw [hvs] at hw
      obtain ⟨a, n, ha, hla, hnv⟩ := find_value_at h hw
      refine ⟨w, ?_, fun hn => ?_, fun k w' hk hp hb => ?_⟩
      · simp [METHOD_FIND, list_find_value, e, ha, hla, hnv, bind, Except.bind, pure,
          Except.pure]
      · rw [hnone hn] at hf
        cases hf
      · rw [hsome k w' hk hp hb] at hf
        cases hf
        rw [← hvs, hk] at hw
        exact (Option.some.inj hw).symm
  · have e := h.find_reverse JS_ToBool fn
    rw [← hvs, hlen] at e
    cases hf : first_hit (fun i v => JS_ToBool (fn v i)) (-1) vs.reverse
        ((vs.length : Int) - 1) with
    | none =>
      rw [hf] at e
      refine ⟨.undefined, ?_, fun _ => rfl, fun k w hk hp hb => ?_⟩
      · simp [METHOD_FIND_LAST, list_find_value, e, bind, Except.bind, pure, Except.pure]
      · rw [first_hit_reverse (fun i v => JS_ToBool (fn v i)) vs hk hp hb] at hf
        cases hf
    | some j =>
      rw [hf] at e
      obtain ⟨⟨w, hw, -⟩, -⟩ := (first_hit_some _ _ _ _ _).1 hf
      have hjl : j < vs.length := by
        have := (List.getElem?_eq_some_iff.1 hw).1
        simpa using this
      have hw2 := hw
      rw [List.getElem?_reverse hjl, hvs] at hw2
      obtain ⟨a, n, ha, hla, hnv⟩ := find_value_at h hw2
      have ha' : ps.reverse[j]? = some a := by
        rw [List.getElem?_reverse (by omega), hlen]
        rw [← hvs] at ha
        exact ha
      refine ⟨w, ?_, fun hn => ?_, fun k w' hk hp hb => ?_⟩
      · simp [METHOD_FIND_LAST, list_find_value, e, ha', hla, hnv, bind, Except.bind, pure,
          Except.pure]
      · rw [first_hit_reverse_none (fun i v => JS_ToBool (fn v i)) vs hn] at hf
        cases hf
      · have hkl : k < vs.length := (List.getElem?_eq_some_iff.1 hk).1
        rw [first_hit_reverse (fun i v => JS_ToBool (fn v i)) vs hk hp hb] at hf
        cases hf
        rw [List.getElem?_reverse (by omega)] at hw
        rw [show vs.length - 1 - (vs.length - 1 - k) = k by omega, hk] at hw
        exact (Option.some.inj hw).symm

/-- C24 as amended, on `[a, b, c]` with the predicate `v => v === 'b'`. -/
theorem find_value_spec_witness :
    (∃ ret, METHOD_FIND sample_JS_ToBool (sample_is (.str "b")) sample_abc =
        .ok (.value ret, sample_abc) ∧
      ((∀ (j : Nat) (u : JSValue), [JSValue.str "a", .str "b", .str "c"][j]? = some u →
        sample_JS_ToBool (sample_is (.str "b") u j) = false) → ret = .undefined) ∧
      ∀ (k : Nat) (w : JSValue), [JSValue.str "a", .str "b", .str "c"][k]? = some w →
        sample_JS_ToBool (sample_is (.str "b") w k) = true →
        (∀ (j : Nat) (u : JSValue), j < k →
          [JSValue.str "a", .str "b", .str "c"][j]? = some u →
          sample_JS_ToBool (sample_is (.str "b") u j) = false) →
        ret = w) ∧
    (∃ ret, METHOD_FIND_LAST sample_JS_ToBool (sample_is (.str "b")) sample_abc =
        .ok (.value ret, sample_abc) ∧
      ((∀ (j : Nat) (u : JSValue), [JSValue.str "a", .str "b", .str "c"][j]? = some u →
        sample_JS_ToBool (sample_is (.str "b") u j) = false) → ret = .undefined) ∧
      ∀ (k : Nat) (w : JSValue), [JSValue.str "a", .str "b", .str "c"][k]? = some w →
        sample_JS_ToBool (sample_is (.str "b") w k) = true →
        (∀ (j : Nat) (u : JSValue), k < j →
          [JSValue.str "a", .str "b", .str "c"][j]? = some u →
          sample_JS_ToBool (sample_is (.str "b") u j) = false) →
        ret = w) :=
  find_value_spec sample_JS_ToBool (sample_is (.str "b")) sample_abc
    [.str "a", .str "b", .str "c"] sample_abc_wf.valid sample_abc_toList

/-- C24 as stated fails.  The write `list[1] = 'x'` on the empty list gives
`[undefined, x]`; the predicate `v => v === undefined` is satisfied by the element
at index 0, and both `find` and `findLast` return `undefined`: the result
`undefined` does not tell that no element satisfies the predicate. -/
theorem find_undefined_counterexample :
    ∃ l, js_list_set_property sample_empty (some 1) (.str "x") = .ok (true, l) ∧
      toList l = .ok [.undefined, .str "x"] ∧
      sample_JS_ToBool (sample_is .undefined .undefined 0) = true ∧
      METHOD_FIND sample_JS_ToBool (sample_is .undefined) l = .ok (.value .undefined, l) ∧
      METHOD_FIND_LAST sample_JS_ToBool (sample_is .undefined) l =
        .ok (.value .undefined, l) :=
  ⟨_, rfl, rfl, rfl, rfl, rfl⟩

/-- C26 (slice).  On a well-formed list with the elements `vs` (size `n`), let
`s` and `e` be the numbers that `start` and `end` convert to (0 and `n` when the
argument is absent), and let the context grant the allocations.  `slice(start, end)`
leaves the list as it is and returns a new list whose elements are
`(vs.take e').drop s'`, where `s'` and `e'` are `s` and `e` with `n` added when
negative and then cut off at 0: its `j`-th element is `vs[s' + j]` as long as
`s' + j < e'`, so it holds exactly the elements at the indices
`max(0, s') <= i < min(n, e')` in their order, and none when that range is empty. -/
theorem slice_spec (JS_ToInt64 : JSValue → Option Int) (ctx : Nat) (l : LinkedList)
    (vs argv : List JSValue) (s e : Int) (hv : Valid l) (ht : toList l = .ok vs)
    (hs : (if argv.length > 0 then JS_ToInt64 (argv.getD 0 .undefined) else some 0) = some s)
    (he : (if argv.length > 1 then JS_ToInt64 (argv.getD 1 .undefined)
      else some (vs.length : Int)) = some e)
    (hs1 : -2 ^ 63 ≤ s) (hs2 : s < 2 ^ 63) (he1 : -2 ^ 63 ≤ e) (he2 : e < 2 ^ 63)
    (hctx : vs.length < ctx) (hc : ctx < 2 ^ 63) :
    ∃ other, METHOD_SLICE JS_ToInt64 ctx l argv = .ok (.list other, l) ∧ Valid other ∧
      toList other = .ok ((vs.take (norm_index vs.length e).toNat).drop
        (norm_index vs.length s).toNat) ∧
      ∀ (j : Nat) (w : JSValue),
        ((vs.take (norm_index vs.length e).toNat).drop (norm_index vs.length s).toNat)[j]? =
          some w ↔
        (vs[(norm_index vs.length s).toNat + j]? = some w ∧
          ((norm_index vs.length s).toNat + j : Int) < norm_index vs.length e) := by
  obtain ⟨ps, h, hvs, hlen, hsz⟩ := hv.unfold ht
  rw [← hlen] at he
  obtain ⟨other, qs, e1, hw, hv1, -⟩ := method_slice_eq JS_ToInt64 h (by omega) hc argv hs he
    hs1 hs2 he1 he2
  rw [← hvs, hlen] at hv1
  have hle : ((vs.take (norm_index vs.length e).toNat).drop
      (norm_index vs.length s).toNat).length ≤ ctx - 1 := by
    simp only [List.length_drop, List.length_take]
    omega
  rw [List.take_of_length_le hle] at hv1
  refine ⟨other, e1, hw.valid, by rw [hw.toLinked.toList_eq, hv1], fun j w => ?_⟩
  rw [List.getElem?_drop, List.getElem?_take]
  constructor
  · intro hj
    split_ifs at hj with hlt
    exact ⟨hj, by omega⟩
  · rintro ⟨hj, hlt⟩
    rw [if_pos (by omega)]
    exact hj

/-- C26, on `[a, b, c]`: `slice(1, -1)`. -/
theorem slice_spec_witness :
    ∃ other, METHOD_SLICE sample_JS_ToInt64 8 sample_abc [.int 1, .int (-1)] =
        .ok (.list other, sample_abc) ∧ Valid other ∧
      toList other = .ok (([JSValue.str "a", .str "b", .str "c"].take
        (norm_index [JSValue.str "a", .str "b", .str "c"].length (-1)).toNat).drop
        (norm_index [JSValue.str "a", .str "b", .str "c"].length 1).toNat) ∧
      ∀ (j : Nat) (w : JSValue),
        (([JSValue.str "a", .str "b", .str "c"].take
          (norm_index [JSValue.str "a", .str "b", .str "c"].length (-1)).toNat).drop
          (norm_index [JSValue.str "a", .str "b", .str "c"].length 1).toNat)[j]? = some w ↔
        ([JSValue.str "a", .str "b", .str "c"][
            (norm_index [JSValue.str "a", .str "b", .str "c"].length 1).toNat + j]? = some w ∧
          ((norm_index [JSValue.str "a", .str "b", .str "c"].length 1).toNat + j : Int) <
            norm_index [JSValue.str "a", .str "b", .str "c"].length (-1)) :=
  slice_spec sample_JS_ToInt64 8 sample_abc [.str "a", .str "b", .str "c"]
    [.int 1, .int (-1)] 1 (-1) sample_abc_wf.valid sample_abc_toList rfl rfl
    (by norm_num) (by norm_num) (by norm_num) (by norm_num) (by decide) (by norm_num)

/-- C27 (reduce and reduceRight): the code drops a reference on every payload
it visits.  On a well-formed list with the elements `vs`, in a context that grants
one allocation and in every engine, `reduce(f, seed)` takes a reference on the seed
(`undefined` when there is none) and then, for each element in order with its index,
calls the callback and drops one reference on the accumulator it handed in and one
on the element, the payload `node->value`; `reduceRight` does the same from the last
element to the first.  The list is handed back as it is, still storing every
payload, on which no reference was taken: each payload is left with one reference
fewer than it has holders. -/
theorem reduce_releases_payloads {E : Type}
    (JS_Call : E → JSValue → JSValue → Int → Except Fault (JSValue × E))
    (JS_DupValue JS_FreeValue : E → JSValue → E) (ctx : Nat) (l : LinkedList)
    (vs : List JSValue) (f : JSValue) (seed : Option JSValue) (e : E) (hv : Valid l)
    (ht : toList l = .ok vs) (hctx : ctx ≠ 0) :
    METHOD_REDUCE JS_Call JS_DupValue JS_FreeValue ctx l (f :: seed.toList) e =
      (reduce_steps JS_Call JS_FreeValue vs.enum (seed.getD .undefined)
        (JS_DupValue e (seed.getD .undefined))).map (fun r => (JSRet.value r.1, l, r.2)) ∧
    METHOD_REDUCE_RIGHT JS_Call JS_DupValue JS_FreeValue ctx l (f :: seed.toList) e =
      (reduce_steps JS_Call JS_FreeValue vs.enum.reverse (seed.getD .undefined)
        (JS_DupValue e (seed.getD .undefined))).map (fun r => (JSRet.value r.1, l, r.2)) := by
  obtain ⟨ps, h, hvs, hlen, hsz⟩ := hv.unfold ht
  rw [hvs]
  exact method_reduce_steps JS_Call JS_DupValue JS_FreeValue ctx h f seed e hctx

/-- C27, on `List.of([1,'a'], [1,'b'], [0,'c'])`, whose three arrays carry the
list's reference only, with the callback `(acc, v, i) => acc + i` and the seed 0:
`reduce` returns 3 and leaves the three arrays without a reference while the list
still stores them; a second `reduce`, or a `reduceRight`, hands a released array to
the engine. -/
theorem reduce_releases_payloads_witness :
    (METHOD_REDUCE (sample_JS_Call sample_tally) sample_JS_DupValue sample_JS_FreeValue 8
        sample_pairs (.str "f" :: (some (JSValue.int 0)).toList) sample_refs =
      (reduce_steps (sample_JS_Call sample_tally) sample_JS_FreeValue
        [JSValue.pair (.int 1) (.str "a"), .pair (.int 1) (.str "b"),
          .pair (.int 0) (.str "c")].enum ((some (JSValue.int 0)).getD .undefined)
        (sample_JS_DupValue sample_refs ((some (JSValue.int 0)).getD .undefined))).map
          (fun r => (JSRet.value r.1, sample_pairs, r.2)) ∧
      METHOD_REDUCE_RIGHT (sample_JS_Call sample_tally) sample_JS_DupValue sample_JS_FreeValue
        8 sample_pairs (.str "f" :: (some (JSValue.int 0)).toList) sample_refs =
      (reduce_steps (sample_JS_Call sample_tally) sample_JS_FreeValue
        [JSValue.pair (.int 1) (.str "a"), .pair (.int 1) (.str "b"),
          .pair (.int 0) (.str "c")].enum.reverse
        ((some (JSValue.int 0)).getD .undefined)
        (sample_JS_DupValue sample_refs ((some (JSValue.int 0)).getD .undefined))).map
          (fun r => (JSRet.value r.1, sample_pairs, r.2))) ∧
    ∃ e', METHOD_REDUCE (sample_JS_Call sample_tally) sample_JS_DupValue sample_JS_FreeValue 8
        sample_pairs [.str "f", .int 0] sample_refs = .ok (.value (.int 3), sample_pairs, e') ∧
      sample_refs (.pair (.int 1) (.str "a")) = 1 ∧ e' (.pair (.int 1) (.str "a")) = 0 ∧
      e' (.pair (.int 1) (.str "b")) = 0 ∧ e' (.pair (.int 0) (.str "c")) = 0 ∧
      toList sample_pairs =
        .ok [.pair (.int 1) (.str "a"), .pair (.int 1) (.str "b"), .pair (.int 0) (.str "c")] ∧
      METHOD_REDUCE (sample_JS_Call sample_tally) sample_JS_DupValue sample_JS_FreeValue 8
        sample_pairs [.str "f", .int 0] e' = .error .use_after_free ∧
      METHOD_REDUCE_RIGHT (sample_JS_Call sample_tally) sample_JS_DupValue sample_JS_FreeValue
        8 sample_pairs [.str "f", .int 0] e' = .error .use_after_free :=
  ⟨reduce_releases_payloads (sample_JS_Call sample_tally) sample_JS_DupValue
      sample_JS_FreeValue 8 sample_pairs _ (.str "f")
      (some (.int 0)) sample_refs sample_pairs_wf.valid sample_pairs_toList (by decide),
    _, rfl, rfl, rfl, rfl, rfl, sample_pairs_toList, rfl, rfl⟩

/-- The value of `reduce` and `reduceRight` when every call of the callback returns:
the left fold and the right-to-left fold of the claim. -/
theorem reduce_value_is_fold {E : Type}
    (JS_Call : E → JSValue → JSValue → Int → Except Fault (JSValue × E))
    (JS_DupValue JS_FreeValue : E → JSValue → E) (fn : JSValue → JSValue → Int → JSValue)
    (ctx : Nat) (l : LinkedList) (vs : List JSValue) (f : JSValue) (seed : Option JSValue)
    (e : E) (hv : Valid l) (ht : toList l = .ok vs) (hctx : ctx ≠ 0)
    (hc : ∀ e acc v i, ∃ e', JS_Call e acc v i = .ok (fn acc v i, e')) :
    (∃ e', METHOD_REDUCE JS_Call JS_DupValue JS_FreeValue ctx l (f :: seed.toList) e =
      .ok (.value (vs.enum.foldl (fun acc p => fn acc p.2 (p.1 : Int))
        (seed.getD .undefined)), l, e')) ∧
    ∃ e', METHOD_REDUCE_RIGHT JS_Call JS_DupValue JS_FreeValue ctx l (f :: seed.toList) e =
      .ok (.value (vs.enum.reverse.foldl (fun acc p => fn acc p.2 (p.1 : Int))
        (seed.getD .undefined)), l, e') := by
  obtain ⟨ps, h, hvs, hlen, hsz⟩ := hv.unfold ht
  obtain ⟨h1, h2⟩ := method_reduce_steps JS_Call JS_DupValue JS_FreeValue ctx h f seed e hctx
  rw [← hvs] at h1 h2
  constructor
  · obtain ⟨e', he⟩ := reduce_steps_value JS_FreeValue hc vs.enum (seed.getD .undefined)
      (JS_DupValue e (seed.getD .undefined))
    exact ⟨e', by rw [h1, he]; rfl⟩
  · obtain ⟨e', he⟩ := reduce_steps_value JS_FreeValue hc vs.enum.reverse
      (seed.getD .undefined) (JS_DupValue e (seed.getD .undefined))
    exact ⟨e', by rw [h2, he]; rfl⟩

/-- The value of `reduce` and `reduceRight` on `[a, b, c]` with the seed `0`, a
callback that records its arguments and an engine without reference counts. -/
theorem reduce_value_is_fold_witness :
    (∃ e', METHOD_REDUCE (fun (e : Unit) acc v i => .ok (sample_step acc v i, e))
        (fun e _ => e) (fun e _ => e) 8 sample_abc
        (.str "f" :: (some (JSValue.int 0)).toList) () =
      .ok (.value ([JSValue.str "a", .str "b", .str "c"].enum.foldl
        (fun acc p => sample_step acc p.2 (p.1 : Int))
        ((some (JSValue.int 0)).getD .undefined)), sample_abc, e')) ∧
    ∃ e', METHOD_REDUCE_RIGHT (fun (e : Unit) acc v i => .ok (sample_step acc v i, e))
        (fun e _ => e) (fun e _ => e) 8 sample_abc
        (.str "f" :: (some (JSValue.int 0)).toList) () =
      .ok (.value ([JSValue.str "a", .str "b", .str "c"].enum.reverse.foldl
        (fun acc p => sample_step acc p.2 (p.1 : Int))
        ((some (JSValue.int 0)).getD .undefined)), sample_abc, e') :=
  reduce_value_is_fold (fun (e : Unit) acc v i => .ok (sample_step acc v i, e))
    (fun e _ => e) (fun e _ => e) sample_step 8 sample_abc [.str "a", .str "b", .str "c"]
    (.str "f") (some (.int 0)) () sample_abc_wf.valid sample_abc_toList (by decide)
    (fun e _ _ _ => ⟨e, rfl⟩)

/-- C28 (insert with a foreign iterator).  Let `l` be any list, at the address
`p`, and `m` a well-formed list that is alive, at another address `q`.  Take any
sequence of iterator operations on `m` (creating iterators of any kind and direction,
calling `next()` on them, disposing of them) and any iterator `it` that is live
afterwards.  `m` still has its elements and its size, and `l.insert(it, v1, .., vk)`
throws the reference error "Iterator not from this list" and hands `l` back exactly
as it was (elements, size, every cell).  The call compares `iter->list` with the
receiver's address and returns before it reads the iterator's node or either list,
which is why the memory of `m` is not among what the call is given. -/
theorem insert_foreign_iterator (p q : Nat) (l m : LinkedList) (ws : List JSValue)
    (ops : List IterOp) (argv : List JSValue) (hm : Valid m) (htm : toList m = .ok ws)
    (hr : 1 ≤ m.ref_count) (hq : q ≠ p) :
    ∀ mc its, iter_run q ops (m, []) = .ok (mc, its) →
      toList mc = .ok ws ∧ mc.size = m.size ∧
      ∀ it ∈ its, it.list = some q ∧
        METHOD_INSERT p l (some it) argv =
          .ok (.reference_error "Iterator not from this list", l) := by
  intro mc its e
  obtain ⟨ps, h, hvs, hlen, hsz⟩ := hm.unfold htm
  obtain ⟨hl, hpl⟩ := (iter_run_inv h hr ops (iter_inv_init q m ps)).1 _ e
  simp only at hl hpl
  refine ⟨?_, hl.sz_eq, fun it hit => ?_⟩
  · rw [(hl.linked h.toLinked).toList_eq, hvs]
    exact congrArg Except.ok (vals_congr (fun a _ => hl.val_eq a))
  · obtain ⟨hlist, -⟩ := hpl it hit
    refine ⟨hlist, ?_⟩
    have hne : ¬ q = p := hq
    simp [METHOD_INSERT, hlist, hne, pure, Except.pure]

/-- C28, with `[a, b, c]` at the address 0 and the list of pairs at the address 1:
after the sample run of iterators over the list of pairs two iterators are live, one
on its head and one on its second node, and `insert` on `[a, b, c]` refuses each of
them and leaves `[a, b, c]` as it was; an iterator of `[a, b, c]` itself in the same
state is accepted. -/
theorem insert_foreign_iterator_witness :
    ∃ mc its, iter_run 1 sample_iter_ops (sample_pairs, []) = .ok (mc, its) ∧
      its.map (fun it => it.node) = [some 0, some 2] ∧
      (toList mc = .ok [.pair (.int 1) (.str "a"), .pair (.int 1) (.str "b"),
          .pair (.int 0) (.str "c")] ∧
        mc.size = sample_pairs.size ∧
        ∀ it ∈ its, it.list = some 1 ∧
          METHOD_INSERT 0 sample_abc (some it) [.undefined, .str "x"] =
            .ok (.reference_error "Iterator not from this list", sample_abc)) ∧
      ∃ lc its0 l', iter_run 0 sample_iter_ops (sample_abc, []) = .ok (lc, its0) ∧
        METHOD_INSERT 0 lc its0[1]? [.undefined, .str "x"] = .ok (.value .undefined, l') ∧
        toList l' = .ok [.str "a", .str "b", .str "x", .str "c"] :=
  ⟨_, _, rfl, rfl,
    insert_foreign_iterator 0 1 sample_abc sample_pairs _ sample_iter_ops
      [.undefined, .str "x"] sample_pairs_wf.valid sample_pairs_toList (by decide)
      (by decide) _ _ rfl,
    _, _, _, rfl, rfl, rfl⟩

/-- C29 (negative write beyond the front).  On a well-formed list with the
elements `vs` (size `n`), for an index `i < -n` and a context that grants the `-i`
node allocations, the indexed write `set(i, v)` gives a well-formed list of size
`n + (-i)` (the nodes reachable from the head are as many) with the elements
`[v] ++ (-i - 1 times undefined) ++ vs`. -/
theorem negative_write_prepends (l : LinkedList) (vs : List JSValue) (i : Int) (v : JSValue)
    (hv : Valid l) (ht : toList l = .ok vs) (hi : i < -(l.size : Int))
    (hmem : -i ≤ l.avail) :
    ∃ l', js_list_set_property l (some i) v = .ok (true, l') ∧ Valid l' ∧
      (l'.size : Int) = l.size + -i ∧ count_forward l' = .ok l'.size ∧
      toList l' = .ok ([v] ++ List.replicate (-i - 1).toNat .undefined ++ vs) := by
  obtain ⟨ps, h, hvs, hlen, hsz⟩ := hv.unfold ht
  have hs := h.size_lt
  have hse := h.size_eq
  have e0 : (-1 - i).toNat = (-i - 1).toNat := by congr 1; ring
  obtain ⟨l1, qs, e1, h1, hq, hv1, ha1, -⟩ := pad_head_wf (-i - 1).toNat h (by omega)
  obtain ⟨l2, e2, h2, hv2, -⟩ := wf_unshift v h1 (by omega)
  refine ⟨l2, ?_, h2.valid, ?_, ?_, ?_⟩
  · unfold js_list_set_property
    simp only []
    rw [if_neg (by rw [h.int64_size]; omega), if_pos (by omega), e0]
    simp only [e1, e2, bind, Except.bind, pure, Except.pure]
  · rw [h2.size_eq, hse]
    simp only [List.length_cons, List.length_append, hq]
    push_cast
    omega
  · rw [h2.toLinked.count_forward_eq, h2.size_eq]
  · rw [h2.toLinked.toList_eq, hv2, hv1, ← hvs]
    simp

/-- C29, on `[a, b, c]`: `list[-4] = 'x'` gives
`[x, undefined, undefined, undefined, a, b, c]`. -/
theorem negative_write_prepends_witness :
    ∃ l', js_list_set_property sample_abc (some (-4)) (.str "x") = .ok (true, l') ∧ Valid l' ∧
      (l'.size : Int) = sample_abc.size + - -4 ∧ count_forward l' = .ok l'.size ∧
      toList l' = .ok ([.str "x"] ++ List.replicate ((- -4 : Int) - 1).toNat .undefined ++
        [.str "a", .str "b", .str "c"]) :=
  negative_write_prepends sample_abc [.str "a", .str "b", .str "c"] (-4) (.str "x")
    sample_abc_wf.valid sample_abc_toList (by decide) (by decide)

/-- C30 (nearest-end indexing is forward indexing).  On a well-formed list of
size `n`, for every `int64` index, `list_at(list, index)` returns what
`list_at_forward(list, index')` returns, where `index'` is `index + n` for a
negative index and `index` otherwise: with `ps` the nodes in head-to-tail order, the
node `ps[index']` when `0 <= index' < n` and `NULL` otherwise. -/
theorem at_equals_forward (l : LinkedList) (index : Int) (hv : Valid l)
    (h1 : -2 ^ 63 ≤ index) (h2 : index < 2 ^ 63) :
    list_at l index = list_at_forward l (if index < 0 then index + l.size else index) ∧
    ∃ ps, WF l ps ∧
      list_at l index =
        .ok (if 0 ≤ (if index < 0 then index + l.size else index) ∧
            (if index < 0 then index + l.size else index) < l.size
          then ps[(if index < 0 then index + l.size else index).toNat]? else none) := by
  obtain ⟨ps, h⟩ := hv
  have hse := h.size_eq
  have e := h.list_at_eq h1 h2
  have hn : norm_index ps.length index = (if index < 0 then index + l.size else index) := by
    rw [hse]; rfl
  rw [hn] at e
  refine ⟨?_, ps, h, ?_⟩
  · rw [e, h.toLinked.at_forward]
    rfl
  · rw [e]
    unfold nth?
    generalize (if index < 0 then index + (l.size : Int) else index) = j
    by_cases hj : j < 0
    · rw [if_pos hj, if_neg (by omega)]
    · rw [if_neg hj]
      by_cases hj2 : j < l.size
      · rw [if_pos ⟨by omega, hj2⟩]
      · rw [if_neg (by omega)]
        exact congrArg _ (List.getElem?_eq_none (by omega))

/-- C30, on `[a, b, c]` with the index `-1`. -/
theorem at_equals_forward_witness :
    list_at sample_abc (-1) =
      list_at_forward sample_abc (if (-1 : Int) < 0 then -1 + sample_abc.size else -1) ∧
    ∃ ps, WF sample_abc ps ∧
      list_at sample_abc (-1) =
        .ok (if 0 ≤ (if (-1 : Int) < 0 then -1 + (sample_abc.size : Int) else -1) ∧
            (if (-1 : Int) < 0 then -1 + (sample_abc.size : Int) else -1) < sample_abc.size
          then ps[(if (-1 : Int) < 0 then -1 + (sample_abc.size : Int) else -1).toNat]?
          else none) :=
  at_equals_forward sample_abc (-1) sample_abc_wf.valid (by norm_num) (by norm_num)

/-! ## The claims on splice, sort, insertion, exhausted iterators, the byte queue and tokens -/

/-- C31 (interior splice).  On a well-formed list with the elements `vs` (size
`n`), let `start >= 0` and `deleteCount >= 0` be the numbers the first two arguments
convert to, with `start + deleteCount < n`, and let the allocations be granted
(`deleteCount + 1` by the context for the returned list, one per item by the
receiver).  `splice(start, deleteCount, ...xs)` returns a new well-formed list with
the elements `vs[start], .., vs[start + deleteCount - 1]`, leaves the receiver
well-formed with the elements `vs[0..start) ++ xs ++ vs[start + deleteCount..n)`, and
the receiver's size is `n - deleteCount + |xs|`. -/
theorem interior_splice (JS_ToInt64 : JSValue → Option Int) (ctx : Nat) (l : LinkedList)
    (vs : List JSValue) (x y : JSValue) (xs : List JSValue) (start del : Int)
    (hv : Valid l) (ht : toList l = .ok vs)
    (hx : JS_ToInt64 x = some start) (hy : JS_ToInt64 y = some del)
    (h0 : 0 ≤ start) (hd : 0 ≤ del) (hlt : start + del < vs.length)
    (hctx : del < ctx) (hc : ctx < 2 ^ 63) (hav : xs.length ≤ l.avail) :
    ∃ other l', METHOD_SPLICE JS_ToInt64 ctx l (x :: y :: xs) = .ok (.list other, l') ∧
      Valid other ∧ Valid l' ∧
      toList other = .ok ((vs.drop start.toNat).take del.toNat) ∧
      toList l' = .ok (vs.take start.toNat ++ xs ++ vs.drop (start + del).toNat) ∧
      (l'.size : Int) = vs.length - del + xs.length := by
  obtain ⟨ps, h, hvs, hlen, hsz⟩ := hv.unfold ht
  have hs := h.size_lt
  obtain ⟨o, eo, hwo, hao, -⟩ := @list_new_wf ctx (by omega) hc
  obtain ⟨nh, hnh, hnx, -⟩ := h.toLinked.head_mem
  obtain ⟨p, hp⟩ := h.mem_of_headD [] ps rfl
  have hnext : ∀ z zs, ps = z :: zs → p.next = some (zs.headD 0) := by
    intro z zs e
    subst e
    obtain ⟨-, -, m3, -⟩ := chain_mid (s := []) (by simpa using h.chain)
    obtain ⟨p', hp', hpn⟩ := nxt_some m3
    simp only [List.headD_cons] at hp
    rw [hp] at hp'
    cases hp'
    exact hpn
  have hi1 : list_index l start = start := by
    unfold list_index; rw [if_neg (by omega)]
  have hi2 : list_index l (int64 (start + del)) = start + del := by
    rw [int64_of_range (by omega) (by omega)]
    unfold list_index; rw [if_neg (by omega)]
  obtain ⟨list', other', qs', e, hw', hval', hwo', hvo', hav'⟩ :=
    splice_loop_interior start (start + del) ps [] l.brk p.next 0 none l o [] (by simpa using h)
      hwo h.len hnext (le_refl _) (by omega) (by omega) (by omega) (by omega)
      (by
        simp only [sub_zero, List.length_drop, List.length_take, hao]
        omega)
  simp only [sub_zero, List.nil_append] at e hw' hval' hwo' hvo'
  have hel : (start + del).toNat < ps.length := by omega
  obtain ⟨c, hc1⟩ : ∃ c, ps[(start + del).toNat]? = some c :=
    ⟨ps[(start + del).toNat], List.getElem?_eq_getElem hel⟩
  have hdrop : ps.drop (start + del).toNat = c :: ps.drop ((start + del).toNat + 1) := by
    rw [List.drop_eq_getElem_cons hel]
    congr 1
    exact Option.some.inj (by rw [← hc1, List.getElem?_eq_getElem hel])
  rw [hc1] at e
  have hw2 := hw'
  rw [hdrop] at hw2
  obtain ⟨-, m2, -, -⟩ := chain_mid hw2.chain
  obtain ⟨nc, hnc, hncp⟩ := prv_some m2
  obtain ⟨r, l2, qs, e2, hwl2, hvl2, hq2, -⟩ := insert_loop_wf xs hw'
  rw [hav', List.take_of_length_le hav] at hvl2
  have hvs1 : vals list' (ps.take start.toNat) = vals l (ps.take start.toNat) :=
    vals_congr (fun a ha => hval' a (List.mem_append_left _ ha))
  have hvs2 : vals list' (ps.drop (start + del).toNat) = vals l (ps.drop (start + del).toNat) :=
    vals_congr (fun a ha => hval' a (List.mem_append_right _ ha))
  refine ⟨other', l2, ?_, hwo'.valid, hwl2.valid, ?_, ?_, ?_⟩
  · unfold METHOD_SPLICE
    simp only [List.length_cons, gt_iff_lt, Nat.zero_lt_succ, if_true, List.getD_cons_zero,
      List.getD_cons_succ, hx, hy, Nat.lt_add_left_iff_pos, hi1, hi2, eo, load_some hnh, hnx,
      load_some hp, bind, Except.bind, e, load_some hnc, hncp, List.drop_succ_cons,
      List.drop_zero, e2, pure, Except.pure]
  · rw [hwo'.toLinked.toList_eq, hvo', hvs]
    simp only [vals, List.map_nil, List.nil_append, List.map_drop, List.map_take]
    rw [List.drop_take, show (start + del).toNat - start.toNat = del.toNat by omega]
  · rw [hwl2.toLinked.toList_eq, hvl2, hvs1, hvs2, hvs]
    simp [vals, List.map_take, List.map_drop]
  · rw [hwl2.size_eq]
    simp only [List.length_append, List.length_take, List.length_drop, hq2, hav']
    rw [← hlen]
    omega

/-- C31, on `[a, b, c]`: `splice(1, 1, 'x', 'y')`. -/
theorem interior_splice_witness :
    ∃ other l', METHOD_SPLICE sample_JS_ToInt64 8 sample_abc
        (.int 1 :: .int 1 :: [.str "x", .str "y"]) = .ok (.list other, l') ∧
      Valid other ∧ Valid l' ∧
      toList other = .ok (([JSValue.str "a", .str "b", .str "c"].drop (1 : Int).toNat).take
        (1 : Int).toNat) ∧
      toList l' = .ok ([JSValue.str "a", .str "b", .str "c"].take (1 : Int).toNat ++
        [.str "x", .str "y"] ++
        [JSValue.str "a", .str "b", .str "c"].drop ((1 : Int) + 1).toNat) ∧
      (l'.size : Int) = [JSValue.str "a", .str "b", .str "c"].length - 1 +
        [JSValue.str "x", .str "y"].length :=
  interior_splice sample_JS_ToInt64 8 sample_abc [.str "a", .str "b", .str "c"] (.int 1)
    (.int 1) [.str "x", .str "y"] 1 1 sample_abc_wf.valid sample_abc_toList rfl rfl
    (by norm_num) (by norm_num) (by decide) (by norm_num) (by norm_num) (by decide)

/-- C32 (sort is a permutation).  On a well-formed list with the elements `vs`,
for every comparator (whatever numbers it returns) and a context that grants the
`n + 1` allocations, `sort` leaves the receiver as it is and returns a new
well-formed list of the same size whose elements are a permutation of `vs`: every
value occurs as often as in the receiver. -/
theorem sort_permutation (pred : JSValue → JSValue → Int) (ctx : Nat) (l : LinkedList)
    (vs : List JSValue) (hv : Valid l) (ht : toList l = .ok vs) (hctx : vs.length < ctx)
    (hc : ctx < 2 ^ 63) :
    ∃ other ws, METHOD_SORT pred ctx l = .ok (.list other, l) ∧ Valid other ∧
      toList other = .ok ws ∧ other.size = l.size ∧ ws.length = vs.length ∧ ws.Perm vs ∧
      ∀ v, ws.count v = vs.count v := by
  obtain ⟨ps, h, hvs, hlen, hsz⟩ := hv.unfold ht
  obtain ⟨other, qs, e, hw, hvq⟩ := method_sort_eq pred h (c := ctx) (by omega) hc
  rw [← hvs, List.take_of_length_le (by omega)] at hvq
  have hp := sort_spec_perm pred vs
  refine ⟨other, vals other qs, e, hw.valid, hw.toLinked.toList_eq, ?_, ?_, ?_, ?_⟩
  · rw [hw.size_eq, hsz, ← vals_length other qs, hvq]
    exact hp.length_eq
  · rw [hvq]; exact hp.length_eq
  · rw [hvq]; exact hp
  · intro v
    rw [hvq]
    exact hp.count_eq v

/-- C32, on `[(1, a), (1, b), (0, c)]` sorted by the first component. -/
theorem sort_permutation_witness :
    ∃ other ws, METHOD_SORT sample_pred 8 sample_pairs = .ok (.list other, sample_pairs) ∧
      Valid other ∧ toList other = .ok ws ∧ other.size = sample_pairs.size ∧
      ws.length = [JSValue.pair (.int 1) (.str "a"), .pair (.int 1) (.str "b"),
        .pair (.int 0) (.str "c")].length ∧
      ws.Perm [JSValue.pair (.int 1) (.str "a"), .pair (.int 1) (.str "b"),
        .pair (.int 0) (.str "c")] ∧
      ∀ v, ws.count v = [JSValue.pair (.int 1) (.str "a"), .pair (.int 1) (.str "b"),
        .pair (.int 0) (.str "c")].count v :=
  sort_permutation sample_pred 8 sample_pairs _ sample_pairs_wf.valid sample_pairs_toList
    (by decide) (by norm_num)

/-- C33 (insert at an iterator position).  On a well-formed list with the
elements `vs` (size `n`), let the iterator belong to the list and let the list grant
one allocation per value.  When the iterator is on the node at index `j < n`,
`insert(iterator, v1, .., vk)` leaves the list well-formed with the elements
`vs[0..j] ++ [v1, .., vk] ++ vs[j+1..n)` and the size `n + k`.  When the iterator is a
forward iterator that was not advanced yet, or is on the head, the list becomes
`[v1, .., vk] ++ vs`. -/
theorem insert_at_iterator (p : Nat) (l : LinkedList) (vs : List JSValue)
    (it : ListIterator) (f : JSValue) (items : List JSValue) (hv : Valid l)
    (ht : toList l = .ok vs) (hl : it.list = some p) (hav : items.length ≤ l.avail) :
    (∀ (j a : Nat), j < vs.length → list_at l j = .ok (some a) → it.node = some a →
      ∃ l', METHOD_INSERT p l (some it) (f :: items) = .ok (.value .undefined, l') ∧
        Valid l' ∧ l'.size = l.size + items.length ∧
        toList l' = .ok (vs.take (j + 1) ++ items ++ vs.drop (j + 1))) ∧
    ((it.node = none ∧ it.dir = .FWD) ∨ it.node = some 0 →
      ∃ l', METHOD_INSERT p l (some it) (f :: items) = .ok (.value .undefined, l') ∧
        Valid l' ∧ l'.size = l.size + items.length ∧ toList l' = .ok (items ++ vs)) := by
  obtain ⟨ps, h, hvs, hlen, hsz⟩ := hv.unfold ht
  have hs := h.size_lt
  constructor
  · intro j a hj hat hn
    rw [h.list_at_eq (by omega) (by omega)] at hat
    have hni : norm_index ps.length (j : Int) = j := by
      unfold norm_index; rw [if_neg (by omega)]
    rw [hni] at hat
    have hpj : ps[j]? = some a := by
      have := Except.ok.inj hat
      unfold nth? at this
      rw [if_neg (by omega)] at this
      simpa using this
    have hsplit : ps = ps.take (j + 1) ++ ps.drop (j + 1) := (List.take_append_drop _ _).symm
    have hw : WF l (ps.take (j + 1) ++ ps.drop (j + 1)) := by rw [← hsplit]; exact h
    obtain ⟨l', e, hv', hs', ht'⟩ := hw.insert_after p it f items hl
      (Or.inl (by rw [getLastD_take_succ hpj]; exact hn)) hav
    refine ⟨l', e, hv', hs', ?_⟩
    rw [ht', hvs]
    simp [vals, List.map_take, List.map_drop]
  · intro hn
    have hw : WF l ([] ++ ps) := by simpa using h
    obtain ⟨l', e, hv', hs', ht'⟩ := hw.insert_after p it f items hl
      (by
        rcases hn with ⟨h1, h2⟩ | h1
        · exact Or.inr ⟨rfl, h1, h2⟩
        · exact Or.inl (by simpa using h1)) hav
    refine ⟨l', e, hv', hs', ?_⟩
    rw [ht', hvs]
    simp [vals]

/-- C33, on `[a, b, c]` and the values `x, y`: with a forward iterator on `b`
(index 1, the node at address 2) the list becomes `[a, b] ++ [x, y] ++ [c]`, and with
a forward iterator that was not advanced it becomes `[x, y] ++ [a, b, c]`. -/
theorem insert_at_iterator_witness :
    (∃ l', METHOD_INSERT 0 sample_abc
        (some (ListIterator.mk (some 0) (some 2) 1 .JS_ITERATOR_KIND_VALUE .FWD))
        (.undefined :: [.str "x", .str "y"]) = .ok (.value .undefined, l') ∧
      Valid l' ∧ l'.size = sample_abc.size + [JSValue.str "x", .str "y"].length ∧
      toList l' = .ok ([JSValue.str "a", .str "b", .str "c"].take (1 + 1) ++
        [.str "x", .str "y"] ++ [JSValue.str "a", .str "b", .str "c"].drop (1 + 1))) ∧
    ∃ l', METHOD_INSERT 0 sample_abc
        (some (ListIterator.mk (some 0) none 0 .JS_ITERATOR_KIND_VALUE .FWD))
        (.undefined :: [.str "x", .str "y"]) = .ok (.value .undefined, l') ∧
      Valid l' ∧ l'.size = sample_abc.size + [JSValue.str "x", .str "y"].length ∧
      toList l' = .ok ([.str "x", .str "y"] ++ [JSValue.str "a", .str "b", .str "c"]) :=
  ⟨(insert_at_iterator 0 sample_abc [.str "a", .str "b", .str "c"]
      (ListIterator.mk (some 0) (some 2) 1 .JS_ITERATOR_KIND_VALUE .FWD) .undefined
      [.str "x", .str "y"] sample_abc_wf.valid sample_abc_toList rfl (by decide)).1 1 2
      (by decide) rfl rfl,
    (insert_at_iterator 0 sample_abc [.str "a", .str "b", .str "c"]
      (ListIterator.mk (some 0) none 0 .JS_ITERATOR_KIND_VALUE .FWD) .undefined
      [.str "x", .str "y"] sample_abc_wf.valid sample_abc_toList rfl (by decide)).2
      (Or.inl ⟨rfl, rfl⟩)⟩

/-- C33, evaluated on `[a, b, c]`: with the iterator on `b` the list becomes
`[a, b, x, y, c]`; with a forward iterator that was not advanced it becomes
`[x, y, a, b, c]`. -/
theorem insert_at_iterator_example :
    (∃ l', METHOD_INSERT 0 sample_abc
        (some (ListIterator.mk (some 0) (some 2) 1 .JS_ITERATOR_KIND_VALUE .FWD))
        [.undefined, .str "x", .str "y"] = .ok (.value .undefined, l') ∧
      toList l' = .ok [.str "a", .str "b", .str "x", .str "y", .str "c"]) ∧
    ∃ l', METHOD_INSERT 0 sample_abc
        (some (ListIterator.mk (some 0) none 0 .JS_ITERATOR_KIND_VALUE .FWD))
        [.undefined, .str "x", .str "y"] = .ok (.value .undefined, l') ∧
      toList l' = .ok [.str "x", .str "y", .str "a", .str "b", .str "c"] :=
  ⟨⟨_, rfl, rfl⟩, _, rfl, rfl⟩

/-- C34 (iterating an empty list) fails on the code.  On a well-formed empty
list the first `next()` of a new iterator, forward or backward and of any kind, does
not report `done`: `list_front` (`list_back` for a backward iterator) returns `NULL`
and `node_dup(NULL)` writes to `NULL->ref_count`. -/
theorem next_on_empty_faults (ctx p : Nat) (l : LinkedList) (kind : JSIteratorKindEnum)
    (dir : Direction) (hv : Valid l) (he : toList l = .ok []) (hctx : ctx ≠ 0) :
    ∃ it lc, js_list_iterator_new ctx p l kind dir = some (it, lc) ∧
      list_iterator_next it lc = .error .null_deref := by
  obtain ⟨ps, h, hvs, hlen, hsz⟩ := hv.unfold he
  have hps : ps = [] := List.length_eq_zero.1 (by simpa using hlen)
  subst hps
  obtain ⟨nh, hnh, hnx, hpv⟩ := h.toLinked.head_mem
  simp only [List.headD_nil, List.getLastD_nil] at hnx hpv
  refine ⟨_, _, by simp [js_list_iterator_new, hctx]; exact ⟨rfl, rfl⟩, ?_⟩
  apply next_unset_empty rfl rfl
  cases dir with
  | FWD =>
    right
    refine ⟨by simp, ?_⟩
    have : (list_dup l).mem 0 = some nh := hnh
    simp [list_front, load_some this, hnx, bind, Except.bind, pure, Except.pure]
  | REV =>
    left
    refine ⟨by simp, ?_⟩
    have : (list_dup l).mem 0 = some nh := hnh
    simp [list_back, load_some this, hpv, bind, Except.bind, pure, Except.pure]

/-- C34, on the empty sample list, for a forward and for a backward value
iterator. -/
theorem next_on_empty_faults_witness :
    (∃ it lc, js_list_iterator_new 1 0 sample_empty .JS_ITERATOR_KIND_VALUE .FWD =
        some (it, lc) ∧
      list_iterator_next it lc = .error .null_deref) ∧
    ∃ it lc, js_list_iterator_new 1 0 sample_empty .JS_ITERATOR_KIND_VALUE .REV =
        some (it, lc) ∧
      list_iterator_next it lc = .error .null_deref :=
  ⟨next_on_empty_faults 1 0 sample_empty .JS_ITERATOR_KIND_VALUE .FWD sample_empty_wf.valid
      sample_empty_toList (by decide),
    next_on_empty_faults 1 0 sample_empty .JS_ITERATOR_KIND_VALUE .REV sample_empty_wf.valid
      sample_empty_toList (by decide)⟩

/-- C35 (exhaustion is absorbing).  Whenever a call of `next()` has reported
`done = true`, leaving the iterator `it'` and the list `l'`, the next call reports
`done = true` with the value `undefined` and leaves exactly `it'` and `l'` (current
node, index and every reference count), and so does each of any number `k` of
further calls. -/
theorem exhaustion_absorbing (it it' : ListIterator) (l l' : LinkedList) (v : JSValue)
    (k : Nat) (h : list_iterator_next it l = .ok (v, true, it', l')) :
    list_iterator_next it' l' = .ok (.undefined, true, it', l') ∧
    iterate k it' l' = .ok (List.replicate k (.undefined, true), it', l') := by
  have hs := next_done_state h
  refine ⟨next_absorbed hs, ?_⟩
  induction k with
  | zero => rfl
  | succ k ih =>
    simp only [iterate, next_absorbed hs, ih, bind, Except.bind, pure, Except.pure,
      List.replicate_succ]

/-- C35, on `[a, b, c]` with a forward iterator on `c` (which holds a
reference on it): the next call steps onto the head and reports `done`, and so do the
three calls after it, with nothing changed. -/
theorem exhaustion_absorbing_witness :
    ∃ it' l', list_iterator_next
        (ListIterator.mk (some 0) (some 3) 2 .JS_ITERATOR_KIND_VALUE .FWD)
        (bump sample_abc 3) = .ok (.undefined, true, it', l') ∧
      it'.node = some 0 ∧
      list_iterator_next it' l' = .ok (.undefined, true, it', l') ∧
      iterate 3 it' l' = .ok (List.replicate 3 (.undefined, true), it', l') :=
  ⟨_, _, rfl, rfl,
    exhaustion_absorbing (ListIterator.mk (some 0) (some 3) 2 .JS_ITERATOR_KIND_VALUE .FWD) _
      (bump sample_abc 3) _ .undefined 3 rfl⟩

/-- C36 (rotate on an empty list) fails on the code.  On a well-formed empty
list, `rotate(k)` for every `k` that converts to a number evaluates
`index %= (int64_t)list->size` with `size == 0`: a division by zero. -/
theorem rotate_empty_divides_by_zero (JS_ToInt64 : JSValue → Option Int) (l : LinkedList)
    (argv : List JSValue) (k : Int) (hv : Valid l) (he : toList l = .ok [])
    (hk : JS_ToInt64 (argv.getD 0 .undefined) = some k) :
    METHOD_ROTATE JS_ToInt64 l argv = .error .div_by_zero := by
  obtain ⟨ps, h, hvs, hlen, hsz⟩ := hv.unfold he
  have h0 : int64 (l.size : Int) = 0 := by rw [hsz]; rfl
  unfold METHOD_ROTATE
  rw [hk]
  simp [h0]

/-- C36, on the empty sample list: `rotate(1)`. -/
theorem rotate_empty_divides_by_zero_witness :
    METHOD_ROTATE sample_JS_ToInt64 sample_empty [.int 1] = .error .div_by_zero :=
  rotate_empty_divides_by_zero sample_JS_ToInt64 sample_empty [.int 1] 1
    sample_empty_wf.valid sample_empty_toList rfl

/-- C37 as amended (byte queue, first in first out).  Write the byte strings
`xs = [x1, .., xk]` to a queue after `queue_init`, all allocations granted: every
`queue_write` returns the length of its string, `nbytes` is the length of the
concatenation and `nblocks = k`.  Then any sequence of reads `ns` returns, read by
read, the next `min(n, bytes left)` bytes of the concatenation with that count, and
`nbytes` is the number of bytes left.  A single read of the total length returns the
whole concatenation; it leaves `nbytes = 0`, and, when the last string written is not
empty (or nothing was written), `nblocks = 0` and an empty chain. -/
theorem queue_fifo (avail : Nat) (xs : List (List Nat)) (ns : List Nat)
    (hav : xs.length ≤ avail) (hcap : avail + 1 < 2 ^ 63)
    (htot : xs.flatten.length < 2 ^ 63) :
    ∃ q, queue_writes xs (queue_init (Queue.blank avail)) =
        .ok (xs.map (fun x => (x.length : Int)), q) ∧
      q.nbytes = xs.flatten.length ∧ q.nblocks = xs.length ∧
      (∃ q', queue_reads ns q = .ok (fifo_reads ns xs.flatten, q') ∧
        q'.nbytes = (xs.flatten.drop ns.sum).length) ∧
      (xs.getLast? ≠ some [] →
        ∃ q', queue_read q xs.flatten.length =
            .ok ((xs.flatten.length : Int), xs.flatten, q') ∧
          q'.nbytes = 0 ∧ q'.nblocks = 0 ∧ q'.list_empty = .ok true) := by
  have h0 := queue_init_wf avail hcap
  obtain ⟨q, fs, e, hw, hr, -⟩ := queue_writes_wf xs h0
    (by simpa [queue_init, Queue.init_list_head, Queue.blank] using hav)
    (by simpa [queue_init] using htot)
  have hr' : rems q fs = xs := by rw [hr]; simp [rems]
  have hfl : fs.length = xs.length := by
    have := congrArg List.length hr'
    simpa [rems] using this
  refine ⟨q, e, by rw [hw.bytes, hr'], by rw [hw.blocks, hfl], ?_, ?_⟩
  · obtain ⟨q', fs', e', hw', hr2⟩ := queue_reads_wf ns hw
    rw [hr'] at e' hr2
    exact ⟨q', e', by rw [hw'.bytes, hr2]⟩
  · intro hlast
    obtain ⟨q', fs', e', hw', hr1, hr2, -, -⟩ := queue_read_wf hw xs.flatten.length
    rw [hr'] at e' hr1 hr2
    rw [read_chunks_all xs hlast] at hr1
    have hfs' : fs' = [] := by
      have := congrArg List.length hr1
      simpa [rems] using this
    subst hfs'
    refine ⟨q', ?_, by rw [hw'.bytes, hr1]; rfl, by rw [hw'.blocks]; rfl, hw'.empty_list⟩
    rw [e']
    simp

/-- C37 as amended, on the writes `[1, 2]`, `[]`, `[3, 4, 5]` and the reads
of 1, 3 and 4 bytes. -/
theorem queue_fifo_witness :
    ∃ q, queue_writes [[1, 2], [], [3, 4, 5]] (queue_init (Queue.blank 4)) =
        .ok ([[1, 2], [], [3, 4, 5]].map (fun x => (x.length : Int)), q) ∧
      q.nbytes = [[1, 2], [], [3, 4, 5]].flatten.length ∧
      q.nblocks = [[1, 2], [], [3, 4, 5]].length ∧
      (∃ q', queue_reads [1, 3, 4] q =
          .ok (fifo_reads [1, 3, 4] [[1, 2], [], [3, 4, 5]].flatten, q') ∧
        q'.nbytes = ([[1, 2], [], [3, 4, 5]].flatten.drop [1, 3, 4].sum).length) ∧
      ∃ q', queue_read q [[1, 2], [], [3, 4, 5]].flatten.length =
          .ok (([[1, 2], [], [3, 4, 5]].flatten.length : Int),
            [[1, 2], [], [3, 4, 5]].flatten, q') ∧
        q'.nbytes = 0 ∧ q'.nblocks = 0 ∧ q'.list_empty = .ok true :=
  (queue_fifo 4 [[1, 2], [], [3, 4, 5]] [1, 3, 4] (by decide) (by norm_num) (by decide)).imp
    (fun _ h => ⟨h.1, h.2.1, h.2.2.1, h.2.2.2.1, h.2.2.2.2 (by decide)⟩)

/-- C37 as stated fails: after the writes `[1, 2]` and `[]` (a zero-length
write queues a chunk without bytes), reading the total length 2 returns `[1, 2]` and
leaves `nbytes = 0`, but `nblocks = 1` and a chain that is not empty. -/
theorem queue_empty_chunk_counterexample :
    ∃ rs q r out q', queue_writes [[1, 2], []] (queue_init (Queue.blank 4)) = .ok (rs, q) ∧
      q.nbytes = 2 ∧ queue_read q 2 = .ok (r, out, q') ∧ r = 2 ∧ out = [1, 2] ∧
      q'.nbytes = 0 ∧ q'.nblocks = 1 ∧ q'.list_empty = .ok false :=
  ⟨_, _, _, _, _, rfl, rfl, rfl, rfl, rfl, rfl, rfl, rfl⟩

/-- C38 (queue_peek agrees with queue_read) fails on the code.  Let the oldest
chunk of the queue (`q->list.prev`) hold `size - pos` unread bytes and let `n > 0`.
When the chunk has unread bytes, `queue_peek(q, n)` returns `min(n, size - pos)` and
copies that many bytes of this chunk only, whatever the later chunks hold (where
`queue_read` goes on to them).  When the chunk has none (`pos = size`, a zero-length
write), the loop of `queue_peek` never ends: with every fuel the model runs out of
it.  The loop condition assigns `b = q->list.prev` again in every turn and `pos` is
never advanced. -/
theorem peek_first_chunk_only (q : Queue) (h c : Chunk) (b n : Nat)
    (hh : q.mem 0 = some h) (hp : h.prev = some b) (hb : b ≠ 0) (hc : q.mem b = some c)
    (hpos : c.pos ≤ c.size) (hlen : c.data.length = c.size) (hsz : c.size < 2 ^ 63)
    (hn : 0 < n) (hbrk : 0 < q.brk) :
    (c.pos < c.size →
      queue_peek q n =
        .ok (((min n (c.size - c.pos) : Nat) : Int), (c.data.drop c.pos).take n)) ∧
    (c.pos = c.size →
      ∀ (fuel : Nat) (ret : Int) (out : List Nat),
        queue_peek_loop q fuel n ret out = .error .fuel) := by
  constructor
  · intro hlt
    obtain ⟨k, hk⟩ : ∃ k, q.brk = k + 1 := ⟨q.brk - 1, by omega⟩
    unfold queue_peek
    rw [hk, peek_turn hh hp hb hc hpos hlen hsz k n hn, if_pos hlt]
    rw [zero_add, int64_of_range (by omega) (by omega)]
    simp
  · intro heq fuel
    induction fuel with
    | zero => intro ret out; rfl
    | succ k ih =>
      intro ret out
      rw [peek_turn hh hp hb hc hpos hlen hsz k n hn, if_neg (by omega)]
      exact ih _ _

/-- C38, after the writes `[1, 2]`, `[3, 4]`: `queue_peek(q, 3)` returns 2
and copies `[1, 2]`, where `queue_read(q, 3)` returns 3 and copies `[1, 2, 3]`; after
the writes `[]`, `[1, 2]`, `queue_peek(q, 2)` does not terminate. -/
theorem peek_first_chunk_only_witness :
    queue_peek sample_queue 3 = .ok (2, [1, 2]) ∧
    (∃ q', queue_read sample_queue 3 = .ok (3, [1, 2, 3], q')) ∧
    ∀ (fuel : Nat) (ret : Int) (out : List Nat),
      queue_peek_loop sample_queue_gap fuel 2 ret out = .error .fuel :=
  ⟨(peek_first_chunk_only sample_queue (Chunk.mk (some 1) (some 2) 0 0 0 [])
      (Chunk.mk (some 2) (some 0) 1 2 0 [1, 2]) 1 3 rfl rfl (by decide) rfl (by decide) rfl
      (by norm_num) (by decide) (by decide)).1 (by decide),
    ⟨_, rfl⟩,
    (peek_first_chunk_only sample_queue_gap (Chunk.mk (some 1) (some 2) 0 0 0 [])
      (Chunk.mk (some 2) (some 0) 1 0 0 []) 1 2 rfl rfl (by decide) rfl (by decide) rfl
      (by norm_num) (by decide) (by decide)).2 rfl⟩

/-- C39 (the assertions of queue_clear) fails on the code.  Take any queue
reached from `queue_init` by writes `xs` and then reads `ns`, all allocations
granted.  When a chunk is left (`nblocks != 0`) `queue_clear` fails its first
assertion, `assert(list_empty(&q->list))`: the loop releases the chunks but never
unlinks them nor resets the head.  Only when no chunk is left do the three
assertions hold. -/
theorem queue_clear_asserts (avail : Nat) (xs : List (List Nat)) (ns : List Nat)
    (hav : xs.length ≤ avail) (hcap : avail + 1 < 2 ^ 63)
    (htot : xs.flatten.length < 2 ^ 63) :
    ∃ rs q outs q', queue_writes xs (queue_init (Queue.blank avail)) = .ok (rs, q) ∧
      queue_reads ns q = .ok (outs, q') ∧
      (q'.nblocks ≠ 0 → queue_clear q' = .error .assert_failed) ∧
      (q'.nblocks = 0 → queue_clear q' = .ok q') := by
  have h0 := queue_init_wf avail hcap
  obtain ⟨q, fs, e, hw, -, -⟩ := queue_writes_wf xs h0
    (by simpa [queue_init, Queue.init_list_head, Queue.blank] using hav)
    (by simpa [queue_init] using htot)
  obtain ⟨q', fs', e', hw', -⟩ := queue_reads_wf ns hw
  refine ⟨_, q, _, q', e, e', ?_, ?_⟩
  · intro hnb
    apply queue_clear_nonempty hw'
    intro hfs
    rw [hw'.blocks, hfs] at hnb
    exact hnb rfl
  · intro hnb
    have hfs : fs' = [] := List.length_eq_zero.1 (by rw [← hw'.blocks]; exact hnb)
    subst hfs
    exact queue_clear_empty hw'

/-- C39, after the writes `[1, 2]`, `[3]` and a read of one byte: two chunks
with two unread bytes are left, and `queue_clear` fails its first assertion. -/
theorem queue_clear_asserts_witness :
    (∃ rs q outs q', queue_writes [[1, 2], [3]] (queue_init (Queue.blank 4)) = .ok (rs, q) ∧
      queue_reads [1] q = .ok (outs, q') ∧
      (q'.nblocks ≠ 0 → queue_clear q' = .error .assert_failed) ∧
      (q'.nblocks = 0 → queue_clear q' = .ok q')) ∧
    ∃ rs q outs q', queue_writes [[1, 2], [3]] (queue_init (Queue.blank 4)) = .ok (rs, q) ∧
      queue_reads [1] q = .ok (outs, q') ∧ q'.nblocks = 2 ∧ q'.nbytes = 2 ∧
      queue_clear q' = .error .assert_failed :=
  ⟨queue_clear_asserts 4 [[1, 2], [3]] [1] (by decide) (by norm_num) (by decide),
    _, _, _, _, rfl, rfl, rfl, rfl, rfl⟩

/-- C40 (token_length): the code does not return `len` when there is no
unescaped delimiter.  For every byte string and delimiter `token_length` returns a
number `r <= len`; when there is an occurrence of the delimiter that is not
immediately preceded by a backslash, `r` is the offset of the first such occurrence;
but when the delimiter does not occur at all, `r = 0`, whatever `len` is: the
`break` at `s + pos == e` leaves `s` at the start of the segment. -/
theorem token_length_spec (str : List Nat) (delim : Nat) :
    ∃ r, token_length str str.length delim = .ok r ∧ r ≤ str.length ∧
      (∀ i, Unescaped str delim i → (∀ j, j < i → ¬ Unescaped str delim j) → r = i) ∧
      (delim ∉ str → r = 0) := by
  obtain ⟨r, e, -, h1, h2, h3⟩ := token_length_loop_spec str delim (str.length + 1) 0
    (Nat.zero_le _) (by omega) (Or.inl rfl) (fun j hj => by omega)
  refine ⟨r, e, h1, h2, fun hd => h3 (fun j _ hj => hd (List.getElem?_mem hj))⟩

/-- C40, evaluated with the delimiter `,`: `abc` gives 0 (the claim has 3),
`a\,b` gives 3 (the claim has 4), `a\,b,c` gives 4 and `a\,` gives 3, as the claim
has. -/
theorem token_length_examples :
    token_length [97, 98, 99] 3 44 = .ok 0 ∧
    token_length [97, 92, 44, 98] 4 44 = .ok 3 ∧
    token_length [97, 92, 44, 98, 44, 99] 6 44 = .ok 4 ∧
    token_length [97, 92, 44] 3 44 = .ok 3 :=
  ⟨rfl, rfl, rfl, rfl⟩


end QjsList
